import Mathlib

namespace MyMalloc

set_option linter.all false

/-! ## Constants of `MyMalloc.c` / `MyMalloc.h` (LP64 data model) -/

/-- The size of block to get from the OS (2MB): `#define ARENA_SIZE`. -/
abbrev ARENA_SIZE : Nat := 2097152
/-- Value of `sizeof(object_header)`: `size_t`, `enum` (4 bytes + 4 padding), two pointers. -/
abbrev HDR : Nat := 32
/-- Value of `sizeof(object_footer)`: `size_t`, `enum` (4 bytes + 4 padding). -/
abbrev FTR : Nat := 16
/-- `#define SIZE_PRECISION (8)`. -/
abbrev SIZE_PRECISION : Nat := 8
/-- `#define MINIMUM_SIZE (8)`. -/
abbrev MINIMUM_SIZE : Nat := 8
/-- `enum allocation_status`, first enumerator. -/
abbrev UNALLOCATED : Nat := 0
/-- `enum allocation_status`, second enumerator. -/
abbrev ALLOCATED : Nat := 1
/-- `enum allocation_status`, third enumerator. -/
abbrev SENTINEL : Nat := 2
/-- The null pointer. -/
abbrev NULL : Nat := 0
/-- Number of values of a `size_t` and of a pointer: `2 ^ 64`. -/
abbrev WORD : Nat := 18446744073709551616
/-- Bytes asked from the OS for one arena:
`ARENA_SIZE + 2 * sizeof(object_header) + 2 * sizeof(object_footer)`. -/
abbrev CHUNK : Nat := 2097248

/-! ## Byte-addressed memory -/

/-- Process memory: one byte (taken modulo 256) per address. -/
abbrev Mem := Nat → Nat

/-- Little-endian load of `n` bytes at address `a`. -/
def readN (m : Mem) (a : Nat) : Nat → Nat
  | 0 => 0
  | n + 1 => m a % 256 + 256 * readN m (a + 1) n

/-- Little-endian store of the low `n` bytes of `v` at address `a`. -/
def writeN (m : Mem) (a : Nat) : Nat → Nat → Mem
  | 0, _ => m
  | n + 1, v => fun x => if x = a then v % 256 else writeN m (a + 1) n (v / 256) x

/-- Field `object_size` of a header or footer at `p` (offset 0, `size_t`). -/
def get_object_size (m : Mem) (p : Nat) : Nat := readN m p 8
/-- Field `status` of a header or footer at `p` (offset 8, 4-byte enum). -/
def get_status (m : Mem) (p : Nat) : Nat := readN m (p + 8) 4
/-- Field `next` of a header at `p` (offset 16, pointer). -/
def get_next (m : Mem) (p : Nat) : Nat := readN m (p + 16) 8
/-- Field `prev` of a header at `p` (offset 24, pointer). -/
def get_prev (m : Mem) (p : Nat) : Nat := readN m (p + 24) 8
/-- Store to `p->object_size`. -/
def set_object_size (m : Mem) (p v : Nat) : Mem := writeN m p 8 v
/-- Store to `p->status`. -/
def set_status (m : Mem) (p v : Nat) : Mem := writeN m (p + 8) 4 v
/-- Store to `p->next`. -/
def set_next (m : Mem) (p v : Nat) : Mem := writeN m (p + 16) 8 v
/-- Store to `p->prev`. -/
def set_prev (m : Mem) (p v : Nat) : Mem := writeN m (p + 24) 8 v

/-- Value of `(size_t) (int) n` for a `size_t` value `n`: truncation to a 32-bit
two's complement `int`, then sign extension to 64 bits. -/
def int_of_size (n : Nat) : Nat :=
  if n % 2 ^ 32 < 2 ^ 31 then n % 2 ^ 32 else WORD - 2 ^ 32 + n % 2 ^ 32

/-! ## Allocator state -/

/-- The static variables of `MyMalloc.c`, the program break and the memory. -/
structure State where
  mem : Mem
  /-- Current program break: what the next `sbrk` returns. -/
  brk : Nat
  /-- Address of the static `free_list_sentinel`. -/
  sentinel : Nat
  free_list : Nat
  mem_start : Nat
  heap_size : Nat
  num_chunks : Nat
  malloc_calls : Nat
  free_calls : Nat
  realloc_calls : Nat
  calloc_calls : Nat

/-- `get_memory_from_os`: `sbrk(size)` hands out the region starting at the old break. -/
def get_memory_from_os (size : Nat) (s : State) : Nat × State :=
  (s.brk, { s with heap_size := (s.heap_size + size) % WORD,
                   brk := s.brk + size,
                   num_chunks := s.num_chunks + 1 })

/-- The constructor `initialize()`: first arena, fenceposts, one free block, sentinel. -/
def init_allocator (s : State) : State :=
  let r := get_memory_from_os (ARENA_SIZE + 2 * HDR + 2 * FTR) s
  let new_block := r.1
  let s := r.2
  let start_fencepost := new_block
  let current_header := start_fencepost + FTR
  let current_footer := current_header + ARENA_SIZE + HDR
  let end_fencepost := current_footer + FTR
  let m := s.mem
  let m := set_status m start_fencepost ALLOCATED
  let m := set_object_size m start_fencepost 0
  let m := set_status m end_fencepost ALLOCATED
  let m := set_object_size m end_fencepost 0
  let m := set_next m end_fencepost NULL
  let m := set_prev m end_fencepost NULL
  let m := set_status m current_header UNALLOCATED
  let m := set_object_size m current_header ((ARENA_SIZE + HDR + FTR) % WORD)
  let m := set_status m current_footer UNALLOCATED
  let m := set_object_size m current_footer (get_object_size m current_header)
  let free_list := s.sentinel
  let m := set_prev m free_list current_header
  let m := set_next m free_list current_header
  let m := set_next m current_header free_list
  let m := set_prev m current_header free_list
  let m := set_status m free_list SENTINEL
  let m := set_object_size m free_list 0
  { s with mem := m, free_list := free_list, mem_start := current_header }

/-- `replace_in_list`: unlink `old_block`, or put `new_block` in its place. -/
def replace_in_list (old_block new_block : Nat) (m : Mem) : Mem :=
  if new_block = NULL then
    let m := set_next m (get_prev m old_block) (get_next m old_block)
    let m := set_prev m (get_next m old_block) (get_prev m old_block)
    m
  else
    let m := set_next m new_block (get_next m old_block)
    let m := set_prev m new_block (get_prev m old_block)
    let m := set_next m (get_prev m old_block) new_block
    let m := set_prev m (get_next m old_block) new_block
    m

/-- The `do ... while` loop of `add_to_list` and the code after it; `fuel` bounds
the number of iterations. -/
def add_to_list_loop : Nat → State → Nat → Nat → Option State
  | 0, _, _, _ => none
  | fuel + 1, s, block, list_crawler =>
    let list_crawler := get_next s.mem list_crawler
    if list_crawler > block then
      let m := s.mem
      let m := set_prev m block (get_prev m list_crawler)
      let m := set_next m block list_crawler
      let m := set_next m (get_prev m list_crawler) block
      let m := set_prev m list_crawler block
      some { s with mem := m }
    else if list_crawler ≠ s.free_list then
      add_to_list_loop fuel s block list_crawler
    else
      let m := s.mem
      let m := set_next m (get_prev m s.sentinel) block
      let m := set_prev m block (get_prev m s.sentinel)
      let m := set_prev m s.sentinel block
      let m := set_next m block s.sentinel
      some { s with mem := m }

/-- `add_to_list`: insert `block` keeping the list in header-address order. -/
def add_to_list (fuel : Nat) (block : Nat) (s : State) : Option State :=
  add_to_list_loop fuel s block s.free_list

/-- `request_more_memory`: a new arena whose interior block joins the free list. -/
def request_more_memory (fuel : Nat) (s : State) : Option State :=
  let r := get_memory_from_os (ARENA_SIZE + 2 * HDR + 2 * FTR) s
  let new_chunk := r.1
  let s := r.2
  let left_fencepost := new_chunk
  let current_header := left_fencepost + FTR
  let current_footer := current_header + ARENA_SIZE + HDR
  let right_fencepost := current_footer + FTR
  let m := s.mem
  let m := set_status m left_fencepost ALLOCATED
  let m := set_object_size m left_fencepost 0
  let m := set_status m right_fencepost ALLOCATED
  let m := set_object_size m right_fencepost 0
  let m := set_next m right_fencepost NULL
  let m := set_prev m right_fencepost NULL
  let m := set_status m current_header UNALLOCATED
  let m := set_object_size m current_header ((ARENA_SIZE + HDR + FTR) % WORD)
  let m := set_status m current_footer UNALLOCATED
  let m := set_object_size m current_footer (get_object_size m current_header)
  add_to_list fuel current_header { s with mem := m }

/-- The size computation at the top of `allocate_object`: clamp to `MINIMUM_SIZE`. -/
def clamp_size (size : Nat) : Nat :=
  if size < MINIMUM_SIZE then MINIMUM_SIZE else size

/-- The `rounded_size` of `allocate_object`, in `size_t` arithmetic:
`(size + sizeof(object_header) + sizeof(object_footer) + (SIZE_PRECISION - 1)) &
~(SIZE_PRECISION - 1)`; the mask is the `int` value `-8` converted to `size_t`. -/
def rounded_size (size : Nat) : Nat :=
  ((size + HDR + FTR + (SIZE_PRECISION - 1)) % WORD) &&& (WORD - SIZE_PRECISION)

/-- Outcome of the search loop of `allocate_object`. -/
inductive Search where
  /-- The loop returned a payload pointer. -/
  | found (ptr : Nat) (s : State)
  /-- The loop ended without a fit. -/
  | exhausted

/-- The body of `if (free_space >= rounded_size)` in `allocate_object`: split the
block when the rest can hold a block of its own, else hand it out whole. Returns
the payload pointer and the new state. -/
def allocate_from (s : State) (rounded_size free_list_object free_space : Nat) : Nat × State :=
  if free_space ≥ (rounded_size + HDR + FTR + MINIMUM_SIZE) % WORD then
    let start_of_split := free_list_object + rounded_size
    let new_free_object := start_of_split
    let m := s.mem
    let m := set_object_size m new_free_object ((free_space + WORD - rounded_size) % WORD)
    let m := set_status m new_free_object UNALLOCATED
    let foot_of_block := start_of_split - FTR
    let m := set_object_size m foot_of_block rounded_size
    let m := set_status m foot_of_block ALLOCATED
    let foot_of_free := free_list_object + free_space - FTR
    let m := set_object_size m foot_of_free ((free_space + WORD - rounded_size) % WORD)
    let m := set_status m foot_of_free UNALLOCATED
    let m := set_object_size m free_list_object rounded_size
    let m := set_status m free_list_object ALLOCATED
    let m := replace_in_list free_list_object new_free_object m
    (free_list_object + HDR, { s with mem := m })
  else
    let m := s.mem
    let m := set_status m free_list_object ALLOCATED
    let m := replace_in_list free_list_object NULL m
    let foot_of_block := free_list_object + get_object_size m free_list_object - FTR
    let m := set_status m foot_of_block ALLOCATED
    let m := set_object_size m foot_of_block (get_object_size m free_list_object)
    (free_list_object + HDR, { s with mem := m })

/-- The `do ... while` loop of `allocate_object`; `fuel` bounds the iterations. -/
def allocate_loop : Nat → Nat → State → Nat → Option Search
  | 0, _, _, _ => none
  | fuel + 1, rounded_size, s, free_list_object =>
    let free_list_object := get_next s.mem free_list_object
    if free_list_object = s.sentinel then
      some Search.exhausted
    else
      let free_space := int_of_size (get_object_size s.mem free_list_object)
      if free_space ≥ rounded_size then
        let r := allocate_from s rounded_size free_list_object free_space
        some (Search.found r.1 r.2)
      else if free_list_object ≠ s.free_list then
        allocate_loop fuel rounded_size s free_list_object
      else
        some Search.exhausted

/-- `allocate_object`: first fit over the free list, a new arena and a retry when
nothing fits. `fuel` bounds loop iterations and the nesting of retries; `none`
means the fuel ran out. -/
def allocate_object : Nat → Nat → State → Option (Nat × State)
  | 0, _, _ => none
  | fuel + 1, size, s =>
    let size := clamp_size size
    match allocate_loop fuel (rounded_size size) s s.free_list with
    | none => none
    | some (Search.found ptr s1) => some (ptr, s1)
    | some Search.exhausted =>
      match request_more_memory fuel s with
      | none => none
      | some s1 => allocate_object fuel size s1

/-- The `if` / `else if` chain of `free_object`: the coalescing cases. -/
def coalesce (fuel : Nat) (s : State) (middle_head middle_foot left_foot right_head : Nat) :
    Option State :=
  if get_status s.mem left_foot = ALLOCATED ∧ get_status s.mem right_head = ALLOCATED then
    let m := s.mem
    let m := set_status m middle_head UNALLOCATED
    let m := set_status m middle_foot UNALLOCATED
    add_to_list fuel middle_head { s with mem := m }
  else if get_status s.mem left_foot = UNALLOCATED ∧
          get_status s.mem right_head = ALLOCATED then
    let m := s.mem
    let m := if get_status m middle_head = UNALLOCATED then
               replace_in_list middle_head NULL m else m
    let left_head := middle_head - get_object_size m left_foot
    let m := set_object_size m left_head
               ((get_object_size m left_head + get_object_size m middle_head) % WORD)
    let m := set_object_size m middle_foot (get_object_size m left_head)
    let m := set_status m middle_foot UNALLOCATED
    some { s with mem := m }
  else if get_status s.mem right_head = UNALLOCATED then
    let m := s.mem
    let m := set_object_size m middle_head
               ((get_object_size m middle_head + get_object_size m right_head) % WORD)
    let right_foot := middle_foot + get_object_size m right_head
    let m := set_object_size m right_foot (get_object_size m middle_head)
    let m := set_status m middle_head UNALLOCATED
    let m := replace_in_list right_head middle_head m
    some { s with mem := m }
  else some s

/-- `free_object`: coalesce with free neighbours, then free the widened block
again when both neighbours were free. `fuel` bounds the nesting of calls and the
iterations of `add_to_list`; `none` means the fuel ran out. -/
def free_object : Nat → Nat → State → Option State
  | 0, _, _ => none
  | fuel + 1, ptr, s =>
    let middle_head := ptr - HDR
    let middle_foot := middle_head + get_object_size s.mem middle_head - FTR
    let left_foot := middle_head - FTR
    let right_head := middle_foot + FTR
    match coalesce fuel s middle_head middle_foot left_foot right_head with
    | none => none
    | some s1 =>
      if get_status s1.mem left_foot = UNALLOCATED ∧
         get_status s1.mem right_head = UNALLOCATED then
        free_object fuel (middle_head + HDR) s1
      else some s1

/-- `object_size`: the size field of the header in front of `ptr`. -/
def object_size (ptr : Nat) (s : State) : Nat :=
  get_object_size s.mem (ptr - HDR)

/-- The traversal of `print_list`: header address and size of every member of
the free list, in link order; `fuel` bounds the number of members visited. -/
def list_entries : Nat → State → Nat → Option (List (Nat × Nat))
  | 0, _, _ => none
  | fuel + 1, s, ptr =>
    if ptr ≠ s.free_list then
      match list_entries fuel s (get_next s.mem ptr) with
      | none => none
      | some l => some ((ptr, get_object_size s.mem ptr) :: l)
    else some []

/-- Members of the free list as `print_list` visits them. -/
def free_list_entries (fuel : Nat) (s : State) : Option (List (Nat × Nat)) :=
  list_entries fuel s (get_next s.mem s.free_list)

/-- `memcpy` for non-overlapping regions. -/
def memcpy (m : Mem) (dst src n : Nat) : Mem :=
  fun x => if dst ≤ x ∧ x < dst + n then m (src + (x - dst)) else m x

/-- `memset`. -/
def memset (m : Mem) (dst c n : Nat) : Mem :=
  fun x => if dst ≤ x ∧ x < dst + n then c % 256 else m x

/-- The C interface `malloc`. -/
def malloc (fuel : Nat) (size : Nat) (s : State) : Option (Nat × State) :=
  let s := { s with malloc_calls := s.malloc_calls + 1 }
  allocate_object fuel size s

/-- The C interface `free`. -/
def free (fuel : Nat) (ptr : Nat) (s : State) : Option State :=
  let s := { s with free_calls := s.free_calls + 1 }
  if ptr ≠ NULL then free_object fuel ptr s else some s

/-- The C interface `realloc`. -/
def realloc (fuel : Nat) (ptr size : Nat) (s : State) : Option (Nat × State) :=
  let s := { s with realloc_calls := s.realloc_calls + 1 }
  match allocate_object fuel size s with
  | none => none
  | some (new_ptr, s) =>
    if ptr ≠ NULL then
      let size_to_copy := object_size ptr s
      let size_to_copy := if size_to_copy > size then size else size_to_copy
      let s := { s with mem := memcpy s.mem new_ptr ptr size_to_copy }
      match free_object fuel ptr s with
      | none => none
      | some s => some (new_ptr, s)
    else some (new_ptr, s)

/-- The C interface `calloc`. -/
def calloc (fuel : Nat) (num_elems elem_size : Nat) (s : State) : Option (Nat × State) :=
  let s := { s with calloc_calls := s.calloc_calls + 1 }
  let size := (num_elems * elem_size) % WORD
  match allocate_object fuel size s with
  | none => none
  | some (ptr, s) =>
    if ptr ≠ NULL then some (ptr, { s with mem := memset s.mem ptr 0 size })
    else some (ptr, s)

/-- The state `s` with the four call counters replaced. -/
def with_counters (s : State) (a b c d : Nat) : State :=
  { s with malloc_calls := a, free_calls := b, realloc_calls := c, calloc_calls := d }

/-! ## Ghost description of a well-formed heap

The numerals below are the LP64 values `sizeof(object_header) = 32`,
`sizeof(object_footer) = 16`, the minimum block size `32 + 16 + 8 = 56`, the
offset `16 + 2097152 + 32 + 16 = 2097216` of the right fencepost in its arena,
and the arena footprint `2097248`. -/

/-- A block: header address, total size, and whether it is `ALLOCATED`. -/
structure Blk where
  addr : Nat
  size : Nat
  used : Bool
deriving DecidableEq, Repr

/-- An arena: the address `sbrk` returned for it and the blocks tiling its interior. -/
structure Arena where
  base : Nat
  blocks : List Blk
deriving DecidableEq, Repr

/-- The `status` value stored for a block. -/
def status_of (used : Bool) : Nat := if used then ALLOCATED else UNALLOCATED

/-- The header of `b` carries its size and status. -/
def hdr_ok (m : Mem) (b : Blk) : Prop :=
  get_object_size m b.addr = b.size ∧ get_status m b.addr = status_of b.used

/-- The footer of `b` carries its size and status. -/
def ftr_ok (m : Mem) (b : Blk) : Prop :=
  get_object_size m (b.addr + b.size - 16) = b.size ∧
    get_status m (b.addr + b.size - 16) = status_of b.used

/-- Minimum size and alignment of a block size. -/
def size_ok (b : Blk) : Prop := 56 ≤ b.size ∧ b.size % 8 = 0

instance decHdrOk (m : Mem) (b : Blk) : Decidable (hdr_ok m b) :=
  inferInstanceAs (Decidable (_ ∧ _))

instance decFtrOk (m : Mem) (b : Blk) : Decidable (ftr_ok m b) :=
  inferInstanceAs (Decidable (_ ∧ _))

instance decSizeOk (b : Blk) : Decidable (size_ok b) :=
  inferInstanceAs (Decidable (_ ∧ _))

/-- The blocks `bs` tile the address range from `a` to `e`. -/
def Chain : Nat → List Blk → Nat → Prop
  | a, [], e => a = e
  | a, b :: bs, e => b.addr = a ∧ Chain (a + b.size) bs e

instance decChain : (a : Nat) → (bs : List Blk) → (e : Nat) → Decidable (Chain a bs e)
  | a, [], e => inferInstanceAs (Decidable (a = e))
  | a, b :: bs, e =>
    have := decChain (a + b.size) bs e
    inferInstanceAs (Decidable (b.addr = a ∧ Chain (a + b.size) bs e))

/-- No two neighbouring blocks of the list are both free. -/
def NoAdjFree : List Blk → Prop
  | [] => True
  | [_] => True
  | b1 :: b2 :: bs => (b1.used = true ∨ b2.used = true) ∧ NoAdjFree (b2 :: bs)

instance decNoAdjFree : (bs : List Blk) → Decidable (NoAdjFree bs)
  | [] => inferInstanceAs (Decidable True)
  | [_] => inferInstanceAs (Decidable True)
  | b1 :: b2 :: bs =>
    have := decNoAdjFree (b2 :: bs)
    inferInstanceAs (Decidable ((b1.used = true ∨ b2.used = true) ∧ NoAdjFree (b2 :: bs)))

/-- One arena in memory: both fenceposts, and boundary-tagged blocks tiling the
interior. -/
def arena_ok (m : Mem) (A : Arena) : Prop :=
  get_object_size m A.base = 0 ∧ get_status m A.base = ALLOCATED ∧
  get_object_size m (A.base + 2097216) = 0 ∧ get_status m (A.base + 2097216) = ALLOCATED ∧
  Chain (A.base + 16) A.blocks (A.base + 2097216) ∧
  (∀ b ∈ A.blocks, size_ok b ∧ hdr_ok m b ∧ ftr_ok m b)

instance decArenaOk (m : Mem) (A : Arena) : Decidable (arena_ok m A) :=
  inferInstanceAs (Decidable (_ ∧ _ ∧ _ ∧ _ ∧ _ ∧ _))

/-- The arenas lie in ascending order between `lo` and `hi` without overlap. -/
def arenas_sorted : Nat → List Arena → Nat → Prop
  | lo, [], hi => lo ≤ hi
  | lo, A :: As, hi => lo ≤ A.base ∧ arenas_sorted (A.base + 2097248) As hi

instance decArenasSorted : (lo : Nat) → (g : List Arena) → (hi : Nat) →
    Decidable (arenas_sorted lo g hi)
  | lo, [], hi => inferInstanceAs (Decidable (lo ≤ hi))
  | lo, A :: As, hi =>
    have := decArenasSorted (A.base + 2097248) As hi
    inferInstanceAs (Decidable (lo ≤ A.base ∧ arenas_sorted (A.base + 2097248) As hi))

/-- All blocks of all arenas, in address order. -/
def all_blocks : List Arena → List Blk
  | [] => []
  | A :: As => A.blocks ++ all_blocks As

/-- Header addresses of the free blocks of a list, in order. -/
def free_addrs (bs : List Blk) : List Nat :=
  (bs.filter (fun b => !b.used)).map (fun b => b.addr)

/-- Header address and size of the free blocks of a list, in order. -/
def free_entries (bs : List Blk) : List (Nat × Nat) :=
  (bs.filter (fun b => !b.used)).map (fun b => (b.addr, b.size))

/-- Header addresses of the allocated blocks of a list, in order. -/
def used_addrs (bs : List Blk) : List Nat :=
  (bs.filter (fun b => b.used)).map (fun b => b.addr)

/-- The allocated blocks of a list, in order. -/
def used_blocks (bs : List Blk) : List Blk := bs.filter (fun b => b.used)

/-- The arenas of a description with their allocated blocks only. -/
def skeleton (g : List Arena) : List (Nat × List Blk) :=
  g.map (fun A => (A.base, used_blocks A.blocks))

/-- Links along `p :: l`: each node's `next` is the following node, whose `prev`
points back. -/
def Path (m : Mem) : Nat → List Nat → Prop
  | _, [] => True
  | p, x :: xs => get_next m p = x ∧ get_prev m x = p ∧ Path m x xs

instance decPath (m : Mem) : (p : Nat) → (l : List Nat) → Decidable (Path m p l)
  | _, [] => inferInstanceAs (Decidable True)
  | p, x :: xs =>
    have := decPath m x xs
    inferInstanceAs (Decidable (get_next m p = x ∧ get_prev m x = p ∧ Path m x xs))

/-- The nodes form a circular doubly-linked list in the given order. -/
def Cyc (m : Mem) : List Nat → Prop
  | [] => True
  | a :: l => Path m a (l ++ [a])

instance decCyc (m : Mem) : (l : List Nat) → Decidable (Cyc m l)
  | [] => inferInstanceAs (Decidable True)
  | a :: l => inferInstanceAs (Decidable (Path m a (l ++ [a])))

/-- Last node of `p :: l`. -/
def lastOf : Nat → List Nat → Nat
  | p, [] => p
  | _, x :: xs => lastOf x xs

/-- The nodes are pairwise equal or 32 bytes apart. -/
def SepAll (l : List Nat) : Prop :=
  ∀ a ∈ l, ∀ b ∈ l, a = b ∨ a + 32 ≤ b ∨ b + 32 ≤ a

/-- The address `x` lies outside in the link fields of a node of `nodes`. -/
def NoLink (nodes : List Nat) (x : Nat) : Prop := ∀ n ∈ nodes, x < n + 16 ∨ n + 32 ≤ x

/-- The nodes of the free list of a well-formed heap: the sentinel and the free blocks. -/
def nodes_of (s : State) (g : List Arena) : List Nat :=
  s.sentinel :: free_addrs (all_blocks g)

/-- The arenas `As1`, then an arena at `base` tiled by `pre ++ mid ++ post`, then
the arenas `As2`: a heap description with the blocks `mid` in focus. -/
def put (As1 : List Arena) (base : Nat) (pre mid post : List Blk) (As2 : List Arena) :
    List Arena :=
  As1 ++ ⟨base, pre ++ mid ++ post⟩ :: As2

/-- The heap described by the arenas `g`: the arenas are disjoint and below the
break (itself at most `2 ^ 64`), the sentinel lies outside them, every arena is
tiled by boundary-tagged blocks, and the free list is the circular list of the
free blocks in address order, anchored at the sentinel. -/
def Heap (s : State) (g : List Arena) : Prop :=
  s.free_list = s.sentinel ∧ s.brk ≤ 18446744073709551616 ∧
  s.sentinel + 32 ≤ 18446744073709551616 ∧
  arenas_sorted 0 g s.brk ∧
  (∀ A ∈ g, s.sentinel + 32 ≤ A.base ∨ A.base + 2097248 ≤ s.sentinel) ∧
  (∀ A ∈ g, arena_ok s.mem A) ∧
  Cyc s.mem (s.sentinel :: free_addrs (all_blocks g)) ∧
  get_status s.mem s.sentinel = SENTINEL ∧ get_object_size s.mem s.sentinel = 0

instance decHeap (s : State) (g : List Arena) : Decidable (Heap s g) :=
  inferInstanceAs (Decidable (_ ∧ _ ∧ _ ∧ _ ∧ _ ∧ _ ∧ _ ∧ _ ∧ _))

/-- Well-formed allocator state: a heap described by `g` whose static sentinel
lies below the break and in which no two free blocks are neighbours. -/
def Inv (s : State) (g : List Arena) : Prop :=
  Heap s g ∧ s.sentinel + 32 ≤ s.brk ∧ ∀ A ∈ g, NoAdjFree A.blocks

instance decInv (s : State) (g : List Arena) : Decidable (Inv s g) :=
  inferInstanceAs (Decidable (_ ∧ _ ∧ _))

/-! ## Client programs -/

/-- A client that calls `malloc` for each size of the list in turn; the pointers
returned, in order. -/
def malloc_all (fuel : Nat) : List Nat → State → Option (List Nat × State)
  | [], s => some ([], s)
  | n :: ns, s =>
    match malloc fuel n s with
    | none => none
    | some (p, s1) =>
      match malloc_all fuel ns s1 with
      | none => none
      | some (ps, s2) => some (p :: ps, s2)

/-- A client that calls `free` for each pointer of the list in turn. -/
def free_all (fuel : Nat) : List Nat → State → Option State
  | [], s => some s
  | p :: ps, s =>
    match free fuel p s with
    | none => none
    | some s1 => free_all fuel ps s1

/-- States reachable from the constructor by `malloc` with request sizes up to
`ARENA_SIZE` (the break leaving room for one more arena), by `free` of live
pointers, and by client stores into live payloads. The list holds the live
pointers: those returned by `malloc` and not yet passed to `free`. -/
inductive Reach : State → List Nat → Prop
  | init (z : State) : z.sentinel + 32 ≤ z.brk → z.brk + CHUNK ≤ WORD → z.num_chunks = 0 →
      Reach (init_allocator z) []
  | alloc (s : State) (L : List Nat) (fuel n p : Nat) (s1 : State) : Reach s L →
      n ≤ ARENA_SIZE → s.brk + CHUNK ≤ WORD → malloc fuel n s = some (p, s1) →
      Reach s1 (p :: L)
  | free (s : State) (L : List Nat) (fuel p : Nat) (s1 : State) : Reach s L → p ∈ L →
      free fuel p s = some s1 → Reach s1 (L.erase p)
  | store (s : State) (L : List Nat) (p i v : Nat) : Reach s L → p ∈ L →
      i + (HDR + FTR) < object_size p s →
      Reach { s with mem := writeN s.mem (p + i) 1 v } L

/-- Walk over boundary tags: from the header at `cur`, advance by the size in the
current header until `stop`; yields the headers visited with their sizes. `fuel`
bounds the number of blocks visited. -/
def walk_arena : Nat → Mem → Nat → Nat → Option (List (Nat × Nat))
  | 0, _, _, _ => none
  | fuel + 1, m, cur, stop =>
    if cur = stop then some []
    else
      match walk_arena fuel m (cur + get_object_size m cur) stop with
      | none => none
      | some l => some ((cur, get_object_size m cur) :: l)

/-- A process image before the constructor runs: memory all zero, the static
sentinel at address 1024, the break at 4096. -/
def boot : State :=
  { mem := fun _ => 0, brk := 4096, sentinel := 1024, free_list := 0, mem_start := 0,
    heap_size := 0, num_chunks := 0, malloc_calls := 0, free_calls := 0,
    realloc_calls := 0, calloc_calls := 0 }

/-- The state after a call of `malloc`; the state is kept when the fuel runs out. -/
def after_malloc (fuel size : Nat) (s : State) : State :=
  match malloc fuel size s with
  | some r => r.2
  | none => s

/-- The state after a call of `free`; the state is kept when the fuel runs out. -/
def after_free (fuel ptr : Nat) (s : State) : State :=
  match free fuel ptr s with
  | some s1 => s1
  | none => s

/-- The allocator constructed on `boot`, after `malloc(8)`, which returns 4144. -/
def one_block : State := after_malloc 3 8 (init_allocator boot)

/-- The state `one_block` after a second `malloc(8)`, which returns 4200. -/
def two_blocks : State := after_malloc 3 8 one_block

/-- The state `two_blocks` after `free(4144)`: a free block of 56 bytes, an
allocated block of 56 bytes, and the free rest of the arena. -/
def hole : State := after_free 3 4144 two_blocks

/-- The allocator constructed on `boot`, after `malloc(2097096)`: the free list
holds a single block of 56 bytes, at 2101256. -/
def tight : State := after_malloc 3 2097096 (init_allocator boot)

/-! ## Loads and stores -/

theorem writeN_out (m : Mem) (a n v x : Nat) (h : x < a ∨ a + n ≤ x) :
    writeN m a n v x = m x := by
  induction n generalizing a v with
  | zero => rfl
  | succ n ih =>
    simp only [writeN]
    have hx : x ≠ a := by omega
    rw [if_neg hx]
    exact ih (a + 1) (v / 256) (by omega)

theorem readN_congr (m m1 : Mem) (a n : Nat)
    (h : ∀ x, a ≤ x → x < a + n → m1 x = m x) : readN m1 a n = readN m a n := by
  induction n generalizing a with
  | zero => rfl
  | succ n ih =>
    simp only [readN]
    rw [h a (by omega) (by omega), ih (a + 1) (fun x h1 h2 => h x (by omega) (by omega))]

theorem readN_writeN_disj (m : Mem) (a n v b k : Nat) (h : b + k ≤ a ∨ a + n ≤ b) :
    readN (writeN m a n v) b k = readN m b k :=
  readN_congr m _ b k (fun x h1 h2 => writeN_out m a n v x (by omega))

theorem readN_writeN_same (m : Mem) (a n v : Nat) :
    readN (writeN m a n v) a n = v % 256 ^ n := by
  induction n generalizing a v m with
  | zero => simp [readN, Nat.mod_one]
  | succ n ih =>
    simp only [readN, writeN, if_true]
    have h2 : readN (fun x => if x = a then v % 256 else writeN m (a + 1) n (v / 256) x) (a + 1) n
        = readN (writeN m (a + 1) n (v / 256)) (a + 1) n := by
      apply readN_congr
      intro x h1 _
      have : x ≠ a := by omega
      simp [this]
    rw [h2, ih]
    rw [Nat.pow_succ, Nat.mul_comm (256 ^ n) 256, Nat.mod_mul]
    simp

theorem readN_lt (m : Mem) (a n : Nat) : readN m a n < 256 ^ n := by
  induction n generalizing a with
  | zero => simp [readN]
  | succ n ih =>
    simp only [readN]
    have := ih (a + 1)
    have h1 : m a % 256 < 256 := Nat.mod_lt _ (by norm_num)
    rw [Nat.pow_succ]
    omega

theorem read8_write8_same (m : Mem) (a v : Nat) (h : v < 18446744073709551616) :
    readN (writeN m a 8 v) a 8 = v := by
  rw [readN_writeN_same]; exact Nat.mod_eq_of_lt (by norm_num; exact h)

theorem read4_write4_same (m : Mem) (a v : Nat) (h : v < 4294967296) :
    readN (writeN m a 4 v) a 4 = v := by
  rw [readN_writeN_same]; exact Nat.mod_eq_of_lt (by norm_num; exact h)

/-! ### Field accessors over stores -/

theorem get_object_size_lt (m : Mem) (p : Nat) : get_object_size m p < 18446744073709551616 := by
  have := readN_lt m p 8; norm_num at this; exact this

theorem get_next_lt (m : Mem) (p : Nat) : get_next m p < 18446744073709551616 := by
  have := readN_lt m (p + 16) 8; norm_num at this; exact this

theorem get_prev_lt (m : Mem) (p : Nat) : get_prev m p < 18446744073709551616 := by
  have := readN_lt m (p + 24) 8; norm_num at this; exact this

theorem get_status_lt (m : Mem) (p : Nat) : get_status m p < 4294967296 := by
  have := readN_lt m (p + 8) 4; norm_num at this; exact this

theorem get_object_size_writeN (m : Mem) (a k v n : Nat) (h : n + 8 ≤ a ∨ a + k ≤ n) :
    get_object_size (writeN m a k v) n = get_object_size m n :=
  readN_writeN_disj m a k v n 8 h

theorem get_status_writeN (m : Mem) (a k v n : Nat) (h : n + 12 ≤ a ∨ a + k ≤ n + 8) :
    get_status (writeN m a k v) n = get_status m n :=
  readN_writeN_disj m a k v (n + 8) 4 (by omega)

theorem get_next_writeN (m : Mem) (a k v n : Nat) (h : n + 24 ≤ a ∨ a + k ≤ n + 16) :
    get_next (writeN m a k v) n = get_next m n :=
  readN_writeN_disj m a k v (n + 16) 8 (by omega)

theorem get_prev_writeN (m : Mem) (a k v n : Nat) (h : n + 32 ≤ a ∨ a + k ≤ n + 24) :
    get_prev (writeN m a k v) n = get_prev m n :=
  readN_writeN_disj m a k v (n + 24) 8 (by omega)

theorem get_object_size_same (m : Mem) (p v : Nat) (h : v < 18446744073709551616) :
    get_object_size (writeN m p 8 v) p = v := read8_write8_same m p v h

theorem get_status_same (m : Mem) (p v : Nat) (h : v < 4294967296) :
    get_status (writeN m (p + 8) 4 v) p = v := read4_write4_same m (p + 8) v h

theorem get_next_same (m : Mem) (p v : Nat) (h : v < 18446744073709551616) :
    get_next (writeN m (p + 16) 8 v) p = v := read8_write8_same m (p + 16) v h

theorem get_prev_same (m : Mem) (p v : Nat) (h : v < 18446744073709551616) :
    get_prev (writeN m (p + 24) 8 v) p = v := read8_write8_same m (p + 24) v h

theorem get_object_size_congr {m m1 : Mem} {p : Nat}
    (h : ∀ x, p ≤ x → x < p + 8 → m1 x = m x) :
    get_object_size m1 p = get_object_size m p := readN_congr m m1 p 8 h

theorem get_status_congr {m m1 : Mem} {p : Nat}
    (h : ∀ x, p + 8 ≤ x → x < p + 12 → m1 x = m x) :
    get_status m1 p = get_status m p := readN_congr m m1 (p + 8) 4 (by intro x h1 h2; exact h x h1 (by omega))

theorem get_next_congr {m m1 : Mem} {p : Nat}
    (h : ∀ x, p + 16 ≤ x → x < p + 24 → m1 x = m x) :
    get_next m1 p = get_next m p := readN_congr m m1 (p + 16) 8 (by intro x h1 h2; exact h x h1 (by omega))

theorem get_prev_congr {m m1 : Mem} {p : Nat}
    (h : ∀ x, p + 24 ≤ x → x < p + 32 → m1 x = m x) :
    get_prev m1 p = get_prev m p := readN_congr m m1 (p + 24) 8 (by intro x h1 h2; exact h x h1 (by omega))

/-! ### Link fields of list nodes that are equal or 32 bytes apart -/

theorem get_next_set_next_ne (m : Mem) (p v n : Nat)
    (hs : n = p ∨ n + 32 ≤ p ∨ p + 32 ≤ n) (hne : n ≠ p) :
    get_next (set_next m p v) n = get_next m n :=
  get_next_writeN m (p + 16) 8 v n (by omega)

theorem get_next_set_prev (m : Mem) (p v n : Nat) (hs : n = p ∨ n + 32 ≤ p ∨ p + 32 ≤ n) :
    get_next (set_prev m p v) n = get_next m n :=
  get_next_writeN m (p + 24) 8 v n (by omega)

theorem get_prev_set_prev_ne (m : Mem) (p v n : Nat)
    (hs : n = p ∨ n + 32 ≤ p ∨ p + 32 ≤ n) (hne : n ≠ p) :
    get_prev (set_prev m p v) n = get_prev m n :=
  get_prev_writeN m (p + 24) 8 v n (by omega)

theorem get_prev_set_next (m : Mem) (p v n : Nat) (hs : n = p ∨ n + 32 ≤ p ∨ p + 32 ≤ n) :
    get_prev (set_next m p v) n = get_prev m n :=
  get_prev_writeN m (p + 16) 8 v n (by omega)

theorem get_next_set_next (m : Mem) (p v : Nat) (h : v < 18446744073709551616) :
    get_next (set_next m p v) p = v := get_next_same m p v h

theorem get_prev_set_prev (m : Mem) (p v : Nat) (h : v < 18446744073709551616) :
    get_prev (set_prev m p v) p = v := get_prev_same m p v h

theorem set_next_out (m : Mem) (p v x : Nat) (h : x < p + 16 ∨ p + 32 ≤ x) :
    set_next m p v x = m x := writeN_out m (p + 16) 8 v x (by omega)

theorem set_prev_out (m : Mem) (p v x : Nat) (h : x < p + 16 ∨ p + 32 ≤ x) :
    set_prev m p v x = m x := writeN_out m (p + 24) 8 v x (by omega)

/-! ## Paths and circular lists -/

theorem lastOf_mem (p : Nat) (l : List Nat) : lastOf p l ∈ p :: l := by
  induction l generalizing p with
  | nil => simp [lastOf]
  | cons x xs ih =>
    simp only [lastOf]
    exact List.mem_cons_of_mem _ (ih x)

theorem lastOf_append (p : Nat) (l1 l2 : List Nat) :
    lastOf p (l1 ++ l2) = lastOf (lastOf p l1) l2 := by
  induction l1 generalizing p with
  | nil => rfl
  | cons x xs ih => simp only [List.cons_append, lastOf]; exact ih x

theorem lastOf_snoc (p : Nat) (l : List Nat) (a : Nat) : lastOf p (l ++ [a]) = a := by
  rw [lastOf_append]; rfl

theorem Path_append (m : Mem) (p : Nat) (l1 l2 : List Nat) :
    Path m p (l1 ++ l2) ↔ Path m p l1 ∧ Path m (lastOf p l1) l2 := by
  induction l1 generalizing p with
  | nil => simp [Path, lastOf]
  | cons x xs ih =>
    show (get_next m p = x ∧ get_prev m x = p ∧ Path m x (xs ++ l2)) ↔
      ((get_next m p = x ∧ get_prev m x = p ∧ Path m x xs) ∧ Path m (lastOf x xs) l2)
    rw [ih x]; simp only [and_assoc]

theorem lastOf_not_mem_dropLast (p : Nat) (l : List Nat) (h : (p :: l).Nodup) :
    lastOf p l ∉ (p :: l).dropLast := by
  induction l generalizing p with
  | nil => simp
  | cons x xs ih =>
    rw [List.nodup_cons] at h
    simp only [lastOf, List.dropLast_cons₂, List.mem_cons, not_or]
    refine ⟨?_, ih x h.2⟩
    intro heq
    exact h.1 (heq ▸ lastOf_mem x xs)

theorem Path_congr (m m1 : Mem) (p : Nat) (l : List Nat)
    (hn : ∀ n ∈ (p :: l).dropLast, get_next m1 n = get_next m n)
    (hp : ∀ n ∈ l, get_prev m1 n = get_prev m n) (h : Path m p l) : Path m1 p l := by
  induction l generalizing p with
  | nil => trivial
  | cons x xs ih =>
    obtain ⟨h1, h2, h3⟩ := h
    refine ⟨?_, ?_, ?_⟩
    · rw [hn p (by cases xs <;> simp), h1]
    · rw [hp x (by simp), h2]
    · apply ih x _ _ h3
      · intro n hn1
        apply hn
        cases xs with
        | nil => simp at hn1
        | cons y ys =>
          simp only [List.dropLast_cons₂, List.mem_cons] at hn1 ⊢
          exact Or.inr hn1
      · intro n hn1; exact hp n (List.mem_cons_of_mem _ hn1)

theorem Cyc_rotate_one (m : Mem) (a : Nat) (l : List Nat) :
    Cyc m (a :: l) ↔ Cyc m (l ++ [a]) := by
  cases l with
  | nil => rfl
  | cons b l1 =>
    show Path m a ((b :: l1) ++ [a]) ↔ Path m b ((l1 ++ [a]) ++ [b])
    rw [Path_append m b (l1 ++ [a]) [b]]
    simp only [List.cons_append, lastOf_snoc, Path, and_true]
    constructor
    · rintro ⟨h1, h2, h3⟩; exact ⟨h3, h1, h2⟩
    · rintro ⟨h3, h1, h2⟩; exact ⟨h1, h2, h3⟩

theorem Cyc_rotate (m : Mem) (l1 l2 : List Nat) : Cyc m (l1 ++ l2) ↔ Cyc m (l2 ++ l1) := by
  induction l1 generalizing l2 with
  | nil => simp
  | cons a l ih =>
    rw [List.cons_append, Cyc_rotate_one, List.append_assoc, ih (l2 ++ [a])]
    simp

/-- Unfolding of a circular list with at least two nodes around its first node. -/
theorem Cyc_cons_cons (m : Mem) (a c : Nat) (r : List Nat) :
    Cyc m (a :: c :: r) ↔
      get_next m a = c ∧ get_prev m c = a ∧ Path m c r ∧
        get_next m (lastOf c r) = a ∧ get_prev m a = lastOf c r := by
  show Path m a ((c :: r) ++ [a]) ↔ _
  rw [Path_append]
  simp only [Path, lastOf, and_true, and_assoc]

/-- Unfolding of a circular list around its first node. -/
theorem Cyc_cons (m : Mem) (c : Nat) (r : List Nat) :
    Cyc m (c :: r) ↔
      Path m c r ∧ get_next m (lastOf c r) = c ∧ get_prev m c = lastOf c r := by
  show Path m c (r ++ [c]) ↔ _
  rw [Path_append]
  simp only [Path, and_true]

/-! ## The list primitives on a circular list -/

theorem SepAll_mono {l1 l2 : List Nat} (h : SepAll l2) (hs : ∀ a ∈ l1, a ∈ l2) : SepAll l1 :=
  fun a ha b hb => h a (hs a ha) b (hs b hb)

/-- `replace_in_list old new` on a circular list whose first node is `old`. -/
theorem replace_in_list_cyc (m : Mem) (old new N : Nat) (r : List Nat)
    (hc : Cyc m (old :: N :: r)) (hnd : (old :: N :: r).Nodup)
    (hsep : SepAll (new :: old :: N :: r)) (hnew : new ∉ old :: N :: r) (hnz : new ≠ 0)
    (hlt : ∀ n ∈ new :: N :: r, n < 18446744073709551616) :
    Cyc (replace_in_list old new m) (new :: N :: r) ∧
      (∀ x, (∀ n ∈ new :: N :: r, x < n + 16 ∨ n + 32 ≤ x) →
        replace_in_list old new m x = m x) := by
  rw [Cyc_cons_cons] at hc
  obtain ⟨h1, h2, h3, h4, h5⟩ := hc
  have hPmem : lastOf N r ∈ N :: r := lastOf_mem N r
  have hnd2 : (N :: r).Nodup := (List.nodup_cons.mp hnd).2
  have hPdl : lastOf N r ∉ (N :: r).dropLast := lastOf_not_mem_dropLast N r hnd2
  generalize hP : lastOf N r = P at *
  have holdP : old ≠ P := fun h => (List.nodup_cons.mp hnd).1 (h ▸ hPmem)
  have holdN : old ≠ N := fun h => (List.nodup_cons.mp hnd).1 (h ▸ List.mem_cons_self _ _)
  have hnewP : new ≠ P := fun h => hnew (List.mem_cons_of_mem _ (h ▸ hPmem))
  have hPnew : P ≠ new := fun h => hnewP h.symm
  have hnewN : new ≠ N := fun h => hnew (h ▸ List.mem_cons_of_mem _ (List.mem_cons_self _ _))
  have hnewold : new ≠ old := fun h => hnew (h ▸ List.mem_cons_self _ _)
  have memN : N ∈ new :: old :: N :: r := by simp
  have memP : P ∈ new :: old :: N :: r :=
    List.mem_cons_of_mem _ (List.mem_cons_of_mem _ hPmem)
  have memold : old ∈ new :: old :: N :: r := by simp
  have memnew : new ∈ new :: old :: N :: r := by simp
  have memr : ∀ n ∈ N :: r, n ∈ new :: old :: N :: r :=
    fun n hn => List.mem_cons_of_mem _ (List.mem_cons_of_mem _ hn)
  have hNlt : N < 18446744073709551616 := hlt N (by simp)
  have hnewlt : new < 18446744073709551616 := hlt new (by simp)
  have hPlt : P < 18446744073709551616 := hlt P (List.mem_cons_of_mem _ hPmem)
  have hm : replace_in_list old new m =
      set_prev (set_next (set_prev (set_next m new N) new P) P new) N new := by
    unfold replace_in_list
    rw [if_neg hnz]
    dsimp only
    rw [h1]
    rw [get_prev_set_next _ _ _ _ (hsep old memold new memnew), h5]
    rw [get_prev_set_prev_ne _ _ _ _ (hsep old memold new memnew) hnewold.symm,
      get_prev_set_next _ _ _ _ (hsep old memold new memnew), h5]
    rw [get_next_set_next_ne _ _ _ _ (hsep old memold P memP) holdP,
      get_next_set_prev _ _ _ _ (hsep old memold new memnew),
      get_next_set_next_ne _ _ _ _ (hsep old memold new memnew) hnewold.symm, h1]
  rw [hm]
  refine ⟨?_, ?_⟩
  · rw [Cyc_cons_cons, hP]
    refine ⟨?_, ?_, ?_, ?_, ?_⟩
    · rw [get_next_set_prev _ _ _ _ (hsep new memnew N memN),
        get_next_set_next_ne _ _ _ _ (hsep new memnew P memP) hnewP,
        get_next_set_prev _ _ _ _ (Or.inl rfl), get_next_set_next _ _ _ hNlt]
    · rw [get_prev_set_prev _ _ _ hnewlt]
    · apply Path_congr m _ N r _ _ h3
      · intro n hn
        have hnP : n ≠ P := fun h => hPdl (h ▸ hn)
        have hnmem : n ∈ N :: r := List.mem_of_mem_dropLast hn
        have hnnew : n ≠ new := fun h => hnew (List.mem_cons_of_mem _ (h ▸ hnmem))
        rw [get_next_set_prev _ _ _ _ (hsep n (memr n hnmem) N memN),
          get_next_set_next_ne _ _ _ _ (hsep n (memr n hnmem) P memP) hnP,
          get_next_set_prev _ _ _ _ (hsep n (memr n hnmem) new memnew),
          get_next_set_next_ne _ _ _ _ (hsep n (memr n hnmem) new memnew) hnnew]
      · intro n hn
        have hnN : n ≠ N := fun h => (List.nodup_cons.mp hnd2).1 (h ▸ hn)
        have hnmem : n ∈ N :: r := List.mem_cons_of_mem _ hn
        have hnnew : n ≠ new := fun h => hnew (List.mem_cons_of_mem _ (h ▸ hnmem))
        rw [get_prev_set_prev_ne _ _ _ _ (hsep n (memr n hnmem) N memN) hnN,
          get_prev_set_next _ _ _ _ (hsep n (memr n hnmem) P memP),
          get_prev_set_prev_ne _ _ _ _ (hsep n (memr n hnmem) new memnew) hnnew,
          get_prev_set_next _ _ _ _ (hsep n (memr n hnmem) new memnew)]
    · rw [get_next_set_prev _ _ _ _ (hsep P memP N memN), get_next_set_next _ _ _ hnewlt]
    · rw [get_prev_set_prev_ne _ _ _ _ (hsep new memnew N memN) hnewN,
        get_prev_set_next _ _ _ _ (hsep new memnew P memP), get_prev_set_prev _ _ _ hPlt]
  · intro x hx
    rw [set_prev_out _ _ _ _ (hx N (by simp)),
      set_next_out _ _ _ _ (hx P (List.mem_cons_of_mem _ hPmem)),
      set_prev_out _ _ _ _ (hx new (by simp)), set_next_out _ _ _ _ (hx new (by simp))]

/-- `replace_in_list old NULL` on a circular list whose first node is `old`. -/
theorem remove_from_list_cyc (m : Mem) (old N : Nat) (r : List Nat)
    (hc : Cyc m (old :: N :: r)) (hnd : (old :: N :: r).Nodup)
    (hsep : SepAll (old :: N :: r))
    (hlt : ∀ n ∈ N :: r, n < 18446744073709551616) :
    Cyc (replace_in_list old NULL m) (N :: r) ∧
      (∀ x, (∀ n ∈ N :: r, x < n + 16 ∨ n + 32 ≤ x) →
        replace_in_list old NULL m x = m x) := by
  rw [Cyc_cons_cons] at hc
  obtain ⟨h1, h2, h3, h4, h5⟩ := hc
  have hPmem : lastOf N r ∈ N :: r := lastOf_mem N r
  have hnd2 : (N :: r).Nodup := (List.nodup_cons.mp hnd).2
  have hPdl : lastOf N r ∉ (N :: r).dropLast := lastOf_not_mem_dropLast N r hnd2
  generalize hP : lastOf N r = P at *
  have holdP : old ≠ P := fun h => (List.nodup_cons.mp hnd).1 (h ▸ hPmem)
  have memN : N ∈ old :: N :: r := by simp
  have memP : P ∈ old :: N :: r := List.mem_cons_of_mem _ hPmem
  have memold : old ∈ old :: N :: r := by simp
  have memr : ∀ n ∈ N :: r, n ∈ old :: N :: r := fun n hn => List.mem_cons_of_mem _ hn
  have hNlt : N < 18446744073709551616 := hlt N (by simp)
  have hPlt : P < 18446744073709551616 := hlt P hPmem
  have hm : replace_in_list old NULL m = set_prev (set_next m P N) N P := by
    unfold replace_in_list
    rw [if_pos rfl]
    dsimp only
    rw [h1, h5, get_next_set_next_ne _ _ _ _ (hsep old memold P memP) holdP,
      get_prev_set_next _ _ _ _ (hsep old memold P memP), h1, h5]
  rw [hm]
  refine ⟨?_, ?_⟩
  · rw [Cyc_cons, hP]
    refine ⟨?_, ?_, ?_⟩
    · apply Path_congr m _ N r _ _ h3
      · intro n hn
        have hnP : n ≠ P := fun h => hPdl (h ▸ hn)
        have hnmem : n ∈ N :: r := List.mem_of_mem_dropLast hn
        rw [get_next_set_prev _ _ _ _ (hsep n (memr n hnmem) N memN),
          get_next_set_next_ne _ _ _ _ (hsep n (memr n hnmem) P memP) hnP]
      · intro n hn
        have hnN : n ≠ N := fun h => (List.nodup_cons.mp hnd2).1 (h ▸ hn)
        have hnmem : n ∈ N :: r := List.mem_cons_of_mem _ hn
        rw [get_prev_set_prev_ne _ _ _ _ (hsep n (memr n hnmem) N memN) hnN,
          get_prev_set_next _ _ _ _ (hsep n (memr n hnmem) P memP)]
    · rw [get_next_set_prev _ _ _ _ (hsep P memP N memN), get_next_set_next _ _ _ hNlt]
    · rw [get_prev_set_prev _ _ _ hPlt]
  · intro x hx
    rw [set_prev_out _ _ _ _ (hx N (by simp)), set_next_out _ _ _ _ (hx P hPmem)]

/-- A memory in which `block` has been spliced in front of `c`. -/
theorem insert_cyc_generic (m m1 : Mem) (block c : Nat) (r : List Nat)
    (hc : Cyc m (c :: r))
    (e1 : get_next m1 block = c) (e2 : get_prev m1 c = block)
    (e3 : get_next m1 (lastOf c r) = block) (e4 : get_prev m1 block = lastOf c r)
    (hn : ∀ n ∈ (c :: r).dropLast, get_next m1 n = get_next m n)
    (hp : ∀ n ∈ r, get_prev m1 n = get_prev m n) :
    Cyc m1 (block :: c :: r) := by
  rw [Cyc_cons] at hc
  rw [Cyc_cons_cons]
  exact ⟨e1, e2, Path_congr m m1 c r hn hp hc.1, e3, e4⟩

/-- The splice of `add_to_list` in front of the node `c` that is higher in memory. -/
theorem insert_before_cyc (m : Mem) (block c : Nat) (r : List Nat)
    (hc : Cyc m (c :: r)) (hnd : (c :: r).Nodup)
    (hsep : SepAll (block :: c :: r)) (hnew : block ∉ c :: r)
    (hlt : ∀ n ∈ block :: c :: r, n < 18446744073709551616) :
    let m1 := set_prev m block (get_prev m c)
    let m2 := set_next m1 block c
    let m3 := set_next m2 (get_prev m2 c) block
    let m4 := set_prev m3 c block
    Cyc m4 (block :: c :: r) ∧
      (∀ x, (∀ n ∈ block :: c :: r, x < n + 16 ∨ n + 32 ≤ x) → m4 x = m x) := by
  intro m1 m2 m3 m4
  have hc0 := hc
  rw [Cyc_cons] at hc
  obtain ⟨h3, h4, h5⟩ := hc
  have hPmem : lastOf c r ∈ c :: r := lastOf_mem c r
  have hPdl : lastOf c r ∉ (c :: r).dropLast := lastOf_not_mem_dropLast c r hnd
  generalize hP : lastOf c r = P at *
  have hbP : block ≠ P := fun h => hnew (h ▸ hPmem)
  have hbc : block ≠ c := fun h => hnew (h ▸ List.mem_cons_self _ _)
  have memc : c ∈ block :: c :: r := by simp
  have memP : P ∈ block :: c :: r := List.mem_cons_of_mem _ hPmem
  have memb : block ∈ block :: c :: r := by simp
  have memr : ∀ n ∈ c :: r, n ∈ block :: c :: r := fun n hn => List.mem_cons_of_mem _ hn
  have hclt : c < 18446744073709551616 := hlt c memc
  have hblt : block < 18446744073709551616 := hlt block memb
  have hPlt : P < 18446744073709551616 := hlt P memP
  have hm : m4 = set_prev (set_next (set_next (set_prev m block P) block c) P block) c block := by
    show set_prev (set_next (set_next (set_prev m block (get_prev m c)) block c)
      (get_prev (set_next (set_prev m block (get_prev m c)) block c) c) block) c block = _
    rw [get_prev_set_next _ _ _ _ (hsep c memc block memb),
      get_prev_set_prev_ne _ _ _ _ (hsep c memc block memb) hbc.symm, h5]
  rw [hm]
  refine ⟨?_, ?_⟩
  · apply insert_cyc_generic m _ block c r hc0
    · rw [get_next_set_prev _ _ _ _ (hsep block memb c memc),
        get_next_set_next_ne _ _ _ _ (hsep block memb P memP) hbP,
        get_next_set_next _ _ _ hclt]
    · rw [get_prev_set_prev _ _ _ hblt]
    · rw [hP, get_next_set_prev _ _ _ _ (hsep P memP c memc), get_next_set_next _ _ _ hblt]
    · rw [hP, get_prev_set_prev_ne _ _ _ _ (hsep block memb c memc) hbc,
        get_prev_set_next _ _ _ _ (hsep block memb P memP),
        get_prev_set_next _ _ _ _ (Or.inl rfl), get_prev_set_prev _ _ _ hPlt]
    · intro n hn
      have hnP : n ≠ P := fun h => hPdl (h ▸ hn)
      have hnmem : n ∈ c :: r := List.mem_of_mem_dropLast hn
      have hnb : n ≠ block := fun h => hnew (h ▸ hnmem)
      rw [get_next_set_prev _ _ _ _ (hsep n (memr n hnmem) c memc),
        get_next_set_next_ne _ _ _ _ (hsep n (memr n hnmem) P memP) hnP,
        get_next_set_next_ne _ _ _ _ (hsep n (memr n hnmem) block memb) hnb,
        get_next_set_prev _ _ _ _ (hsep n (memr n hnmem) block memb)]
    · intro n hn
      have hnc : n ≠ c := fun h => (List.nodup_cons.mp hnd).1 (h ▸ hn)
      have hnmem : n ∈ c :: r := List.mem_cons_of_mem _ hn
      have hnb : n ≠ block := fun h => hnew (h ▸ hnmem)
      rw [get_prev_set_prev_ne _ _ _ _ (hsep n (memr n hnmem) c memc) hnc,
        get_prev_set_next _ _ _ _ (hsep n (memr n hnmem) P memP),
        get_prev_set_next _ _ _ _ (hsep n (memr n hnmem) block memb),
        get_prev_set_prev_ne _ _ _ _ (hsep n (memr n hnmem) block memb) hnb]
  · intro x hx
    rw [set_prev_out _ _ _ _ (hx c (by simp)), set_next_out _ _ _ _ (hx P memP),
      set_next_out _ _ _ _ (hx block (by simp)), set_prev_out _ _ _ _ (hx block (by simp))]

/-- The splice at the end of `add_to_list`, in front of the sentinel `c`. -/
theorem insert_at_end_cyc (m : Mem) (block c : Nat) (r : List Nat)
    (hc : Cyc m (c :: r)) (hnd : (c :: r).Nodup)
    (hsep : SepAll (block :: c :: r)) (hnew : block ∉ c :: r)
    (hlt : ∀ n ∈ block :: c :: r, n < 18446744073709551616) :
    let m1 := set_next m (get_prev m c) block
    let m2 := set_prev m1 block (get_prev m1 c)
    let m3 := set_prev m2 c block
    let m4 := set_next m3 block c
    Cyc m4 (block :: c :: r) ∧
      (∀ x, (∀ n ∈ block :: c :: r, x < n + 16 ∨ n + 32 ≤ x) → m4 x = m x) := by
  intro m1 m2 m3 m4
  have hc0 := hc
  rw [Cyc_cons] at hc
  obtain ⟨h3, h4, h5⟩ := hc
  have hPmem : lastOf c r ∈ c :: r := lastOf_mem c r
  have hPdl : lastOf c r ∉ (c :: r).dropLast := lastOf_not_mem_dropLast c r hnd
  generalize hP : lastOf c r = P at *
  have hbP : block ≠ P := fun h => hnew (h ▸ hPmem)
  have hbc : block ≠ c := fun h => hnew (h ▸ List.mem_cons_self _ _)
  have memc : c ∈ block :: c :: r := by simp
  have memP : P ∈ block :: c :: r := List.mem_cons_of_mem _ hPmem
  have memb : block ∈ block :: c :: r := by simp
  have memr : ∀ n ∈ c :: r, n ∈ block :: c :: r := fun n hn => List.mem_cons_of_mem _ hn
  have hclt : c < 18446744073709551616 := hlt c memc
  have hblt : block < 18446744073709551616 := hlt block memb
  have hPlt : P < 18446744073709551616 := hlt P memP
  have hm : m4 = set_next (set_prev (set_prev (set_next m P block) block P) c block) block c := by
    show set_next (set_prev (set_prev (set_next m (get_prev m c) block) block
      (get_prev (set_next m (get_prev m c) block) c)) c block) block c = _
    rw [h5, get_prev_set_next _ _ _ _ (hsep c memc P memP), h5]
  rw [hm]
  refine ⟨?_, ?_⟩
  · apply insert_cyc_generic m _ block c r hc0
    · rw [get_next_set_next _ _ _ hclt]
    · rw [get_prev_set_next _ _ _ _ (hsep c memc block memb), get_prev_set_prev _ _ _ hblt]
    · rw [hP, get_next_set_next_ne _ _ _ _ (hsep P memP block memb) hbP.symm,
        get_next_set_prev _ _ _ _ (hsep P memP c memc),
        get_next_set_prev _ _ _ _ (hsep P memP block memb), get_next_set_next _ _ _ hblt]
    · rw [hP, get_prev_set_next _ _ _ _ (Or.inl rfl),
        get_prev_set_prev_ne _ _ _ _ (hsep block memb c memc) hbc,
        get_prev_set_prev _ _ _ hPlt]
    · intro n hn
      have hnP : n ≠ P := fun h => hPdl (h ▸ hn)
      have hnmem : n ∈ c :: r := List.mem_of_mem_dropLast hn
      have hnb : n ≠ block := fun h => hnew (h ▸ hnmem)
      rw [get_next_set_next_ne _ _ _ _ (hsep n (memr n hnmem) block memb) hnb,
        get_next_set_prev _ _ _ _ (hsep n (memr n hnmem) c memc),
        get_next_set_prev _ _ _ _ (hsep n (memr n hnmem) block memb),
        get_next_set_next_ne _ _ _ _ (hsep n (memr n hnmem) P memP) hnP]
    · intro n hn
      have hnc : n ≠ c := fun h => (List.nodup_cons.mp hnd).1 (h ▸ hn)
      have hnmem : n ∈ c :: r := List.mem_cons_of_mem _ hn
      have hnb : n ≠ block := fun h => hnew (h ▸ hnmem)
      rw [get_prev_set_next _ _ _ _ (hsep n (memr n hnmem) block memb),
        get_prev_set_prev_ne _ _ _ _ (hsep n (memr n hnmem) c memc) hnc,
        get_prev_set_prev_ne _ _ _ _ (hsep n (memr n hnmem) block memb) hnb,
        get_prev_set_next _ _ _ _ (hsep n (memr n hnmem) P memP)]
  · intro x hx
    rw [set_next_out _ _ _ _ (hx block (by simp)), set_prev_out _ _ _ _ (hx c (by simp)),
      set_prev_out _ _ _ _ (hx block (by simp)), set_next_out _ _ _ _ (hx P memP)]

theorem Cyc_next_mid (m : Mem) (a : Nat) (d : List Nat) (x : Nat) (more : List Nat)
    (h : Cyc m (a :: d ++ x :: more)) :
    get_next m (lastOf a d) = x ∧ get_prev m x = lastOf a d := by
  have h1 : Path m a (d ++ (x :: (more ++ [a]))) := by
    have : (a :: d ++ x :: more) = a :: (d ++ x :: more) := rfl
    rw [this] at h
    simpa [Cyc, List.append_assoc] using h
  rw [Path_append] at h1
  exact ⟨h1.2.1, h1.2.2.1⟩

theorem Cyc_next_last (m : Mem) (a : Nat) (d : List Nat) (h : Cyc m (a :: d)) :
    get_next m (lastOf a d) = a ∧ get_prev m a = lastOf a d := by
  rw [Cyc_cons] at h
  exact h.2

theorem add_to_list_loop_succ (fuel : Nat) (s : State) (block list_crawler0 : Nat) :
    add_to_list_loop (fuel + 1) s block list_crawler0 =
    (let list_crawler := get_next s.mem list_crawler0
    if list_crawler > block then
      let m := s.mem
      let m := set_prev m block (get_prev m list_crawler)
      let m := set_next m block list_crawler
      let m := set_next m (get_prev m list_crawler) block
      let m := set_prev m list_crawler block
      some { s with mem := m }
    else if list_crawler ≠ s.free_list then
      add_to_list_loop fuel s block list_crawler
    else
      let m := s.mem
      let m := set_next m (get_prev m s.sentinel) block
      let m := set_prev m block (get_prev m s.sentinel)
      let m := set_prev m s.sentinel block
      let m := set_next m block s.sentinel
      some { s with mem := m }) := rfl

/-- The loop of `add_to_list` from a crawler inside the list. -/
theorem add_to_list_loop_spec (s : State) (block : Nat) (todo : List Nat) :
    ∀ (done l2 : List Nat) (fuel : Nat),
    s.free_list = s.sentinel →
    Cyc s.mem (s.sentinel :: (done ++ todo) ++ l2) →
    (s.sentinel :: (done ++ todo) ++ l2).Nodup →
    SepAll (block :: s.sentinel :: (done ++ todo) ++ l2) →
    block ∉ s.sentinel :: (done ++ todo) ++ l2 →
    (∀ n ∈ block :: s.sentinel :: (done ++ todo) ++ l2, n < 18446744073709551616) →
    (∀ x ∈ todo, x ≤ block) → (∀ c, l2.head? = some c → block < c) →
    todo.length < fuel →
    ∃ m1, add_to_list_loop fuel s block (lastOf s.sentinel done) = some { s with mem := m1 } ∧
      Cyc m1 (s.sentinel :: (done ++ todo) ++ block :: l2) ∧
      (∀ x, (∀ n ∈ block :: s.sentinel :: (done ++ todo) ++ l2, x < n + 16 ∨ n + 32 ≤ x) →
        m1 x = s.mem x) := by
  induction todo with
  | nil =>
    intro done l2 fuel hfl hc hnd hsep hnew hlt h1 h2 hf
    obtain ⟨fuel, rfl⟩ : ∃ k, fuel = k + 1 := ⟨fuel - 1, by simp at hf; omega⟩
    simp only [List.append_nil] at *
    cases l2 with
    | nil =>
      simp only [List.append_nil] at *
      have hnx := (Cyc_next_last s.mem s.sentinel done hc).1
      have hsent : s.sentinel ∉ done := (List.nodup_cons.mp hnd).1
      rw [add_to_list_loop_succ]
      dsimp only
      rw [hnx]
      by_cases hgt : s.sentinel > block
      · rw [if_pos hgt]
        obtain ⟨hcyc, hfr⟩ := insert_before_cyc s.mem block s.sentinel done hc hnd hsep hnew hlt
        refine ⟨_, rfl, ?_, hfr⟩
        have := (Cyc_rotate _ [block] (s.sentinel :: done)).mp hcyc
        simpa using this
      · rw [if_neg hgt, if_neg (not_not.mpr hfl.symm)]
        obtain ⟨hcyc, hfr⟩ := insert_at_end_cyc s.mem block s.sentinel done hc hnd hsep hnew hlt
        refine ⟨_, rfl, ?_, hfr⟩
        have := (Cyc_rotate _ [block] (s.sentinel :: done)).mp hcyc
        simpa using this
    | cons c l2 =>
      have hnx := (Cyc_next_mid s.mem s.sentinel done c l2 hc).1
      have hgt : c > block := h2 c rfl
      rw [add_to_list_loop_succ]
      dsimp only
      rw [hnx, if_pos hgt]
      have hrot : Cyc s.mem (c :: (l2 ++ s.sentinel :: done)) := by
        have := (Cyc_rotate _ (s.sentinel :: done) (c :: l2)).mp hc
        simpa using this
      have hnd1 : (c :: (l2 ++ s.sentinel :: done)).Nodup := by
        have : (s.sentinel :: done ++ c :: l2).Perm (c :: (l2 ++ s.sentinel :: done)) := by
          have := @List.perm_append_comm _ (s.sentinel :: done) (c :: l2)
          simpa using this
        exact this.nodup_iff.mp hnd
      have hmem : ∀ n, n ∈ block :: c :: (l2 ++ s.sentinel :: done) ↔
          n ∈ block :: s.sentinel :: done ++ c :: l2 := by
        intro n
        simp only [List.cons_append, List.mem_cons, List.mem_append, or_assoc, or_comm,
          or_left_comm]
      obtain ⟨hcyc, hfr⟩ := insert_before_cyc s.mem block c (l2 ++ s.sentinel :: done) hrot hnd1
        (SepAll_mono hsep (fun a ha => (hmem a).mp ha))
        (fun h => hnew (by
          have h1 := (hmem c).mp (List.mem_cons_of_mem _ (List.mem_cons_self _ _))
          simp only [List.cons_append, List.mem_cons, List.mem_append] at h h1 ⊢
          rcases h with h | h | h | h
          · exact Or.inr (Or.inr (Or.inl h))
          · exact Or.inr (Or.inr (Or.inr h))
          · exact Or.inl h
          · exact Or.inr (Or.inl h)))
        (fun n hn => hlt n ((hmem n).mp hn))
      refine ⟨_, rfl, ?_, fun x hx => hfr x (fun n hn => hx n ((hmem n).mp hn))⟩
      have := (Cyc_rotate _ (block :: c :: l2) (s.sentinel :: done)).mp hcyc
      simpa using this
  | cons x todo ih =>
    intro done l2 fuel hfl hc hnd hsep hnew hlt h1 h2 hf
    obtain ⟨fuel, rfl⟩ : ∃ k, fuel = k + 1 := ⟨fuel - 1, by simp at hf; omega⟩
    have hc1 : Cyc s.mem (s.sentinel :: done ++ x :: (todo ++ l2)) := by
      simpa [List.append_assoc] using hc
    have hnx := (Cyc_next_mid s.mem s.sentinel done x (todo ++ l2) hc1).1
    have hle : ¬ x > block := by have := h1 x (by simp); omega
    have hxs : x ≠ s.sentinel := by
      intro h
      have := (List.nodup_cons.mp hnd).1
      apply this
      simp [h]
    have hxf : x ≠ s.free_list := hfl ▸ hxs
    rw [add_to_list_loop_succ]
    dsimp only
    rw [hnx, if_neg hle, if_pos hxf]
    have e1 : (done ++ x :: todo) = (done ++ [x]) ++ todo := by simp
    have e2 : x = lastOf s.sentinel (done ++ [x]) := (lastOf_snoc _ _ _).symm
    rw [e1] at hc hnd hsep hnew hlt ⊢
    conv => enter [1, m1, 1, 1, 4]; rw [e2]
    exact ih (done ++ [x]) l2 fuel hfl hc hnd hsep hnew hlt
      (fun y hy => h1 y (List.mem_cons_of_mem _ hy)) h2 (by simp at hf; omega)

/-! ## Geometry of a well-formed heap -/

theorem Chain_append (a : Nat) (l1 l2 : List Blk) (e : Nat) :
    Chain a (l1 ++ l2) e ↔ ∃ mid, Chain a l1 mid ∧ Chain mid l2 e := by
  induction l1 generalizing a with
  | nil =>
    constructor
    · intro h; exact ⟨a, rfl, h⟩
    · rintro ⟨mid, h1, h2⟩
      have : a = mid := h1
      subst this; exact h2
  | cons b bs ih =>
    constructor
    · rintro ⟨h1, h2⟩
      obtain ⟨mid, h3, h4⟩ := (ih (a + b.size)).mp h2
      exact ⟨mid, ⟨h1, h3⟩, h4⟩
    · rintro ⟨mid, ⟨h1, h3⟩, h4⟩
      exact ⟨h1, (ih (a + b.size)).mpr ⟨mid, h3, h4⟩⟩

theorem Chain_le (a : Nat) (l : List Blk) (e : Nat) (h : Chain a l e) : a ≤ e := by
  induction l generalizing a with
  | nil => exact Nat.le_of_eq h
  | cons b bs ih => have := ih _ h.2; omega

theorem Chain_unique (a : Nat) (l : List Blk) (e1 e2 : Nat) (h1 : Chain a l e1)
    (h2 : Chain a l e2) : e1 = e2 := by
  induction l generalizing a with
  | nil =>
    have x1 : a = e1 := h1
    have x2 : a = e2 := h2
    omega
  | cons b bs ih => exact ih _ h1.2 h2.2

theorem Chain_bounds (a : Nat) (l : List Blk) (e : Nat) (h : Chain a l e) :
    ∀ b ∈ l, a ≤ b.addr ∧ b.addr + b.size ≤ e := by
  induction l generalizing a with
  | nil => intro b hb; cases hb
  | cons c bs ih =>
    intro b hb
    obtain ⟨h1, h2⟩ := h
    rcases List.mem_cons.mp hb with rfl | hb
    · have := Chain_le _ _ _ h2; omega
    · have := ih _ h2 b hb; omega

/-- Blocks of one tiling are equal or occupy disjoint ranges. -/
theorem Chain_disjoint (a : Nat) (l : List Blk) (e : Nat) (h : Chain a l e)
    (hpos : ∀ b ∈ l, 0 < b.size) :
    ∀ b1 ∈ l, ∀ b2 ∈ l, b1 = b2 ∨ b1.addr + b1.size ≤ b2.addr ∨ b2.addr + b2.size ≤ b1.addr := by
  induction l generalizing a with
  | nil => intro b hb; cases hb
  | cons c bs ih =>
    obtain ⟨h1, h2⟩ := h
    have hb := Chain_bounds _ _ _ h2
    intro b1 m1 b2 m2
    rcases List.mem_cons.mp m1 with e1 | m1 <;> rcases List.mem_cons.mp m2 with e2 | m2
    · left; rw [e1, e2]
    · have := hb b2 m2; right; left; rw [e1]; omega
    · have := hb b1 m1; right; right; rw [e2]; omega
    · exact ih _ h2 (fun b hb => hpos b (List.mem_cons_of_mem _ hb)) b1 m1 b2 m2

theorem arenas_sorted_le (lo : Nat) (g : List Arena) (hi : Nat) (h : arenas_sorted lo g hi) :
    lo ≤ hi := by
  induction g generalizing lo with
  | nil => exact h
  | cons A As ih => have := ih _ h.2; have := h.1; omega

theorem arenas_sorted_bounds (lo : Nat) (g : List Arena) (hi : Nat)
    (h : arenas_sorted lo g hi) : ∀ A ∈ g, lo ≤ A.base ∧ A.base + 2097248 ≤ hi := by
  induction g generalizing lo with
  | nil => intro A hA; cases hA
  | cons B As ih =>
    intro A hA
    rcases List.mem_cons.mp hA with rfl | hA
    · have := arenas_sorted_le _ _ _ h.2; exact ⟨h.1, this⟩
    · have := ih _ h.2 A hA; have := h.1; omega

theorem arenas_sorted_disjoint (lo : Nat) (g : List Arena) (hi : Nat)
    (h : arenas_sorted lo g hi) :
    ∀ A ∈ g, ∀ B ∈ g, A = B ∨ A.base + 2097248 ≤ B.base ∨ B.base + 2097248 ≤ A.base := by
  induction g generalizing lo with
  | nil => intro A hA; cases hA
  | cons C As ih =>
    have hb := arenas_sorted_bounds _ _ _ h.2
    intro A mA B mB
    rcases List.mem_cons.mp mA with e1 | mA <;> rcases List.mem_cons.mp mB with e2 | mB
    · left; rw [e1, e2]
    · have := hb B mB; right; left; rw [e1]; omega
    · have := hb A mA; right; right; rw [e2]; omega
    · exact ih _ h.2 A mA B mB

theorem arenas_sorted_append (lo : Nat) (g1 g2 : List Arena) (hi : Nat) :
    arenas_sorted lo (g1 ++ g2) hi ↔ ∃ mid, arenas_sorted lo g1 mid ∧ arenas_sorted mid g2 hi := by
  induction g1 generalizing lo with
  | nil =>
    constructor
    · intro h; exact ⟨lo, Nat.le_refl _, h⟩
    · rintro ⟨mid, h1, h2⟩
      have h1 : lo ≤ mid := h1
      cases g2 with
      | nil => have h2 : mid ≤ hi := h2; exact Nat.le_trans h1 h2
      | cons A As => exact ⟨Nat.le_trans h1 h2.1, h2.2⟩
  | cons B Bs ih =>
    constructor
    · rintro ⟨h1, h2⟩
      obtain ⟨mid, h3, h4⟩ := (ih _).mp h2
      exact ⟨mid, ⟨h1, h3⟩, h4⟩
    · rintro ⟨mid, ⟨h1, h3⟩, h4⟩
      exact ⟨h1, (ih _).mpr ⟨mid, h3, h4⟩⟩

theorem mem_all_blocks (g : List Arena) (b : Blk) :
    b ∈ all_blocks g ↔ ∃ A ∈ g, b ∈ A.blocks := by
  induction g with
  | nil => simp [all_blocks]
  | cons A As ih =>
    simp only [all_blocks, List.mem_append, ih, List.mem_cons]
    constructor
    · rintro (h | ⟨B, hB, hb⟩)
      · exact ⟨A, Or.inl rfl, h⟩
      · exact ⟨B, Or.inr hB, hb⟩
    · rintro ⟨B, rfl | hB, hb⟩
      · exact Or.inl hb
      · exact Or.inr ⟨B, hB, hb⟩

theorem all_blocks_append (g1 g2 : List Arena) :
    all_blocks (g1 ++ g2) = all_blocks g1 ++ all_blocks g2 := by
  induction g1 with
  | nil => rfl
  | cons A As ih => simp [all_blocks, ih, List.append_assoc]

theorem free_addrs_append (l1 l2 : List Blk) :
    free_addrs (l1 ++ l2) = free_addrs l1 ++ free_addrs l2 := by
  simp [free_addrs]

theorem mem_free_addrs (l : List Blk) (n : Nat) :
    n ∈ free_addrs l ↔ ∃ b ∈ l, b.used = false ∧ b.addr = n := by
  simp [free_addrs, and_assoc]

theorem free_addrs_cons_free (b : Blk) (l : List Blk) (h : b.used = false) :
    free_addrs (b :: l) = b.addr :: free_addrs l := by
  simp [free_addrs, h]

theorem free_addrs_cons_used (b : Blk) (l : List Blk) (h : b.used = true) :
    free_addrs (b :: l) = free_addrs l := by
  simp [free_addrs, h]

/-- Facts every block of a well-formed heap satisfies. -/
theorem Heap_block (s : State) (g : List Arena) (h : Heap s g) (A : Arena) (hA : A ∈ g)
    (b : Blk) (hb : b ∈ A.blocks) :
    A.base + 16 ≤ b.addr ∧ b.addr + b.size ≤ A.base + 2097216 ∧ 56 ≤ b.size ∧
      b.size % 8 = 0 ∧ hdr_ok s.mem b ∧ ftr_ok s.mem b := by
  obtain ⟨-, -, -, -, -, hok, -⟩ := h
  obtain ⟨-, -, -, -, hch, hbl⟩ := hok A hA
  have := Chain_bounds _ _ _ hch b hb
  obtain ⟨⟨h1, h2⟩, h3, h4⟩ := hbl b hb
  exact ⟨this.1, this.2, h1, h2, h3, h4⟩

/-- Two blocks of a well-formed heap are equal or occupy disjoint ranges. -/
theorem Heap_disjoint (s : State) (g : List Arena) (h : Heap s g) :
    ∀ b1 ∈ all_blocks g, ∀ b2 ∈ all_blocks g,
      b1 = b2 ∨ b1.addr + b1.size ≤ b2.addr ∨ b2.addr + b2.size ≤ b1.addr := by
  intro b1 m1 b2 m2
  obtain ⟨A1, hA1, hb1⟩ := (mem_all_blocks g b1).mp m1
  obtain ⟨A2, hA2, hb2⟩ := (mem_all_blocks g b2).mp m2
  have f1 := Heap_block s g h A1 hA1 b1 hb1
  have f2 := Heap_block s g h A2 hA2 b2 hb2
  obtain ⟨-, -, -, hs, -, hok, -⟩ := h
  rcases arenas_sorted_disjoint _ _ _ hs A1 hA1 A2 hA2 with rfl | hd | hd
  · obtain ⟨-, -, -, -, hch, hbl⟩ := hok A1 hA1
    exact Chain_disjoint _ _ _ hch (fun b hb => by have := (hbl b hb).1.1; omega) b1 hb1 b2 hb2
  · right; left; omega
  · right; right; omega

theorem mem_nodes_of (s : State) (g : List Arena) (n : Nat) :
    n ∈ nodes_of s g ↔ n = s.sentinel ∨ ∃ b ∈ all_blocks g, b.used = false ∧ b.addr = n := by
  simp only [nodes_of, List.mem_cons, mem_free_addrs]

/-- Bytes of a block outside its own link fields (all its bytes when it is
allocated) are not link bytes of any node. -/
theorem Heap_NoLink_block (s : State) (g : List Arena) (h : Heap s g) (b : Blk)
    (hb : b ∈ all_blocks g) (x : Nat) (h1 : b.addr ≤ x) (h2 : x < b.addr + b.size)
    (h3 : b.used = true ∨ x < b.addr + 16 ∨ b.addr + 32 ≤ x) : NoLink (nodes_of s g) x := by
  intro n hn
  rcases (mem_nodes_of s g n).mp hn with rfl | ⟨b1, hb1, hf, rfl⟩
  · obtain ⟨A, hA, hbA⟩ := (mem_all_blocks g b).mp hb
    have f := Heap_block s g h A hA b hbA
    have := h.2.2.2.2.1 A hA
    omega
  · obtain ⟨A1, hA1, hbA1⟩ := (mem_all_blocks g b1).mp hb1
    have f1 := Heap_block s g h A1 hA1 b1 hbA1
    rcases Heap_disjoint s g h b hb b1 hb1 with rfl | hd | hd
    · rcases h3 with h3 | h3
      · rw [hf] at h3; cases h3
      · omega
    · omega
    · omega

/-- Fencepost bytes are not link bytes of any node. -/
theorem Heap_NoLink_fence (s : State) (g : List Arena) (h : Heap s g) (A : Arena) (hA : A ∈ g)
    (x : Nat) (hx : (A.base ≤ x ∧ x < A.base + 16) ∨
      (A.base + 2097216 ≤ x ∧ x < A.base + 2097248)) : NoLink (nodes_of s g) x := by
  intro n hn
  rcases (mem_nodes_of s g n).mp hn with rfl | ⟨b1, hb1, hf, rfl⟩
  · have := h.2.2.2.2.1 A hA
    omega
  · obtain ⟨A1, hA1, hbA1⟩ := (mem_all_blocks g b1).mp hb1
    have f1 := Heap_block s g h A1 hA1 b1 hbA1
    rcases arenas_sorted_disjoint _ _ _ h.2.2.2.1 A hA A1 hA1 with rfl | hd | hd
    · omega
    · omega
    · omega

/-- The size and status bytes of the sentinel are not link bytes of any node. -/
theorem Heap_NoLink_sentinel (s : State) (g : List Arena) (h : Heap s g)
    (x : Nat) (hx : s.sentinel ≤ x ∧ x < s.sentinel + 16) : NoLink (nodes_of s g) x := by
  intro n hn
  rcases (mem_nodes_of s g n).mp hn with rfl | ⟨b1, hb1, hf, rfl⟩
  · omega
  · obtain ⟨A1, hA1, hbA1⟩ := (mem_all_blocks g b1).mp hb1
    have f1 := Heap_block s g h A1 hA1 b1 hbA1
    have := h.2.2.2.2.1 A1 hA1
    omega

/-- Nodes of the free list of a well-formed heap: distinct, 32 bytes apart, and
representable as pointers. -/
theorem Heap_nodes (s : State) (g : List Arena) (h : Heap s g) :
    SepAll (nodes_of s g) ∧ (∀ n ∈ nodes_of s g, n < 18446744073709551616) := by
  have key : ∀ n ∈ nodes_of s g, n = s.sentinel ∨
      ∃ A ∈ g, ∃ b ∈ A.blocks, b ∈ all_blocks g ∧ b.used = false ∧ b.addr = n := by
    intro n hn
    rcases (mem_nodes_of s g n).mp hn with rfl | ⟨b1, hb1, hf, rfl⟩
    · exact Or.inl rfl
    · obtain ⟨A1, hA1, hbA1⟩ := (mem_all_blocks g b1).mp hb1
      exact Or.inr ⟨A1, hA1, b1, hbA1, hb1, hf, rfl⟩
  have hbrk := h.2.1
  have hsw := h.2.2.1
  refine ⟨?_, ?_⟩
  · intro a ha b hb
    rcases key a ha with rfl | ⟨A1, hA1, b1, hbA1, hb1, hf1, rfl⟩ <;>
      rcases key b hb with rfl | ⟨A2, hA2, b2, hbA2, hb2, hf2, rfl⟩
    · exact Or.inl rfl
    · have f2 := Heap_block s g h A2 hA2 b2 hbA2
      have := h.2.2.2.2.1 A2 hA2
      omega
    · have f1 := Heap_block s g h A1 hA1 b1 hbA1
      have := h.2.2.2.2.1 A1 hA1
      omega
    · have f1 := Heap_block s g h A1 hA1 b1 hbA1
      have f2 := Heap_block s g h A2 hA2 b2 hbA2
      rcases Heap_disjoint s g h b1 hb1 b2 hb2 with rfl | hd | hd
      · exact Or.inl rfl
      · omega
      · omega
  · intro n hn
    rcases key n hn with rfl | ⟨A1, hA1, b1, hbA1, hb1, hf1, rfl⟩
    · omega
    · have f1 := Heap_block s g h A1 hA1 b1 hbA1
      have := arenas_sorted_bounds _ _ _ h.2.2.2.1 A1 hA1
      omega

/-! ## Frame lemmas -/

theorem Cyc_frame (m m1 : Mem) (l : List Nat)
    (hf : ∀ n ∈ l, ∀ x, n + 16 ≤ x → x < n + 32 → m1 x = m x) (h : Cyc m l) : Cyc m1 l := by
  cases l with
  | nil => trivial
  | cons a r =>
    apply Path_congr m m1 a (r ++ [a]) _ _ h
    · intro n hn
      have hn1 : n ∈ a :: r := by
        have := List.mem_of_mem_dropLast hn
        simp only [List.mem_cons, List.mem_append, List.not_mem_nil, or_false] at this ⊢
        rcases this with h | h | h
        · exact Or.inl h
        · exact Or.inr h
        · exact Or.inl h
      exact get_next_congr (fun x h1 h2 => hf n hn1 x h1 (by omega))
    · intro n hn
      have hn1 : n ∈ a :: r := by
        simp only [List.mem_cons, List.mem_append, List.not_mem_nil, or_false] at hn ⊢
        rcases hn with h | h
        · exact Or.inr h
        · exact Or.inl h
      exact get_prev_congr (fun x h1 h2 => hf n hn1 x (by omega) h2)

/-- A change confined to bytes that are no link bytes keeps the circular list. -/
theorem Cyc_frame_NoLink (m m1 : Mem) (l : List Nat)
    (hf : ∀ x, m1 x = m x ∨ NoLink l x) (h : Cyc m l) : Cyc m1 l := by
  apply Cyc_frame m m1 l _ h
  intro n hn x h1 h2
  rcases hf x with h | h
  · exact h
  · have := h n hn; omega

theorem tags_congr (m m1 : Mem) (p : Nat) (h : ∀ x, p ≤ x → x < p + 12 → m1 x = m x) :
    get_object_size m1 p = get_object_size m p ∧ get_status m1 p = get_status m p :=
  ⟨get_object_size_congr (fun x h1 h2 => h x h1 (by omega)),
    get_status_congr (fun x h1 h2 => h x (by omega) h2)⟩

theorem hdr_ok_congr (m m1 : Mem) (b : Blk)
    (h : ∀ x, b.addr ≤ x → x < b.addr + 12 → m1 x = m x) (hb : hdr_ok m b) : hdr_ok m1 b := by
  obtain ⟨e1, e2⟩ := tags_congr m m1 b.addr h
  exact ⟨e1.trans hb.1, e2.trans hb.2⟩

theorem ftr_ok_congr (m m1 : Mem) (b : Blk)
    (h : ∀ x, b.addr + b.size - 16 ≤ x → x < b.addr + b.size - 16 + 12 → m1 x = m x)
    (hb : ftr_ok m b) : ftr_ok m1 b := by
  obtain ⟨e1, e2⟩ := tags_congr m m1 (b.addr + b.size - 16) h
  exact ⟨e1.trans hb.1, e2.trans hb.2⟩

theorem arenas_sorted_split (lo hi : Nat) (As1 As2 : List Arena) (A : Arena)
    (h : arenas_sorted lo (As1 ++ A :: As2) hi) :
    (∀ B ∈ As1, B.base + 2097248 ≤ A.base) ∧ (∀ B ∈ As2, A.base + 2097248 ≤ B.base) := by
  obtain ⟨mid, h1, h2, h3⟩ := (arenas_sorted_append lo As1 (A :: As2) hi).mp h
  refine ⟨fun B hB => ?_, fun B hB => ?_⟩
  · have := arenas_sorted_bounds _ _ _ h1 B hB; omega
  · have := arenas_sorted_bounds _ _ _ h3 B hB; omega

theorem arenas_sorted_replace (lo hi : Nat) (As1 As2 : List Arena) (A B : Arena)
    (hb : B.base = A.base) (h : arenas_sorted lo (As1 ++ A :: As2) hi) :
    arenas_sorted lo (As1 ++ B :: As2) hi := by
  obtain ⟨mid, h1, h2, h3⟩ := (arenas_sorted_append lo As1 (A :: As2) hi).mp h
  exact (arenas_sorted_append lo As1 (B :: As2) hi).mpr ⟨mid, h1, hb ▸ h2, hb ▸ h3⟩

theorem NoAdjFree_tail (b : Blk) (l : List Blk) (h : NoAdjFree (b :: l)) : NoAdjFree l := by
  cases l with
  | nil => trivial
  | cons c r => exact h.2

/-- Rewriting the blocks `old` of one arena into `new` over the same address
range keeps the heap description, when only bytes of that range and link bytes
of list nodes change and the new free list is in place. -/
theorem Heap_update (s s1 : State) (As1 As2 : List Arena) (base : Nat)
    (pre old new post : List Blk) (lo hi : Nat)
    (hInv : Heap s (As1 ++ ⟨base, pre ++ old ++ post⟩ :: As2))
    (hpre : Chain (base + 16) pre lo) (hold : Chain lo old hi) (hnew : Chain lo new hi)
    (hnewok : ∀ b ∈ new, size_ok b ∧ hdr_ok s1.mem b ∧ ftr_ok s1.mem b)
    (hframe : ∀ x, (x < lo ∨ hi ≤ x) →
      NoLink (nodes_of s (As1 ++ ⟨base, pre ++ old ++ post⟩ :: As2)) x → s1.mem x = s.mem x)
    (hcyc : Cyc s1.mem (nodes_of s1 (As1 ++ ⟨base, pre ++ new ++ post⟩ :: As2)))
    (hbrk : s1.brk = s.brk) (hsent : s1.sentinel = s.sentinel)
    (hfl : s1.free_list = s.free_list) :
    Heap s1 (As1 ++ ⟨base, pre ++ new ++ post⟩ :: As2) := by
  have hInv0 := hInv
  obtain ⟨i1, i2, i3, i4, i5, i6, i7, i8, i9⟩ := hInv
  have hAmem : (⟨base, pre ++ old ++ post⟩ : Arena) ∈ As1 ++ ⟨base, pre ++ old ++ post⟩ :: As2 := by
    simp
  obtain ⟨a1, a2, a3, a4, a5, a6⟩ := i6 _ hAmem
  have hsplit := arenas_sorted_split _ _ _ _ _ i4
  -- geometry of the rewritten range
  have a5' : Chain (base + 16) (pre ++ (old ++ post)) (base + 2097216) := by
    simpa [List.append_assoc] using a5
  obtain ⟨mid1, c1, c2⟩ := (Chain_append _ _ _ _).mp a5'
  have hm1 : mid1 = lo := Chain_unique _ _ _ _ c1 hpre
  subst hm1
  obtain ⟨mid2, c3, c4⟩ := (Chain_append _ _ _ _).mp c2
  have hm2 : mid2 = hi := Chain_unique _ _ _ _ c3 hold
  subst hm2
  have hlo : base + 16 ≤ mid1 := Chain_le _ _ _ hpre
  have hhi : mid2 ≤ base + 2097216 := Chain_le _ _ _ c4
  have hsd := i5 _ hAmem
  simp only at hsd a1 a2 a3 a4
  -- unchanged tags
  have hfr_block : ∀ A ∈ As1 ++ ⟨base, pre ++ old ++ post⟩ :: As2, ∀ b ∈ A.blocks,
      (b.addr + b.size ≤ mid1 ∨ mid2 ≤ b.addr) → hdr_ok s1.mem b ∧ ftr_ok s1.mem b := by
    intro A hA b hb hout
    have f := Heap_block s _ hInv0 A hA b hb
    have hball : b ∈ all_blocks (As1 ++ ⟨base, pre ++ old ++ post⟩ :: As2) :=
      (mem_all_blocks _ b).mpr ⟨A, hA, hb⟩
    refine ⟨hdr_ok_congr s.mem s1.mem b ?_ f.2.2.2.2.1, ftr_ok_congr s.mem s1.mem b ?_ f.2.2.2.2.2⟩
    · intro x h1 h2
      exact hframe x (by omega) (Heap_NoLink_block s _ hInv0 b hball x h1 (by omega) (by omega))
    · intro x h1 h2
      exact hframe x (by omega) (Heap_NoLink_block s _ hInv0 b hball x (by omega) (by omega) (by omega))
  have hfr_fence : ∀ A ∈ As1 ++ ⟨base, pre ++ old ++ post⟩ :: As2,
      (A.base = base ∨ A.base + 2097248 ≤ base ∨ base + 2097248 ≤ A.base) →
      get_object_size s1.mem A.base = 0 ∧ get_status s1.mem A.base = ALLOCATED ∧
      get_object_size s1.mem (A.base + 2097216) = 0 ∧
      get_status s1.mem (A.base + 2097216) = ALLOCATED := by
    intro A hA hpos
    obtain ⟨b1, b2, b3, b4, -⟩ := i6 A hA
    obtain ⟨e1, e2⟩ := tags_congr s.mem s1.mem A.base (fun x h1 h2 =>
      hframe x (by omega) (Heap_NoLink_fence s _ hInv0 A hA x (by omega)))
    obtain ⟨e3, e4⟩ := tags_congr s.mem s1.mem (A.base + 2097216) (fun x h1 h2 =>
      hframe x (by omega) (Heap_NoLink_fence s _ hInv0 A hA x (by omega)))
    exact ⟨e1.trans b1, e2.trans b2, e3.trans b3, e4.trans b4⟩
  have hother : ∀ A ∈ As1 ++ ⟨base, pre ++ old ++ post⟩ :: As2,
      (A.base + 2097248 ≤ base ∨ base + 2097248 ≤ A.base) → arena_ok s1.mem A := by
    intro A hA hpos
    obtain ⟨b1, b2, b3, b4⟩ := hfr_fence A hA (Or.inr hpos)
    obtain ⟨-, -, -, -, b5, b6⟩ := i6 A hA
    refine ⟨b1, b2, b3, b4, b5, ?_⟩
    intro b hb
    have f := Heap_block s _ hInv0 A hA b hb
    have := hfr_block A hA b hb (by omega)
    exact ⟨(b6 b hb).1, this.1, this.2⟩
  refine ⟨hfl.trans (i1.trans hsent.symm), hbrk ▸ i2, hsent ▸ i3, ?_, ?_, ?_, hcyc, ?_, ?_⟩
  · rw [hbrk]; exact arenas_sorted_replace _ _ _ _ ⟨base, pre ++ old ++ post⟩ _ rfl i4
  · intro A hA
    rw [hsent]
    rcases List.mem_append.mp hA with h | h
    · exact i5 A (List.mem_append_left _ h)
    · rcases List.mem_cons.mp h with h | h
      · rw [h]; exact hsd
      · exact i5 A (List.mem_append_right _ (List.mem_cons_of_mem _ h))
  · intro A hA
    rcases List.mem_append.mp hA with h | h
    · exact hother A (List.mem_append_left _ h) (Or.inl (hsplit.1 A h))
    · rcases List.mem_cons.mp h with h | h
      · subst h
        obtain ⟨b1, b2, b3, b4⟩ := hfr_fence _ hAmem (Or.inl rfl)
        refine ⟨b1, b2, b3, b4, ?_, ?_⟩
        · show Chain (base + 16) (pre ++ new ++ post) (base + 2097216)
          rw [List.append_assoc]
          exact (Chain_append _ _ _ _).mpr ⟨mid1, hpre, (Chain_append _ _ _ _).mpr ⟨mid2, hnew, c4⟩⟩
        · intro b hb
          show size_ok b ∧ hdr_ok s1.mem b ∧ ftr_ok s1.mem b
          have hb' : b ∈ pre ∨ b ∈ new ∨ b ∈ post := by
            simp only [List.mem_append] at hb
            rcases hb with (h | h) | h
            · exact Or.inl h
            · exact Or.inr (Or.inl h)
            · exact Or.inr (Or.inr h)
          rcases hb' with h | h | h
          · have hbm : b ∈ (⟨base, pre ++ old ++ post⟩ : Arena).blocks := by
              show b ∈ pre ++ old ++ post
              simp [h]
            have := hfr_block _ hAmem b hbm (Or.inl (Chain_bounds _ _ _ hpre b h).2)
            exact ⟨(a6 b hbm).1, this.1, this.2⟩
          · exact hnewok b h
          · have hbm : b ∈ (⟨base, pre ++ old ++ post⟩ : Arena).blocks := by
              show b ∈ pre ++ old ++ post
              simp [h]
            have := hfr_block _ hAmem b hbm (Or.inr (Chain_bounds _ _ _ c4 b h).1)
            exact ⟨(a6 b hbm).1, this.1, this.2⟩
      · exact hother A (List.mem_append_right _ (List.mem_cons_of_mem _ h)) (Or.inr (hsplit.2 A h))
  · obtain ⟨e1, e2⟩ := tags_congr s.mem s1.mem s.sentinel (fun x h1 h2 =>
      hframe x (by omega) (Heap_NoLink_sentinel s _ hInv0 x (by omega)))
    rw [hsent, e2]; exact i8
  · obtain ⟨e1, e2⟩ := tags_congr s.mem s1.mem s.sentinel (fun x h1 h2 =>
      hframe x (by omega) (Heap_NoLink_sentinel s _ hInv0 x (by omega)))
    rw [hsent, e1]; exact i9

/-! ## List primitives at a position inside the free list -/

theorem mem_rot (n a : Nat) (X Y : List Nat) (c : Nat) :
    n ∈ c :: (Y ++ a :: X) ↔ n ∈ a :: X ++ c :: Y := by
  simp only [List.cons_append, List.mem_cons, List.mem_append, or_assoc, or_comm, or_left_comm]

theorem nodup_rot (a : Nat) (X Y : List Nat) (c : Nat) (h : (a :: X ++ c :: Y).Nodup) :
    (c :: (Y ++ a :: X)).Nodup := by
  have hp : (a :: X ++ c :: Y).Perm (c :: (Y ++ a :: X)) := by
    have := @List.perm_append_comm _ (a :: X) (c :: Y)
    simpa using this
  exact hp.nodup_iff.mp h

/-- `replace_in_list old new` where `old` sits anywhere in the list. -/
theorem replace_in_list_focus (m : Mem) (sent old new : Nat) (X Y : List Nat)
    (hc : Cyc m (sent :: X ++ old :: Y)) (hnd : (sent :: X ++ old :: Y).Nodup)
    (hsep : SepAll (new :: sent :: X ++ old :: Y)) (hnew : new ∉ sent :: X ++ old :: Y)
    (hnz : new ≠ 0) (hlt : ∀ n ∈ new :: sent :: X ++ old :: Y, n < 18446744073709551616) :
    Cyc (replace_in_list old new m) (sent :: X ++ new :: Y) ∧
      (∀ x, NoLink (new :: sent :: X ++ Y) x → replace_in_list old new m x = m x) := by
  have hrot : Cyc m (old :: (Y ++ sent :: X)) := by
    have := (Cyc_rotate _ (sent :: X) (old :: Y)).mp hc
    simpa using this
  have hnd1 := nodup_rot sent X Y old hnd
  obtain ⟨N, r, hNr⟩ : ∃ N r, Y ++ sent :: X = N :: r := by
    cases Y with
    | nil => exact ⟨sent, X, rfl⟩
    | cons y Y => exact ⟨y, Y ++ sent :: X, rfl⟩
  have hmemr : ∀ n, n ∈ N :: r ↔ n ∈ sent :: X ++ Y := by
    intro n; rw [← hNr]
    simp only [List.cons_append, List.mem_cons, List.mem_append, or_assoc, or_comm, or_left_comm]
  rw [hNr] at hrot hnd1
  have hsub : ∀ n ∈ new :: old :: N :: r, n ∈ new :: sent :: X ++ old :: Y := by
    intro n hn
    rcases List.mem_cons.mp hn with h | hn
    · rw [h]; exact List.mem_cons_self _ _
    · apply List.mem_cons_of_mem
      rw [← hNr] at hn
      exact (mem_rot n sent X Y old).mp hn
  obtain ⟨h1, h2⟩ := replace_in_list_cyc m old new N r hrot hnd1
    (SepAll_mono hsep hsub)
    (fun h => hnew ((mem_rot new sent X Y old).mp (hNr ▸ h))) hnz
    (fun n hn => hlt n (by
      rcases List.mem_cons.mp hn with h | hn
      · rw [h]; exact List.mem_cons_self _ _
      · exact hsub n (List.mem_cons_of_mem _ (List.mem_cons_of_mem _ hn))))
  refine ⟨?_, ?_⟩
  · rw [← hNr] at h1
    have := (Cyc_rotate _ (new :: Y) (sent :: X)).mp (by simpa using h1)
    simpa using this
  · intro x hx
    apply h2
    intro n hn
    rcases List.mem_cons.mp hn with h | hn
    · rw [h]; exact hx new (List.mem_cons_self _ _)
    · exact hx n (List.mem_cons_of_mem _ ((hmemr n).mp hn))

/-- `replace_in_list old NULL` where `old` sits anywhere in the list. -/
theorem remove_from_list_focus (m : Mem) (sent old : Nat) (X Y : List Nat)
    (hc : Cyc m (sent :: X ++ old :: Y)) (hnd : (sent :: X ++ old :: Y).Nodup)
    (hsep : SepAll (sent :: X ++ old :: Y))
    (hlt : ∀ n ∈ sent :: X ++ old :: Y, n < 18446744073709551616) :
    Cyc (replace_in_list old NULL m) (sent :: X ++ Y) ∧
      (∀ x, NoLink (sent :: X ++ Y) x → replace_in_list old NULL m x = m x) := by
  have hrot : Cyc m (old :: (Y ++ sent :: X)) := by
    have := (Cyc_rotate _ (sent :: X) (old :: Y)).mp hc
    simpa using this
  have hnd1 := nodup_rot sent X Y old hnd
  obtain ⟨N, r, hNr⟩ : ∃ N r, Y ++ sent :: X = N :: r := by
    cases Y with
    | nil => exact ⟨sent, X, rfl⟩
    | cons y Y => exact ⟨y, Y ++ sent :: X, rfl⟩
  have hmemr : ∀ n, n ∈ N :: r ↔ n ∈ sent :: X ++ Y := by
    intro n; rw [← hNr]
    simp only [List.cons_append, List.mem_cons, List.mem_append, or_assoc, or_comm, or_left_comm]
  rw [hNr] at hrot hnd1
  have hsub : ∀ n ∈ old :: N :: r, n ∈ sent :: X ++ old :: Y := by
    intro n hn
    rw [← hNr] at hn
    exact (mem_rot n sent X Y old).mp hn
  obtain ⟨h1, h2⟩ := remove_from_list_cyc m old N r hrot hnd1 (SepAll_mono hsep hsub)
    (fun n hn => hlt n (hsub n (List.mem_cons_of_mem _ hn)))
  refine ⟨?_, ?_⟩
  · rw [← hNr] at h1
    have := (Cyc_rotate _ Y (sent :: X)).mp h1
    simpa using this
  · intro x hx
    apply h2
    intro n hn
    exact hx n ((hmemr n).mp hn)

/-! ## A heap with some blocks in focus -/

theorem all_blocks_put (As1 : List Arena) (base : Nat) (pre mid post : List Blk)
    (As2 : List Arena) :
    all_blocks (put As1 base pre mid post As2) =
      (all_blocks As1 ++ pre) ++ mid ++ (post ++ all_blocks As2) := by
  simp [put, all_blocks_append, all_blocks, List.append_assoc]

theorem nodes_put (s : State) (As1 : List Arena) (base : Nat) (pre mid post : List Blk)
    (As2 : List Arena) :
    nodes_of s (put As1 base pre mid post As2) =
      s.sentinel :: (free_addrs (all_blocks As1 ++ pre) ++ free_addrs mid ++
        free_addrs (post ++ all_blocks As2)) := by
  simp [nodes_of, all_blocks_put, free_addrs_append, List.append_assoc]

theorem mem_put_arena (As1 : List Arena) (base : Nat) (pre mid post : List Blk)
    (As2 : List Arena) : (⟨base, pre ++ mid ++ post⟩ : Arena) ∈ put As1 base pre mid post As2 := by
  simp [put]

theorem Chain_free_sorted (a : Nat) (l : List Blk) (e : Nat) (h : Chain a l e)
    (hsz : ∀ b ∈ l, 56 ≤ b.size) :
    (free_addrs l).Pairwise (fun x y => x + 56 ≤ y) ∧
      ∀ x ∈ free_addrs l, a ≤ x ∧ x + 56 ≤ e := by
  induction l generalizing a with
  | nil => simp [free_addrs]
  | cons b bs ih =>
    obtain ⟨h1, h2⟩ := h
    obtain ⟨i1, i2⟩ := ih _ h2 (fun c hc => hsz c (List.mem_cons_of_mem _ hc))
    have hb := hsz b (List.mem_cons_self _ _)
    have hle := Chain_le _ _ _ h2
    cases hu : b.used with
    | true =>
      rw [free_addrs_cons_used b bs hu]
      refine ⟨i1, fun x hx => ?_⟩
      have := i2 x hx; omega
    | false =>
      rw [free_addrs_cons_free b bs hu]
      refine ⟨List.pairwise_cons.mpr ⟨fun x hx => ?_, i1⟩, fun x hx => ?_⟩
      · have := i2 x hx; omega
      · rcases List.mem_cons.mp hx with h | h
        · rw [h]; omega
        · have := i2 x h; omega

theorem arenas_free_sorted (lo : Nat) (g : List Arena) (hi : Nat)
    (h : arenas_sorted lo g hi)
    (hok : ∀ A ∈ g, Chain (A.base + 16) A.blocks (A.base + 2097216) ∧
      ∀ b ∈ A.blocks, 56 ≤ b.size) :
    (free_addrs (all_blocks g)).Pairwise (fun x y => x + 56 ≤ y) ∧
      ∀ x ∈ free_addrs (all_blocks g), lo ≤ x ∧ x + 56 ≤ hi := by
  induction g generalizing lo with
  | nil => simp [all_blocks, free_addrs]
  | cons A As ih =>
    obtain ⟨h1, h2⟩ := h
    obtain ⟨i1, i2⟩ := ih _ h2 (fun B hB => hok B (List.mem_cons_of_mem _ hB))
    obtain ⟨c1, c2⟩ := hok A (List.mem_cons_self _ _)
    obtain ⟨j1, j2⟩ := Chain_free_sorted _ _ _ c1 c2
    have hle := arenas_sorted_le _ _ _ h2
    have e : free_addrs (all_blocks (A :: As)) =
        free_addrs A.blocks ++ free_addrs (all_blocks As) := by
      simp [all_blocks, free_addrs_append]
    rw [e]
    refine ⟨List.pairwise_append.mpr ⟨j1, i1, fun x hx y hy => ?_⟩, fun x hx => ?_⟩
    · have := j2 x hx; have := i2 y hy; omega
    · rcases List.mem_append.mp hx with h | h
      · have := j2 x h; omega
      · have := i2 x h; omega

theorem Heap_sorted (s : State) (g : List Arena) (h : Heap s g) :
    (free_addrs (all_blocks g)).Pairwise (fun x y => x + 56 ≤ y) := by
  refine (arenas_free_sorted 0 g s.brk h.2.2.2.1 (fun A hA => ?_)).1
  obtain ⟨-, -, -, -, c1, c2⟩ := h.2.2.2.2.2.1 A hA
  exact ⟨c1, fun b hb => (c2 b hb).1.1⟩

theorem Heap_nodup (s : State) (g : List Arena) (h : Heap s g) : (nodes_of s g).Nodup := by
  apply List.nodup_cons.mpr
  refine ⟨?_, ?_⟩
  · intro hmem
    obtain ⟨b, hb, -, hba⟩ := (mem_free_addrs _ _).mp hmem
    obtain ⟨A, hA, hbA⟩ := (mem_all_blocks g b).mp hb
    have f := Heap_block s g h A hA b hbA
    have := h.2.2.2.2.1 A hA
    omega
  · exact (Heap_sorted s g h).imp (fun hxy => by omega)

/-- A 32-byte window inside a block, at its start or past its link fields, is
apart from every list node. -/
theorem Heap_sep_inside (s : State) (g : List Arena) (h : Heap s g) (b : Blk)
    (hb : b ∈ all_blocks g) (n : Nat) (h1 : b.addr ≤ n) (h2 : n + 32 ≤ b.addr + b.size)
    (h3 : n = b.addr ∨ b.addr + 32 ≤ n) :
    ∀ k ∈ nodes_of s g, k = n ∨ k + 32 ≤ n ∨ n + 32 ≤ k := by
  intro k hk
  rcases (mem_nodes_of s g k).mp hk with rfl | ⟨b1, hb1, hf, rfl⟩
  · obtain ⟨A, hA, hbA⟩ := (mem_all_blocks g b).mp hb
    have f := Heap_block s g h A hA b hbA
    have := h.2.2.2.2.1 A hA
    omega
  · obtain ⟨A1, hA1, hbA1⟩ := (mem_all_blocks g b1).mp hb1
    have f1 := Heap_block s g h A1 hA1 b1 hbA1
    rcases Heap_disjoint s g h b hb b1 hb1 with rfl | hd | hd
    · omega
    · omega
    · omega

/-- Geometry of the blocks in focus. -/
theorem Heap_focus (s : State) (As1 As2 : List Arena) (base : Nat) (pre mid post : List Blk)
    (h : Heap s (put As1 base pre mid post As2)) :
    ∃ lo hi, Chain (base + 16) pre lo ∧ Chain lo mid hi ∧ Chain hi post (base + 2097216) ∧
      base + 16 ≤ lo ∧ lo ≤ hi ∧ hi ≤ base + 2097216 ∧
      base + 2097248 ≤ 18446744073709551616 ∧
      (s.sentinel + 32 ≤ base ∨ base + 2097248 ≤ s.sentinel) ∧
      (∀ b ∈ all_blocks As1 ++ pre, b.addr + b.size ≤ lo ∧ 56 ≤ b.size) ∧
      (∀ b ∈ post ++ all_blocks As2, hi ≤ b.addr ∧ 56 ≤ b.size) := by
  have hAmem := mem_put_arena As1 base pre mid post As2
  obtain ⟨i1, i2, i3, i4, i5, i6, i7, i8, i9⟩ := h
  obtain ⟨-, -, -, -, a5, a6⟩ := i6 _ hAmem
  have a5' : Chain (base + 16) (pre ++ (mid ++ post)) (base + 2097216) := by
    simpa [List.append_assoc] using a5
  obtain ⟨lo, c1, c2⟩ := (Chain_append _ _ _ _).mp a5'
  obtain ⟨hi, c3, c4⟩ := (Chain_append _ _ _ _).mp c2
  have hsplit := arenas_sorted_split _ _ _ _ _ i4
  have hb := arenas_sorted_bounds _ _ _ i4 _ hAmem
  simp only at hb
  refine ⟨lo, hi, c1, c3, c4, Chain_le _ _ _ c1, Chain_le _ _ _ c3, Chain_le _ _ _ c4,
    by omega, i5 _ hAmem, ?_, ?_⟩
  · intro b hb
    rcases List.mem_append.mp hb with hb | hb
    · obtain ⟨A, hA, hbA⟩ := (mem_all_blocks As1 b).mp hb
      have hAg : A ∈ put As1 base pre mid post As2 := List.mem_append_left _ hA
      obtain ⟨-, -, -, -, d5, d6⟩ := i6 A hAg
      have := Chain_bounds _ _ _ d5 b hbA
      have hsp := hsplit.1 A hA
      simp only at hsp
      have := Chain_le _ _ _ c1
      exact ⟨by omega, (d6 b hbA).1.1⟩
    · have := Chain_bounds _ _ _ c1 b hb
      exact ⟨this.2, (a6 b (by simp [hb])).1.1⟩
  · intro b hb
    rcases List.mem_append.mp hb with hb | hb
    · have := Chain_bounds _ _ _ c4 b hb
      exact ⟨this.1, (a6 b (by simp [hb])).1.1⟩
    · obtain ⟨A, hA, hbA⟩ := (mem_all_blocks As2 b).mp hb
      have hAg : A ∈ put As1 base pre mid post As2 :=
        List.mem_append_right _ (List.mem_cons_of_mem _ hA)
      obtain ⟨-, -, -, -, d5, d6⟩ := i6 A hAg
      have := Chain_bounds _ _ _ d5 b hbA
      have hsp := hsplit.2 A hA
      simp only at hsp
      have := Chain_le _ _ _ c4
      exact ⟨by omega, (d6 b hbA).1.1⟩

theorem mem_all_blocks_put (As1 : List Arena) (base : Nat) (pre mid post : List Blk)
    (As2 : List Arena) (b : Blk) (hb : b ∈ mid) :
    b ∈ all_blocks (put As1 base pre mid post As2) := by
  rw [all_blocks_put]; simp [hb]

theorem Heap_block_put (s : State) (As1 As2 : List Arena) (base : Nat)
    (pre mid post : List Blk) (h : Heap s (put As1 base pre mid post As2)) (b : Blk)
    (hb : b ∈ mid) :
    base + 16 ≤ b.addr ∧ b.addr + b.size ≤ base + 2097216 ∧ 56 ≤ b.size ∧
      b.size % 8 = 0 ∧ hdr_ok s.mem b ∧ ftr_ok s.mem b :=
  Heap_block s _ h _ (mem_put_arena As1 base pre mid post As2) b (by simp [hb])

/-! ## The allocate path on a heap -/

/-- The boundary tags written by a split. -/
theorem split_mem (m : Mem) (b T S : Nat) (hT : 56 ≤ T) (hS : T + 56 ≤ S)
    (hlt : b + S ≤ 18446744073709551616) :
    ∀ m8, m8 = set_status (set_object_size (set_status (set_object_size (set_status
        (set_object_size (set_status (set_object_size m (b + T) (S - T)) (b + T) 0)
        (b + T - 16) T) (b + T - 16) 1) (b + S - 16) (S - T)) (b + S - 16) 0) b T) b 1 →
    (get_object_size m8 b = T ∧ get_status m8 b = 1) ∧
    (get_object_size m8 (b + T - 16) = T ∧ get_status m8 (b + T - 16) = 1) ∧
    (get_object_size m8 (b + T) = S - T ∧ get_status m8 (b + T) = 0) ∧
    (get_object_size m8 (b + S - 16) = S - T ∧ get_status m8 (b + S - 16) = 0) ∧
    (∀ x, m8 x = m x ∨ (b ≤ x ∧ x < b + S ∧ (x < b + 16 ∨ b + 32 ≤ x) ∧
      (x < b + T + 16 ∨ b + T + 32 ≤ x))) := by
  intro m8 hm
  subst hm
  refine ⟨⟨?_, ?_⟩, ⟨?_, ?_⟩, ⟨?_, ?_⟩, ⟨?_, ?_⟩, ?_⟩
  iterate 8
    simp (disch := omega) only [set_object_size, set_status, get_object_size_writeN,
      get_status_writeN, get_object_size_same, get_status_same]
  intro x
  by_cases hx : (b ≤ x ∧ x < b + 12) ∨ (b + T - 16 ≤ x ∧ x < b + T + 12) ∨
      (b + S - 16 ≤ x ∧ x < b + S - 4)
  · right; omega
  · left
    simp only [set_object_size, set_status]
    rw [writeN_out _ _ _ _ _ (by omega), writeN_out _ _ _ _ _ (by omega),
      writeN_out _ _ _ _ _ (by omega), writeN_out _ _ _ _ _ (by omega),
      writeN_out _ _ _ _ _ (by omega), writeN_out _ _ _ _ _ (by omega),
      writeN_out _ _ _ _ _ (by omega), writeN_out _ _ _ _ _ (by omega)]

theorem int_of_size_small (n : Nat) (h : n < 2147483648) : int_of_size n = n := by
  unfold int_of_size
  have : n % 2 ^ 32 = n := Nat.mod_eq_of_lt (by omega)
  rw [this, if_pos (by norm_num; exact h)]

theorem allocate_from_split_eq (s : State) (T b S : Nat) (hfit : T + 56 ≤ S)
    (hS : S < 2147483648) :
    allocate_from s T b S = (b + 32, { s with mem := (replace_in_list b (b + T)
      (set_status (set_object_size (set_status (set_object_size (set_status
        (set_object_size (set_status (set_object_size s.mem (b + T) (S - T)) (b + T) 0)
        (b + T - 16) T) (b + T - 16) 1) (b + S - 16) (S - T)) (b + S - 16) 0) b T) b 1)) }) := by
  have h1 : (T + HDR + FTR + MINIMUM_SIZE) % WORD = T + 56 := by
    show (T + 32 + 16 + 8) % 18446744073709551616 = T + 56
    rw [Nat.mod_eq_of_lt (by omega)]
  have h2 : (S + WORD - T) % WORD = S - T := by
    show (S + 18446744073709551616 - T) % 18446744073709551616 = S - T
    have : S + 18446744073709551616 - T = (S - T) + 18446744073709551616 := by omega
    rw [this, Nat.add_mod_right, Nat.mod_eq_of_lt (by omega)]
  unfold allocate_from
  rw [h1, if_pos (by omega)]
  simp only [h2]

theorem mem_skip (n a c : Nat) (X Y : List Nat) (h : n ∈ a :: X ++ Y) :
    n ∈ a :: X ++ c :: Y := by
  simp only [List.cons_append, List.mem_cons, List.mem_append] at h ⊢
  rcases h with h | h | h
  · exact Or.inl h
  · exact Or.inr (Or.inl h)
  · exact Or.inr (Or.inr (Or.inr h))

theorem SepAll_cons (n : Nat) (l : List Nat) (h : SepAll l)
    (hn : ∀ k ∈ l, k = n ∨ k + 32 ≤ n ∨ n + 32 ≤ k) : SepAll (n :: l) := by
  intro a ha b hb
  rcases List.mem_cons.mp ha with e1 | ha <;> rcases List.mem_cons.mp hb with e2 | hb
  · left; rw [e1, e2]
  · rw [e1]; have := hn b hb; omega
  · rw [e2]; have := hn a ha; omega
  · exact h a ha b hb

/-- An address strictly inside a block is no list node. -/
theorem Heap_inside_not_node (s : State) (g : List Arena) (h : Heap s g) (b : Blk)
    (hb : b ∈ all_blocks g) (n : Nat) (h1 : b.addr < n) (h2 : n < b.addr + b.size) :
    n ∉ nodes_of s g := by
  intro hk
  rcases (mem_nodes_of s g n).mp hk with rfl | ⟨b1, hb1, hf, rfl⟩
  · obtain ⟨A, hA, hbA⟩ := (mem_all_blocks g b).mp hb
    have f := Heap_block s g h A hA b hbA
    have := h.2.2.2.2.1 A hA
    omega
  · obtain ⟨A1, hA1, hbA1⟩ := (mem_all_blocks g b1).mp hb1
    have f1 := Heap_block s g h A1 hA1 b1 hbA1
    rcases Heap_disjoint s g h b hb b1 hb1 with rfl | hd | hd
    · omega
    · omega
    · omega

/-- The header address of an allocated block is no list node. -/
theorem Heap_used_not_node (s : State) (g : List Arena) (h : Heap s g) (b : Blk)
    (hb : b ∈ all_blocks g) (hu : b.used = true) : b.addr ∉ nodes_of s g := by
  intro hk
  rcases (mem_nodes_of s g b.addr).mp hk with e | ⟨b1, hb1, hf, e⟩
  · obtain ⟨A, hA, hbA⟩ := (mem_all_blocks g b).mp hb
    have f := Heap_block s g h A hA b hbA
    have := h.2.2.2.2.1 A hA
    omega
  · obtain ⟨A1, hA1, hbA1⟩ := (mem_all_blocks g b1).mp hb1
    have f1 := Heap_block s g h A1 hA1 b1 hbA1
    obtain ⟨A, hA, hbA⟩ := (mem_all_blocks g b).mp hb
    have f := Heap_block s g h A hA b hbA
    rcases Heap_disjoint s g h b hb b1 hb1 with e1 | hd | hd
    · rw [e1, hf] at hu; cases hu
    · omega
    · omega

theorem tags_transfer (m m1 : Mem) (p v w : Nat)
    (h : ∀ x, p ≤ x → x < p + 12 → m1 x = m x)
    (h1 : get_object_size m p = v ∧ get_status m p = w) :
    get_object_size m1 p = v ∧ get_status m1 p = w := by
  obtain ⟨e1, e2⟩ := tags_congr m m1 p h
  exact ⟨e1.trans h1.1, e2.trans h1.2⟩

theorem free_addrs_one_free (b : Blk) (h : b.used = false) : free_addrs [b] = [b.addr] := by
  simp [free_addrs, h]

theorem free_addrs_one_used (b : Blk) (h : b.used = true) : free_addrs [b] = [] := by
  simp [free_addrs, h]

/-- Splitting the free block `b` for a request of total size `T`. -/
theorem alloc_split (s : State) (As1 As2 : List Arena) (base : Nat) (pre post : List Blk)
    (b : Blk) (T : Nat) (hH : Heap s (put As1 base pre [b] post As2))
    (hfree : b.used = false) (hT : 56 ≤ T) (hT8 : T % 8 = 0) (hfit : T + 56 ≤ b.size) :
    ∃ m9, allocate_from s T b.addr b.size = (b.addr + 32, { s with mem := m9 }) ∧
      Heap { s with mem := m9 } (put As1 base pre
        [⟨b.addr, T, true⟩, ⟨b.addr + T, b.size - T, false⟩] post As2) ∧
      (∀ x, (x < b.addr ∨ b.addr + b.size ≤ x) →
        NoLink (nodes_of s (put As1 base pre [b] post As2)) x → m9 x = s.mem x) := by
  have hbm : b ∈ all_blocks (put As1 base pre [b] post As2) :=
    mem_all_blocks_put _ _ _ _ _ _ b (by simp)
  have fb := Heap_block_put s As1 As2 base pre [b] post hH b (by simp)
  obtain ⟨lo, hi, c1, c2, c3, g1, g2, g3, g4, g5, g6, g7⟩ := Heap_focus s As1 As2 base pre [b] post hH
  obtain ⟨c2a, c2b⟩ := c2
  have c2b : lo + b.size = hi := c2b
  have hnodes := nodes_put s As1 base pre [b] post As2
  rw [free_addrs_one_free b hfree] at hnodes
  generalize hX : free_addrs (all_blocks As1 ++ pre) = X at hnodes
  generalize hY : free_addrs (post ++ all_blocks As2) = Y at hnodes
  have hS : b.size < 2147483648 := by omega
  rw [allocate_from_split_eq s T b.addr b.size hfit hS]
  obtain ⟨t1, t2, t3, t4, t5⟩ := split_mem s.mem b.addr T b.size hT hfit (by omega) _ rfl
  generalize set_status (set_object_size (set_status (set_object_size (set_status
        (set_object_size (set_status (set_object_size s.mem (b.addr + T) (b.size - T))
        (b.addr + T) 0) (b.addr + T - 16) T) (b.addr + T - 16) 1) (b.addr + b.size - 16)
        (b.size - T)) (b.addr + b.size - 16) 0) b.addr T) b.addr 1 = m8 at *
  have hcyc0 : Cyc s.mem (nodes_of s (put As1 base pre [b] post As2)) := hH.2.2.2.2.2.2.1
  have hcyc8 : Cyc m8 (nodes_of s (put As1 base pre [b] post As2)) :=
    Cyc_frame_NoLink s.mem m8 _ (fun x => (t5 x).imp id (fun hx =>
      Heap_NoLink_block s _ hH b hbm x hx.1 hx.2.1 (Or.inr hx.2.2.1))) hcyc0
  have hnd := Heap_nodup s _ hH
  obtain ⟨hsep, hlt⟩ := Heap_nodes s _ hH
  have hnotnode := Heap_inside_not_node s _ hH b hbm (b.addr + T) (by omega) (by omega)
  have hsepnew := Heap_sep_inside s _ hH b hbm (b.addr + T) (by omega) (by omega)
    (Or.inr (by omega))
  rw [hnodes] at hcyc8 hnd hsep hlt hnotnode hsepnew
  have hl : s.sentinel :: (X ++ [b.addr] ++ Y) = s.sentinel :: X ++ b.addr :: Y := by simp
  rw [hl] at hcyc8 hnd hsep hlt hnotnode hsepnew
  obtain ⟨r1, r2⟩ := replace_in_list_focus m8 s.sentinel b.addr (b.addr + T) X Y hcyc8 hnd
    (SepAll_cons _ _ hsep hsepnew) hnotnode (by omega)
    (fun n hn => by
      rcases List.mem_cons.mp hn with h | h
      · rw [h]; omega
      · exact hlt n h)
  refine ⟨_, rfl, ?_, ?_⟩
  · -- bytes of the block outside the link fields of old and new node
    have hNL : ∀ x, b.addr ≤ x → x < b.addr + b.size → (x < b.addr + 16 ∨ b.addr + 32 ≤ x) →
        (x < b.addr + T + 16 ∨ b.addr + T + 32 ≤ x) →
        NoLink ((b.addr + T) :: s.sentinel :: X ++ Y) x := by
      intro x h1 h2 h3 h4 n hn
      rcases List.mem_cons.mp hn with h | h
      · rw [h]; exact h4
      · apply Heap_NoLink_block s _ hH b hbm x h1 h2 (Or.inr h3) n
        rw [hnodes, hl]
        exact mem_skip _ _ _ _ _ h
    apply Heap_update s _ As1 As2 base pre [b] _ post lo hi hH c1 ⟨c2a, c2b⟩
    · exact ⟨c2a, by show b.addr + T = lo + T; omega, by show lo + T + (b.size - T) = hi; omega⟩
    · intro c hc
      simp only [List.mem_cons, List.mem_singleton, List.not_mem_nil, or_false] at hc
      rcases hc with rfl | rfl
      · refine ⟨⟨hT, hT8⟩, ?_, ?_⟩
        · exact tags_transfer m8 _ b.addr T 1 (fun x h1 h2 =>
            r2 x (hNL x h1 (by omega) (by omega) (by omega))) t1
        · show get_object_size _ (b.addr + T - 16) = T ∧ get_status _ (b.addr + T - 16) = 1
          exact tags_transfer m8 _ (b.addr + T - 16) T 1 (fun x h1 h2 =>
            r2 x (hNL x (by omega) (by omega) (by omega) (by omega))) t2
      · refine ⟨⟨by show 56 ≤ b.size - T; omega, by show (b.size - T) % 8 = 0; omega⟩, ?_, ?_⟩
        · exact tags_transfer m8 _ (b.addr + T) (b.size - T) 0 (fun x h1 h2 =>
            r2 x (hNL x (by omega) (by omega) (by omega) (by omega))) t3
        · show get_object_size _ (b.addr + T + (b.size - T) - 16) = b.size - T ∧
            get_status _ (b.addr + T + (b.size - T) - 16) = 0
          have e : b.addr + T + (b.size - T) - 16 = b.addr + b.size - 16 := by omega
          rw [e]
          exact tags_transfer m8 _ (b.addr + b.size - 16) (b.size - T) 0 (fun x h1 h2 =>
            r2 x (hNL x (by omega) (by omega) (by omega) (by omega))) t4
    · intro x hx hnl
      show replace_in_list b.addr (b.addr + T) m8 x = s.mem x
      rw [r2 x ?_]
      · rcases t5 x with h | h
        · exact h
        · omega
      · intro n hn
        rcases List.mem_cons.mp hn with h | h
        · rw [h]; omega
        · apply hnl n
          show n ∈ nodes_of s (put As1 base pre [b] post As2)
          rw [hnodes, hl]
          exact mem_skip _ _ _ _ _ h
    · show Cyc _ (nodes_of _ (put As1 base pre _ post As2))
      rw [nodes_put, hX, hY]
      have : free_addrs [(⟨b.addr, T, true⟩ : Blk), ⟨b.addr + T, b.size - T, false⟩]
          = [b.addr + T] := by simp [free_addrs]
      rw [this]
      simpa using r1
    · rfl
    · rfl
    · rfl
  · intro x hx hnl
    show replace_in_list b.addr (b.addr + T) m8 x = s.mem x
    rw [r2 x ?_]
    · rcases t5 x with h | h
      · exact h
      · omega
    · intro n hn
      rcases List.mem_cons.mp hn with h | h
      · rw [h]; omega
      · apply hnl n
        rw [hnodes, hl]
        exact mem_skip _ _ _ _ _ h

theorem allocate_from_whole_eq (s : State) (T b S : Nat) (hfit : S < T + 56)
    (hT : T < 2147483648) :
    allocate_from s T b S = (b + 32, { s with mem :=
      (set_object_size (set_status (replace_in_list b NULL (set_status s.mem b 1))
        (b + get_object_size (replace_in_list b NULL (set_status s.mem b 1)) b - 16) 1)
        (b + get_object_size (replace_in_list b NULL (set_status s.mem b 1)) b - 16)
        (get_object_size (set_status (replace_in_list b NULL (set_status s.mem b 1))
          (b + get_object_size (replace_in_list b NULL (set_status s.mem b 1)) b - 16) 1)
          b)) }) := by
  have h1 : (T + HDR + FTR + MINIMUM_SIZE) % WORD = T + 56 := by
    show (T + 32 + 16 + 8) % 18446744073709551616 = T + 56
    rw [Nat.mod_eq_of_lt (by omega)]
  unfold allocate_from
  rw [h1, if_neg (by omega)]

/-- The footer written when a block is handed out whole. -/
theorem whole_mem (m2 : Mem) (b S : Nat) (hsz : get_object_size m2 b = S) (hS : 56 ≤ S)
    (hlt : S < 18446744073709551616) :
    ∀ m4, m4 = set_object_size (set_status m2 (b + get_object_size m2 b - 16) 1)
        (b + get_object_size m2 b - 16)
        (get_object_size (set_status m2 (b + get_object_size m2 b - 16) 1) b) →
    (get_object_size m4 (b + S - 16) = S ∧ get_status m4 (b + S - 16) = 1) ∧
    (get_object_size m4 b = S ∧ get_status m4 b = get_status m2 b) ∧
    (∀ x, m4 x = m2 x ∨ (b + S - 16 ≤ x ∧ x < b + S - 4)) := by
  intro m4 hm
  rw [hsz] at hm
  have e : get_object_size (set_status m2 (b + S - 16) 1) b = S := by
    rw [← hsz]
    simp (disch := omega) only [set_status, get_object_size_writeN]
  rw [e] at hm
  subst hm
  refine ⟨⟨?_, ?_⟩, ⟨?_, ?_⟩, ?_⟩
  · simp (disch := omega) only [set_object_size, set_status, get_object_size_same]
  · simp (disch := omega) only [set_object_size, set_status, get_status_writeN, get_status_same]
  · rw [← hsz]
    simp (disch := omega) only [set_object_size, set_status, get_object_size_writeN]
  · simp (disch := omega) only [set_object_size, set_status, get_status_writeN]
  · intro x
    by_cases hx : b + S - 16 ≤ x ∧ x < b + S - 4
    · right; exact hx
    · left
      simp only [set_object_size, set_status]
      rw [writeN_out _ _ _ _ _ (by omega), writeN_out _ _ _ _ _ (by omega)]

/-- Handing out the free block `b` whole. -/
theorem alloc_whole (s : State) (As1 As2 : List Arena) (base : Nat) (pre post : List Blk)
    (b : Blk) (T : Nat) (hH : Heap s (put As1 base pre [b] post As2))
    (hfree : b.used = false) (hT : T ≤ b.size) (hfit : b.size < T + 56) :
    ∃ m4, allocate_from s T b.addr b.size = (b.addr + 32, { s with mem := m4 }) ∧
      Heap { s with mem := m4 } (put As1 base pre [⟨b.addr, b.size, true⟩] post As2) ∧
      (∀ x, (x < b.addr ∨ b.addr + b.size ≤ x) →
        NoLink (nodes_of s (put As1 base pre [b] post As2)) x → m4 x = s.mem x) := by
  have hbm : b ∈ all_blocks (put As1 base pre [b] post As2) :=
    mem_all_blocks_put _ _ _ _ _ _ b (by simp)
  have fb := Heap_block_put s As1 As2 base pre [b] post hH b (by simp)
  obtain ⟨lo, hi, c1, c2, c3, g1, g2, g3, g4, g5, g6, g7⟩ := Heap_focus s As1 As2 base pre [b] post hH
  obtain ⟨c2a, c2b⟩ := c2
  have c2b : lo + b.size = hi := c2b
  have hnodes := nodes_put s As1 base pre [b] post As2
  rw [free_addrs_one_free b hfree] at hnodes
  generalize hX : free_addrs (all_blocks As1 ++ pre) = X at hnodes
  generalize hY : free_addrs (post ++ all_blocks As2) = Y at hnodes
  rw [allocate_from_whole_eq s T b.addr b.size hfit (by omega)]
  -- the header status
  have hm1 : ∀ x, set_status s.mem b.addr 1 x = s.mem x ∨ (b.addr + 8 ≤ x ∧ x < b.addr + 12) := by
    intro x
    by_cases hx : b.addr + 8 ≤ x ∧ x < b.addr + 12
    · exact Or.inr hx
    · left; exact writeN_out _ _ _ _ _ (by omega)
  have hs1 : get_object_size (set_status s.mem b.addr 1) b.addr = b.size ∧
      get_status (set_status s.mem b.addr 1) b.addr = 1 := by
    refine ⟨?_, ?_⟩
    · rw [← fb.2.2.2.2.1.1]
      simp (disch := omega) only [set_status, get_object_size_writeN]
    · simp (disch := omega) only [set_status, get_status_same]
  generalize set_status s.mem b.addr 1 = m1 at *
  have hcyc0 : Cyc s.mem (nodes_of s (put As1 base pre [b] post As2)) := hH.2.2.2.2.2.2.1
  have hcyc1 : Cyc m1 (nodes_of s (put As1 base pre [b] post As2)) :=
    Cyc_frame_NoLink s.mem m1 _ (fun x => (hm1 x).imp id (fun hx =>
      Heap_NoLink_block s _ hH b hbm x (by omega) (by omega) (Or.inr (by omega)))) hcyc0
  have hnd := Heap_nodup s _ hH
  obtain ⟨hsep, hlt⟩ := Heap_nodes s _ hH
  rw [hnodes] at hcyc1 hnd hsep hlt
  have hl : s.sentinel :: (X ++ [b.addr] ++ Y) = s.sentinel :: X ++ b.addr :: Y := by simp
  rw [hl] at hcyc1 hnd hsep hlt
  obtain ⟨r1, r2⟩ := remove_from_list_focus m1 s.sentinel b.addr X Y hcyc1 hnd hsep hlt
  have hNL : ∀ x, b.addr ≤ x → x < b.addr + b.size → (x < b.addr + 16 ∨ b.addr + 32 ≤ x) →
      NoLink (s.sentinel :: X ++ Y) x := by
    intro x h1 h2 h3 n hn
    apply Heap_NoLink_block s _ hH b hbm x h1 h2 (Or.inr h3) n
    rw [hnodes, hl]
    exact mem_skip _ _ _ _ _ hn
  have hs2 := tags_transfer m1 (replace_in_list b.addr NULL m1) b.addr b.size 1
    (fun x h1 h2 => r2 x (hNL x h1 (by omega) (by omega))) hs1
  generalize replace_in_list b.addr NULL m1 = m2 at *
  obtain ⟨w1, w2, w3⟩ := whole_mem m2 b.addr b.size hs2.1 fb.2.2.1 (by omega) _ rfl
  generalize set_object_size (set_status m2 (b.addr + get_object_size m2 b.addr - 16) 1)
        (b.addr + get_object_size m2 b.addr - 16)
        (get_object_size (set_status m2 (b.addr + get_object_size m2 b.addr - 16) 1) b.addr)
        = m4 at *
  have hfr : ∀ x, (x < b.addr ∨ b.addr + b.size ≤ x) →
      NoLink (nodes_of s (put As1 base pre [b] post As2)) x → m4 x = s.mem x := by
    intro x hx hnl
    rcases w3 x with h | h
    · rw [h, r2 x ?_]
      · rcases hm1 x with h | h
        · exact h
        · omega
      · intro n hn
        apply hnl n
        rw [hnodes, hl]
        exact mem_skip _ _ _ _ _ hn
    · omega
  refine ⟨_, rfl, ?_, hfr⟩
  apply Heap_update s _ As1 As2 base pre [b] _ post lo hi hH c1 ⟨c2a, c2b⟩
  · exact ⟨c2a, c2b⟩
  · intro c hc
    simp only [List.mem_singleton] at hc
    subst hc
    exact ⟨⟨fb.2.2.1, fb.2.2.2.1⟩, ⟨w2.1, w2.2.trans hs2.2⟩, w1⟩
  · intro x hx hnl
    exact hfr x (by omega) hnl
  · show Cyc m4 (nodes_of _ (put As1 base pre _ post As2))
    rw [nodes_put, hX, hY]
    have : free_addrs [(⟨b.addr, b.size, true⟩ : Blk)] = [] := by simp [free_addrs]
    rw [this]
    have r1' : Cyc m4 (s.sentinel :: X ++ Y) :=
      Cyc_frame_NoLink m2 m4 _ (fun x => (w3 x).imp id (fun hx =>
        hNL x (by omega) (by omega) (by omega))) r1
    simpa using r1'
  · rfl
  · rfl
  · rfl

/-! ## The search loop of `allocate_object` -/

theorem allocate_loop_succ (fuel rounded_size : Nat) (s : State) (free_list_object0 : Nat) :
    allocate_loop (fuel + 1) rounded_size s free_list_object0 =
    (let free_list_object := get_next s.mem free_list_object0
    if free_list_object = s.sentinel then
      some Search.exhausted
    else
      let free_space := int_of_size (get_object_size s.mem free_list_object)
      if free_space ≥ rounded_size then
        let r := allocate_from s rounded_size free_list_object free_space
        some (Search.found r.1 r.2)
      else if free_list_object ≠ s.free_list then
        allocate_loop fuel rounded_size s free_list_object
      else
        some Search.exhausted) := rfl

/-- The search passes over members that are too small. -/
theorem allocate_loop_skip (s : State) (T : Nat) (todo : List Nat) :
    ∀ (done rest : List Nat) (fuel : Nat),
    s.free_list = s.sentinel →
    Cyc s.mem (s.sentinel :: (done ++ todo) ++ rest) →
    (s.sentinel :: (done ++ todo) ++ rest).Nodup →
    (∀ x ∈ todo, int_of_size (get_object_size s.mem x) < T) →
    allocate_loop (fuel + todo.length) T s (lastOf s.sentinel done) =
      allocate_loop fuel T s (lastOf s.sentinel (done ++ todo)) := by
  induction todo with
  | nil => intro done rest fuel _ _ _ _; simp
  | cons x todo ih =>
    intro done rest fuel hfl hc hnd hsm
    have hc1 : Cyc s.mem (s.sentinel :: done ++ x :: (todo ++ rest)) := by
      simpa [List.append_assoc] using hc
    have hnx := (Cyc_next_mid s.mem s.sentinel done x (todo ++ rest) hc1).1
    have hxs : x ≠ s.sentinel := by
      intro h
      apply (List.nodup_cons.mp hnd).1
      simp [h]
    have hxf : x ≠ s.free_list := hfl ▸ hxs
    have hlt : ¬ int_of_size (get_object_size s.mem x) ≥ T := by
      have := hsm x (List.mem_cons_self _ _); omega
    have e0 : fuel + (x :: todo).length = (fuel + todo.length) + 1 := by simp; omega
    rw [e0, allocate_loop_succ]
    dsimp only
    rw [hnx, if_neg hxs, if_neg hlt, if_pos hxf]
    have e1 : (done ++ x :: todo) = (done ++ [x]) ++ todo := by simp
    have e2 : x = lastOf s.sentinel (done ++ [x]) := (lastOf_snoc _ _ _).symm
    rw [e1] at hc hnd ⊢
    rw [← ih (done ++ [x]) rest fuel hfl hc hnd (fun y hy => hsm y (List.mem_cons_of_mem _ hy)),
      ← e2]

/-- The search fails when every member is too small. -/
theorem allocate_loop_exhausted (s : State) (T : Nat) (l : List Nat) (fuel : Nat)
    (hfl : s.free_list = s.sentinel) (hc : Cyc s.mem (s.sentinel :: l))
    (hnd : (s.sentinel :: l).Nodup)
    (hsm : ∀ x ∈ l, int_of_size (get_object_size s.mem x) < T) (hf : l.length < fuel) :
    allocate_loop fuel T s s.sentinel = some Search.exhausted := by
  obtain ⟨k, rfl⟩ : ∃ k, fuel = (k + 1) + l.length := ⟨fuel - l.length - 1, by omega⟩
  have := allocate_loop_skip s T l [] [] (k + 1) hfl (by simpa using hc) (by simpa using hnd) hsm
  simp only [lastOf, List.nil_append] at this
  rw [this, allocate_loop_succ]
  dsimp only
  rw [(Cyc_next_last s.mem s.sentinel l hc).1, if_pos rfl]

/-- The search stops at the first member that is large enough. -/
theorem allocate_loop_found (s : State) (T : Nat) (l1 : List Nat) (b : Nat) (l2 : List Nat)
    (fuel : Nat) (hfl : s.free_list = s.sentinel) (hc : Cyc s.mem (s.sentinel :: l1 ++ b :: l2))
    (hnd : (s.sentinel :: l1 ++ b :: l2).Nodup)
    (hsm : ∀ x ∈ l1, int_of_size (get_object_size s.mem x) < T)
    (hfit : T ≤ int_of_size (get_object_size s.mem b)) (hf : l1.length < fuel) :
    allocate_loop fuel T s s.sentinel =
      some (Search.found (allocate_from s T b (int_of_size (get_object_size s.mem b))).1
        (allocate_from s T b (int_of_size (get_object_size s.mem b))).2) := by
  obtain ⟨k, rfl⟩ : ∃ k, fuel = (k + 1) + l1.length := ⟨fuel - l1.length - 1, by omega⟩
  have := allocate_loop_skip s T l1 [] (b :: l2) (k + 1) hfl (by simpa using hc)
    (by simpa using hnd) hsm
  simp only [lastOf, List.nil_append] at this
  have hbs : b ≠ s.sentinel := by
    intro h
    apply (List.nodup_cons.mp hnd).1
    simp [h]
  rw [this, allocate_loop_succ]
  dsimp only
  rw [(Cyc_next_mid s.mem s.sentinel l1 b l2 hc).1, if_neg hbs, if_pos hfit]

/-! ## Neighbours of a block -/

theorem NoAdjFree_cons (b : Blk) (l : List Blk) :
    NoAdjFree (b :: l) ↔ NoAdjFree l ∧ ∀ c l1, l = c :: l1 → b.used = true ∨ c.used = true := by
  cases l with
  | nil => simp [NoAdjFree]
  | cons c l1 =>
    constructor
    · rintro ⟨h1, h2⟩
      exact ⟨h2, fun c1 l2 e => by cases e; exact h1⟩
    · rintro ⟨h2, h1⟩
      exact ⟨h1 c l1 rfl, h2⟩

theorem NoAdjFree_append (l1 l2 : List Blk) :
    NoAdjFree (l1 ++ l2) ↔ NoAdjFree l1 ∧ NoAdjFree l2 ∧
      ∀ l a c r, l1 = l ++ [a] → l2 = c :: r → a.used = true ∨ c.used = true := by
  induction l1 with
  | nil =>
    simp only [List.nil_append]
    constructor
    · intro h
      refine ⟨trivial, h, fun l a c r e => ?_⟩
      cases l <;> cases e
    · exact fun h => h.2.1
  | cons b l ih =>
    rw [List.cons_append, NoAdjFree_cons, NoAdjFree_cons, ih]
    constructor
    · rintro ⟨⟨h1, h2, h3⟩, h4⟩
      refine ⟨⟨h1, fun c l1 e => h4 c (l1 ++ l2) (by rw [e]; rfl)⟩, h2, ?_⟩
      intro l' a c r e1 e2
      cases l' with
      | nil =>
        simp only [List.nil_append, List.cons.injEq] at e1
        obtain ⟨rfl, rfl⟩ := e1
        exact h4 c r (by simp [e2])
      | cons x l'' =>
        simp only [List.cons_append, List.cons.injEq] at e1
        exact h3 l'' a c r e1.2 e2
    · rintro ⟨⟨h1, h4⟩, h2, h3⟩
      refine ⟨⟨h1, h2, fun l' a c r e1 e2 => h3 (b :: l') a c r (by rw [e1]; rfl) e2⟩, ?_⟩
      intro c l1 e
      cases l with
      | nil =>
        simp only [List.nil_append] at e
        exact h3 [] b c l1 rfl e
      | cons x l'' =>
        simp only [List.cons_append, List.cons.injEq] at e
        exact h4 x l'' rfl |>.imp id (fun h => e.1 ▸ h)

theorem status_of_eq_one (u : Bool) : status_of u = 1 ↔ u = true := by
  cases u <;> simp [status_of]

theorem status_of_eq_zero (u : Bool) : status_of u = 0 ↔ u = false := by
  cases u <;> simp [status_of]

/-- The tag in front of the blocks in focus: the left fencepost, or the footer of
the block before them. -/
theorem left_tag (s : State) (As1 As2 : List Arena) (base : Nat) (pre mid post : List Blk)
    (h : Heap s (put As1 base pre mid post As2)) (lo : Nat) (c1 : Chain (base + 16) pre lo) :
    (pre = [] ∧ get_status s.mem (lo - 16) = 1) ∨
    (∃ pre1 L, pre = pre1 ++ [L] ∧ L.addr + L.size = lo ∧ 56 ≤ L.size ∧
      get_status s.mem (lo - 16) = status_of L.used ∧
      get_object_size s.mem (lo - 16) = L.size) := by
  rcases List.eq_nil_or_concat pre with e | ⟨pre1, L, e⟩
  · left
    subst e
    have : base + 16 = lo := c1
    obtain ⟨-, a2, -⟩ := h.2.2.2.2.2.1 _ (mem_put_arena As1 base [] mid post As2)
    refine ⟨rfl, ?_⟩
    rw [← this]
    exact a2
  · right
    rw [List.concat_eq_append] at e
    subst e
    obtain ⟨midp, d1, d2, d3⟩ := (Chain_append _ _ _ _).mp c1
    have d3 : L.addr + L.size = lo := by
      have : midp + L.size = lo := d3
      omega
    have f := Heap_block s _ h _ (mem_put_arena As1 base (pre1 ++ [L]) mid post As2) L
      (by simp)
    refine ⟨pre1, L, rfl, d3, f.2.2.1, ?_, ?_⟩
    · rw [← d3]; exact f.2.2.2.2.2.2
    · rw [← d3]; exact f.2.2.2.2.2.1

/-- The tag behind the blocks in focus: the right fencepost, or the header of
the block after them. -/
theorem right_tag (s : State) (As1 As2 : List Arena) (base : Nat) (pre mid post : List Blk)
    (h : Heap s (put As1 base pre mid post As2)) (hi : Nat)
    (c3 : Chain hi post (base + 2097216)) :
    (post = [] ∧ get_status s.mem hi = 1) ∨
    (∃ R post1, post = R :: post1 ∧ R.addr = hi ∧ 56 ≤ R.size ∧
      get_status s.mem hi = status_of R.used ∧ get_object_size s.mem hi = R.size) := by
  cases post with
  | nil =>
    left
    have : hi = base + 2097216 := c3
    obtain ⟨-, -, -, a4, -⟩ := h.2.2.2.2.2.1 _ (mem_put_arena As1 base pre mid [] As2)
    exact ⟨rfl, this ▸ a4⟩
  | cons R post1 =>
    right
    have f := Heap_block s _ h _ (mem_put_arena As1 base pre mid (R :: post1) As2) R (by simp)
    have d : R.addr = hi := c3.1
    exact ⟨R, post1, rfl, d, f.2.2.1, d ▸ f.2.2.2.2.1.2, d ▸ f.2.2.2.2.1.1⟩

/-! ## The free path on a heap: no free neighbour -/

/-- The status fields written when a block is freed between allocated neighbours. -/
theorem insert_mem (m : Mem) (M S : Nat) (hS : 56 ≤ S) :
    ∀ m2, m2 = set_status (set_status m M 0) (M + S - 16) 0 →
    (get_object_size m2 M = get_object_size m M ∧ get_status m2 M = 0) ∧
    (get_object_size m2 (M + S - 16) = get_object_size m (M + S - 16) ∧
      get_status m2 (M + S - 16) = 0) ∧
    (∀ x, m2 x = m x ∨ ((M + 8 ≤ x ∧ x < M + 12) ∨ (M + S - 8 ≤ x ∧ x < M + S - 4))) := by
  intro m2 hm
  subst hm
  refine ⟨⟨?_, ?_⟩, ⟨?_, ?_⟩, ?_⟩
  · simp (disch := omega) only [set_status, get_object_size_writeN]
  · simp (disch := omega) only [set_status, get_status_writeN, get_status_same]
  · simp (disch := omega) only [set_status, get_object_size_writeN]
  · simp (disch := omega) only [set_status, get_status_same]
  · intro x
    by_cases hx : (M + 8 ≤ x ∧ x < M + 12) ∨ (M + S - 8 ≤ x ∧ x < M + S - 4)
    · exact Or.inr hx
    · left
      simp only [set_status]
      rw [writeN_out _ _ _ _ _ (by omega), writeN_out _ _ _ _ _ (by omega)]

theorem coalesce_insert_eq (fuel : Nat) (s : State) (M S : Nat)
    (hl : get_status s.mem (M - 16) = 1) (hr : get_status s.mem (M + S) = 1) :
    coalesce fuel s M (M + S - 16) (M - 16) (M + S) =
      add_to_list_loop fuel { s with mem := set_status (set_status s.mem M 0) (M + S - 16) 0 }
        M s.free_list := by
  unfold coalesce
  rw [if_pos ⟨hl, hr⟩]
  rfl

/-- Freeing `M` when neither neighbour is free: `M` joins the list in address order. -/
theorem coalesce_insert (s : State) (As1 As2 : List Arena) (base : Nat) (pre post : List Blk)
    (M : Blk) (fuel : Nat) (hH : Heap s (put As1 base pre [M] post As2))
    (hu : M.used = true) (hl : get_status s.mem (M.addr - 16) = 1)
    (hr : get_status s.mem (M.addr + M.size) = 1)
    (hf : (free_addrs (all_blocks As1 ++ pre)).length < fuel) :
    ∃ m1, coalesce fuel s M.addr (M.addr + M.size - 16) (M.addr - 16) (M.addr + M.size) =
        some { s with mem := m1 } ∧
      Heap { s with mem := m1 } (put As1 base pre [⟨M.addr, M.size, false⟩] post As2) ∧
      (∀ x, (x < M.addr ∨ M.addr + M.size ≤ x) →
        NoLink (nodes_of s (put As1 base pre [M] post As2)) x → m1 x = s.mem x) := by
  have hbm : M ∈ all_blocks (put As1 base pre [M] post As2) :=
    mem_all_blocks_put _ _ _ _ _ _ M (by simp)
  have fb := Heap_block_put s As1 As2 base pre [M] post hH M (by simp)
  obtain ⟨lo, hi, c1, c2, c3, g1, g2, g3, g4, g5, g6, g7⟩ := Heap_focus s As1 As2 base pre [M] post hH
  obtain ⟨c2a, c2b⟩ := c2
  have c2b : lo + M.size = hi := c2b
  have hnodes := nodes_put s As1 base pre [M] post As2
  rw [free_addrs_one_used M hu] at hnodes
  have hXle : ∀ x ∈ free_addrs (all_blocks As1 ++ pre), x ≤ M.addr := by
    intro x hx
    obtain ⟨b, hb, -, rfl⟩ := (mem_free_addrs _ _).mp hx
    have := g6 b hb; omega
  have hYgt : ∀ c, (free_addrs (post ++ all_blocks As2)).head? = some c → M.addr < c := by
    intro c hc
    have hmem : c ∈ free_addrs (post ++ all_blocks As2) := List.mem_of_mem_head? hc
    obtain ⟨b, hb, -, rfl⟩ := (mem_free_addrs _ _).mp hmem
    have := g7 b hb; omega
  generalize hX : free_addrs (all_blocks As1 ++ pre) = X at hnodes hXle hf
  generalize hY : free_addrs (post ++ all_blocks As2) = Y at hnodes hYgt
  have hl0 : s.sentinel :: (X ++ [] ++ Y) = s.sentinel :: X ++ Y := by simp
  rw [hl0] at hnodes
  rw [coalesce_insert_eq fuel s M.addr M.size hl hr]
  obtain ⟨t1, t2, t3⟩ := insert_mem s.mem M.addr M.size fb.2.2.1 _ rfl
  generalize set_status (set_status s.mem M.addr 0) (M.addr + M.size - 16) 0 = m2 at *
  have hNLM : ∀ x, M.addr ≤ x → x < M.addr + M.size →
      NoLink (nodes_of s (put As1 base pre [M] post As2)) x :=
    fun x h1 h2 => Heap_NoLink_block s _ hH M hbm x h1 h2 (Or.inl hu)
  have hcyc0 : Cyc s.mem (nodes_of s (put As1 base pre [M] post As2)) := hH.2.2.2.2.2.2.1
  have hcyc2 : Cyc m2 (nodes_of s (put As1 base pre [M] post As2)) :=
    Cyc_frame_NoLink s.mem m2 _ (fun x => (t3 x).imp id (fun hx =>
      hNLM x (by omega) (by omega))) hcyc0
  have hnd := Heap_nodup s _ hH
  obtain ⟨hsep, hlt⟩ := Heap_nodes s _ hH
  have hnotnode := Heap_used_not_node s _ hH M hbm hu
  have hsepM := Heap_sep_inside s _ hH M hbm M.addr (Nat.le_refl _) (by omega) (Or.inl rfl)
  rw [hnodes] at hcyc2 hnd hsep hlt hnotnode hsepM
  have hfl : s.free_list = s.sentinel := hH.1
  obtain ⟨m1, e1, r1, r2⟩ := add_to_list_loop_spec { s with mem := m2 } M.addr X [] Y fuel hfl
    (by simpa using hcyc2) (by simpa using hnd)
    (by simpa using SepAll_cons _ _ hsep hsepM) (by simpa using hnotnode)
    (fun n hn => by
      simp only [List.nil_append] at hn
      rcases List.mem_cons.mp hn with h | h
      · rw [h]; omega
      · exact hlt n h)
    hXle hYgt hf
  simp only [List.nil_append, lastOf] at e1 r1 r2
  have e1' : add_to_list_loop fuel { s with mem := m2 } M.addr s.free_list =
      some { s with mem := m1 } :=
    (congrArg (add_to_list_loop fuel { s with mem := m2 } M.addr) hfl).trans e1
  have r2' : ∀ x, NoLink (M.addr :: s.sentinel :: X ++ Y) x → m1 x = m2 x := r2
  have hNL : ∀ x, M.addr ≤ x → x < M.addr + M.size → (x < M.addr + 16 ∨ M.addr + 32 ≤ x) →
      NoLink (M.addr :: s.sentinel :: X ++ Y) x := by
    intro x h1 h2 h3 n hn
    rcases List.mem_cons.mp hn with h | h
    · rw [h]; exact h3
    · exact hNLM x h1 h2 n (hnodes ▸ h)
  have hfr : ∀ x, (x < M.addr ∨ M.addr + M.size ≤ x) →
      NoLink (nodes_of s (put As1 base pre [M] post As2)) x → m1 x = s.mem x := by
    intro x hx hnl
    rw [r2' x ?_]
    · rcases t3 x with h | h
      · exact h
      · omega
    · intro n hn
      rcases List.mem_cons.mp hn with h | h
      · rw [h]; omega
      · exact hnl n (hnodes ▸ h)
  refine ⟨m1, e1', ?_, hfr⟩
  apply Heap_update s _ As1 As2 base pre [M] _ post lo hi hH c1 ⟨c2a, c2b⟩
  · exact ⟨c2a, c2b⟩
  · intro c hc
    simp only [List.mem_singleton] at hc
    subst hc
    refine ⟨⟨fb.2.2.1, fb.2.2.2.1⟩, ?_, ?_⟩
    · exact tags_transfer m2 m1 M.addr M.size 0 (fun x h1 h2 =>
        r2' x (hNL x h1 (by omega) (by omega))) ⟨t1.1.trans fb.2.2.2.2.1.1, t1.2⟩
    · exact tags_transfer m2 m1 (M.addr + M.size - 16) M.size 0 (fun x h1 h2 =>
        r2' x (hNL x (by omega) (by omega) (by omega))) ⟨t2.1.trans fb.2.2.2.2.2.1, t2.2⟩
  · intro x hx hnl
    exact hfr x (by omega) hnl
  · show Cyc m1 (nodes_of _ (put As1 base pre _ post As2))
    rw [nodes_put, hX, hY]
    have : free_addrs [(⟨M.addr, M.size, false⟩ : Blk)] = [M.addr] := by simp [free_addrs]
    rw [this]
    simpa using r1
  · rfl
  · rfl
  · rfl

/-! ## The free path on a heap: free right neighbour -/

/-- The tags written when a block absorbs its right neighbour. -/
theorem merge_right_mem (m : Mem) (M Ms Rs : Nat) (hMs : get_object_size m M = Ms)
    (hRs : get_object_size m (M + Ms) = Rs) (h1 : 56 ≤ Ms) (h2 : 56 ≤ Rs) (hM : 0 < M)
    (hlt : M + Ms + Rs ≤ 18446744073709551616) :
    ∀ m3, m3 = set_status (set_object_size
        (set_object_size m M ((get_object_size m M + get_object_size m (M + Ms)) % WORD))
        (M + Ms - 16 + get_object_size
          (set_object_size m M ((get_object_size m M + get_object_size m (M + Ms)) % WORD))
          (M + Ms))
        (get_object_size
          (set_object_size m M ((get_object_size m M + get_object_size m (M + Ms)) % WORD)) M))
        M 0 →
    (get_object_size m3 M = Ms + Rs ∧ get_status m3 M = 0) ∧
    (get_object_size m3 (M + Ms + Rs - 16) = Ms + Rs ∧
      get_status m3 (M + Ms + Rs - 16) = get_status m (M + Ms + Rs - 16)) ∧
    get_status m3 (M + Ms) = get_status m (M + Ms) ∧
    (∀ x, m3 x = m x ∨ ((M ≤ x ∧ x < M + 12) ∨
      (M + Ms + Rs - 16 ≤ x ∧ x < M + Ms + Rs - 8))) := by
  intro m3 hm
  rw [hMs, hRs] at hm
  have hw : (Ms + Rs) % WORD = Ms + Rs := Nat.mod_eq_of_lt (by show _ < 18446744073709551616; omega)
  rw [hw] at hm
  have e1 : get_object_size (set_object_size m M (Ms + Rs)) (M + Ms) = Rs := by
    rw [← hRs]
    simp (disch := omega) only [set_object_size, get_object_size_writeN]
  have e2 : get_object_size (set_object_size m M (Ms + Rs)) M = Ms + Rs := by
    simp (disch := omega) only [set_object_size, get_object_size_same]
  rw [e1, e2] at hm
  have e3 : M + Ms - 16 + Rs = M + Ms + Rs - 16 := by omega
  rw [e3] at hm
  subst hm
  clear hMs hRs e1 e2 e3 hw
  refine ⟨⟨?_, ?_⟩, ⟨?_, ?_⟩, ?_, ?_⟩
  · simp (disch := omega) only [set_object_size, set_status, get_object_size_writeN,
      get_object_size_same]
  · simp (disch := omega) only [set_object_size, set_status, get_status_same]
  · simp (disch := omega) only [set_object_size, set_status, get_object_size_writeN,
      get_object_size_same]
  · simp (disch := omega) only [set_object_size, set_status, get_status_writeN]
  · simp (disch := omega) only [set_object_size, set_status, get_status_writeN]
  · intro x
    by_cases hx : (M ≤ x ∧ x < M + 12) ∨ (M + Ms + Rs - 16 ≤ x ∧ x < M + Ms + Rs - 8)
    · exact Or.inr hx
    · left
      simp only [set_object_size, set_status]
      rw [writeN_out _ _ _ _ _ (by omega), writeN_out _ _ _ _ _ (by omega),
        writeN_out _ _ _ _ _ (by omega)]

theorem coalesce_right_eq (fuel : Nat) (s : State) (M S : Nat)
    (hr : get_status s.mem (M + S) = 0) :
    coalesce fuel s M (M + S - 16) (M - 16) (M + S) =
      some { s with mem := (replace_in_list (M + S) M (set_status (set_object_size
        (set_object_size s.mem M ((get_object_size s.mem M + get_object_size s.mem (M + S)) % WORD))
        (M + S - 16 + get_object_size
          (set_object_size s.mem M
            ((get_object_size s.mem M + get_object_size s.mem (M + S)) % WORD))
          (M + S))
        (get_object_size
          (set_object_size s.mem M
            ((get_object_size s.mem M + get_object_size s.mem (M + S)) % WORD)) M))
        M 0)) } := by
  unfold coalesce
  rw [if_neg (by rw [hr]; simp), if_neg (by rw [hr]; simp), if_pos hr]

/-- Freeing `M` in front of the free block `R`: the merged block takes the place
of `R` in the list. -/
theorem coalesce_right (s : State) (As1 As2 : List Arena) (base : Nat) (pre post : List Blk)
    (M R : Blk) (fuel : Nat) (hH : Heap s (put As1 base pre [M, R] post As2))
    (hu : M.used = true) (hR : R.used = false) :
    ∃ m4, coalesce fuel s M.addr (M.addr + M.size - 16) (M.addr - 16) (M.addr + M.size) =
        some { s with mem := m4 } ∧
      Heap { s with mem := m4 }
        (put As1 base pre [⟨M.addr, M.size + R.size, false⟩] post As2) ∧
      get_status m4 (M.addr + M.size) = 0 ∧
      (∀ x, (x < M.addr ∨ M.addr + M.size + R.size ≤ x) →
        NoLink (nodes_of s (put As1 base pre [M, R] post As2)) x → m4 x = s.mem x) := by
  have hMm : M ∈ all_blocks (put As1 base pre [M, R] post As2) :=
    mem_all_blocks_put _ _ _ _ _ _ M (by simp)
  have hRm : R ∈ all_blocks (put As1 base pre [M, R] post As2) :=
    mem_all_blocks_put _ _ _ _ _ _ R (by simp)
  have fM := Heap_block_put s As1 As2 base pre [M, R] post hH M (by simp)
  have fR := Heap_block_put s As1 As2 base pre [M, R] post hH R (by simp)
  obtain ⟨lo, hi, c1, c2, c3, g1, g2, g3, g4, g5, g6, g7⟩ :=
    Heap_focus s As1 As2 base pre [M, R] post hH
  obtain ⟨c2a, c2b, c2c⟩ := c2
  have c2b : R.addr = lo + M.size := c2b
  have c2c : lo + M.size + R.size = hi := c2c
  have hRa : R.addr = M.addr + M.size := by omega
  have hnodes := nodes_put s As1 base pre [M, R] post As2
  have hfa : free_addrs [M, R] = [R.addr] := by simp [free_addrs, hu, hR]
  rw [hfa] at hnodes
  generalize hX : free_addrs (all_blocks As1 ++ pre) = X at hnodes
  generalize hY : free_addrs (post ++ all_blocks As2) = Y at hnodes
  have hl0 : s.sentinel :: (X ++ [R.addr] ++ Y) = s.sentinel :: X ++ R.addr :: Y := by simp
  rw [hl0] at hnodes
  have hr : get_status s.mem (M.addr + M.size) = 0 := by
    rw [← hRa, fR.2.2.2.2.1.2, hR]; rfl
  rw [coalesce_right_eq fuel s M.addr M.size hr]
  obtain ⟨t1, t2, t3, t4⟩ := merge_right_mem s.mem M.addr M.size R.size fM.2.2.2.2.1.1
    (hRa ▸ fR.2.2.2.2.1.1) fM.2.2.1 fR.2.2.1 (by omega) (by omega) _ rfl
  generalize set_status (set_object_size
        (set_object_size s.mem M.addr
          ((get_object_size s.mem M.addr + get_object_size s.mem (M.addr + M.size)) % WORD))
        (M.addr + M.size - 16 + get_object_size
          (set_object_size s.mem M.addr
            ((get_object_size s.mem M.addr + get_object_size s.mem (M.addr + M.size)) % WORD))
          (M.addr + M.size))
        (get_object_size
          (set_object_size s.mem M.addr
            ((get_object_size s.mem M.addr + get_object_size s.mem (M.addr + M.size)) % WORD))
          M.addr))
        M.addr 0 = m3 at *
  have hNLM : ∀ x, M.addr ≤ x → x < M.addr + M.size →
      NoLink (nodes_of s (put As1 base pre [M, R] post As2)) x :=
    fun x h1 h2 => Heap_NoLink_block s _ hH M hMm x h1 h2 (Or.inl hu)
  have hNLR : ∀ x, R.addr ≤ x → x < R.addr + R.size → (x < R.addr + 16 ∨ R.addr + 32 ≤ x) →
      NoLink (nodes_of s (put As1 base pre [M, R] post As2)) x :=
    fun x h1 h2 h3 => Heap_NoLink_block s _ hH R hRm x h1 h2 (Or.inr h3)
  have hcyc0 : Cyc s.mem (nodes_of s (put As1 base pre [M, R] post As2)) := hH.2.2.2.2.2.2.1
  have hcyc3 : Cyc m3 (nodes_of s (put As1 base pre [M, R] post As2)) :=
    Cyc_frame_NoLink s.mem m3 _ (fun x => (t4 x).imp id (fun hx => by
      rcases hx with hx | hx
      · exact hNLM x (by omega) (by omega)
      · exact hNLR x (by omega) (by omega) (by omega))) hcyc0
  have hnd := Heap_nodup s _ hH
  obtain ⟨hsep, hlt⟩ := Heap_nodes s _ hH
  have hnotnode := Heap_used_not_node s _ hH M hMm hu
  have hsepM := Heap_sep_inside s _ hH M hMm M.addr (Nat.le_refl _) (by omega) (Or.inl rfl)
  rw [hnodes] at hcyc3 hnd hsep hlt hnotnode hsepM
  have hRa' : M.addr + M.size = R.addr := hRa.symm
  rw [hRa'] at t3 ⊢
  obtain ⟨r1, r2⟩ := replace_in_list_focus m3 s.sentinel R.addr M.addr X Y hcyc3 hnd
    (SepAll_cons _ _ hsep hsepM) hnotnode (by omega)
    (fun n hn => by
      rcases List.mem_cons.mp hn with h | h
      · rw [h]; omega
      · exact hlt n h)
  have hNL : ∀ x, (M.addr ≤ x ∧ x < M.addr + M.size ∧ (x < M.addr + 16 ∨ M.addr + 32 ≤ x)) ∨
      (R.addr ≤ x ∧ x < R.addr + R.size ∧ (x < R.addr + 16 ∨ R.addr + 32 ≤ x)) →
      NoLink (M.addr :: s.sentinel :: X ++ Y) x := by
    intro x hx n hn
    rcases List.mem_cons.mp hn with h | h
    · rw [h]; omega
    · have hn' : n ∈ nodes_of s (put As1 base pre [M, R] post As2) := by
        rw [hnodes]; exact mem_skip _ _ _ _ _ h
      rcases hx with hx | hx
      · exact hNLM x hx.1 hx.2.1 n hn'
      · exact hNLR x hx.1 hx.2.1 hx.2.2 n hn'
  have hfr : ∀ x, (x < M.addr ∨ M.addr + M.size + R.size ≤ x) →
      NoLink (nodes_of s (put As1 base pre [M, R] post As2)) x →
      replace_in_list R.addr M.addr m3 x = s.mem x := by
    intro x hx hnl
    have hq : NoLink (M.addr :: s.sentinel :: X ++ Y) x := by
      intro n hn
      rcases List.mem_cons.mp hn with h | h
      · rw [h]; clear hnl hNL hNLM hNLR hsep hlt r2 t4; omega
      · apply hnl n
        rw [hnodes]; exact mem_skip _ _ _ _ _ h
    have hq2 : m3 x = s.mem x := by
      rcases t4 x with h | h
      · exact h
      · clear hnl hNL hNLM hNLR hsep hlt r2 t4 hq; omega
    exact (r2 x hq).trans hq2
  have hsz1 : 56 ≤ M.size + R.size := by omega
  have hsz2 : (M.size + R.size) % 8 = 0 := by
    have := fM.2.2.2.1; have := fR.2.2.2.1; omega
  have hb1 : ∀ x, M.addr ≤ x → x < M.addr + 12 →
      replace_in_list R.addr M.addr m3 x = m3 x :=
    fun x h1 h2 => r2 x (hNL x (Or.inl ⟨h1, by omega, by omega⟩))
  have hb2 : ∀ x, M.addr + M.size + R.size - 16 ≤ x → x < M.addr + M.size + R.size - 16 + 12 →
      replace_in_list R.addr M.addr m3 x = m3 x :=
    fun x h1 h2 => r2 x (hNL x (Or.inr ⟨by omega, by omega, by omega⟩))
  have hb3 : ∀ x, R.addr ≤ x → x < R.addr + 12 →
      replace_in_list R.addr M.addr m3 x = m3 x :=
    fun x h1 h2 => r2 x (hNL x (Or.inr ⟨h1, by omega, by omega⟩))
  have hfoot : get_status s.mem (M.addr + M.size + R.size - 16) = 0 := by
    have e2 : M.addr + M.size + R.size - 16 = R.addr + R.size - 16 := by omega
    rw [e2, fR.2.2.2.2.2.2, hR]; rfl
  have hspan : lo + (M.size + R.size) = hi := by omega
  have hlo : M.addr = lo := c2a
  refine ⟨_, rfl, ?_, ?_, fun x hx hnl => hfr x (by omega) hnl⟩
  · apply Heap_update s _ As1 As2 base pre [M, R] _ post lo hi hH c1 ⟨c2a, c2b, c2c⟩
    · exact ⟨c2a, hspan⟩
    · intro c hc
      simp only [List.mem_singleton] at hc
      subst hc
      refine ⟨⟨hsz1, hsz2⟩, ?_, ?_⟩
      · exact tags_transfer m3 _ M.addr (M.size + R.size) 0 hb1 t1
      · show get_object_size _ (M.addr + (M.size + R.size) - 16) = M.size + R.size ∧
          get_status _ (M.addr + (M.size + R.size) - 16) = 0
        rw [← Nat.add_assoc]
        exact tags_transfer m3 _ (M.addr + M.size + R.size - 16) (M.size + R.size) 0
          hb2 ⟨t2.1, t2.2.trans hfoot⟩
    · intro x hx hnl
      exact hfr x (by rw [hlo]; rw [← c2c] at hx; exact hx) hnl
    · show Cyc _ (nodes_of _ (put As1 base pre _ post As2))
      rw [nodes_put, hX, hY]
      have : free_addrs [(⟨M.addr, M.size + R.size, false⟩ : Blk)] = [M.addr] := by
        simp [free_addrs]
      rw [this]
      simpa using r1
    · rfl
    · rfl
    · rfl
  · have := (tags_transfer m3 (replace_in_list R.addr M.addr m3) R.addr
      (get_object_size m3 R.addr) (get_status m3 R.addr) hb3 ⟨rfl, rfl⟩).2
    rw [this, t3, fR.2.2.2.2.1.2, hR]; rfl

/-! ## The free path on a heap: free left neighbour -/

/-- The tags written when the left neighbour absorbs a block. -/
theorem merge_left_mem (m0 : Mem) (L Ls M Ms : Nat) (hfoot : get_object_size m0 (M - 16) = Ls)
    (hLs : get_object_size m0 L = Ls) (hMs : get_object_size m0 M = Ms) (hLM : L + Ls = M)
    (h1 : 56 ≤ Ls) (h2 : 56 ≤ Ms) (hL : 0 < L) (hlt : M + Ms ≤ 18446744073709551616) :
    ∀ m3, m3 = set_status (set_object_size
        (set_object_size m0 (M - get_object_size m0 (M - 16))
          ((get_object_size m0 (M - get_object_size m0 (M - 16)) + get_object_size m0 M) % WORD))
        (M + Ms - 16)
        (get_object_size (set_object_size m0 (M - get_object_size m0 (M - 16))
          ((get_object_size m0 (M - get_object_size m0 (M - 16)) + get_object_size m0 M) % WORD))
          (M - get_object_size m0 (M - 16))))
        (M + Ms - 16) 0 →
    (get_object_size m3 L = Ls + Ms ∧ get_status m3 L = get_status m0 L) ∧
    (get_object_size m3 (M + Ms - 16) = Ls + Ms ∧ get_status m3 (M + Ms - 16) = 0) ∧
    (∀ x, m3 x = m0 x ∨ ((L ≤ x ∧ x < L + 8) ∨ (M + Ms - 16 ≤ x ∧ x < M + Ms - 4))) := by
  intro m3 hm
  have eL : M - Ls = L := by omega
  rw [hfoot, eL, hLs, hMs] at hm
  have hw : (Ls + Ms) % WORD = Ls + Ms := Nat.mod_eq_of_lt (by show _ < 18446744073709551616; omega)
  rw [hw] at hm
  have e2 : get_object_size (set_object_size m0 L (Ls + Ms)) L = Ls + Ms := by
    simp (disch := omega) only [set_object_size, get_object_size_same]
  rw [e2] at hm
  subst hm
  clear hfoot hLs hMs e2 hw eL
  refine ⟨⟨?_, ?_⟩, ⟨?_, ?_⟩, ?_⟩
  · simp (disch := omega) only [set_object_size, set_status, get_object_size_writeN,
      get_object_size_same]
  · simp (disch := omega) only [set_object_size, set_status, get_status_writeN]
  · simp (disch := omega) only [set_object_size, set_status, get_object_size_writeN,
      get_object_size_same]
  · simp (disch := omega) only [set_object_size, set_status, get_status_same]
  · intro x
    by_cases hx : (L ≤ x ∧ x < L + 8) ∨ (M + Ms - 16 ≤ x ∧ x < M + Ms - 4)
    · exact Or.inr hx
    · left
      simp only [set_object_size, set_status]
      rw [writeN_out _ _ _ _ _ (by omega), writeN_out _ _ _ _ _ (by omega),
        writeN_out _ _ _ _ _ (by omega)]

theorem coalesce_left_eq (fuel : Nat) (s : State) (M S : Nat)
    (hl : get_status s.mem (M - 16) = 0) (hr : get_status s.mem (M + S) = 1) (m0 : Mem)
    (hm0 : m0 = if get_status s.mem M = UNALLOCATED then replace_in_list M NULL s.mem
      else s.mem) :
    coalesce fuel s M (M + S - 16) (M - 16) (M + S) =
      some { s with mem := (set_status (set_object_size
        (set_object_size m0 (M - get_object_size m0 (M - 16))
          ((get_object_size m0 (M - get_object_size m0 (M - 16)) + get_object_size m0 M) % WORD))
        (M + S - 16)
        (get_object_size (set_object_size m0 (M - get_object_size m0 (M - 16))
          ((get_object_size m0 (M - get_object_size m0 (M - 16)) + get_object_size m0 M) % WORD))
          (M - get_object_size m0 (M - 16))))
        (M + S - 16) 0) } := by
  subst hm0
  unfold coalesce
  rw [if_neg (by rw [hl]; simp), if_pos ⟨hl, hr⟩]

/-- Freeing `M` behind the free block `L`, with no free block behind `M`: `L` is
widened over `M` and keeps its place in the list; when `M` itself is a list
member (the nested call of a three-way merge) it is unlinked first. -/
theorem coalesce_left (s : State) (As1 As2 : List Arena) (base : Nat) (pre post : List Blk)
    (L M : Blk) (fuel : Nat) (hH : Heap s (put As1 base pre [L, M] post As2))
    (hL : L.used = false) (hr : get_status s.mem (M.addr + M.size) = 1) :
    ∃ m3, coalesce fuel s M.addr (M.addr + M.size - 16) (M.addr - 16) (M.addr + M.size) =
        some { s with mem := m3 } ∧
      Heap { s with mem := m3 }
        (put As1 base pre [⟨L.addr, L.size + M.size, false⟩] post As2) ∧
      (∀ x, (x < L.addr ∨ M.addr + M.size ≤ x) →
        NoLink (nodes_of s (put As1 base pre [L, M] post As2)) x → m3 x = s.mem x) := by
  have hLm : L ∈ all_blocks (put As1 base pre [L, M] post As2) :=
    mem_all_blocks_put _ _ _ _ _ _ L (by simp)
  have hMm : M ∈ all_blocks (put As1 base pre [L, M] post As2) :=
    mem_all_blocks_put _ _ _ _ _ _ M (by simp)
  have fL := Heap_block_put s As1 As2 base pre [L, M] post hH L (by simp)
  have fM := Heap_block_put s As1 As2 base pre [L, M] post hH M (by simp)
  obtain ⟨lo, hi, c1, c2, c3, g1, g2, g3, g4, g5, g6, g7⟩ :=
    Heap_focus s As1 As2 base pre [L, M] post hH
  obtain ⟨c2a, c2b, c2c⟩ := c2
  have c2b : M.addr = lo + L.size := c2b
  have c2c : lo + L.size + M.size = hi := c2c
  have hMa : L.addr + L.size = M.addr := by omega
  have hX : ∃ X, free_addrs (all_blocks As1 ++ pre) = X := ⟨_, rfl⟩
  obtain ⟨X, hX⟩ := hX
  have hY : ∃ Y, free_addrs (post ++ all_blocks As2) = Y := ⟨_, rfl⟩
  obtain ⟨Y, hY⟩ := hY
  have hnodes := nodes_put s As1 base pre [L, M] post As2
  rw [hX, hY] at hnodes
  have hNLL : ∀ x, L.addr ≤ x → x < L.addr + L.size → (x < L.addr + 16 ∨ L.addr + 32 ≤ x) →
      NoLink (nodes_of s (put As1 base pre [L, M] post As2)) x :=
    fun x h1 h2 h3 => Heap_NoLink_block s _ hH L hLm x h1 h2 (Or.inr h3)
  have hNLM : ∀ x, M.addr ≤ x → x < M.addr + M.size → (x < M.addr + 16 ∨ M.addr + 32 ≤ x) →
      NoLink (nodes_of s (put As1 base pre [L, M] post As2)) x :=
    fun x h1 h2 h3 => Heap_NoLink_block s _ hH M hMm x h1 h2 (Or.inr h3)
  have hcyc0 : Cyc s.mem (nodes_of s (put As1 base pre [L, M] post As2)) := hH.2.2.2.2.2.2.1
  have hl : get_status s.mem (M.addr - 16) = 0 := by
    have e : M.addr - 16 = L.addr + L.size - 16 := by omega
    rw [e, fL.2.2.2.2.2.2, hL]; rfl
  have hsubset : ∀ n ∈ s.sentinel :: X ++ L.addr :: Y,
      n ∈ nodes_of s (put As1 base pre [L, M] post As2) := by
    intro n hn
    rw [hnodes]
    cases hMu : M.used with
    | true =>
      have : free_addrs [L, M] = [L.addr] := by simp [free_addrs, hL, hMu]
      rw [this]; simpa using hn
    | false =>
      have : free_addrs [L, M] = [L.addr, M.addr] := by simp [free_addrs, hL, hMu]
      rw [this]
      have := mem_skip n s.sentinel M.addr (X ++ [L.addr]) Y (by simpa using hn)
      simpa using this
  -- the list after unlinking `M` when it is a member
  obtain ⟨m0, hm0, hcycm0, hfrm0⟩ : ∃ m0,
      (m0 = if get_status s.mem M.addr = UNALLOCATED then
        replace_in_list M.addr NULL s.mem else s.mem) ∧
      Cyc m0 (s.sentinel :: X ++ L.addr :: Y) ∧
      (∀ x, NoLink (s.sentinel :: X ++ L.addr :: Y) x → m0 x = s.mem x) := by
    cases hMu : M.used with
    | true =>
      have hst : get_status s.mem M.addr = 1 := by rw [fM.2.2.2.2.1.2, hMu]; rfl
      refine ⟨s.mem, by rw [hst]; rfl, ?_, fun x _ => rfl⟩
      have : free_addrs [L, M] = [L.addr] := by simp [free_addrs, hL, hMu]
      rw [hnodes, this] at hcyc0
      simpa using hcyc0
    | false =>
      have hst : get_status s.mem M.addr = 0 := by rw [fM.2.2.2.2.1.2, hMu]; rfl
      have : free_addrs [L, M] = [L.addr, M.addr] := by simp [free_addrs, hL, hMu]
      have hnd := Heap_nodup s _ hH
      obtain ⟨hsep, hlt⟩ := Heap_nodes s _ hH
      rw [hnodes, this] at hcyc0 hnd hsep hlt
      have e : s.sentinel :: (X ++ [L.addr, M.addr] ++ Y) =
          s.sentinel :: (X ++ [L.addr]) ++ M.addr :: Y := by simp
      rw [e] at hcyc0 hnd hsep hlt
      obtain ⟨r1, r2⟩ := remove_from_list_focus s.mem s.sentinel M.addr (X ++ [L.addr]) Y
        hcyc0 hnd hsep hlt
      refine ⟨_, by rw [hst]; rfl, by simpa using r1, fun x hx => r2 x (by simpa using hx)⟩
  rw [coalesce_left_eq fuel s M.addr M.size hl hr m0 hm0]
  clear hm0
  have hb0 : ∀ x, (L.addr ≤ x ∧ x < L.addr + L.size ∧ (x < L.addr + 16 ∨ L.addr + 32 ≤ x)) ∨
      (M.addr ≤ x ∧ x < M.addr + M.size ∧ (x < M.addr + 16 ∨ M.addr + 32 ≤ x)) →
      NoLink (s.sentinel :: X ++ L.addr :: Y) x := by
    intro x hx n hn
    rcases hx with hx | hx
    · exact hNLL x hx.1 hx.2.1 hx.2.2 n (hsubset n hn)
    · exact hNLM x hx.1 hx.2.1 hx.2.2 n (hsubset n hn)
  have q1 : get_object_size m0 (M.addr - 16) = L.size := by
    have e : M.addr - 16 = L.addr + L.size - 16 := by omega
    rw [e]
    exact (tags_transfer s.mem m0 (L.addr + L.size - 16) L.size 0 (fun x h1 h2 =>
      hfrm0 x (hb0 x (Or.inl ⟨by omega, by omega, by omega⟩)))
      ⟨fL.2.2.2.2.2.1, by rw [fL.2.2.2.2.2.2, hL]; rfl⟩).1
  have q2 : get_object_size m0 L.addr = L.size ∧ get_status m0 L.addr = 0 :=
    tags_transfer s.mem m0 L.addr L.size 0 (fun x h1 h2 =>
      hfrm0 x (hb0 x (Or.inl ⟨by omega, by omega, by omega⟩)))
      ⟨fL.2.2.2.2.1.1, by rw [fL.2.2.2.2.1.2, hL]; rfl⟩
  have q3 : get_object_size m0 M.addr = M.size :=
    (tags_transfer s.mem m0 M.addr M.size _ (fun x h1 h2 =>
      hfrm0 x (hb0 x (Or.inr ⟨by omega, by omega, by omega⟩))) fM.2.2.2.2.1).1
  obtain ⟨t1, t2, t3⟩ := merge_left_mem m0 L.addr L.size M.addr M.size q1 q2.1 q3 hMa
    fL.2.2.1 fM.2.2.1 (by omega) (by omega) _ rfl
  generalize set_status (set_object_size
        (set_object_size m0 (M.addr - get_object_size m0 (M.addr - 16))
          ((get_object_size m0 (M.addr - get_object_size m0 (M.addr - 16)) +
            get_object_size m0 M.addr) % WORD))
        (M.addr + M.size - 16)
        (get_object_size (set_object_size m0 (M.addr - get_object_size m0 (M.addr - 16))
          ((get_object_size m0 (M.addr - get_object_size m0 (M.addr - 16)) +
            get_object_size m0 M.addr) % WORD))
          (M.addr - get_object_size m0 (M.addr - 16))))
        (M.addr + M.size - 16) 0 = m3 at t1 t2 t3 ⊢
  have hchg : ∀ x, m3 x = m0 x ∨ NoLink (s.sentinel :: X ++ L.addr :: Y) x := by
    intro x
    rcases t3 x with h | h
    · exact Or.inl h
    · right
      apply hb0
      clear hb0 hNLL hNLM hsubset hfrm0 t3
      omega
  have hcyc3 : Cyc m3 (s.sentinel :: X ++ L.addr :: Y) :=
    Cyc_frame_NoLink m0 m3 _ hchg hcycm0
  have hfr : ∀ x, (x < L.addr ∨ M.addr + M.size ≤ x) →
      NoLink (nodes_of s (put As1 base pre [L, M] post As2)) x → m3 x = s.mem x := by
    intro x hx hnl
    have h0 : m0 x = s.mem x := hfrm0 x (fun n hn => hnl n (hsubset n hn))
    rcases t3 x with h | h
    · exact h.trans h0
    · clear hb0 hNLL hNLM hsubset hfrm0 t3 hchg hnl
      omega
  have hsz1 : 56 ≤ L.size + M.size := by omega
  have hsz2 : (L.size + M.size) % 8 = 0 := by
    have := fL.2.2.2.1; have := fM.2.2.2.1; omega
  have hspan : lo + (L.size + M.size) = hi := by omega
  have hfootaddr : L.addr + (L.size + M.size) - 16 = M.addr + M.size - 16 := by omega
  refine ⟨m3, rfl, ?_, hfr⟩
  apply Heap_update s _ As1 As2 base pre [L, M] _ post lo hi hH c1 ⟨c2a, c2b, c2c⟩
  · exact ⟨c2a, hspan⟩
  · intro c hc
    simp only [List.mem_singleton] at hc
    subst hc
    refine ⟨⟨hsz1, hsz2⟩, ⟨t1.1, t1.2.trans q2.2⟩, ?_⟩
    show get_object_size m3 (L.addr + (L.size + M.size) - 16) = L.size + M.size ∧
      get_status m3 (L.addr + (L.size + M.size) - 16) = 0
    rw [hfootaddr]
    exact t2
  · intro x hx hnl
    exact hfr x (by rw [← c2c] at hx; rw [← hMa, c2a]; exact hx) hnl
  · show Cyc m3 (nodes_of _ (put As1 base pre _ post As2))
    rw [nodes_put, hX, hY]
    have : free_addrs [(⟨L.addr, L.size + M.size, false⟩ : Blk)] = [L.addr] := by
      simp [free_addrs]
    rw [this]
    simpa using hcyc3
  · rfl
  · rfl
  · rfl

/-! ## `free_object` on a heap -/

theorem free_object_succ (fuel ptr : Nat) (s : State) :
    free_object (fuel + 1) ptr s =
    (let middle_head := ptr - HDR
    let middle_foot := middle_head + get_object_size s.mem middle_head - FTR
    let left_foot := middle_head - FTR
    let right_head := middle_foot + FTR
    match coalesce fuel s middle_head middle_foot left_foot right_head with
    | none => none
    | some s1 =>
      if get_status s1.mem left_foot = UNALLOCATED ∧
         get_status s1.mem right_head = UNALLOCATED then
        free_object fuel (middle_head + HDR) s1
      else some s1) := rfl

/-- `free_object` on the payload pointer of a block whose header carries its size. -/
theorem free_object_at (fuel M S : Nat) (s : State) (hS : get_object_size s.mem M = S)
    (h16 : 16 ≤ S) :
    free_object (fuel + 1) (M + 32) s =
    match coalesce fuel s M (M + S - 16) (M - 16) (M + S) with
    | none => none
    | some s1 =>
      if get_status s1.mem (M - 16) = 0 ∧ get_status s1.mem (M + S) = 0 then
        free_object fuel (M + 32) s1
      else some s1 := by
  rw [free_object_succ]
  have e1 : M + 32 - HDR = M := by show M + 32 - 32 = M; omega
  have e2 : M + S - FTR + FTR = M + S := by show M + S - 16 + 16 = M + S; omega
  simp only [e1, hS, e2]

theorem put_shift_left (As1 As2 : List Arena) (base : Nat) (pre1 mid post : List Blk) (L : Blk) :
    put As1 base (pre1 ++ [L]) mid post As2 = put As1 base pre1 (L :: mid) post As2 := by
  simp [put, List.append_assoc]

theorem put_shift_right (As1 As2 : List Arena) (base : Nat) (pre mid post1 : List Blk) (R : Blk) :
    put As1 base pre mid (R :: post1) As2 = put As1 base pre (mid ++ [R]) post1 As2 := by
  simp [put, List.append_assoc]

/-- The bytes of the tag in front of the blocks in focus lie outside them and
are no link bytes. -/
theorem left_tag_bytes (s : State) (As1 As2 : List Arena) (base : Nat) (pre mid post : List Blk)
    (h : Heap s (put As1 base pre mid post As2)) (lo : Nat) (c1 : Chain (base + 16) pre lo) :
    ∀ x, lo - 16 ≤ x → x < lo - 4 →
      x < lo ∧ NoLink (nodes_of s (put As1 base pre mid post As2)) x := by
  intro x h1 h2
  have hlo := Chain_le _ _ _ c1
  refine ⟨by omega, ?_⟩
  rcases List.eq_nil_or_concat pre with e | ⟨pre1, L, e⟩
  · subst e
    have : base + 16 = lo := c1
    exact Heap_NoLink_fence s _ h _ (mem_put_arena As1 base [] mid post As2) x
      (Or.inl (by show base ≤ x ∧ x < base + 16; omega))
  · rw [List.concat_eq_append] at e
    subst e
    obtain ⟨midp, d1, d2, d3⟩ := (Chain_append _ _ _ _).mp c1
    have d3 : midp + L.size = lo := d3
    have f := Heap_block s _ h _ (mem_put_arena As1 base (pre1 ++ [L]) mid post As2) L
      (by simp)
    have hLm : L ∈ all_blocks (put As1 base (pre1 ++ [L]) mid post As2) :=
      (mem_all_blocks _ L).mpr ⟨_, mem_put_arena As1 base (pre1 ++ [L]) mid post As2, by simp⟩
    exact Heap_NoLink_block s _ h L hLm x (by omega) (by omega) (Or.inr (by omega))

/-- The bytes of the tag behind the blocks in focus lie outside them and are no
link bytes. -/
theorem right_tag_bytes (s : State) (As1 As2 : List Arena) (base : Nat)
    (pre mid post : List Blk) (h : Heap s (put As1 base pre mid post As2)) (hi : Nat)
    (c3 : Chain hi post (base + 2097216)) :
    ∀ x, hi ≤ x → x < hi + 12 → NoLink (nodes_of s (put As1 base pre mid post As2)) x := by
  intro x h1 h2
  cases post with
  | nil =>
    have : hi = base + 2097216 := c3
    exact Heap_NoLink_fence s _ h _ (mem_put_arena As1 base pre mid [] As2) x
      (Or.inr (by show base + 2097216 ≤ x ∧ x < base + 2097248; omega))
  | cons R post1 =>
    have f := Heap_block s _ h _ (mem_put_arena As1 base pre mid (R :: post1) As2) R (by simp)
    have d : R.addr = hi := c3.1
    have hRm : R ∈ all_blocks (put As1 base pre mid (R :: post1) As2) :=
      (mem_all_blocks _ R).mpr ⟨_, mem_put_arena As1 base pre mid (R :: post1) As2, by simp⟩
    exact Heap_NoLink_block s _ h R hRm x (by omega) (by omega) (Or.inr (by omega))

/-- A change that respects the frame of the blocks in focus keeps both
neighbouring tags. -/
theorem neighbour_tags_kept (s : State) (As1 As2 : List Arena) (base : Nat)
    (pre mid post : List Blk) (h : Heap s (put As1 base pre mid post As2)) (lo hi : Nat)
    (c1 : Chain (base + 16) pre lo) (c2 : Chain lo mid hi) (c3 : Chain hi post (base + 2097216))
    (m1 : Mem)
    (hfr : ∀ x, (x < lo ∨ hi ≤ x) → NoLink (nodes_of s (put As1 base pre mid post As2)) x →
      m1 x = s.mem x) :
    get_status m1 (lo - 16) = get_status s.mem (lo - 16) ∧
      get_status m1 hi = get_status s.mem hi := by
  have hlo := Chain_le _ _ _ c1
  refine ⟨(tags_congr s.mem m1 (lo - 16) (fun x h1 h2 => ?_)).2,
    (tags_congr s.mem m1 hi (fun x h1 h2 => ?_)).2⟩
  · obtain ⟨a, b⟩ := left_tag_bytes s As1 As2 base pre mid post h lo c1 x h1 (by omega)
    exact hfr x (Or.inl a) b
  · exact hfr x (Or.inr h1) (right_tag_bytes s As1 As2 base pre mid post h hi c3 x h1 h2)

theorem free_object_step (fuel M S : Nat) (s s1 : State) (hS : get_object_size s.mem M = S)
    (h16 : 16 ≤ S) (hc : coalesce fuel s M (M + S - 16) (M - 16) (M + S) = some s1) :
    free_object (fuel + 1) (M + 32) s =
      if get_status s1.mem (M - 16) = 0 ∧ get_status s1.mem (M + S) = 0 then
        free_object fuel (M + 32) s1
      else some s1 := by
  rw [free_object_at fuel M S s hS h16, hc]

/-- `free_object` between two allocated neighbours (or fenceposts). -/
theorem free_object_none (s : State) (As1 As2 : List Arena) (base : Nat) (pre post : List Blk)
    (M : Blk) (fuel : Nat) (hH : Heap s (put As1 base pre [M] post As2))
    (hu : M.used = true) (hl : get_status s.mem (M.addr - 16) = 1)
    (hr : get_status s.mem (M.addr + M.size) = 1)
    (hf : (free_addrs (all_blocks As1 ++ pre)).length < fuel) :
    ∃ m1, free_object (fuel + 1) (M.addr + 32) s = some { s with mem := m1 } ∧
      Heap { s with mem := m1 } (put As1 base pre [⟨M.addr, M.size, false⟩] post As2) ∧
      (∀ x, (x < M.addr ∨ M.addr + M.size ≤ x) →
        NoLink (nodes_of s (put As1 base pre [M] post As2)) x → m1 x = s.mem x) := by
  have fM := Heap_block_put s As1 As2 base pre [M] post hH M (by simp)
  obtain ⟨lo, hi, c1, c2, c3, -⟩ := Heap_focus s As1 As2 base pre [M] post hH
  obtain ⟨m1, e1, h1, fr⟩ := coalesce_insert s As1 As2 base pre post M fuel hH hu hl hr hf
  have c2' := c2
  obtain ⟨c2a, c2b⟩ := c2
  have c2b : lo + M.size = hi := c2b
  have hk := neighbour_tags_kept s As1 As2 base pre [M] post hH lo hi c1 c2' c3 m1
    (fun x hx hnl => fr x (by omega) hnl)
  refine ⟨m1, ?_, h1, fr⟩
  rw [free_object_step fuel M.addr M.size s _ fM.2.2.2.2.1.1 (by omega) e1]
  have hst : get_status m1 (M.addr - 16) = 1 := by rw [c2a, hk.1, ← c2a, hl]
  rw [if_neg]
  show ¬ (get_status m1 (M.addr - 16) = 0 ∧ _)
  rw [hst]; simp

/-- `free_object` behind a free block and in front of an allocated one. -/
theorem free_object_left (s : State) (As1 As2 : List Arena) (base : Nat) (pre post : List Blk)
    (L M : Blk) (fuel : Nat) (hH : Heap s (put As1 base pre [L, M] post As2))
    (hL : L.used = false) (hr : get_status s.mem (M.addr + M.size) = 1) :
    ∃ m1, free_object (fuel + 1) (M.addr + 32) s = some { s with mem := m1 } ∧
      Heap { s with mem := m1 }
        (put As1 base pre [⟨L.addr, L.size + M.size, false⟩] post As2) ∧
      (∀ x, (x < L.addr ∨ M.addr + M.size ≤ x) →
        NoLink (nodes_of s (put As1 base pre [L, M] post As2)) x → m1 x = s.mem x) := by
  have fM := Heap_block_put s As1 As2 base pre [L, M] post hH M (by simp)
  obtain ⟨lo, hi, c1, c2, c3, -⟩ := Heap_focus s As1 As2 base pre [L, M] post hH
  obtain ⟨m1, e1, h1, fr⟩ := coalesce_left s As1 As2 base pre post L M fuel hH hL hr
  have c2' := c2
  obtain ⟨c2a, c2b, c2c⟩ := c2
  have c2b : M.addr = lo + L.size := c2b
  have c2c : lo + L.size + M.size = hi := c2c
  have hk := neighbour_tags_kept s As1 As2 base pre [L, M] post hH lo hi c1 c2' c3 m1
    (fun x hx hnl => fr x (by omega) hnl)
  refine ⟨m1, ?_, h1, fr⟩
  rw [free_object_step fuel M.addr M.size s _ fM.2.2.2.2.1.1 (by omega) e1]
  have ehi : M.addr + M.size = hi := by omega
  have hst : get_status m1 (M.addr + M.size) = 1 := by rw [ehi, hk.2, ← ehi, hr]
  rw [if_neg]
  show ¬ (_ ∧ get_status m1 (M.addr + M.size) = 0)
  rw [hst]; simp

/-- `free_object` behind an allocated block (or fencepost) and in front of a free one. -/
theorem free_object_right (s : State) (As1 As2 : List Arena) (base : Nat)
    (pre post : List Blk) (M R : Blk) (fuel : Nat)
    (hH : Heap s (put As1 base pre [M, R] post As2))
    (hu : M.used = true) (hR : R.used = false) (hl : get_status s.mem (M.addr - 16) = 1) :
    ∃ m1, free_object (fuel + 1) (M.addr + 32) s = some { s with mem := m1 } ∧
      Heap { s with mem := m1 }
        (put As1 base pre [⟨M.addr, M.size + R.size, false⟩] post As2) ∧
      (∀ x, (x < M.addr ∨ M.addr + M.size + R.size ≤ x) →
        NoLink (nodes_of s (put As1 base pre [M, R] post As2)) x → m1 x = s.mem x) := by
  have fM := Heap_block_put s As1 As2 base pre [M, R] post hH M (by simp)
  obtain ⟨lo, hi, c1, c2, c3, -⟩ := Heap_focus s As1 As2 base pre [M, R] post hH
  obtain ⟨m1, e1, h1, -, fr⟩ := coalesce_right s As1 As2 base pre post M R fuel hH hu hR
  have c2' := c2
  obtain ⟨c2a, c2b, c2c⟩ := c2
  have c2b : R.addr = lo + M.size := c2b
  have c2c : lo + M.size + R.size = hi := c2c
  have hk := neighbour_tags_kept s As1 As2 base pre [M, R] post hH lo hi c1 c2' c3 m1
    (fun x hx hnl => fr x (by omega) hnl)
  refine ⟨m1, ?_, h1, fr⟩
  rw [free_object_step fuel M.addr M.size s _ fM.2.2.2.2.1.1 (by omega) e1]
  have hst : get_status m1 (M.addr - 16) = 1 := by rw [c2a, hk.1, ← c2a, hl]
  rw [if_neg]
  show ¬ (get_status m1 (M.addr - 16) = 0 ∧ _)
  rw [hst]; simp

theorem nodes_after_merge_right (s s1 : State) (hs : s1.sentinel = s.sentinel)
    (As1 As2 : List Arena) (base : Nat) (pre post : List Blk) (L M R : Blk) (x : Nat)
    (hL : L.used = false) (hu : M.used = true) (hR : R.used = false)
    (hx : x < M.addr + 16 ∨ M.addr + 32 ≤ x)
    (h : NoLink (nodes_of s (put As1 base pre [L, M, R] post As2)) x) :
    NoLink (nodes_of s1 (put As1 base pre [L, ⟨M.addr, M.size + R.size, false⟩] post As2)) x := by
  intro n hn
  rw [nodes_put] at hn
  have e1 : free_addrs [L, (⟨M.addr, M.size + R.size, false⟩ : Blk)] = [L.addr, M.addr] := by
    simp [free_addrs, hL]
  rw [e1, hs] at hn
  have hn2 : n = M.addr ∨ n ∈ nodes_of s (put As1 base pre [L, M, R] post As2) := by
    rw [nodes_put]
    have e2 : free_addrs [L, M, R] = [L.addr, R.addr] := by simp [free_addrs, hL, hu, hR]
    rw [e2]
    simp only [List.mem_cons, List.mem_append, List.not_mem_nil, or_false] at hn ⊢
    rcases hn with h | (h | h | h) | h
    · exact Or.inr (Or.inl h)
    · exact Or.inr (Or.inr (Or.inl (Or.inl h)))
    · exact Or.inr (Or.inr (Or.inl (Or.inr (Or.inl h))))
    · exact Or.inl h
    · exact Or.inr (Or.inr (Or.inr h))
  rcases hn2 with h1 | h1
  · rw [h1]; exact hx
  · exact h n h1

/-- `free_object` between two free blocks: one nested call, after which the left
block spans all three and the other two have left the list. -/
theorem free_object_both (s : State) (As1 As2 : List Arena) (base : Nat)
    (pre post : List Blk) (L M R : Blk) (fuel : Nat)
    (hH : Heap s (put As1 base pre [L, M, R] post As2))
    (hL : L.used = false) (hu : M.used = true) (hR : R.used = false)
    (hrr : get_status s.mem (R.addr + R.size) = 1) :
    free_object 1 (M.addr + 32) s = none ∧
    ∃ m2, free_object (fuel + 2) (M.addr + 32) s = some { s with mem := m2 } ∧
      Heap { s with mem := m2 }
        (put As1 base pre [⟨L.addr, L.size + (M.size + R.size), false⟩] post As2) ∧
      (∀ x, (x < L.addr ∨ R.addr + R.size ≤ x) →
        NoLink (nodes_of s (put As1 base pre [L, M, R] post As2)) x → m2 x = s.mem x) := by
  have fL := Heap_block_put s As1 As2 base pre [L, M, R] post hH L (by simp)
  have fM := Heap_block_put s As1 As2 base pre [L, M, R] post hH M (by simp)
  have fR := Heap_block_put s As1 As2 base pre [L, M, R] post hH R (by simp)
  obtain ⟨lo, hi, c1, c2, c3, -⟩ := Heap_focus s As1 As2 base pre [L, M, R] post hH
  obtain ⟨c2a, c2b, c2c, c2d⟩ := c2
  have c2b : M.addr = lo + L.size := c2b
  have c2c : R.addr = lo + L.size + M.size := c2c
  have c2d : lo + L.size + M.size + R.size = hi := c2d
  have hH' : Heap s (put As1 base (pre ++ [L]) [M, R] post As2) := by
    rw [put_shift_left]; exact hH
  have hput : put As1 base (pre ++ [L]) [M, R] post As2 = put As1 base pre [L, M, R] post As2 :=
    put_shift_left _ _ _ _ _ _ _
  have d1 : Chain (base + 16) (pre ++ [L]) M.addr :=
    (Chain_append _ _ _ _).mpr ⟨lo, c1, c2a, by show lo + L.size = M.addr; omega⟩
  have d2 : Chain M.addr [M, R] hi :=
    ⟨rfl, by show R.addr = M.addr + M.size; omega, by show M.addr + M.size + R.size = hi; omega⟩
  have hl0 : get_status s.mem (M.addr - 16) = 0 := by
    have e : M.addr - 16 = L.addr + L.size - 16 := by omega
    rw [e, fL.2.2.2.2.2.2, hL]; rfl
  -- the first pass, for any fuel
  have pass1 : ∀ k, ∃ m4, free_object (k + 1) (M.addr + 32) s =
        free_object k (M.addr + 32) { s with mem := m4 } ∧
      Heap { s with mem := m4 }
        (put As1 base (pre ++ [L]) [⟨M.addr, M.size + R.size, false⟩] post As2) ∧
      get_status m4 hi = 1 ∧
      (∀ x, (x < M.addr ∨ M.addr + M.size + R.size ≤ x) →
        NoLink (nodes_of s (put As1 base pre [L, M, R] post As2)) x → m4 x = s.mem x) := by
    intro k
    obtain ⟨m4, e1, h1, hs0, fr⟩ :=
      coalesce_right s As1 As2 base (pre ++ [L]) post M R k hH' hu hR
    rw [hput] at fr
    have hk := neighbour_tags_kept s As1 As2 base (pre ++ [L]) [M, R] post hH' M.addr hi
      d1 d2 c3 m4 (fun x hx hnl => fr x (by omega) (hput ▸ hnl))
    refine ⟨m4, ?_, h1, ?_, fr⟩
    · rw [free_object_step k M.addr M.size s _ fM.2.2.2.2.1.1 (by omega) e1]
      rw [if_pos ⟨hk.1.trans hl0, hs0⟩]
    · rw [hk.2]
      have : hi = R.addr + R.size := by omega
      rw [this]; exact hrr
  refine ⟨?_, ?_⟩
  · obtain ⟨m4, e, -⟩ := pass1 0
    rw [e]; rfl
  · obtain ⟨m4, e, h1, hr1, fr1⟩ := pass1 (fuel + 1)
    have h1' : Heap { s with mem := m4 }
        (put As1 base pre [L, ⟨M.addr, M.size + R.size, false⟩] post As2) := by
      rw [← put_shift_left]; exact h1
    have ehi : M.addr + (M.size + R.size) = hi := by omega
    obtain ⟨m2, e2, h2, fr2⟩ := free_object_left { s with mem := m4 } As1 As2 base pre post L
      ⟨M.addr, M.size + R.size, false⟩ fuel h1' hL (by
        show get_status m4 (M.addr + (M.size + R.size)) = 1
        rw [ehi]; exact hr1)
    refine ⟨m2, e.trans e2, h2, ?_⟩
    intro x hx hnl
    have hx1 : x < M.addr + 16 ∨ M.addr + 32 ≤ x := by omega
    have a1 : m2 x = m4 x :=
      fr2 x (by show x < L.addr ∨ M.addr + (M.size + R.size) ≤ x; omega)
        (nodes_after_merge_right s _ rfl As1 As2 base pre post L M R x hL hu hR hx1 hnl)
    exact a1.trans (fr1 x (by omega) hnl)

/-! ## The free list as `print_list` visits it -/

theorem list_entries_succ (fuel : Nat) (s : State) (ptr : Nat) :
    list_entries (fuel + 1) s ptr =
      (if ptr ≠ s.free_list then
        match list_entries fuel s (get_next s.mem ptr) with
        | none => none
        | some l => some ((ptr, get_object_size s.mem ptr) :: l)
      else some []) := rfl

theorem list_entries_path (s : State) (hfl : s.free_list = s.sentinel) :
    ∀ (todo : List Nat) (p fuel : Nat), Path s.mem p (todo ++ [s.sentinel]) →
      (∀ x ∈ todo, x ≠ s.sentinel) → todo.length < fuel →
      list_entries fuel s (get_next s.mem p) =
        some (todo.map (fun x => (x, get_object_size s.mem x))) := by
  intro todo
  induction todo with
  | nil =>
    intro p fuel hp _ hf
    obtain ⟨k, rfl⟩ : ∃ k, fuel = k + 1 := ⟨fuel - 1, by simp at hf; omega⟩
    have h1 : get_next s.mem p = s.sentinel := hp.1
    rw [h1, list_entries_succ, if_neg (not_not.mpr hfl.symm)]
    rfl
  | cons x todo ih =>
    intro p fuel hp hne hf
    obtain ⟨k, rfl⟩ : ∃ k, fuel = k + 1 := ⟨fuel - 1, by simp at hf; omega⟩
    have h1 : get_next s.mem p = x := hp.1
    have hx : x ≠ s.free_list := fun h => hne x (List.mem_cons_self _ _) (h.trans hfl)
    have hlen : todo.length < k := by simp at hf; omega
    rw [h1, list_entries_succ, if_pos hx,
      ih x k hp.2.2 (fun y hy => hne y (List.mem_cons_of_mem _ hy)) hlen]
    rfl

theorem free_entries_eq_map (m : Mem) (bs : List Blk)
    (h : ∀ b ∈ bs, get_object_size m b.addr = b.size) :
    (free_addrs bs).map (fun x => (x, get_object_size m x)) = free_entries bs := by
  unfold free_addrs free_entries
  rw [List.map_map]
  apply List.map_congr_left
  intro b hb
  have := h b (List.mem_of_mem_filter hb)
  simp [this]

theorem free_entries_length (bs : List Blk) :
    (free_entries bs).length = (free_addrs bs).length := by
  simp [free_entries, free_addrs]

theorem free_entries_fst (bs : List Blk) :
    (free_entries bs).map (fun e => e.1) = free_addrs bs := by
  simp [free_entries, free_addrs]

theorem free_entries_append (l1 l2 : List Blk) :
    free_entries (l1 ++ l2) = free_entries l1 ++ free_entries l2 := by
  simp [free_entries]

theorem mem_free_entries (l : List Blk) (e : Nat × Nat) :
    e ∈ free_entries l ↔ ∃ b ∈ l, b.used = false ∧ (b.addr, b.size) = e := by
  simp [free_entries, and_assoc]

theorem free_entries_one_free (b : Blk) (h : b.used = false) :
    free_entries [b] = [(b.addr, b.size)] := by
  simp [free_entries, h]

theorem free_entries_one_used (b : Blk) (h : b.used = true) : free_entries [b] = [] := by
  simp [free_entries, h]

/-- In a well-formed heap the traversal of `print_list` yields the free blocks of
the description, in address order. -/
theorem Heap_entries (s : State) (g : List Arena) (h : Heap s g) (fuel : Nat)
    (hf : (free_addrs (all_blocks g)).length < fuel) :
    free_list_entries fuel s = some (free_entries (all_blocks g)) := by
  have hc : Path s.mem s.sentinel (free_addrs (all_blocks g) ++ [s.sentinel]) :=
    h.2.2.2.2.2.2.1
  have hnd := Heap_nodup s g h
  have hne : ∀ x ∈ free_addrs (all_blocks g), x ≠ s.sentinel := by
    intro x hx e
    exact (List.nodup_cons.mp hnd).1 (e ▸ hx)
  have hsz : ∀ b ∈ all_blocks g, get_object_size s.mem b.addr = b.size := by
    intro b hb
    obtain ⟨A, hA, hbA⟩ := (mem_all_blocks g b).mp hb
    exact (Heap_block s g h A hA b hbA).2.2.2.2.1.1
  have e1 := list_entries_path s h.1 _ s.sentinel fuel hc hne hf
  rw [free_entries_eq_map s.mem _ hsz] at e1
  unfold free_list_entries
  rw [h.1]
  exact e1

theorem list_entries_mono (s : State) :
    ∀ (fuel p : Nat) (l : List (Nat × Nat)), list_entries fuel s p = some l →
      ∀ fuel1, fuel ≤ fuel1 → list_entries fuel1 s p = some l := by
  intro fuel
  induction fuel with
  | zero => intro p l h; exact absurd h (by simp [list_entries])
  | succ k ih =>
    intro p l h fuel1 hle
    obtain ⟨k1, rfl⟩ : ∃ k1, fuel1 = k1 + 1 := ⟨fuel1 - 1, by omega⟩
    rw [list_entries_succ] at h ⊢
    by_cases hp : p ≠ s.free_list
    · rw [if_pos hp] at h ⊢
      cases h0 : list_entries k s (get_next s.mem p) with
      | none => rw [h0] at h; exact absurd h (by simp)
      | some l0 =>
        rw [h0] at h
        rw [ih _ l0 h0 k1 (by omega)]
        exact h
    · rw [if_neg hp] at h ⊢
      exact h

/-- What `print_list` yields does not depend on the fuel. -/
theorem Heap_entries_unique (s : State) (g : List Arena) (h : Heap s g) (fuel : Nat)
    (l : List (Nat × Nat)) (hl : free_list_entries fuel s = some l) :
    l = free_entries (all_blocks g) := by
  have h1 := Heap_entries s g h (fuel + (free_addrs (all_blocks g)).length + 1) (by omega)
  have h2 := list_entries_mono s fuel _ l hl
    (fuel + (free_addrs (all_blocks g)).length + 1) (by omega)
  unfold free_list_entries at h1
  rw [h2] at h1
  exact Option.some.inj h1

/-! ## Putting a block of the description in focus -/

theorem exists_put (g : List Arena) (b : Blk) (hb : b ∈ all_blocks g) :
    ∃ As1 base pre post As2, g = put As1 base pre [b] post As2 := by
  obtain ⟨A, hA, hbA⟩ := (mem_all_blocks g b).mp hb
  obtain ⟨As1, As2, rfl⟩ := List.append_of_mem hA
  obtain ⟨pre, post, e⟩ := List.append_of_mem hbA
  refine ⟨As1, A.base, pre, post, As2, ?_⟩
  unfold put
  have hA' : A = ⟨A.base, pre ++ [b] ++ post⟩ := by
    cases A with
    | mk base blocks =>
      simp only at e
      simp [e]
  rw [← hA']

theorem first_split (P : Blk → Prop) (l : List Blk) :
    (∀ b ∈ l, ¬ P b) ∨ ∃ pre b post, l = pre ++ b :: post ∧ P b ∧ ∀ x ∈ pre, ¬ P x := by
  induction l with
  | nil => left; simp
  | cons a l ih =>
    by_cases ha : P a
    · right; exact ⟨[], a, l, rfl, ha, by simp⟩
    · rcases ih with h | ⟨pre, b, post, e, hb, hpre⟩
      · left
        intro b hb
        rcases List.mem_cons.mp hb with h1 | h1
        · rw [h1]; exact ha
        · exact h b h1
      · right
        refine ⟨a :: pre, b, post, by rw [e]; rfl, hb, ?_⟩
        intro x hx
        rcases List.mem_cons.mp hx with h1 | h1
        · rw [h1]; exact ha
        · exact hpre x h1

/-- The first block of a description with a given property, in focus. -/
theorem first_put (P : Blk → Prop) (g : List Arena) :
    (∀ b ∈ all_blocks g, ¬ P b) ∨
    ∃ As1 base pre b post As2, g = put As1 base pre [b] post As2 ∧ P b ∧
      ∀ x ∈ all_blocks As1 ++ pre, ¬ P x := by
  induction g with
  | nil => left; simp [all_blocks]
  | cons A g ih =>
    rcases first_split P A.blocks with h | ⟨pre, b, post, e, hb, hpre⟩
    · rcases ih with h1 | ⟨As1, base, pre, b, post, As2, e, hb, hpre⟩
      · left
        intro b hb
        rcases List.mem_append.mp hb with h2 | h2
        · exact h b h2
        · exact h1 b h2
      · right
        refine ⟨A :: As1, base, pre, b, post, As2, by rw [e]; rfl, hb, ?_⟩
        intro x hx
        have hx' : x ∈ A.blocks ++ (all_blocks As1 ++ pre) := by
          simpa [all_blocks, List.append_assoc] using hx
        rcases List.mem_append.mp hx' with h2 | h2
        · exact h x h2
        · exact hpre x h2
    · right
      refine ⟨[], A.base, pre, b, post, g, ?_, hb, ?_⟩
      · unfold put
        cases A with
        | mk base blocks =>
          simp only at e
          simp [e]
      · intro x hx
        exact hpre x (by simpa [all_blocks] using hx)

/-! ## Neighbouring free blocks -/

theorem NoAdjFree_parts (pre mid post : List Blk) (h : NoAdjFree (pre ++ mid ++ post)) :
    NoAdjFree pre ∧ NoAdjFree mid ∧ NoAdjFree post ∧
    (∀ l a c r, pre = l ++ [a] → mid = c :: r → a.used = true ∨ c.used = true) ∧
    (∀ l a c r, mid = l ++ [a] → post = c :: r → a.used = true ∨ c.used = true) := by
  obtain ⟨h1, h2, h3⟩ := (NoAdjFree_append _ _).mp h
  obtain ⟨h4, h5, h6⟩ := (NoAdjFree_append _ _).mp h1
  refine ⟨h4, h5, h2, h6, ?_⟩
  intro l a c r e1 e2
  exact h3 (pre ++ l) a c r (by rw [e1, List.append_assoc]) e2

theorem NoAdjFree_build (pre mid post : List Blk) (h1 : NoAdjFree pre) (h2 : NoAdjFree mid)
    (h3 : NoAdjFree post) (hne : mid ≠ [])
    (hl : ∀ l a c r, pre = l ++ [a] → mid = c :: r → a.used = true ∨ c.used = true)
    (hr : ∀ l a c r, mid = l ++ [a] → post = c :: r → a.used = true ∨ c.used = true) :
    NoAdjFree (pre ++ mid ++ post) := by
  apply (NoAdjFree_append _ _).mpr
  refine ⟨(NoAdjFree_append _ _).mpr ⟨h1, h2, hl⟩, h3, ?_⟩
  intro l a c r e1 e2
  rcases List.eq_nil_or_concat mid with h | ⟨l1, a1, h⟩
  · exact absurd h hne
  · rw [List.concat_eq_append] at h
    rw [h, ← List.append_assoc] at e1
    have := List.append_inj' e1 rfl
    have ha : a1 = a := by simpa using this.2
    exact hr l1 a c r (by rw [h, ha]) e2

/-- The block before a free block in focus is allocated. -/
theorem NoAdjFree_left (pre post r : List Blk) (c : Blk)
    (h : NoAdjFree (pre ++ c :: r ++ post)) (hc : c.used = false) :
    ∀ l a, pre = l ++ [a] → a.used = true := by
  intro l a e
  have := (NoAdjFree_parts pre (c :: r) post h).2.2.2.1 l a c r e rfl
  rcases this with h1 | h1
  · exact h1
  · rw [hc] at h1; exact absurd h1 (by simp)

/-- The block after a free block in focus is allocated. -/
theorem NoAdjFree_right (pre post l : List Blk) (a : Blk)
    (h : NoAdjFree (pre ++ (l ++ [a]) ++ post)) (ha : a.used = false) :
    ∀ c r, post = c :: r → c.used = true := by
  intro c r e
  have := (NoAdjFree_parts pre (l ++ [a]) post h).2.2.2.2 l a c r rfl e
  rcases this with h1 | h1
  · rw [ha] at h1; exact absurd h1 (by simp)
  · exact h1

theorem Inv_put (s : State) (As1 As2 : List Arena) (base : Nat) (pre mid post : List Blk) :
    (∀ A ∈ put As1 base pre mid post As2, NoAdjFree A.blocks) ↔
      (∀ A ∈ As1, NoAdjFree A.blocks) ∧ NoAdjFree (pre ++ mid ++ post) ∧
      (∀ A ∈ As2, NoAdjFree A.blocks) := by
  unfold put
  constructor
  · intro h
    refine ⟨fun A hA => h A (List.mem_append_left _ hA), h ⟨base, pre ++ mid ++ post⟩ (by simp),
      fun A hA => h A (List.mem_append_right _ (List.mem_cons_of_mem _ hA))⟩
  · rintro ⟨h1, h2, h3⟩ A hA
    rcases List.mem_append.mp hA with h | h
    · exact h1 A h
    · rcases List.mem_cons.mp h with h | h
      · rw [h]; exact h2
      · exact h3 A h

/-! ## The size computation of `allocate_object` -/

theorem land_mask (x : Nat) (h : x < 18446744073709551616) :
    x &&& 18446744073709551608 = x / 8 * 8 := by
  have e1 : (18446744073709551608 : Nat) = (2 ^ 61 - 1) <<< 3 := by decide
  have e2 : x / 8 * 8 = (x >>> 3) <<< 3 := by
    rw [Nat.shiftLeft_eq, Nat.shiftRight_eq_div_pow]
  rw [e1, e2]
  apply Nat.eq_of_testBit_eq
  intro i
  simp only [Nat.testBit_and, Nat.testBit_shiftLeft, Nat.testBit_shiftRight,
    Nat.testBit_two_pow_sub_one]
  by_cases hi : 3 ≤ i
  · have e3 : 3 + (i - 3) = i := by omega
    rw [e3]
    by_cases h2 : i - 3 < 61
    · simp [hi, h2]
    · have hx : x.testBit i = false := by
        apply Nat.testBit_lt_two_pow
        calc x < 2 ^ 64 := by norm_num; exact h
          _ ≤ 2 ^ i := Nat.pow_le_pow_right (by norm_num) (by omega)
      simp [hx]
  · simp [hi]

theorem rounded_size_eq (n : Nat) (h : n + 55 < 18446744073709551616) :
    rounded_size n = (n + 55) / 8 * 8 := by
  unfold rounded_size
  show ((n + 32 + 16 + (8 - 1)) % 18446744073709551616) &&& (18446744073709551616 - 8) = _
  have e : n + 32 + 16 + (8 - 1) = n + 55 := by omega
  rw [e, Nat.mod_eq_of_lt h]
  exact land_mask _ h

theorem clamp_size_eq (n : Nat) : clamp_size n = max n 8 := by
  unfold clamp_size
  show (if n < 8 then 8 else n) = max n 8
  split <;> omega

theorem clamp_size_idem (n : Nat) : clamp_size (clamp_size n) = clamp_size n := by
  rw [clamp_size_eq, clamp_size_eq]
  omega

/-- The total size computed for a request that does not wrap around. -/
theorem rounded_size_facts (n : Nat) (h : max n 8 + 55 < 18446744073709551616) :
    56 ≤ rounded_size (clamp_size n) ∧ rounded_size (clamp_size n) % 8 = 0 ∧
      max n 8 + 48 ≤ rounded_size (clamp_size n) ∧
      rounded_size (clamp_size n) < max n 8 + 56 := by
  have hc := clamp_size_eq n
  have e := rounded_size_eq (clamp_size n) (by rw [hc]; omega)
  rw [hc] at e ⊢
  rw [e]
  refine ⟨by omega, by omega, by omega, by omega⟩

/-! ## Allocation from the first block that fits -/

theorem allocate_object_succ (fuel size : Nat) (s : State) :
    allocate_object (fuel + 1) size s =
      (match allocate_loop fuel (rounded_size (clamp_size size)) s s.free_list with
      | none => none
      | some (Search.found ptr s1) => some (ptr, s1)
      | some Search.exhausted =>
        match request_more_memory fuel s with
        | none => none
        | some s1 => allocate_object fuel (clamp_size size) s1) := rfl

/-- The search loop stops at the first free block of the description that fits. -/
theorem allocate_loop_fit (s : State) (As1 As2 : List Arena) (base : Nat)
    (pre post : List Blk) (b : Blk) (T fuel : Nat)
    (hH : Heap s (put As1 base pre [b] post As2)) (hfree : b.used = false)
    (hfit : T ≤ b.size)
    (hsmall : ∀ x ∈ all_blocks As1 ++ pre, x.used = false → x.size < T)
    (hf : (free_addrs (all_blocks As1 ++ pre)).length < fuel) :
    allocate_loop fuel T s s.free_list =
      some (Search.found (allocate_from s T b.addr b.size).1
        (allocate_from s T b.addr b.size).2) := by
  have fb := Heap_block_put s As1 As2 base pre [b] post hH b (by simp)
  obtain ⟨lo, hi, c1, c2, c3, g1, g2, g3, g4, g5, g6, g7⟩ :=
    Heap_focus s As1 As2 base pre [b] post hH
  have hnodes := nodes_put s As1 base pre [b] post As2
  rw [free_addrs_one_free b hfree] at hnodes
  have hcyc : Cyc s.mem (nodes_of s (put As1 base pre [b] post As2)) := hH.2.2.2.2.2.2.1
  have hnd := Heap_nodup s _ hH
  rw [hnodes] at hcyc hnd
  have hbs : int_of_size (get_object_size s.mem b.addr) = b.size := by
    rw [fb.2.2.2.2.1.1]
    exact int_of_size_small _ (by omega)
  have hsm : ∀ x ∈ free_addrs (all_blocks As1 ++ pre),
      int_of_size (get_object_size s.mem x) < T := by
    intro x hx
    obtain ⟨c, hc, hcu, rfl⟩ := (mem_free_addrs _ _).mp hx
    have hc' : c ∈ all_blocks (put As1 base pre [b] post As2) := by
      rw [all_blocks_put]
      exact List.mem_append_left _ (List.mem_append_left _ hc)
    obtain ⟨A, hA, hcA⟩ := (mem_all_blocks _ c).mp hc'
    have fc := Heap_block s _ hH A hA c hcA
    have hA2 := arenas_sorted_bounds _ _ _ hH.2.2.2.1 A hA
    have hb2 := hH.2.1
    rw [fc.2.2.2.2.1.1, int_of_size_small _ (by omega)]
    exact hsmall c hc hcu
  have hfl : s.free_list = s.sentinel := hH.1
  have := allocate_loop_found s T (free_addrs (all_blocks As1 ++ pre)) b.addr
    (free_addrs (post ++ all_blocks As2)) fuel hfl (by simpa using hcyc) (by simpa using hnd)
    hsm (by rw [hbs]; exact hfit) hf
  rw [hbs] at this
  rw [hfl]
  exact this

/-- Allocation from the first free block `b` that fits: `b` is split, or handed
out whole, and the state stays well formed. -/
theorem alloc_fit (s : State) (As1 As2 : List Arena) (base : Nat) (pre post : List Blk)
    (b : Blk) (n fuel : Nat)
    (hI : Inv s (put As1 base pre [b] post As2)) (hfree : b.used = false)
    (hn : max n 8 + 55 < 18446744073709551616)
    (hfit : rounded_size (clamp_size n) ≤ b.size)
    (hsmall : ∀ x ∈ all_blocks As1 ++ pre, x.used = false →
      x.size < rounded_size (clamp_size n))
    (hf : (free_addrs (all_blocks As1 ++ pre)).length < fuel) :
    ∃ m1 mid, allocate_object (fuel + 1) n s = some (b.addr + 32, { s with mem := m1 }) ∧
      ((rounded_size (clamp_size n) + 56 ≤ b.size ∧
          mid = [⟨b.addr, rounded_size (clamp_size n), true⟩,
              ⟨b.addr + rounded_size (clamp_size n), b.size - rounded_size (clamp_size n),
                false⟩]) ∨
        (b.size < rounded_size (clamp_size n) + 56 ∧ mid = [⟨b.addr, b.size, true⟩])) ∧
      Inv { s with mem := m1 } (put As1 base pre mid post As2) ∧
      (∀ x, (x < b.addr ∨ b.addr + b.size ≤ x) →
        NoLink (nodes_of s (put As1 base pre [b] post As2)) x → m1 x = s.mem x) := by
  obtain ⟨hH, hsb, hna⟩ := hI
  obtain ⟨hT56, hT8, -, -⟩ := rounded_size_facts n hn
  generalize hTdef : rounded_size (clamp_size n) = T at *
  have hloop := allocate_loop_fit s As1 As2 base pre post b T fuel hH hfree hfit hsmall hf
  obtain ⟨n1, n2, n3⟩ := (Inv_put s As1 As2 base pre [b] post).mp hna
  have hpl := NoAdjFree_left pre post [] b n2 hfree
  have hpr := NoAdjFree_right pre post [] b n2 hfree
  obtain ⟨p1, -, p3, -, -⟩ := NoAdjFree_parts pre [b] post n2
  by_cases hsp : T + 56 ≤ b.size
  · obtain ⟨m9, e9, h9, f9⟩ := alloc_split s As1 As2 base pre post b T hH hfree hT56 hT8 hsp
    refine ⟨m9, [⟨b.addr, T, true⟩, ⟨b.addr + T, b.size - T, false⟩], ?_, Or.inl ⟨hsp, rfl⟩,
      ⟨h9, hsb, ?_⟩, f9⟩
    · rw [allocate_object_succ, hTdef, hloop, e9]
    · apply (Inv_put s As1 As2 base pre _ post).mpr
      refine ⟨n1, ?_, n3⟩
      apply NoAdjFree_build pre [⟨b.addr, T, true⟩, ⟨b.addr + T, b.size - T, false⟩] post p1
        (show (_ ∨ _) ∧ True from ⟨Or.inl rfl, trivial⟩) p3 (by simp)
      · intro l a c r e1 e2
        exact Or.inl (hpl l a e1)
      · intro l a c r e1 e2
        exact Or.inr (hpr c r e2)
  · obtain ⟨m4, e4, h4, f4⟩ := alloc_whole s As1 As2 base pre post b T hH hfree hfit (by omega)
    refine ⟨m4, [⟨b.addr, b.size, true⟩], ?_, Or.inr ⟨by omega, rfl⟩, ⟨h4, hsb, ?_⟩, f4⟩
    · rw [allocate_object_succ, hTdef, hloop, e4]
    · apply (Inv_put s As1 As2 base pre _ post).mpr
      refine ⟨n1, ?_, n3⟩
      apply NoAdjFree_build pre [⟨b.addr, b.size, true⟩] post p1 trivial p3 (by simp)
      · intro l a c r e1 e2
        rw [List.cons.injEq] at e2
        exact Or.inr (by rw [← e2.1])
      · intro l a c r e1 e2
        have := List.append_inj' (e1.symm.trans (List.nil_append _).symm) rfl
        exact Or.inl (by
          have h2 : a = ⟨b.addr, b.size, true⟩ := by simpa using this.2
          rw [h2])

/-! ## Links of the members in front of a changed member -/

theorem Path_prefix_agree (m m1 : Mem) :
    ∀ (X : List Nat) (p : Nat) (r r1 : List Nat), Path m p (X ++ r) → Path m1 p (X ++ r1) →
      ∀ x ∈ X, get_prev m1 x = get_prev m x ∧
        (x ≠ lastOf p X → get_next m1 x = get_next m x) := by
  intro X
  induction X with
  | nil => intro p r r1 _ _ x hx; simp at hx
  | cons y X ih =>
    intro p r r1 h h1 x hx
    obtain ⟨a1, a2, a3⟩ := h
    obtain ⟨b1, b2, b3⟩ := h1
    rcases List.mem_cons.mp hx with e | e
    · rw [e]
      refine ⟨b2.trans a2.symm, ?_⟩
      intro hne
      cases X with
      | nil => exact absurd rfl hne
      | cons z X => exact b3.1.trans a3.1.symm
    · exact ih y r r1 a3 b3 x e

/-! ## A new arena -/

/-- The fenceposts and boundary tags written into a new arena at `B`. -/
theorem arena_mem (m : Mem) (B V : Nat) (hB : B + 2097248 ≤ 18446744073709551616)
    (hV : V < 18446744073709551616) :
    ∀ m10, m10 = set_object_size (set_status (set_object_size (set_status (set_prev (set_next
        (set_object_size (set_status (set_object_size (set_status m B 1) B 0)
        (B + 16 + 2097152 + 32 + 16) 1) (B + 16 + 2097152 + 32 + 16) 0)
        (B + 16 + 2097152 + 32 + 16) 0) (B + 16 + 2097152 + 32 + 16) 0)
        (B + 16) 0) (B + 16) V) (B + 16 + 2097152 + 32) 0) (B + 16 + 2097152 + 32)
        (get_object_size (set_status (set_object_size (set_status (set_prev (set_next
        (set_object_size (set_status (set_object_size (set_status m B 1) B 0)
        (B + 16 + 2097152 + 32 + 16) 1) (B + 16 + 2097152 + 32 + 16) 0)
        (B + 16 + 2097152 + 32 + 16) 0) (B + 16 + 2097152 + 32 + 16) 0)
        (B + 16) 0) (B + 16) V) (B + 16 + 2097152 + 32) 0) (B + 16)) →
    (get_object_size m10 B = 0 ∧ get_status m10 B = 1) ∧
    (get_object_size m10 (B + 2097216) = 0 ∧ get_status m10 (B + 2097216) = 1) ∧
    (get_object_size m10 (B + 16) = V ∧ get_status m10 (B + 16) = 0) ∧
    (get_object_size m10 (B + 2097200) = V ∧ get_status m10 (B + 2097200) = 0) ∧
    (∀ x, m10 x = m x ∨ (B ≤ x ∧ x < B + 2097248 ∧ (x < B + 32 ∨ B + 48 ≤ x))) := by
  intro m10 hm
  have e1 : B + 16 + 2097152 + 32 + 16 = B + 2097216 := by omega
  have e2 : B + 16 + 2097152 + 32 = B + 2097200 := by omega
  rw [e1, e2] at hm
  have hv : get_object_size (set_status (set_object_size (set_status (set_prev (set_next
        (set_object_size (set_status (set_object_size (set_status m B 1) B 0)
        (B + 2097216) 1) (B + 2097216) 0)
        (B + 2097216) 0) (B + 2097216) 0)
        (B + 16) 0) (B + 16) V) (B + 2097200) 0) (B + 16) = V := by
    simp (disch := omega) only [set_object_size, set_status, set_next, set_prev,
      get_object_size_writeN, get_object_size_same]
  rw [hv] at hm
  subst hm
  refine ⟨⟨?_, ?_⟩, ⟨?_, ?_⟩, ⟨?_, ?_⟩, ⟨?_, ?_⟩, ?_⟩
  iterate 8
    simp (disch := omega) only [set_object_size, set_status, set_next, set_prev,
      get_object_size_writeN, get_status_writeN, get_object_size_same, get_status_same]
  intro x
  by_cases hx : (B ≤ x ∧ x < B + 12) ∨ (B + 16 ≤ x ∧ x < B + 28) ∨
      (B + 2097200 ≤ x ∧ x < B + 2097248)
  · right; omega
  · left
    simp only [set_object_size, set_status, set_next, set_prev]
    rw [writeN_out _ _ _ _ _ (by omega), writeN_out _ _ _ _ _ (by omega),
      writeN_out _ _ _ _ _ (by omega), writeN_out _ _ _ _ _ (by omega),
      writeN_out _ _ _ _ _ (by omega), writeN_out _ _ _ _ _ (by omega),
      writeN_out _ _ _ _ _ (by omega), writeN_out _ _ _ _ _ (by omega),
      writeN_out _ _ _ _ _ (by omega), writeN_out _ _ _ _ _ (by omega)]

theorem request_more_memory_eq (fuel : Nat) (s : State) :
    request_more_memory fuel s =
      add_to_list_loop fuel
        { s with
          heap_size := (s.heap_size + 2097248) % 18446744073709551616
          brk := s.brk + 2097248
          num_chunks := s.num_chunks + 1
          mem := (set_object_size (set_status (set_object_size (set_status (set_prev (set_next
            (set_object_size (set_status (set_object_size (set_status s.mem s.brk 1) s.brk 0)
            (s.brk + 16 + 2097152 + 32 + 16) 1) (s.brk + 16 + 2097152 + 32 + 16) 0)
            (s.brk + 16 + 2097152 + 32 + 16) 0) (s.brk + 16 + 2097152 + 32 + 16) 0)
            (s.brk + 16) 0) (s.brk + 16) 2097200) (s.brk + 16 + 2097152 + 32) 0)
            (s.brk + 16 + 2097152 + 32)
            (get_object_size (set_status (set_object_size (set_status (set_prev (set_next
            (set_object_size (set_status (set_object_size (set_status s.mem s.brk 1) s.brk 0)
            (s.brk + 16 + 2097152 + 32 + 16) 1) (s.brk + 16 + 2097152 + 32 + 16) 0)
            (s.brk + 16 + 2097152 + 32 + 16) 0) (s.brk + 16 + 2097152 + 32 + 16) 0)
            (s.brk + 16) 0) (s.brk + 16) 2097200) (s.brk + 16 + 2097152 + 32) 0)
            (s.brk + 16))) }
        (s.brk + 16) s.free_list := rfl

/-- Tags of an arena survive a change that keeps its bytes outside link fields. -/
theorem arena_ok_frame (s : State) (g : List Arena) (h : Heap s g) (m1 : Mem) (A : Arena)
    (hA : A ∈ g)
    (hfr : ∀ x, A.base ≤ x → x < A.base + 2097248 → NoLink (nodes_of s g) x →
      m1 x = s.mem x) :
    arena_ok m1 A := by
  obtain ⟨b1, b2, b3, b4, b5, b6⟩ := h.2.2.2.2.2.1 A hA
  obtain ⟨e1, e2⟩ := tags_congr s.mem m1 A.base (fun x h1 h2 =>
    hfr x (by omega) (by omega) (Heap_NoLink_fence s _ h A hA x (by omega)))
  obtain ⟨e3, e4⟩ := tags_congr s.mem m1 (A.base + 2097216) (fun x h1 h2 =>
    hfr x (by omega) (by omega) (Heap_NoLink_fence s _ h A hA x (by omega)))
  refine ⟨e1.trans b1, e2.trans b2, e3.trans b3, e4.trans b4, b5, ?_⟩
  intro b hb
  have f := Heap_block s _ h A hA b hb
  have hball : b ∈ all_blocks g := (mem_all_blocks _ b).mpr ⟨A, hA, hb⟩
  refine ⟨(b6 b hb).1, hdr_ok_congr s.mem m1 b ?_ f.2.2.2.2.1, ftr_ok_congr s.mem m1 b ?_
    f.2.2.2.2.2⟩
  · intro x h1 h2
    exact hfr x (by omega) (by omega)
      (Heap_NoLink_block s _ h b hball x h1 (by omega) (by omega))
  · intro x h1 h2
    exact hfr x (by omega) (by omega)
      (Heap_NoLink_block s _ h b hball x (by omega) (by omega) (by omega))

/-- Nodes of the free list of a well-formed heap lie below the break. -/
theorem Heap_nodes_below (s : State) (g : List Arena) (h : Heap s g)
    (hsb : s.sentinel + 32 ≤ s.brk) : ∀ n ∈ nodes_of s g, n + 32 ≤ s.brk := by
  intro n hn
  rcases List.mem_cons.mp hn with e | e
  · rw [e]; exact hsb
  · have hok : ∀ A ∈ g, Chain (A.base + 16) A.blocks (A.base + 2097216) ∧
        ∀ b ∈ A.blocks, 56 ≤ b.size := by
      intro A hA
      obtain ⟨-, -, -, -, b5, b6⟩ := h.2.2.2.2.2.1 A hA
      exact ⟨b5, fun b hb => (b6 b hb).1.1⟩
    have := (arenas_free_sorted 0 g s.brk h.2.2.2.1 hok).2 n e
    omega

theorem all_blocks_snoc (g : List Arena) (A : Arena) :
    all_blocks (g ++ [A]) = all_blocks g ++ A.blocks := by
  rw [all_blocks_append]
  simp [all_blocks]

/-- `request_more_memory` on a well-formed heap: a new arena at the break, whose
interior block joins the end of the free list. -/
theorem request_more_memory_spec (s : State) (g : List Arena) (fuel : Nat) (hH : Heap s g)
    (hsb : s.sentinel + 32 ≤ s.brk) (hroom : s.brk + 2097248 ≤ 18446744073709551616)
    (hf : (free_addrs (all_blocks g)).length < fuel) :
    ∃ m1, request_more_memory fuel s = some
        { s with
          heap_size := (s.heap_size + 2097248) % 18446744073709551616
          brk := s.brk + 2097248
          num_chunks := s.num_chunks + 1
          mem := m1 } ∧
      Heap { s with
          heap_size := (s.heap_size + 2097248) % 18446744073709551616
          brk := s.brk + 2097248
          num_chunks := s.num_chunks + 1
          mem := m1 } (g ++ [⟨s.brk, [⟨s.brk + 16, 2097200, false⟩]⟩]) ∧
      (∀ x, x < s.brk → NoLink (nodes_of s g) x → m1 x = s.mem x) := by
  rw [request_more_memory_eq]
  obtain ⟨t1, t2, t3, t4, t5⟩ := arena_mem s.mem s.brk 2097200 hroom (by omega) _ rfl
  generalize (set_object_size (set_status (set_object_size (set_status (set_prev (set_next
            (set_object_size (set_status (set_object_size (set_status s.mem s.brk 1) s.brk 0)
            (s.brk + 16 + 2097152 + 32 + 16) 1) (s.brk + 16 + 2097152 + 32 + 16) 0)
            (s.brk + 16 + 2097152 + 32 + 16) 0) (s.brk + 16 + 2097152 + 32 + 16) 0)
            (s.brk + 16) 0) (s.brk + 16) 2097200) (s.brk + 16 + 2097152 + 32) 0)
            (s.brk + 16 + 2097152 + 32)
            (get_object_size (set_status (set_object_size (set_status (set_prev (set_next
            (set_object_size (set_status (set_object_size (set_status s.mem s.brk 1) s.brk 0)
            (s.brk + 16 + 2097152 + 32 + 16) 1) (s.brk + 16 + 2097152 + 32 + 16) 0)
            (s.brk + 16 + 2097152 + 32 + 16) 0) (s.brk + 16 + 2097152 + 32 + 16) 0)
            (s.brk + 16) 0) (s.brk + 16) 2097200) (s.brk + 16 + 2097152 + 32) 0)
            (s.brk + 16))) = m10 at *
  have hbelow := Heap_nodes_below s g hH hsb
  have hcyc0 : Cyc s.mem (nodes_of s g) := hH.2.2.2.2.2.2.1
  have hcyc10 : Cyc m10 (nodes_of s g) :=
    Cyc_frame s.mem m10 _ (fun n hn x h1 h2 => by
      have := hbelow n hn
      rcases t5 x with h | h
      · exact h
      · omega) hcyc0
  have hnd := Heap_nodup s _ hH
  obtain ⟨hsep, hlt⟩ := Heap_nodes s _ hH
  have hfl : s.free_list = s.sentinel := hH.1
  generalize hX : free_addrs (all_blocks g) = X at hf
  have hnodes : nodes_of s g = s.sentinel :: X := by rw [← hX]; rfl
  rw [hnodes] at hcyc10 hnd hsep hlt hbelow
  obtain ⟨m1, e1, r1, r2⟩ := add_to_list_loop_spec
    { s with
      heap_size := (s.heap_size + 2097248) % 18446744073709551616
      brk := s.brk + 2097248
      num_chunks := s.num_chunks + 1
      mem := m10 } (s.brk + 16) X [] [] fuel hfl
    (by simpa using hcyc10) (by simpa using hnd)
    (by
      simp only [List.nil_append, List.append_nil]
      apply SepAll_cons _ _ hsep
      intro k hk
      have := hbelow k hk
      right; left; omega)
    (by
      simp only [List.nil_append, List.append_nil]
      intro hk
      have := hbelow _ hk
      omega)
    (fun n hn => by
      simp only [List.nil_append, List.append_nil] at hn
      rcases List.mem_cons.mp hn with h | h
      · rw [h]; omega
      · exact hlt n h)
    (fun x hx => by
      have := hbelow x (List.mem_cons_of_mem _ hx)
      omega)
    (fun c hc => by simp at hc) hf
  simp only [List.nil_append, List.append_nil, lastOf] at e1 r1 r2
  have r2' : ∀ x, NoLink ((s.brk + 16) :: s.sentinel :: X) x → m1 x = m10 x := r2
  have hNLnew : ∀ x, s.brk ≤ x → (x < s.brk + 32 ∨ s.brk + 48 ≤ x) →
      NoLink ((s.brk + 16) :: s.sentinel :: X) x := by
    intro x h1 h2 n hn
    rcases List.mem_cons.mp hn with h | h
    · rw [h]; omega
    · have := hbelow n h
      omega
  have hfr : ∀ x, x < s.brk → NoLink (nodes_of s g) x → m1 x = s.mem x := by
    intro x hx hnl
    rw [r2' x ?_]
    · rcases t5 x with h | h
      · exact h
      · omega
    · intro n hn
      rcases List.mem_cons.mp hn with h | h
      · rw [h]; omega
      · exact hnl n (hnodes ▸ h)
  have e1' : add_to_list_loop fuel
      { s with
        heap_size := (s.heap_size + 2097248) % 18446744073709551616
        brk := s.brk + 2097248
        num_chunks := s.num_chunks + 1
        mem := m10 } (s.brk + 16) s.free_list = _ :=
    (congrArg (add_to_list_loop fuel _ (s.brk + 16)) hfl).trans e1
  refine ⟨m1, e1', ?_, hfr⟩
  have hbounds := arenas_sorted_bounds _ _ _ hH.2.2.2.1
  refine ⟨hfl, hroom, hH.2.2.1, ?_, ?_, ?_, ?_, ?_, ?_⟩
  · apply (arenas_sorted_append _ _ _ _).mpr
    exact ⟨s.brk, hH.2.2.2.1, Nat.le_refl _, Nat.le_refl _⟩
  · intro A hA
    rcases List.mem_append.mp hA with h | h
    · exact hH.2.2.2.2.1 A h
    · rw [List.mem_singleton] at h
      rw [h]
      exact Or.inl hsb
  · intro A hA
    rcases List.mem_append.mp hA with h | h
    · apply arena_ok_frame s g hH m1 A h
      intro x h1 h2 hnl
      have := (hbounds A h).2
      exact hfr x (by omega) hnl
    · rw [List.mem_singleton] at h
      rw [h]
      have k1 := tags_transfer m10 m1 s.brk 0 1 (fun x h1 h2 =>
        r2' x (hNLnew x h1 (by omega))) t1
      have k2 := tags_transfer m10 m1 (s.brk + 2097216) 0 1 (fun x h1 h2 =>
        r2' x (hNLnew x (by omega) (by omega))) t2
      have k3 := tags_transfer m10 m1 (s.brk + 16) 2097200 0 (fun x h1 h2 =>
        r2' x (hNLnew x (by omega) (by omega))) t3
      have k4 := tags_transfer m10 m1 (s.brk + 2097200) 2097200 0 (fun x h1 h2 =>
        r2' x (hNLnew x (by omega) (by omega))) t4
      refine ⟨k1.1, k1.2, k2.1, k2.2,
        ⟨rfl, by show s.brk + 16 + 2097200 = s.brk + 2097216; omega⟩, ?_⟩
      intro b hb
      rw [List.mem_singleton] at hb
      rw [hb]
      have e16 : s.brk + 16 + 2097200 - 16 = s.brk + 2097200 := by omega
      refine ⟨⟨by show 56 ≤ 2097200; omega, by show 2097200 % 8 = 0; omega⟩, k3, ?_⟩
      show get_object_size m1 (s.brk + 16 + 2097200 - 16) = 2097200 ∧
        get_status m1 (s.brk + 16 + 2097200 - 16) = 0
      rw [e16]
      exact k4
  · show Cyc m1 (s.sentinel :: free_addrs (all_blocks (g ++ [_])))
    rw [all_blocks_snoc, free_addrs_append, hX]
    exact r1
  · have := Heap_NoLink_sentinel s g hH
    have k := tags_congr s.mem m1 s.sentinel (fun x h1 h2 =>
      hfr x (by omega) (this x (by omega)))
    exact k.2.trans hH.2.2.2.2.2.2.2.1
  · have := Heap_NoLink_sentinel s g hH
    have k := tags_congr s.mem m1 s.sentinel (fun x h1 h2 =>
      hfr x (by omega) (this x (by omega)))
    exact k.1.trans hH.2.2.2.2.2.2.2.2

/-! ## The constructor -/

/-- The list links and the sentinel tag written by the constructor. -/
theorem init_mem (m10 : Mem) (S H : Nat) (hS : S + 32 ≤ H) (hH : H + 32 ≤ 18446744073709551616) :
    ∀ m16, m16 = set_object_size (set_status (set_prev (set_next (set_next (set_prev m10 S H)
        S H) H S) H S) S 2) S 0 →
    get_next m16 S = H ∧ get_prev m16 S = H ∧ get_next m16 H = S ∧ get_prev m16 H = S ∧
    get_status m16 S = 2 ∧ get_object_size m16 S = 0 ∧
    (∀ x, m16 x = m10 x ∨ (S ≤ x ∧ x < S + 32) ∨ (H + 16 ≤ x ∧ x < H + 32)) := by
  intro m16 hm
  subst hm
  refine ⟨?_, ?_, ?_, ?_, ?_, ?_, ?_⟩
  iterate 6
    simp (disch := omega) only [set_object_size, set_status, set_next, set_prev,
      get_object_size_writeN, get_status_writeN, get_next_writeN, get_prev_writeN,
      get_object_size_same, get_status_same, get_next_same, get_prev_same]
  intro x
  by_cases hx : (S ≤ x ∧ x < S + 32) ∨ (H + 16 ≤ x ∧ x < H + 32)
  · right; exact hx
  · left
    simp only [set_object_size, set_status, set_next, set_prev]
    rw [writeN_out _ _ _ _ _ (by omega), writeN_out _ _ _ _ _ (by omega),
      writeN_out _ _ _ _ _ (by omega), writeN_out _ _ _ _ _ (by omega),
      writeN_out _ _ _ _ _ (by omega), writeN_out _ _ _ _ _ (by omega)]

theorem init_allocator_eq (s : State) :
    init_allocator s =
      { s with
        heap_size := (s.heap_size + 2097248) % 18446744073709551616
        brk := s.brk + 2097248
        num_chunks := s.num_chunks + 1
        free_list := s.sentinel
        mem_start := s.brk + 16
        mem := (set_object_size (set_status (set_prev (set_next (set_next (set_prev
          (set_object_size (set_status (set_object_size (set_status (set_prev (set_next
            (set_object_size (set_status (set_object_size (set_status s.mem s.brk 1) s.brk 0)
            (s.brk + 16 + 2097152 + 32 + 16) 1) (s.brk + 16 + 2097152 + 32 + 16) 0)
            (s.brk + 16 + 2097152 + 32 + 16) 0) (s.brk + 16 + 2097152 + 32 + 16) 0)
            (s.brk + 16) 0) (s.brk + 16) 2097200) (s.brk + 16 + 2097152 + 32) 0)
            (s.brk + 16 + 2097152 + 32)
            (get_object_size (set_status (set_object_size (set_status (set_prev (set_next
            (set_object_size (set_status (set_object_size (set_status s.mem s.brk 1) s.brk 0)
            (s.brk + 16 + 2097152 + 32 + 16) 1) (s.brk + 16 + 2097152 + 32 + 16) 0)
            (s.brk + 16 + 2097152 + 32 + 16) 0) (s.brk + 16 + 2097152 + 32 + 16) 0)
            (s.brk + 16) 0) (s.brk + 16) 2097200) (s.brk + 16 + 2097152 + 32) 0)
            (s.brk + 16)))
          s.sentinel (s.brk + 16)) s.sentinel (s.brk + 16)) (s.brk + 16) s.sentinel)
          (s.brk + 16) s.sentinel) s.sentinel 2) s.sentinel 0) } := rfl

/-- The constructor leaves a well-formed heap: one arena whose interior is one
free block of `ARENA_SIZE` bytes plus header and footer. -/
theorem init_allocator_spec (s : State) (hsb : s.sentinel + 32 ≤ s.brk)
    (hroom : s.brk + 2097248 ≤ 18446744073709551616) :
    Inv (init_allocator s) [⟨s.brk, [⟨s.brk + 16, 2097200, false⟩]⟩] ∧
      (init_allocator s).brk = s.brk + 2097248 ∧
      (init_allocator s).sentinel = s.sentinel ∧
      (init_allocator s).num_chunks = s.num_chunks + 1 := by
  rw [init_allocator_eq]
  obtain ⟨t1, t2, t3, t4, t5⟩ := arena_mem s.mem s.brk 2097200 hroom (by omega) _ rfl
  generalize (set_object_size (set_status (set_object_size (set_status (set_prev (set_next
            (set_object_size (set_status (set_object_size (set_status s.mem s.brk 1) s.brk 0)
            (s.brk + 16 + 2097152 + 32 + 16) 1) (s.brk + 16 + 2097152 + 32 + 16) 0)
            (s.brk + 16 + 2097152 + 32 + 16) 0) (s.brk + 16 + 2097152 + 32 + 16) 0)
            (s.brk + 16) 0) (s.brk + 16) 2097200) (s.brk + 16 + 2097152 + 32) 0)
            (s.brk + 16 + 2097152 + 32)
            (get_object_size (set_status (set_object_size (set_status (set_prev (set_next
            (set_object_size (set_status (set_object_size (set_status s.mem s.brk 1) s.brk 0)
            (s.brk + 16 + 2097152 + 32 + 16) 1) (s.brk + 16 + 2097152 + 32 + 16) 0)
            (s.brk + 16 + 2097152 + 32 + 16) 0) (s.brk + 16 + 2097152 + 32 + 16) 0)
            (s.brk + 16) 0) (s.brk + 16) 2097200) (s.brk + 16 + 2097152 + 32) 0)
            (s.brk + 16))) = m10 at *
  obtain ⟨u1, u2, u3, u4, u5, u6, u7⟩ := init_mem m10 s.sentinel (s.brk + 16) (by omega)
    (by omega) _ rfl
  generalize set_object_size (set_status (set_prev (set_next (set_next (set_prev m10
    s.sentinel (s.brk + 16)) s.sentinel (s.brk + 16)) (s.brk + 16) s.sentinel)
    (s.brk + 16) s.sentinel) s.sentinel 2) s.sentinel 0 = m16 at *
  have hfr : ∀ x, s.brk ≤ x → (x < s.brk + 32 ∨ s.brk + 48 ≤ x) → m16 x = m10 x := by
    intro x h1 h2
    rcases u7 x with h | h
    · exact h
    · omega
  have k1 := tags_transfer m10 m16 s.brk 0 1 (fun x h1 h2 => hfr x h1 (by omega)) t1
  have k2 := tags_transfer m10 m16 (s.brk + 2097216) 0 1
    (fun x h1 h2 => hfr x (by omega) (by omega)) t2
  have k3 := tags_transfer m10 m16 (s.brk + 16) 2097200 0
    (fun x h1 h2 => hfr x (by omega) (by omega)) t3
  have k4 := tags_transfer m10 m16 (s.brk + 2097200) 2097200 0
    (fun x h1 h2 => hfr x (by omega) (by omega)) t4
  refine ⟨⟨⟨rfl, hroom, by show s.sentinel + 32 ≤ _; omega, ⟨Nat.zero_le _, Nat.le_refl _⟩,
    ?_, ?_, ?_, u5, u6⟩, by show s.sentinel + 32 ≤ s.brk + 2097248; omega, ?_⟩, rfl, rfl, rfl⟩
  · intro A hA
    rw [List.mem_singleton] at hA
    rw [hA]
    exact Or.inl hsb
  · intro A hA
    rw [List.mem_singleton] at hA
    rw [hA]
    refine ⟨k1.1, k1.2, k2.1, k2.2,
      ⟨rfl, by show s.brk + 16 + 2097200 = s.brk + 2097216; omega⟩, ?_⟩
    intro b hb
    rw [List.mem_singleton] at hb
    rw [hb]
    have e16 : s.brk + 16 + 2097200 - 16 = s.brk + 2097200 := by omega
    refine ⟨⟨by show 56 ≤ 2097200; omega, by show 2097200 % 8 = 0; omega⟩, k3, ?_⟩
    show get_object_size m16 (s.brk + 16 + 2097200 - 16) = 2097200 ∧
      get_status m16 (s.brk + 16 + 2097200 - 16) = 0
    rw [e16]
    exact k4
  · show Path m16 s.sentinel [s.brk + 16, s.sentinel]
    exact ⟨u1, u4, u3, u2, trivial⟩
  · intro A hA
    rw [List.mem_singleton] at hA
    rw [hA]
    trivial

/-! ## More fuel gives the same result -/

theorem add_to_list_loop_mono : ∀ (fuel : Nat) (s : State) (block c : Nat) (r : State),
    add_to_list_loop fuel s block c = some r →
      ∀ fuel1, fuel ≤ fuel1 → add_to_list_loop fuel1 s block c = some r := by
  intro fuel
  induction fuel with
  | zero =>
    intro s b c r h
    have h0 : (none : Option State) = some r := h
    exact Option.noConfusion h0
  | succ k ih =>
    intro s b c r h fuel1 hle
    obtain ⟨k1, rfl⟩ : ∃ k1, fuel1 = k1 + 1 := ⟨fuel1 - 1, by omega⟩
    rw [add_to_list_loop_succ] at h ⊢
    dsimp only at h ⊢
    by_cases h1 : get_next s.mem c > b
    · rw [if_pos h1] at h ⊢; exact h
    · rw [if_neg h1] at h ⊢
      by_cases h2 : get_next s.mem c ≠ s.free_list
      · rw [if_pos h2] at h ⊢; exact ih _ _ _ _ h k1 (by omega)
      · rw [if_neg h2] at h ⊢; exact h

theorem allocate_loop_mono : ∀ (fuel T : Nat) (s : State) (c : Nat) (r : Search),
    allocate_loop fuel T s c = some r →
      ∀ fuel1, fuel ≤ fuel1 → allocate_loop fuel1 T s c = some r := by
  intro fuel
  induction fuel with
  | zero =>
    intro T s c r h
    have h0 : (none : Option Search) = some r := h
    exact Option.noConfusion h0
  | succ k ih =>
    intro T s c r h fuel1 hle
    obtain ⟨k1, rfl⟩ : ∃ k1, fuel1 = k1 + 1 := ⟨fuel1 - 1, by omega⟩
    rw [allocate_loop_succ] at h ⊢
    dsimp only at h ⊢
    by_cases h1 : get_next s.mem c = s.sentinel
    · rw [if_pos h1] at h ⊢; exact h
    · rw [if_neg h1] at h ⊢
      by_cases h2 : int_of_size (get_object_size s.mem (get_next s.mem c)) ≥ T
      · rw [if_pos h2] at h ⊢; exact h
      · rw [if_neg h2] at h ⊢
        by_cases h3 : get_next s.mem c ≠ s.free_list
        · rw [if_pos h3] at h ⊢; exact ih _ _ _ _ h k1 (by omega)
        · rw [if_neg h3] at h ⊢; exact h

theorem request_more_memory_mono (fuel : Nat) (s r : State)
    (h : request_more_memory fuel s = some r) (fuel1 : Nat) (hle : fuel ≤ fuel1) :
    request_more_memory fuel1 s = some r := by
  rw [request_more_memory_eq] at h ⊢
  exact add_to_list_loop_mono _ _ _ _ _ h _ hle

theorem allocate_object_mono : ∀ (fuel n : Nat) (s : State) (r : Nat × State),
    allocate_object fuel n s = some r →
      ∀ fuel1, fuel ≤ fuel1 → allocate_object fuel1 n s = some r := by
  intro fuel
  induction fuel with
  | zero =>
    intro n s r h
    have h0 : (none : Option (Nat × State)) = some r := h
    exact Option.noConfusion h0
  | succ k ih =>
    intro n s r h fuel1 hle
    obtain ⟨k1, rfl⟩ : ∃ k1, fuel1 = k1 + 1 := ⟨fuel1 - 1, by omega⟩
    rw [allocate_object_succ] at h ⊢
    cases h0 : allocate_loop k (rounded_size (clamp_size n)) s s.free_list with
    | none => rw [h0] at h; exact absurd h (by simp)
    | some o =>
      rw [h0] at h
      rw [allocate_loop_mono k _ _ _ _ h0 k1 (by omega)]
      cases o with
      | found ptr s1 => exact h
      | exhausted =>
        dsimp only at h ⊢
        cases h1 : request_more_memory k s with
        | none => rw [h1] at h; exact absurd h (by simp)
        | some s1 =>
          rw [h1] at h
          rw [request_more_memory_mono k s s1 h1 k1 (by omega)]
          exact ih _ _ _ h k1 (by omega)

theorem coalesce_mono (fuel : Nat) (s : State) (mh mf lf rh : Nat) (r : State)
    (h : coalesce fuel s mh mf lf rh = some r) (fuel1 : Nat) (hle : fuel ≤ fuel1) :
    coalesce fuel1 s mh mf lf rh = some r := by
  unfold coalesce at h ⊢
  by_cases h1 : get_status s.mem lf = ALLOCATED ∧ get_status s.mem rh = ALLOCATED
  · rw [if_pos h1] at h ⊢
    exact add_to_list_loop_mono _ _ _ _ _ h _ hle
  · rw [if_neg h1] at h ⊢
    exact h

theorem free_object_mono : ∀ (fuel ptr : Nat) (s r : State),
    free_object fuel ptr s = some r →
      ∀ fuel1, fuel ≤ fuel1 → free_object fuel1 ptr s = some r := by
  intro fuel
  induction fuel with
  | zero =>
    intro p s r h
    have h0 : (none : Option State) = some r := h
    exact Option.noConfusion h0
  | succ k ih =>
    intro p s r h fuel1 hle
    obtain ⟨k1, rfl⟩ : ∃ k1, fuel1 = k1 + 1 := ⟨fuel1 - 1, by omega⟩
    rw [free_object_succ] at h ⊢
    dsimp only at h ⊢
    cases h0 : coalesce k s (p - HDR) (p - HDR + get_object_size s.mem (p - HDR) - FTR)
        (p - HDR - FTR) (p - HDR + get_object_size s.mem (p - HDR) - FTR + FTR) with
    | none => rw [h0] at h; exact absurd h (by simp)
    | some s1 =>
      rw [h0] at h
      rw [coalesce_mono k _ _ _ _ _ _ h0 k1 (by omega)]
      dsimp only at h ⊢
      split at h
      · rename_i hc
        rw [if_pos hc]
        exact ih _ _ _ h k1 (by omega)
      · rename_i hc
        rw [if_neg hc]
        exact h

/-! ## Allocation when nothing fits -/

theorem Heap_int_size (s : State) (g : List Arena) (h : Heap s g) (c : Blk)
    (hc : c ∈ all_blocks g) : int_of_size (get_object_size s.mem c.addr) = c.size := by
  obtain ⟨A, hA, hcA⟩ := (mem_all_blocks _ c).mp hc
  have fc := Heap_block s _ h A hA c hcA
  have hA2 := arenas_sorted_bounds _ _ _ h.2.2.2.1 A hA
  have hb2 := h.2.1
  rw [fc.2.2.2.2.1.1]
  exact int_of_size_small _ (by omega)

/-- Blocks of a well-formed heap end below the break. -/
theorem Heap_block_below (s : State) (g : List Arena) (h : Heap s g) (c : Blk)
    (hc : c ∈ all_blocks g) : c.addr + c.size ≤ s.brk ∧ 56 ≤ c.size := by
  obtain ⟨A, hA, hcA⟩ := (mem_all_blocks _ c).mp hc
  have fc := Heap_block s _ h A hA c hcA
  have hA2 := arenas_sorted_bounds _ _ _ h.2.2.2.1 A hA
  omega

/-- `allocate_object` when no free block fits: one new arena, whose block is
split or handed out whole. -/
theorem alloc_grow (s : State) (g : List Arena) (n : Nat) (hI : Inv s g)
    (hn : max n 8 + 55 < 18446744073709551616)
    (hT : rounded_size (clamp_size n) ≤ 2097200)
    (hsmall : ∀ x ∈ all_blocks g, x.used = false → x.size < rounded_size (clamp_size n))
    (hroom : s.brk + 2097248 ≤ 18446744073709551616) :
    ∃ m1 mid, allocate_object ((free_addrs (all_blocks g)).length + 3) n s =
        some (s.brk + 16 + 32,
          { s with
            heap_size := (s.heap_size + 2097248) % 18446744073709551616
            brk := s.brk + 2097248
            num_chunks := s.num_chunks + 1
            mem := m1 }) ∧
      ((rounded_size (clamp_size n) + 56 ≤ 2097200 ∧
          mid = [⟨s.brk + 16, rounded_size (clamp_size n), true⟩,
              ⟨s.brk + 16 + rounded_size (clamp_size n),
                2097200 - rounded_size (clamp_size n), false⟩]) ∨
        (2097200 < rounded_size (clamp_size n) + 56 ∧ mid = [⟨s.brk + 16, 2097200, true⟩])) ∧
      Inv { s with
            heap_size := (s.heap_size + 2097248) % 18446744073709551616
            brk := s.brk + 2097248
            num_chunks := s.num_chunks + 1
            mem := m1 } (put g s.brk [] mid [] []) ∧
      (∀ x, x < s.brk → NoLink (nodes_of s g) x → m1 x = s.mem x) := by
  obtain ⟨hH, hsb, hna⟩ := hI
  have hfl : s.free_list = s.sentinel := hH.1
  have hcyc : Cyc s.mem (s.sentinel :: free_addrs (all_blocks g)) := hH.2.2.2.2.2.2.1
  have hnd : (s.sentinel :: free_addrs (all_blocks g)).Nodup := Heap_nodup s g hH
  have hsm : ∀ x ∈ free_addrs (all_blocks g),
      int_of_size (get_object_size s.mem x) < rounded_size (clamp_size n) := by
    intro x hx
    obtain ⟨c, hc, hcu, rfl⟩ := (mem_free_addrs _ _).mp hx
    rw [Heap_int_size s g hH c hc]
    exact hsmall c hc hcu
  have hex := allocate_loop_exhausted s (rounded_size (clamp_size n)) _
    ((free_addrs (all_blocks g)).length + 2) hfl hcyc hnd hsm (by omega)
  have hex' : allocate_loop ((free_addrs (all_blocks g)).length + 2)
      (rounded_size (clamp_size n)) s s.free_list = some Search.exhausted :=
    (congrArg (allocate_loop _ _ s) hfl).trans hex
  obtain ⟨m1, e1, h1, f1⟩ := request_more_memory_spec s g
    ((free_addrs (all_blocks g)).length + 2) hH hsb hroom (by omega)
  have hI1 : Inv { s with
            heap_size := (s.heap_size + 2097248) % 18446744073709551616
            brk := s.brk + 2097248
            num_chunks := s.num_chunks + 1
            mem := m1 } (put g s.brk [] [⟨s.brk + 16, 2097200, false⟩] [] []) := by
    refine ⟨h1, by show s.sentinel + 32 ≤ s.brk + 2097248; omega, ?_⟩
    intro A hA
    rcases List.mem_append.mp hA with h | h
    · exact hna A h
    · rw [List.mem_singleton] at h
      rw [h]
      trivial
  have hcc : rounded_size (clamp_size (clamp_size n)) = rounded_size (clamp_size n) := by
    rw [clamp_size_idem]
  have hn2 : max (clamp_size n) 8 + 55 < 18446744073709551616 := by
    rw [clamp_size_eq]
    have : max (max n 8) 8 = max n 8 := by omega
    rw [this]
    exact hn
  obtain ⟨m2, mid, e2, hmid, hI2, f2⟩ := alloc_fit _ g [] s.brk [] []
    ⟨s.brk + 16, 2097200, false⟩ (clamp_size n) ((free_addrs (all_blocks g)).length + 1)
    hI1 rfl hn2 (by rw [hcc]; exact hT)
    (by
      intro x hx hxu
      rw [hcc]
      exact hsmall x (by simpa using hx) hxu)
    (by simp)
  rw [hcc] at hmid
  refine ⟨m2, mid, ?_, hmid, hI2, ?_⟩
  · rw [allocate_object_succ, hex', e1]
    exact e2
  · intro x hx hnl
    have hb := Heap_nodes_below s g hH hsb
    rw [f2 x (Or.inl (by show x < s.brk + 16; omega)) ?_]
    · exact f1 x hx hnl
    · intro k hk
      have hk' : k ∈ s.sentinel :: free_addrs (all_blocks (put g s.brk []
          [⟨s.brk + 16, 2097200, false⟩] [] [])) := hk
      rw [all_blocks_put] at hk'
      simp only [List.append_nil, List.nil_append, free_addrs_append,
        free_addrs_one_free (⟨s.brk + 16, 2097200, false⟩ : Blk) rfl, List.mem_cons,
        List.mem_append, List.mem_singleton, List.not_mem_nil, or_false] at hk'
      rcases hk' with h | (h | h) | h
      · exact hnl k (by rw [h]; exact List.mem_cons_self _ _)
      · exact hnl k (List.mem_cons_of_mem _ h)
      · rw [h]; left; omega
      · simp [all_blocks, free_addrs] at h

/-! ## Freeing any allocated block of a well-formed heap -/

/-- The neighbour in front of the focus: allocated (or the fencepost), or a free
block. -/
theorem left_cases (s : State) (As1 As2 : List Arena) (base : Nat) (pre mid post : List Blk)
    (h : Heap s (put As1 base pre mid post As2)) (lo : Nat) (c1 : Chain (base + 16) pre lo) :
    (get_status s.mem (lo - 16) = 1 ∧ ∀ l a, pre = l ++ [a] → a.used = true) ∨
    (∃ pre1 L, pre = pre1 ++ [L] ∧ L.used = false ∧ get_status s.mem (lo - 16) = 0 ∧
      get_object_size s.mem (lo - 16) = L.size ∧ L.addr + L.size = lo) := by
  rcases left_tag s As1 As2 base pre mid post h lo c1 with ⟨e, hl⟩ | ⟨pre1, L, e, h1, h2, h3, h4⟩
  · left
    refine ⟨hl, ?_⟩
    intro l a e1
    rw [e] at e1
    exact absurd e1 (by simp)
  · cases hu : L.used with
    | false =>
      right
      rw [hu] at h3
      exact ⟨pre1, L, e, hu, h3, h4, h1⟩
    | true =>
      left
      rw [hu] at h3
      refine ⟨h3, ?_⟩
      intro l a e1
      rw [e] at e1
      have := List.append_inj' e1 rfl
      have h5 : L = a := by simpa using this.2
      rw [← h5]; exact hu

/-- The neighbour behind the focus: allocated (or the fencepost), or a free block. -/
theorem right_cases (s : State) (As1 As2 : List Arena) (base : Nat) (pre mid post : List Blk)
    (h : Heap s (put As1 base pre mid post As2)) (hi : Nat)
    (c3 : Chain hi post (base + 2097216)) :
    (get_status s.mem hi = 1 ∧ ∀ c r, post = c :: r → c.used = true) ∨
    (∃ R post1, post = R :: post1 ∧ R.used = false ∧ get_status s.mem hi = 0 ∧
      get_object_size s.mem hi = R.size ∧ R.addr = hi) := by
  rcases right_tag s As1 As2 base pre mid post h hi c3 with ⟨e, hl⟩ | ⟨R, post1, e, h1, h2, h3, h4⟩
  · left
    refine ⟨hl, ?_⟩
    intro c r e1
    rw [e] at e1
    exact absurd e1 (by simp)
  · cases hu : R.used with
    | false =>
      right
      rw [hu] at h3
      exact ⟨R, post1, e, hu, h3, h4, h1⟩
    | true =>
      left
      rw [hu] at h3
      refine ⟨h3, ?_⟩
      intro c r e1
      rw [e, List.cons.injEq] at e1
      rw [← e1.1]; exact hu

theorem used_addrs_append (l1 l2 : List Blk) :
    used_addrs (l1 ++ l2) = used_addrs l1 ++ used_addrs l2 := by
  simp [used_addrs]

theorem used_addrs_snoc_free (l : List Blk) (L : Blk) (h : L.used = false) :
    used_addrs (l ++ [L]) = used_addrs l := by
  simp [used_addrs, h]

theorem used_addrs_cons_free (l : List Blk) (R : Blk) (h : R.used = false) :
    used_addrs (R :: l) = used_addrs l := by
  simp [used_addrs, h]

theorem used_addrs_one_used (M : Blk) (h : M.used = true) : used_addrs [M] = [M.addr] := by
  simp [used_addrs, h]

theorem used_addrs_one_free (M : Blk) (h : M.used = false) : used_addrs [M] = [] := by
  simp [used_addrs, h]

theorem mem_used_addrs (l : List Blk) (n : Nat) :
    n ∈ used_addrs l ↔ ∃ b ∈ l, b.used = true ∧ b.addr = n := by
  simp [used_addrs, and_assoc]

/-- A change that respects the frame of the blocks in focus keeps every byte of
the allocated blocks outside the focus. -/
theorem focus_frame_used (s : State) (As1 As2 : List Arena) (base : Nat)
    (pre mid post : List Blk) (h : Heap s (put As1 base pre mid post As2)) (lo hi : Nat)
    (c1 : Chain (base + 16) pre lo) (c2 : Chain lo mid hi) (m1 : Mem)
    (hfr : ∀ x, (x < lo ∨ hi ≤ x) → NoLink (nodes_of s (put As1 base pre mid post As2)) x →
      m1 x = s.mem x) :
    ∀ Q, Q ∈ all_blocks As1 ++ pre ∨ Q ∈ post ++ all_blocks As2 → Q.used = true →
      ∀ x, Q.addr ≤ x → x < Q.addr + Q.size → m1 x = s.mem x := by
  obtain ⟨lo1, hi1, d1, d2, d3, g1, g2, g3, g4, g5, g6, g7⟩ :=
    Heap_focus s As1 As2 base pre mid post h
  have e1 : lo1 = lo := Chain_unique _ _ _ _ d1 c1
  subst e1
  have e2 : hi1 = hi := Chain_unique _ _ _ _ d2 c2
  subst e2
  intro Q hQ hu x h1 h2
  have hQm : Q ∈ all_blocks (put As1 base pre mid post As2) := by
    rw [all_blocks_put]
    rcases hQ with h | h
    · exact List.mem_append_left _ (List.mem_append_left _ h)
    · exact List.mem_append_right _ h
  apply hfr x
  · rcases hQ with h | h
    · have := g6 Q h; left; omega
    · have := g7 Q h; right; omega
  · exact Heap_NoLink_block s _ h Q hQm x h1 h2 (Or.inl hu)

theorem used_blocks_append (l1 l2 : List Blk) :
    used_blocks (l1 ++ l2) = used_blocks l1 ++ used_blocks l2 := by
  simp [used_blocks]

theorem used_blocks_snoc_free (l : List Blk) (L : Blk) (h : L.used = false) :
    used_blocks (l ++ [L]) = used_blocks l := by
  simp [used_blocks, h]

theorem used_blocks_cons_free (l : List Blk) (R : Blk) (h : R.used = false) :
    used_blocks (R :: l) = used_blocks l := by
  simp [used_blocks, h]

theorem used_blocks_one_used (M : Blk) (h : M.used = true) : used_blocks [M] = [M] := by
  simp [used_blocks, h]

theorem used_blocks_one_free (M : Blk) (h : M.used = false) : used_blocks [M] = [] := by
  simp [used_blocks, h]

theorem used_addrs_eq_map (l : List Blk) :
    used_addrs l = (used_blocks l).map (fun b => b.addr) := rfl

/-- A change that respects the frame of the blocks in focus keeps the fenceposts of
every arena. -/
theorem focus_frame_fence (s : State) (As1 As2 : List Arena) (base : Nat)
    (pre mid post : List Blk) (h : Heap s (put As1 base pre mid post As2)) (lo hi : Nat)
    (c1 : Chain (base + 16) pre lo) (c2 : Chain lo mid hi) (m1 : Mem)
    (hfr : ∀ x, (x < lo ∨ hi ≤ x) → NoLink (nodes_of s (put As1 base pre mid post As2)) x →
      m1 x = s.mem x) :
    ∀ A ∈ put As1 base pre mid post As2, ∀ x,
      (A.base ≤ x ∧ x < A.base + 16) ∨ (A.base + 2097216 ≤ x ∧ x < A.base + 2097248) →
      m1 x = s.mem x := by
  obtain ⟨lo1, hi1, d1, d2, d3, g1, g2, g3, g4, g5, g6, g7⟩ :=
    Heap_focus s As1 As2 base pre mid post h
  have e1 : lo1 = lo := Chain_unique _ _ _ _ d1 c1
  subst e1
  have e2 : hi1 = hi := Chain_unique _ _ _ _ d2 c2
  subst e2
  intro A hA x hx
  have hB := mem_put_arena As1 base pre mid post As2
  have hd := arenas_sorted_disjoint _ _ _ h.2.2.2.1 A hA _ hB
  apply hfr x
  · rcases hd with e | e | e
    · rw [e] at hx
      have hx' : (base ≤ x ∧ x < base + 16) ∨ (base + 2097216 ≤ x ∧ x < base + 2097248) := hx
      omega
    · have e' : A.base + 2097248 ≤ base := e
      omega
    · have e' : base + 2097248 ≤ A.base := e
      omega
  · exact Heap_NoLink_fence s _ h A hA x hx

theorem free_prefix_le (As1 As2 : List Arena) (base : Nat) (pre mid post : List Blk) :
    (free_addrs (all_blocks As1 ++ pre)).length ≤
      (free_addrs (all_blocks (put As1 base pre mid post As2))).length := by
  simp only [all_blocks_put, free_addrs_append, List.length_append]
  omega

/-- `free_object` on any allocated block of a well-formed heap: the block and its
free neighbours become one free block, and the state stays well formed. -/
theorem free_any (s : State) (As1 As2 : List Arena) (base : Nat) (pre post : List Blk)
    (M : Blk) (hI : Inv s (put As1 base pre [M] post As2)) (hu : M.used = true) :
    ∃ m1 pre1 mid post1,
      free_object ((free_addrs (all_blocks (put As1 base pre [M] post As2))).length + 2)
        (M.addr + 32) s = some { s with mem := m1 } ∧
      Inv { s with mem := m1 } (put As1 base pre1 [mid] post1 As2) ∧ mid.used = false ∧
      used_addrs pre1 = used_addrs pre ∧ used_addrs post1 = used_addrs post ∧
      (∀ Q, Q ∈ all_blocks As1 ++ pre ∨ Q ∈ post ++ all_blocks As2 → Q.used = true →
        ∀ x, Q.addr ≤ x → x < Q.addr + Q.size → m1 x = s.mem x) ∧
      used_blocks pre1 = used_blocks pre ∧ used_blocks post1 = used_blocks post ∧
      (∀ A ∈ put As1 base pre [M] post As2, ∀ x,
        (A.base ≤ x ∧ x < A.base + 16) ∨ (A.base + 2097216 ≤ x ∧ x < A.base + 2097248) →
        m1 x = s.mem x) := by
  obtain ⟨hH, hsb, hna⟩ := hI
  have hK := free_prefix_le As1 As2 base pre [M] post
  generalize (free_addrs (all_blocks (put As1 base pre [M] post As2))).length = K at hK
  obtain ⟨lo, hi, c1, c2, c3, -⟩ := Heap_focus s As1 As2 base pre [M] post hH
  have c2' := c2
  obtain ⟨c2a, c2b⟩ := c2
  have c2b : lo + M.size = hi := c2b
  obtain ⟨n1, n2, n3⟩ := (Inv_put s As1 As2 base pre [M] post).mp hna
  obtain ⟨p1, -, p3, -, -⟩ := NoAdjFree_parts pre [M] post n2
  rcases left_cases s As1 As2 base pre [M] post hH lo c1 with
    ⟨hl, hlu⟩ | ⟨pre1, L, epre, hLf, hl, hLs, hLa⟩
  · rcases right_cases s As1 As2 base pre [M] post hH hi c3 with
      ⟨hr, hru⟩ | ⟨R, post1, epost, hRf, hr, hRs, hRa⟩
    · -- no free neighbour
      obtain ⟨m1, e1, h1, fr⟩ := free_object_none s As1 As2 base pre post M (K + 1) hH hu
        (by rw [c2a]; exact hl) (by rw [c2a, c2b]; exact hr) (by omega)
      refine ⟨m1, pre, ⟨M.addr, M.size, false⟩, post, e1, ⟨h1, hsb, ?_⟩, rfl, rfl, rfl, ?_,
        rfl, rfl, focus_frame_fence s As1 As2 base pre [M] post hH lo hi c1 c2' m1
          (fun x hx hnl => fr x (by omega) hnl)⟩
      · apply (Inv_put s As1 As2 base pre _ post).mpr
        refine ⟨n1, ?_, n3⟩
        apply NoAdjFree_build pre [⟨M.addr, M.size, false⟩] post p1 trivial p3 (by simp)
        · intro l a c r e1 e2
          exact Or.inl (hlu l a e1)
        · intro l a c r e1 e2
          exact Or.inr (hru c r e2)
      · exact focus_frame_used s As1 As2 base pre [M] post hH lo hi c1 c2' m1
          (fun x hx hnl => fr x (by omega) hnl)
    · -- free block behind
      subst epost
      have hH' : Heap s (put As1 base pre [M, R] post1 As2) := by
        have := hH
        rw [put_shift_right] at this
        exact this
      obtain ⟨m1, e1, h1, fr⟩ := free_object_right s As1 As2 base pre post1 M R (K + 1) hH'
        hu hRf (by rw [c2a]; exact hl)
      obtain ⟨lo2, hi2, d1, d2, d3, -⟩ := Heap_focus s As1 As2 base pre [M, R] post1 hH'
      have e0 : lo2 = lo := Chain_unique _ _ _ _ d1 c1
      subst e0
      have d2' := d2
      obtain ⟨d2a, d2b, d2c⟩ := d2
      have d2b : R.addr = lo2 + M.size := d2b
      have d2c : lo2 + M.size + R.size = hi2 := d2c
      have n2' : NoAdjFree (pre ++ ([M] ++ [R]) ++ post1) := by
        simpa [List.append_assoc] using n2
      obtain ⟨q1, -, q3, -, -⟩ := NoAdjFree_parts pre ([M] ++ [R]) post1 n2'
      have hru := NoAdjFree_right pre post1 [M] R n2' hRf
      have hfence := focus_frame_fence s As1 As2 base pre [M, R] post1 hH' lo2 hi2 c1 d2' m1
        (fun x hx hnl => fr x (by omega) hnl)
      have e3 : put As1 base pre [M, R] post1 As2 = put As1 base pre [M] (R :: post1) As2 :=
        (put_shift_right As1 As2 base pre [M] post1 R).symm
      rw [e3] at hfence
      refine ⟨m1, pre, ⟨M.addr, M.size + R.size, false⟩, post1, e1, ⟨h1, hsb, ?_⟩, rfl, rfl,
        (used_addrs_cons_free post1 R hRf).symm, ?_, rfl,
        (used_blocks_cons_free post1 R hRf).symm, hfence⟩
      · apply (Inv_put s As1 As2 base pre _ post1).mpr
        refine ⟨n1, ?_, n3⟩
        apply NoAdjFree_build pre [⟨M.addr, M.size + R.size, false⟩] post1 q1 trivial q3
          (by simp)
        · intro l a c r e1 e2
          exact Or.inl (hlu l a e1)
        · intro l a c r e1 e2
          exact Or.inr (hru c r e2)
      · intro Q hQ hQu x h1 h2
        have hQ' : Q ∈ all_blocks As1 ++ pre ∨ Q ∈ post1 ++ all_blocks As2 := by
          rcases hQ with h | h
          · exact Or.inl h
          · rcases List.mem_append.mp h with h3 | h3
            · rcases List.mem_cons.mp h3 with h4 | h4
              · rw [h4, hRf] at hQu; exact absurd hQu (by simp)
              · exact Or.inr (List.mem_append_left _ h4)
            · exact Or.inr (List.mem_append_right _ h3)
        exact focus_frame_used s As1 As2 base pre [M, R] post1 hH' lo2 hi2 c1 d2' m1
          (fun x hx hnl => fr x (by omega) hnl) Q hQ' hQu x h1 h2
  · subst epre
    have hHL : Heap s (put As1 base pre1 [L, M] post As2) := by
      have := hH
      rw [put_shift_left] at this
      exact this
    have n2L : NoAdjFree (pre1 ++ [L, M] ++ post) := by
      simpa [List.append_assoc] using n2
    have hlu := NoAdjFree_left pre1 post [M] L n2L hLf
    obtain ⟨q1, -, -, -, -⟩ := NoAdjFree_parts pre1 [L, M] post n2L
    have hQpre : ∀ Q, Q ∈ all_blocks As1 ++ (pre1 ++ [L]) → Q.used = true →
        Q ∈ all_blocks As1 ++ pre1 := by
      intro Q h hQu
      rcases List.mem_append.mp h with h3 | h3
      · exact List.mem_append_left _ h3
      · rcases List.mem_append.mp h3 with h4 | h4
        · exact List.mem_append_right _ h4
        · rw [List.mem_singleton] at h4
          rw [h4, hLf] at hQu; exact absurd hQu (by simp)
    rcases right_cases s As1 As2 base (pre1 ++ [L]) [M] post hH hi c3 with
      ⟨hr, hru⟩ | ⟨R, post1, epost, hRf, hr, hRs, hRa⟩
    · -- free block in front
      obtain ⟨m1, e1, h1, fr⟩ := free_object_left s As1 As2 base pre1 post L M (K + 1) hHL hLf
        (by rw [c2a, c2b]; exact hr)
      obtain ⟨lo2, hi2, d1, d2, d3, -⟩ := Heap_focus s As1 As2 base pre1 [L, M] post hHL
      have d2' := d2
      obtain ⟨d2a, d2b, d2c⟩ := d2
      have d2b : M.addr = lo2 + L.size := d2b
      have d2c : lo2 + L.size + M.size = hi2 := d2c
      have hfence := focus_frame_fence s As1 As2 base pre1 [L, M] post hHL lo2 hi2 d1 d2' m1
        (fun x hx hnl => fr x (by omega) hnl)
      have e3 : put As1 base pre1 [L, M] post As2 = put As1 base (pre1 ++ [L]) [M] post As2 :=
        (put_shift_left As1 As2 base pre1 [M] post L).symm
      rw [e3] at hfence
      refine ⟨m1, pre1, ⟨L.addr, L.size + M.size, false⟩, post, e1, ⟨h1, hsb, ?_⟩, rfl,
        (used_addrs_snoc_free pre1 L hLf).symm, rfl, ?_,
        (used_blocks_snoc_free pre1 L hLf).symm, rfl, hfence⟩
      · apply (Inv_put s As1 As2 base pre1 _ post).mpr
        refine ⟨n1, ?_, n3⟩
        apply NoAdjFree_build pre1 [⟨L.addr, L.size + M.size, false⟩] post q1 trivial p3
          (by simp)
        · intro l a c r e1 e2
          exact Or.inl (hlu l a e1)
        · intro l a c r e1 e2
          exact Or.inr (hru c r e2)
      · intro Q hQ hQu x h1 h2
        have hQ' : Q ∈ all_blocks As1 ++ pre1 ∨ Q ∈ post ++ all_blocks As2 := by
          rcases hQ with h | h
          · exact Or.inl (hQpre Q h hQu)
          · exact Or.inr h
        exact focus_frame_used s As1 As2 base pre1 [L, M] post hHL lo2 hi2 d1 d2' m1
          (fun x hx hnl => fr x (by omega) hnl) Q hQ' hQu x h1 h2
    · -- free blocks on both sides
      subst epost
      have hH3 : Heap s (put As1 base pre1 [L, M, R] post1 As2) := by
        have := hHL
        rw [put_shift_right] at this
        exact this
      obtain ⟨lo2, hi2, d1, d2, d3, -⟩ := Heap_focus s As1 As2 base pre1 [L, M, R] post1 hH3
      have d2' := d2
      obtain ⟨d2a, d2b, d2c, d2d⟩ := d2
      have d2b : M.addr = lo2 + L.size := d2b
      have d2c : R.addr = lo2 + L.size + M.size := d2c
      have d2d : lo2 + L.size + M.size + R.size = hi2 := d2d
      have n2' : NoAdjFree (pre1 ++ ([L, M] ++ [R]) ++ post1) := by
        simpa [List.append_assoc] using n2
      obtain ⟨-, -, q3, -, -⟩ := NoAdjFree_parts pre1 ([L, M] ++ [R]) post1 n2'
      have hru := NoAdjFree_right pre1 post1 [L, M] R n2' hRf
      have hrr : get_status s.mem (R.addr + R.size) = 1 := by
        rcases right_cases s As1 As2 base pre1 [L, M, R] post1 hH3 hi2 d3 with
          ⟨hr2, -⟩ | ⟨R2, post2, e2, hR2f, -, -, -⟩
        · rw [d2c, d2d]; exact hr2
        · have := hru R2 post2 e2
          rw [hR2f] at this; exact absurd this (by simp)
      obtain ⟨-, m1, e1, h1, fr⟩ := free_object_both s As1 As2 base pre1 post1 L M R K hH3
        hLf hu hRf hrr
      have hfence := focus_frame_fence s As1 As2 base pre1 [L, M, R] post1 hH3 lo2 hi2 d1 d2'
        m1 (fun x hx hnl => fr x (by omega) hnl)
      have e3 : put As1 base pre1 [L, M, R] post1 As2 =
          put As1 base (pre1 ++ [L]) [M] (R :: post1) As2 :=
        ((put_shift_left As1 As2 base pre1 [M] (R :: post1) L).trans
          (put_shift_right As1 As2 base pre1 [L, M] post1 R)).symm
      rw [e3] at hfence
      refine ⟨m1, pre1, ⟨L.addr, L.size + (M.size + R.size), false⟩, post1, e1,
        ⟨h1, hsb, ?_⟩, rfl, (used_addrs_snoc_free pre1 L hLf).symm,
        (used_addrs_cons_free post1 R hRf).symm, ?_,
        (used_blocks_snoc_free pre1 L hLf).symm, (used_blocks_cons_free post1 R hRf).symm,
        hfence⟩
      · apply (Inv_put s As1 As2 base pre1 _ post1).mpr
        refine ⟨n1, ?_, n3⟩
        apply NoAdjFree_build pre1 [⟨L.addr, L.size + (M.size + R.size), false⟩] post1 q1
          trivial q3 (by simp)
        · intro l a c r e1 e2
          exact Or.inl (hlu l a e1)
        · intro l a c r e1 e2
          exact Or.inr (hru c r e2)
      · intro Q hQ hQu x h1 h2
        have hQ' : Q ∈ all_blocks As1 ++ pre1 ∨ Q ∈ post1 ++ all_blocks As2 := by
          rcases hQ with h | h
          · exact Or.inl (hQpre Q h hQu)
          · rcases List.mem_append.mp h with h3 | h3
            · rcases List.mem_cons.mp h3 with h4 | h4
              · rw [h4, hRf] at hQu; exact absurd hQu (by simp)
              · exact Or.inr (List.mem_append_left _ h4)
            · exact Or.inr (List.mem_append_right _ h3)
        exact focus_frame_used s As1 As2 base pre1 [L, M, R] post1 hH3 lo2 hi2 d1 d2' m1
          (fun x hx hnl => fr x (by omega) hnl) Q hQ' hQu x h1 h2

/-! ## `allocate_object` on any well-formed heap -/

theorem allocate_from_fst (s : State) (T b S : Nat) : (allocate_from s T b S).1 = b + 32 := by
  unfold allocate_from
  split <;> rfl

theorem allocate_from_num_chunks (s : State) (T b S : Nat) :
    (allocate_from s T b S).2.num_chunks = s.num_chunks := by
  unfold allocate_from
  split <;> rfl

/-- `allocate_object` when some free block fits: no new arena. -/
theorem alloc_found_total (s : State) (As1 As2 : List Arena) (base : Nat)
    (pre post : List Blk) (b : Blk) (n fuel : Nat)
    (hH : Heap s (put As1 base pre [b] post As2)) (hfree : b.used = false)
    (hfit : rounded_size (clamp_size n) ≤ b.size)
    (hsmall : ∀ x ∈ all_blocks As1 ++ pre, x.used = false →
      x.size < rounded_size (clamp_size n))
    (hf : (free_addrs (all_blocks As1 ++ pre)).length < fuel) :
    ∃ p s1, allocate_object (fuel + 1) n s = some (p, s1) ∧ p ≠ 0 ∧
      s1.num_chunks = s.num_chunks := by
  have hloop := allocate_loop_fit s As1 As2 base pre post b (rounded_size (clamp_size n))
    fuel hH hfree hfit hsmall hf
  refine ⟨(allocate_from s (rounded_size (clamp_size n)) b.addr b.size).1,
    (allocate_from s (rounded_size (clamp_size n)) b.addr b.size).2, ?_, ?_, ?_⟩
  · rw [allocate_object_succ, hloop]
  · rw [allocate_from_fst]; omega
  · rw [allocate_from_num_chunks]

/-- `allocate_object` returns a non-null pointer after at most one new arena,
whenever the total size it computes is at most the size of a fresh block. -/
theorem alloc_total (s : State) (g : List Arena) (n : Nat) (hI : Inv s g)
    (hT : rounded_size (clamp_size n) ≤ 2097200)
    (hroom : s.brk + 2097248 ≤ 18446744073709551616) :
    ∃ p s1, allocate_object ((free_addrs (all_blocks g)).length + 3) n s = some (p, s1) ∧
      p ≠ 0 ∧ s.num_chunks ≤ s1.num_chunks ∧ s1.num_chunks ≤ s.num_chunks + 1 := by
  obtain ⟨hH, hsb, hna⟩ := hI
  rcases first_put (fun b => b.used = false ∧ rounded_size (clamp_size n) ≤ b.size) g with
    hnone | ⟨As1, base, pre, b, post, As2, eg, ⟨hbf, hbT⟩, hpre⟩
  · -- nothing fits: a new arena, then its block
    have hfl : s.free_list = s.sentinel := hH.1
    have hcyc : Cyc s.mem (s.sentinel :: free_addrs (all_blocks g)) := hH.2.2.2.2.2.2.1
    have hnd : (s.sentinel :: free_addrs (all_blocks g)).Nodup := Heap_nodup s g hH
    have hsm : ∀ x ∈ free_addrs (all_blocks g),
        int_of_size (get_object_size s.mem x) < rounded_size (clamp_size n) := by
      intro x hx
      obtain ⟨c, hc, hcu, rfl⟩ := (mem_free_addrs _ _).mp hx
      rw [Heap_int_size s g hH c hc]
      have := hnone c hc
      by_contra hge
      exact this ⟨hcu, by omega⟩
    have hex := allocate_loop_exhausted s (rounded_size (clamp_size n)) _
      ((free_addrs (all_blocks g)).length + 2) hfl hcyc hnd hsm (by omega)
    have hex' : allocate_loop ((free_addrs (all_blocks g)).length + 2)
        (rounded_size (clamp_size n)) s s.free_list = some Search.exhausted :=
      (congrArg (allocate_loop _ _ s) hfl).trans hex
    obtain ⟨m1, e1, h1, f1⟩ := request_more_memory_spec s g
      ((free_addrs (all_blocks g)).length + 2) hH hsb hroom (by omega)
    obtain ⟨p, s1, e2, hp, hc⟩ := alloc_found_total _ g [] s.brk [] []
      ⟨s.brk + 16, 2097200, false⟩ (clamp_size n) ((free_addrs (all_blocks g)).length + 1)
      h1 rfl (by rw [clamp_size_idem]; exact hT)
      (by
        intro x hx hxu
        rw [clamp_size_idem]
        have := hnone x (by simpa using hx)
        by_contra hge
        exact this ⟨hxu, by omega⟩)
      (by simp)
    have hc' : s1.num_chunks = s.num_chunks + 1 := hc
    refine ⟨p, s1, ?_, hp, by omega, by omega⟩
    rw [allocate_object_succ, hex', e1]
    exact e2
  · subst eg
    obtain ⟨p, s1, e2, hp, hc⟩ := alloc_found_total s As1 As2 base pre post b n
      ((free_addrs (all_blocks (put As1 base pre [b] post As2))).length + 2) hH hbf hbT
      (by
        intro x hx hxu
        have := hpre x hx
        by_contra hge
        exact this ⟨hxu, by omega⟩)
      (by have := free_prefix_le As1 As2 base pre [b] post; omega)
    exact ⟨p, s1, e2, hp, by omega, by omega⟩

theorem mem_put_cases (As1 As2 : List Arena) (base : Nat) (pre mid post : List Blk) (Q : Blk) :
    Q ∈ all_blocks (put As1 base pre mid post As2) ↔
      Q ∈ all_blocks As1 ++ pre ∨ Q ∈ mid ∨ Q ∈ post ++ all_blocks As2 := by
  rw [all_blocks_put]
  simp only [List.mem_append, or_assoc]

theorem mid_facts (b : Blk) (T : Nat) (mid : List Blk) (hT : T ≤ b.size)
    (hmid : (T + 56 ≤ b.size ∧ mid = [⟨b.addr, T, true⟩, ⟨b.addr + T, b.size - T, false⟩]) ∨
      (b.size < T + 56 ∧ mid = [⟨b.addr, b.size, true⟩])) :
    ∃ Q, Q ∈ mid ∧ Q.used = true ∧ Q.addr = b.addr ∧ T ≤ Q.size ∧
      used_addrs mid = [b.addr] ∧ (free_addrs mid).length ≤ 1 := by
  rcases hmid with ⟨-, e⟩ | ⟨-, e⟩
  · refine ⟨⟨b.addr, T, true⟩, ?_, rfl, rfl, Nat.le_refl _, ?_, ?_⟩
    · rw [e]; exact List.mem_cons_self _ _
    · rw [e]; simp [used_addrs]
    · rw [e]; simp [free_addrs]
  · refine ⟨⟨b.addr, b.size, true⟩, ?_, rfl, rfl, hT, ?_, ?_⟩
    · rw [e]; exact List.mem_cons_self _ _
    · rw [e]; simp [used_addrs]
    · rw [e]; simp [free_addrs]

theorem used_addrs_put (As1 As2 : List Arena) (base : Nat) (pre mid post : List Blk) :
    used_addrs (all_blocks (put As1 base pre mid post As2)) =
      used_addrs (all_blocks As1 ++ pre) ++ (used_addrs mid ++
        used_addrs (post ++ all_blocks As2)) := by
  rw [all_blocks_put, used_addrs_append, used_addrs_append, List.append_assoc]

theorem free_addrs_put (As1 As2 : List Arena) (base : Nat) (pre mid post : List Blk) :
    free_addrs (all_blocks (put As1 base pre mid post As2)) =
      free_addrs (all_blocks As1 ++ pre) ++ (free_addrs mid ++
        free_addrs (post ++ all_blocks As2)) := by
  rw [all_blocks_put, free_addrs_append, free_addrs_append, List.append_assoc]

theorem put_length (As1 As2 : List Arena) (base : Nat) (pre mid post : List Blk) :
    (put As1 base pre mid post As2).length = As1.length + As2.length + 1 := by
  unfold put
  simp
  omega

theorem put_bases (As1 As2 : List Arena) (base : Nat) (pre mid post : List Blk) :
    (put As1 base pre mid post As2).map (fun A => A.base) =
      As1.map (fun A => A.base) ++ base :: As2.map (fun A => A.base) := by
  unfold put
  simp

/-- `allocate_object` for a request that does not wrap around: the pointer is the
payload of a block `Q` that is allocated afterwards and was free (or did not
exist) before, the state stays well formed, and no byte of a block allocated
before and no fencepost changes. -/
theorem alloc_any (s : State) (g : List Arena) (n : Nat) (hI : Inv s g)
    (hn : max n 8 + 55 < 18446744073709551616)
    (hT : rounded_size (clamp_size n) ≤ 2097200)
    (hroom : s.brk + 2097248 ≤ 18446744073709551616) :
    ∃ s1 g1 Q, allocate_object ((free_addrs (all_blocks g)).length + 3) n s =
        some (Q.addr + 32, s1) ∧
      Inv s1 g1 ∧ s1.sentinel = s.sentinel ∧ s1.free_list = s.free_list ∧
      s1.malloc_calls = s.malloc_calls ∧ s1.free_calls = s.free_calls ∧
      s1.realloc_calls = s.realloc_calls ∧ s1.calloc_calls = s.calloc_calls ∧
      Q ∈ all_blocks g1 ∧ Q.used = true ∧ rounded_size (clamp_size n) ≤ Q.size ∧
      (free_addrs (all_blocks g1)).length ≤ (free_addrs (all_blocks g)).length + 1 ∧
      (∀ M ∈ all_blocks g, M.used = true → M ≠ Q ∧ M ∈ all_blocks g1 ∧
        ∀ x, M.addr ≤ x → x < M.addr + M.size → s1.mem x = s.mem x) ∧
      (used_addrs (all_blocks g1)).Perm (Q.addr :: used_addrs (all_blocks g)) ∧
      g1.length + s.num_chunks = g.length + s1.num_chunks ∧
      (∃ ext, g1.map (fun A => A.base) = g.map (fun A => A.base) ++ ext) ∧
      (∀ A ∈ g, ∀ x,
        (A.base ≤ x ∧ x < A.base + 16) ∨ (A.base + 2097216 ≤ x ∧ x < A.base + 2097248) →
        s1.mem x = s.mem x) ∧
      ((∃ b ∈ all_blocks g, b.used = false ∧ b.addr = Q.addr) ∨ Q.addr = s.brk + 16) := by
  have hH := hI.1
  rcases first_put (fun b => b.used = false ∧ rounded_size (clamp_size n) ≤ b.size) g with
    hnone | ⟨As1, base, pre, b, post, As2, eg, ⟨hbf, hbT⟩, hpre⟩
  · obtain ⟨m1, mid, e1, hmid, hI1, f1⟩ := alloc_grow s g n hI hn hT
      (by
        intro x hx hxu
        have := hnone x hx
        by_contra hge
        exact this ⟨hxu, by omega⟩) hroom
    obtain ⟨Q, hQm, hQu, hQa, hQT, hQused, hQfree⟩ :=
      mid_facts ⟨s.brk + 16, 2097200, false⟩ (rounded_size (clamp_size n)) mid hT hmid
    have hQa' : Q.addr = s.brk + 16 := hQa
    have e1' := e1
    rw [← hQa'] at e1'
    refine ⟨_, put g s.brk [] mid [] [], Q, e1', hI1, rfl, rfl, rfl, rfl, rfl, rfl, ?_,
      hQu, hQT, ?_, ?_, ?_, ?_, ⟨[s.brk], ?_⟩, ?_, Or.inr hQa'⟩
    · rw [mem_put_cases]
      exact Or.inr (Or.inl hQm)
    · rw [free_addrs_put]
      simp only [List.append_nil, List.nil_append, List.length_append, all_blocks,
        free_addrs_append]
      have : (free_addrs ([] : List Blk)).length = 0 := rfl
      omega
    · intro M hM hMu
      have hb := Heap_block_below s g hH M hM
      refine ⟨?_, ?_, ?_⟩
      · intro h
        rw [h] at hb
        omega
      · rw [mem_put_cases]
        exact Or.inl (List.mem_append_left _ hM)
      · intro x h1 h2
        exact f1 x (by omega) (Heap_NoLink_block s g hH M hM x h1 h2 (Or.inl hMu))
    · rw [used_addrs_put, hQused]
      simp only [List.append_nil, List.nil_append, all_blocks, used_addrs_append]
      have : used_addrs ([] : List Blk) = [] := rfl
      rw [this, List.append_nil, hQa']
      exact List.perm_append_comm
    · show (put g s.brk [] mid [] []).length + s.num_chunks = g.length + (s.num_chunks + 1)
      rw [put_length]
      simp
      omega
    · rw [put_bases]
      simp
    · intro A hA x hx
      have hbd := (arenas_sorted_bounds _ _ _ hH.2.2.2.1 A hA).2
      exact f1 x (by omega) (Heap_NoLink_fence s g hH A hA x hx)
  · subst eg
    obtain ⟨m1, mid, e1, hmid, hI1, f1⟩ := alloc_fit s As1 As2 base pre post b n
      ((free_addrs (all_blocks (put As1 base pre [b] post As2))).length + 1) hI hbf hn hbT
      (by
        intro x hx hxu
        have := hpre x hx
        by_contra hge
        exact this ⟨hxu, by omega⟩)
      (by have := free_prefix_le As1 As2 base pre [b] post; omega)
    have e1' := allocate_object_mono _ _ _ _ e1
      ((free_addrs (all_blocks (put As1 base pre [b] post As2))).length + 3) (by omega)
    have hbm : b ∈ all_blocks (put As1 base pre [b] post As2) :=
      mem_all_blocks_put _ _ _ _ _ _ b (by simp)
    obtain ⟨Q, hQm, hQu, hQa, hQT, hQused, hQfree⟩ :=
      mid_facts b (rounded_size (clamp_size n)) mid hbT hmid
    obtain ⟨lo, hi, c1, c2, c3, -⟩ := Heap_focus s As1 As2 base pre [b] post hH
    have c2' := c2
    obtain ⟨c2a, c2b⟩ := c2
    have c2b : lo + b.size = hi := c2b
    rw [← hQa] at e1'
    refine ⟨_, put As1 base pre mid post As2, Q, e1', hI1, rfl, rfl, rfl, rfl, rfl, rfl, ?_,
      hQu, hQT, ?_, ?_, ?_, ?_, ⟨[], ?_⟩, ?_, Or.inl ⟨b, hbm, hbf, hQa.symm⟩⟩
    · rw [mem_put_cases]
      exact Or.inr (Or.inl hQm)
    · rw [free_addrs_put, free_addrs_put, free_addrs_one_free b hbf]
      simp only [List.length_append, List.length_singleton]
      omega
    · intro M hM hMu
      have hMb : M ≠ b := by
        intro h
        rw [h, hbf] at hMu
        exact absurd hMu (by simp)
      obtain ⟨A, hA, hMA⟩ := (mem_all_blocks _ M).mp hM
      have fM := Heap_block s _ hH A hA M hMA
      have fb := Heap_block_put s As1 As2 base pre [b] post hH b (by simp)
      have hd := Heap_disjoint s _ hH M hM b hbm
      have hd' : M.addr + M.size ≤ b.addr ∨ b.addr + b.size ≤ M.addr := by
        rcases hd with h | h
        · exact absurd h hMb
        · exact h
      refine ⟨?_, ?_, ?_⟩
      · intro h
        have hMsz := fM.2.2.1
        rw [h] at hMsz hd'
        rw [hQa] at hd'
        have hbsz := fb.2.2.1
        omega
      · rw [mem_put_cases] at hM ⊢
        rcases hM with h | h | h
        · exact Or.inl h
        · rw [List.mem_singleton] at h
          exact absurd h hMb
        · exact Or.inr (Or.inr h)
      · intro x h1 h2
        exact f1 x (by omega) (Heap_NoLink_block s _ hH M hM x h1 h2 (Or.inl hMu))
    · rw [used_addrs_put, used_addrs_put, hQused, used_addrs_one_free b hbf, hQa]
      simp only [List.nil_append, List.singleton_append]
      exact List.perm_middle
    · show (put As1 base pre mid post As2).length + s.num_chunks =
        (put As1 base pre [b] post As2).length + s.num_chunks
      rw [put_length, put_length]
    · rw [put_bases, put_bases]
      simp
    · exact focus_frame_fence s As1 As2 base pre [b] post hH lo hi c1 c2' m1
        (fun x hx hnl => f1 x (by omega) hnl)

/-! ## From the entries of the free list to a block in focus -/

theorem pairs_split_unique (X Y l1 l2 : List (Nat × Nat)) (a s1 sz : Nat)
    (h : X ++ (a, s1) :: Y = l1 ++ (a, sz) :: l2) (hX : ∀ e ∈ X, e.1 ≠ a)
    (hl : ∀ e ∈ l1, e.1 ≠ a) : X = l1 ∧ s1 = sz ∧ Y = l2 := by
  induction X generalizing l1 with
  | nil =>
    cases l1 with
    | nil =>
      simp only [List.nil_append, List.cons.injEq, Prod.mk.injEq, true_and] at h
      exact ⟨rfl, h.1, h.2⟩
    | cons e l1 =>
      simp only [List.nil_append, List.cons_append, List.cons.injEq] at h
      exact absurd (by rw [← h.1]) (hl e (List.mem_cons_self _ _))
  | cons x X ih =>
    cases l1 with
    | nil =>
      simp only [List.nil_append, List.cons_append, List.cons.injEq] at h
      exact absurd (by rw [h.1]) (hX x (List.mem_cons_self _ _))
    | cons e l1 =>
      simp only [List.cons_append, List.cons.injEq] at h
      obtain ⟨h1, h2, h3⟩ := ih l1 h.2 (fun e he => hX e (List.mem_cons_of_mem _ he))
        (fun e he => hl e (List.mem_cons_of_mem _ he))
      exact ⟨by rw [h.1, h1], h2, h3⟩

theorem free_entries_put (As1 As2 : List Arena) (base : Nat) (pre mid post : List Blk) :
    free_entries (all_blocks (put As1 base pre mid post As2)) =
      free_entries (all_blocks As1 ++ pre) ++ (free_entries mid ++
        free_entries (post ++ all_blocks As2)) := by
  rw [all_blocks_put, free_entries_append, free_entries_append, List.append_assoc]

/-- A member of the free list, given by its place among the entries, as a block
in focus. -/
theorem Heap_entries_split (s : State) (g : List Arena) (hH : Heap s g)
    (l1 l2 : List (Nat × Nat)) (a sz : Nat)
    (h : free_entries (all_blocks g) = l1 ++ (a, sz) :: l2) :
    ∃ As1 base pre b post As2, g = put As1 base pre [b] post As2 ∧ b.used = false ∧
      b.addr = a ∧ b.size = sz ∧ free_entries (all_blocks As1 ++ pre) = l1 ∧
      free_entries (post ++ all_blocks As2) = l2 := by
  have hmem : (a, sz) ∈ free_entries (all_blocks g) := by rw [h]; simp
  obtain ⟨b0, hb0, hb0f, hb0e⟩ := (mem_free_entries _ _).mp hmem
  have hnd : (free_addrs (all_blocks g)).Nodup := (List.nodup_cons.mp (Heap_nodup s g hH)).2
  rw [← free_entries_fst, h] at hnd
  have hl1 : ∀ e ∈ l1, e.1 ≠ a := by
    intro e he hea
    rw [List.map_append, List.map_cons] at hnd
    have hd := (List.nodup_append.mp hnd).2.2
    exact hd (List.mem_map_of_mem (fun e => e.1) he)
      (by rw [hea]; exact List.mem_cons_self _ _)
  rcases first_put (fun b => b.used = false ∧ b.addr = a) g with
    hnone | ⟨As1, base, pre, b, post, As2, eg, ⟨hbf, hba⟩, hpre⟩
  · exact absurd ⟨hb0f, congrArg Prod.fst hb0e⟩ (hnone b0 hb0)
  · subst eg
    rw [free_entries_put, free_entries_one_free b hbf, hba] at h
    have hX : ∀ e ∈ free_entries (all_blocks As1 ++ pre), e.1 ≠ a := by
      intro e he hea
      obtain ⟨c, hc, hcf, hce⟩ := (mem_free_entries _ _).mp he
      exact hpre c hc ⟨hcf, by rw [← hea, ← hce]⟩
    obtain ⟨h1, h2, h3⟩ := pairs_split_unique _ _ l1 l2 a b.size sz h hX hl1
    exact ⟨As1, base, pre, b, post, As2, rfl, hbf, hba, h2, h1, h3⟩

theorem Heap_block_all (s : State) (g : List Arena) (h : Heap s g) (c : Blk)
    (hc : c ∈ all_blocks g) :
    get_object_size s.mem c.addr = c.size ∧ get_status s.mem c.addr = status_of c.used ∧
    get_object_size s.mem (c.addr + c.size - 16) = c.size ∧
    get_status s.mem (c.addr + c.size - 16) = status_of c.used ∧ 56 ≤ c.size := by
  obtain ⟨A, hA, hcA⟩ := (mem_all_blocks _ c).mp hc
  have fc := Heap_block s _ h A hA c hcA
  exact ⟨fc.2.2.2.2.1.1, fc.2.2.2.2.1.2, fc.2.2.2.2.2.1, fc.2.2.2.2.2.2, fc.2.2.1⟩

/-! ## First fit -/

/-- First fit: `allocate_object` returns the payload of the first member of the
free list that is large enough, and the members in front of it keep their size,
status and `prev` link, and their `next` link unless it pointed to that member. -/
theorem alloc_first_fit (s : State) (g : List Arena) (n : Nat) (l1 l2 : List (Nat × Nat))
    (a sz : Nat) (hI : Inv s g) (hn : max n 8 + 55 < 18446744073709551616)
    (hl : free_entries (all_blocks g) = l1 ++ (a, sz) :: l2)
    (hsmall : ∀ e ∈ l1, e.2 < rounded_size (clamp_size n))
    (hfit : rounded_size (clamp_size n) ≤ sz) :
    ∃ s1 g1, allocate_object (l1.length + 2) n s = some (a + 32, s1) ∧ Inv s1 g1 ∧
      s1.num_chunks = s.num_chunks ∧
      ∀ e ∈ l1, get_object_size s1.mem e.1 = get_object_size s.mem e.1 ∧
        get_status s1.mem e.1 = get_status s.mem e.1 ∧
        get_prev s1.mem e.1 = get_prev s.mem e.1 ∧
        (get_next s.mem e.1 ≠ a → get_next s1.mem e.1 = get_next s.mem e.1) := by
  have hH := hI.1
  obtain ⟨As1, base, pre, b, post, As2, eg, hbf, hba, hbs, e1, e2⟩ :=
    Heap_entries_split s g hH l1 l2 a sz hl
  subst eg
  have hlen : (free_addrs (all_blocks As1 ++ pre)).length = l1.length := by
    rw [← free_entries_length, e1]
  obtain ⟨m1, mid, ea, hmid, hI1, f1⟩ := alloc_fit s As1 As2 base pre post b n
    (l1.length + 1) hI hbf hn (by rw [hbs]; exact hfit)
    (by
      intro x hx hxu
      apply hsmall (x.addr, x.size)
      rw [← e1]
      exact (mem_free_entries _ _).mpr ⟨x, hx, hxu, rfl⟩)
    (by omega)
  rw [hba] at ea
  refine ⟨_, _, ea, hI1, rfl, ?_⟩
  have hc0 : Cyc s.mem (nodes_of s (put As1 base pre [b] post As2)) := hH.2.2.2.2.2.2.1
  have hc1 : Cyc m1 (nodes_of s (put As1 base pre mid post As2)) := hI1.1.2.2.2.2.2.2.1
  rw [nodes_put] at hc0 hc1
  rw [free_addrs_one_free b hbf] at hc0
  generalize hX : free_addrs (all_blocks As1 ++ pre) = X at hc0 hc1
  generalize hY : free_addrs (post ++ all_blocks As2) = Y at hc0 hc1
  have p0 : Path s.mem s.sentinel (X ++ (b.addr :: Y ++ [s.sentinel])) := by
    have : Path s.mem s.sentinel ((X ++ [b.addr] ++ Y) ++ [s.sentinel]) := hc0
    simpa [List.append_assoc] using this
  have p1 : Path m1 s.sentinel (X ++ (free_addrs mid ++ Y ++ [s.sentinel])) := by
    have : Path m1 s.sentinel ((X ++ free_addrs mid ++ Y) ++ [s.sentinel]) := hc1
    simpa [List.append_assoc] using this
  have hag := Path_prefix_agree s.mem m1 X s.sentinel _ _ p0 p1
  have hlast := (Cyc_next_mid s.mem s.sentinel X b.addr Y (by simpa using hc0)).1
  intro e he
  rw [← e1] at he
  obtain ⟨c, hc, hcf, hce⟩ := (mem_free_entries _ _).mp he
  have hcX : c.addr ∈ X := by
    rw [← hX]
    exact (mem_free_addrs _ _).mpr ⟨c, hc, hcf, rfl⟩
  have hc_old : c ∈ all_blocks (put As1 base pre [b] post As2) :=
    (mem_put_cases _ _ _ _ _ _ c).mpr (Or.inl hc)
  have hc_new : c ∈ all_blocks (put As1 base pre mid post As2) :=
    (mem_put_cases _ _ _ _ _ _ c).mpr (Or.inl hc)
  have t0 := Heap_block_all s _ hH c hc_old
  have t1 := Heap_block_all _ _ hI1.1 c hc_new
  have hfst : e.1 = c.addr := by rw [← hce]
  rw [hfst]
  refine ⟨t1.1.trans t0.1.symm, t1.2.1.trans t0.2.1.symm, (hag c.addr hcX).1, ?_⟩
  intro hne
  apply (hag c.addr hcX).2
  intro hx
  apply hne
  rw [hx, hlast, hba]

/-! ## Stores into the payload of an allocated block -/

/-- Stores into the payload of an allocated block keep the state well formed. -/
theorem Inv_payload_write (s : State) (g : List Arena) (hI : Inv s g) (Q : Blk)
    (hQ : Q ∈ all_blocks g) (hu : Q.used = true) (m1 : Mem)
    (hm : ∀ x, (x < Q.addr + 32 ∨ Q.addr + Q.size - 16 ≤ x) → m1 x = s.mem x) :
    Inv { s with mem := m1 } g := by
  obtain ⟨hH, hsb, hna⟩ := hI
  obtain ⟨As1, base, pre, post, As2, eg⟩ := exists_put g Q hQ
  subst eg
  refine ⟨?_, hsb, hna⟩
  obtain ⟨lo, hi, c1, c2, c3, -⟩ := Heap_focus s As1 As2 base pre [Q] post hH
  have fQ := Heap_block_put s As1 As2 base pre [Q] post hH Q (by simp)
  have c2' := c2
  obtain ⟨c2a, c2b⟩ := c2
  have c2b : lo + Q.size = hi := c2b
  apply Heap_update s _ As1 As2 base pre [Q] [Q] post lo hi hH c1 c2' c2'
  · intro c hc
    rw [List.mem_singleton] at hc
    rw [hc]
    refine ⟨⟨fQ.2.2.1, fQ.2.2.2.1⟩, ?_, ?_⟩
    · exact hdr_ok_congr s.mem m1 Q (fun x h1 h2 => hm x (by omega)) fQ.2.2.2.2.1
    · exact ftr_ok_congr s.mem m1 Q (fun x h1 h2 => hm x (by omega)) fQ.2.2.2.2.2
  · intro x hx hnl
    exact hm x (by omega)
  · show Cyc m1 (nodes_of s (put As1 base pre [Q] post As2))
    apply Cyc_frame_NoLink s.mem m1 _ ?_ hH.2.2.2.2.2.2.1
    intro x
    by_cases hx : x < Q.addr + 32 ∨ Q.addr + Q.size - 16 ≤ x
    · exact Or.inl (hm x hx)
    · right
      exact Heap_NoLink_block s _ hH Q hQ x (by omega) (by omega) (Or.inl hu)
  · rfl
  · rfl
  · rfl

/-! ## The rows of the coalescing table, on the entries of the free list -/

/-- With enough fuel, `free_object` returns its result and `print_list` yields
the free blocks of both descriptions. -/
theorem free_run (s s1 : State) (g g1 : List Arena) (fuel0 p : Nat) (hH : Heap s g)
    (h1 : Heap s1 g1) (e : free_object fuel0 p s = some s1) :
    ∃ F, ∀ fuel, F ≤ fuel → free_object fuel p s = some s1 ∧
      free_list_entries fuel s = some (free_entries (all_blocks g)) ∧
      free_list_entries fuel s1 = some (free_entries (all_blocks g1)) := by
  refine ⟨fuel0 + (free_addrs (all_blocks g)).length + (free_addrs (all_blocks g1)).length + 1,
    ?_⟩
  intro fuel hf
  exact ⟨free_object_mono _ _ _ _ e fuel (by omega), Heap_entries s g hH fuel (by omega),
    Heap_entries s1 g1 h1 fuel (by omega)⟩

/-- Row "left USED, right USED": the block joins the list at its place in address
order. -/
theorem free_row_none (s : State) (g : List Arena) (M : Blk) (hH : Heap s g)
    (hM : M ∈ all_blocks g) (hu : M.used = true)
    (hl : get_status s.mem (M.addr - 16) = 1) (hr : get_status s.mem (M.addr + M.size) = 1) :
    ∃ s1 g1 l1 l2,
      free_object ((free_addrs (all_blocks g)).length + 2) (M.addr + 32) s = some s1 ∧
      Heap s1 g1 ∧ free_entries (all_blocks g) = l1 ++ l2 ∧
      free_entries (all_blocks g1) = l1 ++ (M.addr, M.size) :: l2 ∧
      (∀ e ∈ l1, e.1 < M.addr) ∧ (∀ e ∈ l2, M.addr < e.1) ∧
      get_object_size s1.mem M.addr = M.size ∧ get_status s1.mem M.addr = 0 ∧
      get_object_size s1.mem (M.addr + M.size - 16) = M.size ∧
      get_status s1.mem (M.addr + M.size - 16) = 0 := by
  obtain ⟨As1, base, pre, post, As2, eg⟩ := exists_put g M hM
  subst eg
  obtain ⟨lo, hi, c1, c2, c3, -, -, -, -, -, g6, g7⟩ := Heap_focus s As1 As2 base pre [M] post hH
  obtain ⟨c2a, c2b⟩ := c2
  have c2b : lo + M.size = hi := c2b
  have hK := free_prefix_le As1 As2 base pre [M] post
  obtain ⟨m1, e1, h1, fr⟩ := free_object_none s As1 As2 base pre post M
    ((free_addrs (all_blocks (put As1 base pre [M] post As2))).length + 1) hH hu hl hr
    (by omega)
  have t := Heap_block_all _ _ h1 ⟨M.addr, M.size, false⟩
    (mem_all_blocks_put _ _ _ _ _ _ _ (by simp))
  refine ⟨_, _, free_entries (all_blocks As1 ++ pre), free_entries (post ++ all_blocks As2),
    e1, h1, ?_, ?_, ?_, ?_, t.1, t.2.1, t.2.2.1, t.2.2.2.1⟩
  · rw [free_entries_put, free_entries_one_used M hu, List.nil_append]
  · rw [free_entries_put, free_entries_one_free _ rfl]
    rfl
  · intro e he
    obtain ⟨c, hc, -, hce⟩ := (mem_free_entries _ _).mp he
    have := g6 c hc
    rw [← hce]
    show c.addr < M.addr
    omega
  · intro e he
    obtain ⟨c, hc, -, hce⟩ := (mem_free_entries _ _).mp he
    have := g7 c hc
    have fM := Heap_block_put s As1 As2 base pre [M] post hH M (by simp)
    rw [← hce]
    show M.addr < c.addr
    omega

/-- Row "left FREE, right USED": the left block grows over `M` and keeps its place. -/
theorem free_row_left (s : State) (g : List Arena) (M : Blk) (hH : Heap s g)
    (hM : M ∈ all_blocks g) (hu : M.used = true)
    (hl : get_status s.mem (M.addr - 16) = 0) (hr : get_status s.mem (M.addr + M.size) = 1) :
    ∃ s1 g1 l1 l2,
      free_object ((free_addrs (all_blocks g)).length + 2) (M.addr + 32) s = some s1 ∧
      Heap s1 g1 ∧
      free_entries (all_blocks g) = l1 ++ (M.addr - get_object_size s.mem (M.addr - 16),
        get_object_size s.mem (M.addr - 16)) :: l2 ∧
      free_entries (all_blocks g1) = l1 ++ (M.addr - get_object_size s.mem (M.addr - 16),
        get_object_size s.mem (M.addr - 16) + M.size) :: l2 ∧
      (∀ e ∈ l1, e.1 < M.addr - get_object_size s.mem (M.addr - 16)) ∧
      (∀ e ∈ l2, M.addr < e.1) ∧
      get_object_size s1.mem (M.addr - get_object_size s.mem (M.addr - 16)) =
        get_object_size s.mem (M.addr - 16) + M.size ∧
      get_status s1.mem (M.addr - get_object_size s.mem (M.addr - 16)) = 0 ∧
      get_object_size s1.mem (M.addr + M.size - 16) =
        get_object_size s.mem (M.addr - 16) + M.size ∧
      get_status s1.mem (M.addr + M.size - 16) = 0 := by
  obtain ⟨As1, base, pre, post, As2, eg⟩ := exists_put g M hM
  subst eg
  obtain ⟨lo, hi, c1, c2, c3, -⟩ := Heap_focus s As1 As2 base pre [M] post hH
  obtain ⟨c2a, c2b⟩ := c2
  have c2b : lo + M.size = hi := c2b
  rw [c2a] at hl hr ⊢
  rcases left_cases s As1 As2 base pre [M] post hH lo c1 with
    ⟨hl1, -⟩ | ⟨pre1, L, epre, hLf, -, hLs, hLa⟩
  · rw [hl] at hl1; exact absurd hl1 (by decide)
  subst epre
  have hHL : Heap s (put As1 base pre1 [L, M] post As2) := by
    have := hH
    rw [put_shift_left] at this
    exact this
  obtain ⟨lo2, hi2, d1, d2, d3, -, -, -, -, -, g6, g7⟩ :=
    Heap_focus s As1 As2 base pre1 [L, M] post hHL
  obtain ⟨d2a, d2b, d2c⟩ := d2
  have d2b : M.addr = lo2 + L.size := d2b
  have d2c : lo2 + L.size + M.size = hi2 := d2c
  obtain ⟨m1, e1, h1, fr⟩ := free_object_left s As1 As2 base pre1 post L M
    ((free_addrs (all_blocks (put As1 base (pre1 ++ [L]) [M] post As2))).length + 1) hHL hLf
    (by rw [c2a]; exact hr)
  have t := Heap_block_all _ _ h1 ⟨L.addr, L.size + M.size, false⟩
    (mem_all_blocks_put _ _ _ _ _ _ _ (by simp))
  have fL := Heap_block_put s As1 As2 base pre1 [L, M] post hHL L (by simp)
  have eLa : lo - get_object_size s.mem (lo - 16) = L.addr := by rw [hLs]; omega
  have eF : lo + M.size - 16 = L.addr + (L.size + M.size) - 16 := by omega
  rw [c2a] at e1
  rw [eLa, hLs, eF]
  refine ⟨_, _, free_entries (all_blocks As1 ++ pre1), free_entries (post ++ all_blocks As2),
    e1, h1, ?_, ?_, ?_, ?_, t.1, t.2.1, t.2.2.1, t.2.2.2.1⟩
  · rw [put_shift_left, free_entries_put]
    simp [free_entries, hLf, hu]
  · rw [free_entries_put, free_entries_one_free _ rfl]
    rfl
  · intro e he
    obtain ⟨c, hc, -, hce⟩ := (mem_free_entries _ _).mp he
    have := g6 c hc
    rw [← hce]
    show c.addr < L.addr
    omega
  · intro e he
    obtain ⟨c, hc, -, hce⟩ := (mem_free_entries _ _).mp he
    have := g7 c hc
    have fM := Heap_block_put s As1 As2 base pre1 [L, M] post hHL M (by simp)
    rw [← hce]
    show lo < c.addr
    omega

/-- Row "left USED, right FREE": `M` grows over the right block and takes its place. -/
theorem free_row_right (s : State) (g : List Arena) (M : Blk) (hH : Heap s g)
    (hM : M ∈ all_blocks g) (hu : M.used = true)
    (hl : get_status s.mem (M.addr - 16) = 1) (hr : get_status s.mem (M.addr + M.size) = 0) :
    ∃ s1 g1 l1 l2,
      free_object ((free_addrs (all_blocks g)).length + 2) (M.addr + 32) s = some s1 ∧
      Heap s1 g1 ∧
      free_entries (all_blocks g) = l1 ++ (M.addr + M.size,
        get_object_size s.mem (M.addr + M.size)) :: l2 ∧
      free_entries (all_blocks g1) = l1 ++ (M.addr,
        M.size + get_object_size s.mem (M.addr + M.size)) :: l2 ∧
      (∀ e ∈ l1, e.1 < M.addr) ∧
      (∀ e ∈ l2, M.addr + M.size < e.1) ∧
      get_object_size s1.mem M.addr = M.size + get_object_size s.mem (M.addr + M.size) ∧
      get_status s1.mem M.addr = 0 ∧
      get_object_size s1.mem
        (M.addr + M.size + get_object_size s.mem (M.addr + M.size) - 16) =
        M.size + get_object_size s.mem (M.addr + M.size) ∧
      get_status s1.mem
        (M.addr + M.size + get_object_size s.mem (M.addr + M.size) - 16) = 0 := by
  obtain ⟨As1, base, pre, post, As2, eg⟩ := exists_put g M hM
  subst eg
  obtain ⟨lo, hi, c1, c2, c3, -⟩ := Heap_focus s As1 As2 base pre [M] post hH
  obtain ⟨c2a, c2b⟩ := c2
  have c2b : lo + M.size = hi := c2b
  rw [c2a] at hl hr ⊢
  rw [c2b] at hr ⊢
  rcases right_cases s As1 As2 base pre [M] post hH hi c3 with
    ⟨hr1, -⟩ | ⟨R, post1, epost, hRf, -, hRs, hRa⟩
  · rw [hr] at hr1; exact absurd hr1 (by decide)
  subst epost
  have hHR : Heap s (put As1 base pre [M, R] post1 As2) := by
    have := hH
    rw [put_shift_right] at this
    exact this
  obtain ⟨lo2, hi2, d1, d2, d3, -, -, -, -, -, g6, g7⟩ :=
    Heap_focus s As1 As2 base pre [M, R] post1 hHR
  have e0 : lo2 = lo := Chain_unique _ _ _ _ d1 c1
  subst e0
  obtain ⟨d2a, d2b, d2c⟩ := d2
  have d2b : R.addr = lo2 + M.size := d2b
  have d2c : lo2 + M.size + R.size = hi2 := d2c
  obtain ⟨m1, e1, h1, fr⟩ := free_object_right s As1 As2 base pre post1 M R
    ((free_addrs (all_blocks (put As1 base pre [M] (R :: post1) As2))).length + 1) hHR hu hRf
    (by rw [c2a]; exact hl)
  have t := Heap_block_all _ _ h1 ⟨M.addr, M.size + R.size, false⟩
    (mem_all_blocks_put _ _ _ _ _ _ _ (by simp))
  rw [c2a] at e1 t
  rw [hRs]
  have eR : (hi, R.size) = (R.addr, R.size) := by rw [hRa]
  have eF : hi + R.size - 16 = lo2 + (M.size + R.size) - 16 := by omega
  rw [eF]
  refine ⟨_, _, free_entries (all_blocks As1 ++ pre), free_entries (post1 ++ all_blocks As2),
    e1, h1, ?_, ?_, ?_, ?_, t.1, t.2.1, t.2.2.1, t.2.2.2.1⟩
  · rw [put_shift_right, free_entries_put, eR]
    simp [free_entries, hRf, hu]
  · rw [free_entries_put, free_entries_one_free _ rfl, c2a]
    rfl
  · intro e he
    obtain ⟨c, hc, -, hce⟩ := (mem_free_entries _ _).mp he
    have := g6 c hc
    rw [← hce]
    show c.addr < lo2
    omega
  · intro e he
    obtain ⟨c, hc, -, hce⟩ := (mem_free_entries _ _).mp he
    have := g7 c hc
    have fR := Heap_block_put s As1 As2 base pre [M, R] post1 hHR R (by simp)
    rw [← hce]
    show hi < c.addr
    omega

/-- Row "left FREE, right FREE": exactly one nested call; the left block grows
over `M` and the right block, keeps its place, and the right block leaves the list. -/
theorem free_row_both (s : State) (g : List Arena) (M : Blk) (hI : Inv s g)
    (hM : M ∈ all_blocks g) (hu : M.used = true)
    (hl : get_status s.mem (M.addr - 16) = 0) (hr : get_status s.mem (M.addr + M.size) = 0) :
    free_object 1 (M.addr + 32) s = none ∧
    ∃ s1 g1 l1 l2,
      free_object 2 (M.addr + 32) s = some s1 ∧
      Heap s1 g1 ∧
      free_entries (all_blocks g) = l1 ++ (M.addr - get_object_size s.mem (M.addr - 16),
        get_object_size s.mem (M.addr - 16)) :: (M.addr + M.size,
        get_object_size s.mem (M.addr + M.size)) :: l2 ∧
      free_entries (all_blocks g1) = l1 ++ (M.addr - get_object_size s.mem (M.addr - 16),
        get_object_size s.mem (M.addr - 16) + M.size +
          get_object_size s.mem (M.addr + M.size)) :: l2 ∧
      (∀ e ∈ l1, e.1 < M.addr - get_object_size s.mem (M.addr - 16)) ∧
      (∀ e ∈ l2, M.addr + M.size < e.1) ∧
      get_object_size s1.mem (M.addr - get_object_size s.mem (M.addr - 16)) =
        get_object_size s.mem (M.addr - 16) + M.size +
          get_object_size s.mem (M.addr + M.size) ∧
      get_status s1.mem (M.addr - get_object_size s.mem (M.addr - 16)) = 0 ∧
      get_object_size s1.mem
        (M.addr + M.size + get_object_size s.mem (M.addr + M.size) - 16) =
        get_object_size s.mem (M.addr - 16) + M.size +
          get_object_size s.mem (M.addr + M.size) ∧
      get_status s1.mem
        (M.addr + M.size + get_object_size s.mem (M.addr + M.size) - 16) = 0 := by
  obtain ⟨hH, hsb, hna⟩ := hI
  obtain ⟨As1, base, pre, post, As2, eg⟩ := exists_put g M hM
  subst eg
  obtain ⟨lo, hi, c1, c2, c3, -⟩ := Heap_focus s As1 As2 base pre [M] post hH
  obtain ⟨c2a, c2b⟩ := c2
  have c2b : lo + M.size = hi := c2b
  obtain ⟨n1, n2, n3⟩ := (Inv_put s As1 As2 base pre [M] post).mp hna
  rw [c2a] at hl hr ⊢
  rw [c2b] at hr ⊢
  rcases left_cases s As1 As2 base pre [M] post hH lo c1 with
    ⟨hl1, -⟩ | ⟨pre1, L, epre, hLf, -, hLs, hLa⟩
  · rw [hl] at hl1; exact absurd hl1 (by decide)
  rcases right_cases s As1 As2 base pre [M] post hH hi c3 with
    ⟨hr1, -⟩ | ⟨R, post1, epost, hRf, -, hRs, hRa⟩
  · rw [hr] at hr1; exact absurd hr1 (by decide)
  subst epre
  subst epost
  have hH3 : Heap s (put As1 base pre1 [L, M, R] post1 As2) := by
    have := hH
    rw [put_shift_left, put_shift_right] at this
    exact this
  obtain ⟨lo2, hi2, d1, d2, d3, -, -, -, -, -, g6, g7⟩ :=
    Heap_focus s As1 As2 base pre1 [L, M, R] post1 hH3
  obtain ⟨d2a, d2b, d2c, d2d⟩ := d2
  have d2b : M.addr = lo2 + L.size := d2b
  have d2c : R.addr = lo2 + L.size + M.size := d2c
  have d2d : lo2 + L.size + M.size + R.size = hi2 := d2d
  have n2' : NoAdjFree (pre1 ++ ([L, M] ++ [R]) ++ post1) := by
    simpa [List.append_assoc] using n2
  have hru := NoAdjFree_right pre1 post1 [L, M] R n2' hRf
  have hrr : get_status s.mem (R.addr + R.size) = 1 := by
    rcases right_cases s As1 As2 base pre1 [L, M, R] post1 hH3 hi2 d3 with
      ⟨hr2, -⟩ | ⟨R2, post2, e2, hR2f, -, -, -⟩
    · rw [d2c, d2d]; exact hr2
    · have := hru R2 post2 e2
      rw [hR2f] at this; exact absurd this (by simp)
  obtain ⟨enone, m1, e1, h1, fr⟩ := free_object_both s As1 As2 base pre1 post1 L M R 0 hH3
    hLf hu hRf hrr
  have t := Heap_block_all _ _ h1 ⟨L.addr, L.size + (M.size + R.size), false⟩
    (mem_all_blocks_put _ _ _ _ _ _ _ (by simp))
  have fL := Heap_block_put s As1 As2 base pre1 [L, M, R] post1 hH3 L (by simp)
  rw [c2a] at enone e1
  refine ⟨enone, ?_⟩
  have eLa : lo - get_object_size s.mem (lo - 16) = L.addr := by rw [hLs]; omega
  have eR : (hi, R.size) = (R.addr, R.size) := by rw [hRa]
  have eS : L.size + M.size + R.size = L.size + (M.size + R.size) := by omega
  have eF : hi + R.size - 16 = L.addr + (L.size + (M.size + R.size)) - 16 := by omega
  rw [eLa, hLs, hRs, eS, eF]
  refine ⟨_, _, free_entries (all_blocks As1 ++ pre1), free_entries (post1 ++ all_blocks As2),
    e1, h1, ?_, ?_, ?_, ?_, t.1, t.2.1, t.2.2.1, t.2.2.2.1⟩
  · rw [put_shift_left, put_shift_right, free_entries_put, eR]
    simp [free_entries, hLf, hRf, hu]
  · rw [free_entries_put, free_entries_one_free _ rfl]
    rfl
  · intro e he
    obtain ⟨c, hc, -, hce⟩ := (mem_free_entries _ _).mp he
    have := g6 c hc
    rw [← hce]
    show c.addr < L.addr
    omega
  · intro e he
    obtain ⟨c, hc, -, hce⟩ := (mem_free_entries _ _).mp he
    have := g7 c hc
    have fR := Heap_block_put s As1 As2 base pre1 [L, M, R] post1 hH3 R (by simp)
    rw [← hce]
    show hi < c.addr
    omega

/-! ## Round trip: a block allocated from the free list and freed at once -/

theorem blk_eta (b : Blk) (sz : Nat) (h1 : sz = b.size) (h2 : b.used = false) :
    (⟨b.addr, sz, false⟩ : Blk) = b := by
  cases b with
  | mk a s u =>
    simp only at h1 h2
    rw [h1, h2]

/-- Allocating from a free block of a well-formed heap and freeing the result at
once gives back a state described by the same arenas. -/
theorem round_trip (s : State) (g : List Arena) (n c : Nat) (hI : Inv s g)
    (hn : max n 8 + 55 < 18446744073709551616)
    (hfit : ∃ b ∈ all_blocks g, b.used = false ∧ rounded_size (clamp_size n) ≤ b.size) :
    ∃ p m1 m2, allocate_object ((free_addrs (all_blocks g)).length + 2) n s =
        some (p, { s with mem := m1 }) ∧ p ≠ 0 ∧
      free_object ((free_addrs (all_blocks g)).length + 3) p
        { s with mem := m1, free_calls := c } = some { s with mem := m2, free_calls := c } ∧
      Inv { s with mem := m2, free_calls := c } g := by
  have hH := hI.1
  have hsb := hI.2.1
  have hna := hI.2.2
  rcases first_put (fun b => b.used = false ∧ rounded_size (clamp_size n) ≤ b.size) g with
    hnone | ⟨As1, base, pre, b, post, As2, eg, ⟨hbf, hbT⟩, hpre⟩
  · obtain ⟨b, hb, hbf, hbT⟩ := hfit
    exact absurd ⟨hbf, hbT⟩ (hnone b hb)
  subst eg
  have hK := free_prefix_le As1 As2 base pre [b] post
  generalize hKdef : (free_addrs (all_blocks (put As1 base pre [b] post As2))).length = K at hK
  obtain ⟨m1, mid, ea, hmid, hI1, f1⟩ := alloc_fit s As1 As2 base pre post b n (K + 1) hI hbf hn
    hbT
    (by
      intro x hx hxu
      have := hpre x hx
      by_contra hge
      exact this ⟨hxu, by omega⟩)
    (by omega)
  obtain ⟨n1, n2, n3⟩ := (Inv_put s As1 As2 base pre [b] post).mp hna
  have hpl := NoAdjFree_left pre post [] b n2 hbf
  have hpr := NoAdjFree_right pre post [] b n2 hbf
  have hI1c : Inv { s with mem := m1, free_calls := c } (put As1 base pre mid post As2) := hI1
  have hH1 := hI1c.1
  refine ⟨b.addr + 32, m1, ?_⟩
  rcases hmid with ⟨-, e⟩ | ⟨-, e⟩
  · -- split: the rest is free again, and the two halves merge
    subst e
    obtain ⟨lo, hi, c1, c2, c3, -⟩ := Heap_focus _ As1 As2 base pre _ post hH1
    have hl : get_status m1 (lo - 16) = 1 := by
      rcases left_cases _ As1 As2 base pre _ post hH1 lo c1 with
        ⟨h, -⟩ | ⟨pre1, L, epre, hLf, -, -, -⟩
      · exact h
      · have := hpl pre1 L epre
        rw [hLf] at this; exact absurd this (by simp)
    obtain ⟨m2, e2, h2, -⟩ := free_object_right _ As1 As2 base pre post
      ⟨b.addr, rounded_size (clamp_size n), true⟩
      ⟨b.addr + rounded_size (clamp_size n), b.size - rounded_size (clamp_size n), false⟩
      (K + 2) hH1 rfl rfl (by rw [← c2.1] at hl; exact hl)
    have hb : (⟨b.addr, rounded_size (clamp_size n) + (b.size - rounded_size (clamp_size n)),
        false⟩ : Blk) = b := blk_eta b _ (by omega) hbf
    have h2' : Heap { s with mem := m2, free_calls := c } (put As1 base pre [b] post As2) := by
      have := h2
      simp only [hb] at this
      exact this
    exact ⟨m2, ea, by omega, e2, h2', hsb, hna⟩
  · -- handed out whole: both neighbours are allocated
    subst e
    obtain ⟨lo, hi, c1, c2, c3, -⟩ := Heap_focus _ As1 As2 base pre _ post hH1
    obtain ⟨c2a, c2b⟩ := c2
    have c2a : b.addr = lo := c2a
    have c2b : lo + b.size = hi := c2b
    have hl : get_status m1 (lo - 16) = 1 := by
      rcases left_cases _ As1 As2 base pre _ post hH1 lo c1 with
        ⟨h, -⟩ | ⟨pre1, L, epre, hLf, -, -, -⟩
      · exact h
      · have := hpl pre1 L epre
        rw [hLf] at this; exact absurd this (by simp)
    have hr : get_status m1 hi = 1 := by
      rcases right_cases _ As1 As2 base pre _ post hH1 hi c3 with
        ⟨h, -⟩ | ⟨R, post1, epost, hRf, -, -, -⟩
      · exact h
      · have := hpr R post1 epost
        rw [hRf] at this; exact absurd this (by simp)
    obtain ⟨m2, e2, h2, -⟩ := free_object_none _ As1 As2 base pre post
      ⟨b.addr, b.size, true⟩ (K + 2) hH1 rfl
      (by show get_status m1 (b.addr - 16) = 1; rw [c2a]; exact hl)
      (by show get_status m1 (b.addr + b.size) = 1; rw [c2a, c2b]; exact hr) (by omega)
    have hb : (⟨b.addr, b.size, false⟩ : Blk) = b := blk_eta b _ rfl hbf
    have h2' : Heap { s with mem := m2, free_calls := c } (put As1 base pre [b] post As2) := by
      have := h2
      simp only [hb] at this
      exact this
    exact ⟨m2, ea, by omega, e2, h2', hsb, hna⟩

/-! ## The number of arenas -/

theorem add_to_list_loop_num_chunks : ∀ (fuel : Nat) (s : State) (block c : Nat) (r : State),
    add_to_list_loop fuel s block c = some r → r.num_chunks = s.num_chunks := by
  intro fuel
  induction fuel with
  | zero =>
    intro s b c r h
    have h0 : (none : Option State) = some r := h
    exact Option.noConfusion h0
  | succ k ih =>
    intro s b c r h
    rw [add_to_list_loop_succ] at h
    dsimp only at h
    by_cases h1 : get_next s.mem c > b
    · rw [if_pos h1] at h
      rw [← Option.some.inj h]
    · rw [if_neg h1] at h
      by_cases h2 : get_next s.mem c ≠ s.free_list
      · rw [if_pos h2] at h; exact ih _ _ _ _ h
      · rw [if_neg h2] at h
        rw [← Option.some.inj h]

theorem request_more_memory_num_chunks (fuel : Nat) (s r : State)
    (h : request_more_memory fuel s = some r) : r.num_chunks = s.num_chunks + 1 := by
  rw [request_more_memory_eq] at h
  exact add_to_list_loop_num_chunks _ _ _ _ _ h

theorem allocate_loop_num_chunks : ∀ (fuel T : Nat) (s : State) (c p : Nat) (r : State),
    allocate_loop fuel T s c = some (Search.found p r) → r.num_chunks = s.num_chunks := by
  intro fuel
  induction fuel with
  | zero =>
    intro T s c p r h
    have h0 : (none : Option Search) = some (Search.found p r) := h
    exact Option.noConfusion h0
  | succ k ih =>
    intro T s c p r h
    rw [allocate_loop_succ] at h
    dsimp only at h
    by_cases h1 : get_next s.mem c = s.sentinel
    · rw [if_pos h1] at h
      exact Search.noConfusion (Option.some.inj h)
    · rw [if_neg h1] at h
      by_cases h2 : int_of_size (get_object_size s.mem (get_next s.mem c)) ≥ T
      · rw [if_pos h2] at h
        have h3 := Option.some.inj h
        injection h3 with h4 h5
        rw [← h5, allocate_from_num_chunks]
      · rw [if_neg h2] at h
        by_cases h3 : get_next s.mem c ≠ s.free_list
        · rw [if_pos h3] at h; exact ih _ _ _ _ _ h
        · rw [if_neg h3] at h
          exact Search.noConfusion (Option.some.inj h)

/-- `allocate_object` never lowers the number of arenas, and raises it when the
first search fails. -/
theorem allocate_object_num_chunks : ∀ (fuel n : Nat) (s : State) (r : Nat × State),
    allocate_object fuel n s = some r →
      s.num_chunks ≤ r.2.num_chunks ∧
      (allocate_loop (fuel - 1) (rounded_size (clamp_size n)) s s.free_list =
        some Search.exhausted → s.num_chunks + 1 ≤ r.2.num_chunks) := by
  intro fuel
  induction fuel with
  | zero =>
    intro n s r h
    have h0 : (none : Option (Nat × State)) = some r := h
    exact Option.noConfusion h0
  | succ k ih =>
    intro n s r h
    rw [allocate_object_succ] at h
    show _ ∧ (allocate_loop k _ _ _ = _ → _)
    cases h0 : allocate_loop k (rounded_size (clamp_size n)) s s.free_list with
    | none => rw [h0] at h; exact absurd h (by simp)
    | some o =>
      rw [h0] at h
      cases o with
      | found ptr s1 =>
        have h1 := Option.some.inj h
        have h2 := allocate_loop_num_chunks _ _ _ _ _ _ h0
        rw [← h1]
        refine ⟨by show s.num_chunks ≤ s1.num_chunks; omega, ?_⟩
        intro h3
        exact Search.noConfusion (Option.some.inj h3)
      | exhausted =>
        dsimp only at h
        cases h1 : request_more_memory k s with
        | none => rw [h1] at h; exact absurd h (by simp)
        | some s1 =>
          rw [h1] at h
          have h2 := request_more_memory_num_chunks _ _ _ h1
          have h3 := (ih _ _ _ h).1
          exact ⟨by omega, fun _ => by omega⟩

/-- The search loop, when no member fits, ends without a fit or runs out of fuel. -/
theorem allocate_loop_no_fit (s : State) (g : List Arena) (hH : Heap s g) (T : Nat)
    (hsmall : ∀ x ∈ all_blocks g, x.used = false → x.size < T) (fuel : Nat) :
    allocate_loop fuel T s s.free_list = none ∨
      allocate_loop fuel T s s.free_list = some Search.exhausted := by
  have hfl : s.free_list = s.sentinel := hH.1
  have hsm : ∀ x ∈ free_addrs (all_blocks g), int_of_size (get_object_size s.mem x) < T := by
    intro x hx
    obtain ⟨c, hc, hcu, rfl⟩ := (mem_free_addrs _ _).mp hx
    rw [Heap_int_size s g hH c hc]
    exact hsmall c hc hcu
  have hex := allocate_loop_exhausted s T _ (fuel + (free_addrs (all_blocks g)).length + 1)
    hfl hH.2.2.2.2.2.2.1 (Heap_nodup s g hH) hsm (by omega)
  rw [← hfl] at hex
  cases h0 : allocate_loop fuel T s s.free_list with
  | none => exact Or.inl rfl
  | some r =>
    right
    have := allocate_loop_mono _ _ _ _ _ h0
      (fuel + (free_addrs (all_blocks g)).length + 1) (by omega)
    rw [hex] at this
    rw [this]

/-- A request served without a new arena is served from the first free block
that fits. -/
theorem alloc_same_arena (s : State) (g : List Arena) (n fuel p : Nat) (s1 : State)
    (hI : Inv s g) (hn : max n 8 + 55 < 18446744073709551616)
    (ha : allocate_object fuel n s = some (p, s1)) (hc : s1.num_chunks = s.num_chunks) :
    ∃ As1 base pre b post As2 m1 mid, g = put As1 base pre [b] post As2 ∧ b.used = false ∧
      p = b.addr + 32 ∧ s1 = { s with mem := m1 } ∧
      Inv { s with mem := m1 } (put As1 base pre mid post As2) ∧
      used_addrs mid = [b.addr] := by
  have hH := hI.1
  rcases first_put (fun b => b.used = false ∧ rounded_size (clamp_size n) ≤ b.size) g with
    hnone | ⟨As1, base, pre, b, post, As2, eg, ⟨hbf, hbT⟩, hpre⟩
  · exfalso
    have hsmall : ∀ x ∈ all_blocks g, x.used = false →
        x.size < rounded_size (clamp_size n) := by
      intro x hx hxu
      have := hnone x hx
      by_contra hge
      exact this ⟨hxu, by omega⟩
    have h1 := allocate_object_num_chunks fuel n s (p, s1) ha
    cases fuel with
    | zero =>
      have h0 : (none : Option (Nat × State)) = some (p, s1) := ha
      exact Option.noConfusion h0
    | succ k =>
      rcases allocate_loop_no_fit s g hH _ hsmall k with h2 | h2
      · rw [allocate_object_succ, h2] at ha
        exact absurd ha (by simp)
      · have := h1.2 h2
        have h3 : s.num_chunks + 1 ≤ s1.num_chunks := this
        omega
  · subst eg
    obtain ⟨m1, mid, ea, hmid, hI1, f1⟩ := alloc_fit s As1 As2 base pre post b n
      ((free_addrs (all_blocks As1 ++ pre)).length + 1) hI hbf hn hbT
      (by
        intro x hx hxu
        have := hpre x hx
        by_contra hge
        exact this ⟨hxu, by omega⟩)
      (by omega)
    have e1 := allocate_object_mono _ _ _ _ ea
      (fuel + ((free_addrs (all_blocks As1 ++ pre)).length + 1 + 1)) (by omega)
    have e2 := allocate_object_mono _ _ _ _ ha
      (fuel + ((free_addrs (all_blocks As1 ++ pre)).length + 1 + 1)) (by omega)
    rw [e1] at e2
    have e3 := Option.some.inj e2
    injection e3 with e4 e5
    refine ⟨As1, base, pre, b, post, As2, m1, mid, rfl, hbf, e4.symm, e5.symm, hI1, ?_⟩
    rcases hmid with ⟨-, e⟩ | ⟨-, e⟩
    · rw [e]; simp [used_addrs]
    · rw [e]; simp [used_addrs]

/-! ## Clients of one arena -/

theorem put_singleton (A : Arena) (As1 As2 : List Arena) (base : Nat)
    (pre mid post : List Blk) (h : [A] = put As1 base pre mid post As2) :
    As1 = [] ∧ As2 = [] ∧ A = ⟨base, pre ++ mid ++ post⟩ := by
  unfold put at h
  cases As1 with
  | nil =>
    simp only [List.nil_append, List.cons.injEq] at h
    exact ⟨rfl, h.2.symm, h.1⟩
  | cons a As1 =>
    simp only [List.cons_append, List.cons.injEq] at h
    exact absurd h.2 (by simp)

theorem malloc_all_cons (fuel n : Nat) (ns : List Nat) (s : State) :
    malloc_all fuel (n :: ns) s =
      (match malloc fuel n s with
      | none => none
      | some (p, s1) =>
        match malloc_all fuel ns s1 with
        | none => none
        | some (ps, s2) => some (p :: ps, s2)) := rfl

theorem free_all_cons (fuel p : Nat) (ps : List Nat) (s : State) :
    free_all fuel (p :: ps) s =
      (match free fuel p s with
      | none => none
      | some s1 => free_all fuel ps s1) := rfl

theorem malloc_num_chunks (fuel n : Nat) (s : State) (r : Nat × State)
    (h : malloc fuel n s = some r) : s.num_chunks ≤ r.2.num_chunks :=
  (allocate_object_num_chunks fuel n _ r h).1

theorem malloc_all_num_chunks : ∀ (ns : List Nat) (fuel : Nat) (s : State)
    (r : List Nat × State), malloc_all fuel ns s = some r → s.num_chunks ≤ r.2.num_chunks := by
  intro ns
  induction ns with
  | nil =>
    intro fuel s r h
    have h0 : some (([] : List Nat), s) = some r := h
    rw [← Option.some.inj h0]
  | cons n ns ih =>
    intro fuel s r h
    rw [malloc_all_cons] at h
    cases h1 : malloc fuel n s with
    | none => rw [h1] at h; exact absurd h (by simp)
    | some r1 =>
      rw [h1] at h
      dsimp only at h
      cases h2 : malloc_all fuel ns r1.2 with
      | none => rw [h2] at h; exact absurd h (by simp)
      | some r2 =>
        rw [h2] at h
        dsimp only at h
        have h3 := malloc_num_chunks _ _ _ _ h1
        have h4 := ih _ _ _ h2
        rw [← Option.some.inj h]
        show s.num_chunks ≤ r2.2.num_chunks
        omega

/-- Requests served from the one arena of a heap: the pointers returned are the
payloads of the blocks that become allocated. -/
theorem malloc_all_single (B : Nat) : ∀ (ns : List Nat) (fuel : Nat) (s : State)
    (bl : List Blk) (ps : List Nat) (s1 : State), Inv s [⟨B, bl⟩] →
    (∀ n ∈ ns, max n 8 + 55 < 18446744073709551616) →
    malloc_all fuel ns s = some (ps, s1) → s1.num_chunks = s.num_chunks →
    ∃ bl1, Inv s1 [⟨B, bl1⟩] ∧
      ((used_addrs bl1).map (fun a => a + 32)).Perm
        ((used_addrs bl).map (fun a => a + 32) ++ ps) := by
  intro ns
  induction ns with
  | nil =>
    intro fuel s bl ps s1 hI _ h _
    have h0 : some (([] : List Nat), s) = some (ps, s1) := h
    have h1 := Option.some.inj h0
    injection h1 with h2 h3
    rw [← h2, ← h3]
    exact ⟨bl, hI, by simp⟩
  | cons n ns ih =>
    intro fuel s bl ps s1 hI hns h hc
    rw [malloc_all_cons] at h
    cases h1 : malloc fuel n s with
    | none => rw [h1] at h; exact absurd h (by simp)
    | some r1 =>
      obtain ⟨p, sa⟩ := r1
      rw [h1] at h
      dsimp only at h
      cases h2 : malloc_all fuel ns sa with
      | none => rw [h2] at h; exact absurd h (by simp)
      | some r2 =>
        obtain ⟨ps2, sb⟩ := r2
        rw [h2] at h
        dsimp only at h
        have h3 := Option.some.inj h
        injection h3 with h4 h5
        subst h5
        have k1 := malloc_num_chunks _ _ _ _ h1
        have k2 := malloc_all_num_chunks _ _ _ _ h2
        have k1' : s.num_chunks ≤ sa.num_chunks := k1
        have k2' : sa.num_chunks ≤ sb.num_chunks := k2
        have hI' : Inv { s with malloc_calls := s.malloc_calls + 1 } [⟨B, bl⟩] := hI
        obtain ⟨As1, base, pre, b, post, As2, m1, mid, eg, hbf, ep, es, hI1, hmid⟩ :=
          alloc_same_arena _ _ n fuel p sa hI' (hns n (List.mem_cons_self _ _)) h1
            (by show sa.num_chunks = s.num_chunks; omega)
        obtain ⟨e1, e2, e3⟩ := put_singleton _ _ _ _ _ _ _ eg
        subst e1
        subst e2
        injection e3 with e4 e5
        subst e4
        have hI1' : Inv sa [⟨B, pre ++ mid ++ post⟩] := by rw [es]; exact hI1
        obtain ⟨bl1, hIb, hperm⟩ := ih fuel sa _ ps2 sb hI1'
          (fun n hn => hns n (List.mem_cons_of_mem _ hn)) h2 (by omega)
        refine ⟨bl1, hIb, ?_⟩
        rw [← h4]
        refine hperm.trans ?_
        rw [e5, used_addrs_append, used_addrs_append, used_addrs_append, used_addrs_append,
          hmid, used_addrs_one_free b hbf, ep]
        simp only [List.map_append, List.map_cons, List.map_nil, List.append_nil,
          List.append_assoc, List.singleton_append]
        apply List.Perm.append_left
        exact (List.perm_middle).symm

/-- Freeing every allocated block of the one arena of a heap, in any order, leaves
no allocated block. -/
theorem free_all_single (B : Nat) : ∀ (ps : List Nat) (s : State) (bl : List Blk),
    Inv s [⟨B, bl⟩] → ((used_addrs bl).map (fun a => a + 32)).Perm ps →
    ∃ F s2 bl2, (∀ fuel, F ≤ fuel → free_all fuel ps s = some s2) ∧ Inv s2 [⟨B, bl2⟩] ∧
      used_addrs bl2 = [] := by
  intro ps
  induction ps with
  | nil =>
    intro s bl hI hp
    refine ⟨0, s, bl, fun fuel _ => rfl, hI, ?_⟩
    have := hp.eq_nil
    exact List.map_eq_nil_iff.mp this
  | cons p ps ih =>
    intro s bl hI hp
    have hpm : p ∈ (used_addrs bl).map (fun a => a + 32) :=
      hp.symm.subset (List.mem_cons_self _ _)
    obtain ⟨a, ha, hap⟩ := List.mem_map.mp hpm
    obtain ⟨M, hM, hMu, hMa⟩ := (mem_used_addrs _ _).mp ha
    obtain ⟨pre, post, ebl⟩ := List.append_of_mem hM
    have eg : [(⟨B, bl⟩ : Arena)] = put [] B pre [M] post [] := by
      unfold put
      rw [ebl]
      simp
    have hI' : Inv { s with free_calls := s.free_calls + 1 } (put [] B pre [M] post []) := by
      rw [← eg]; exact hI
    obtain ⟨m1, pre1, mid, post1, e1, hI1, hmf, hu1, hu2, -⟩ :=
      free_any _ [] [] B pre post M hI' hMu
    have hused : used_addrs (pre1 ++ [mid] ++ post1) = used_addrs pre ++ used_addrs post := by
      rw [used_addrs_append, used_addrs_append, used_addrs_one_free mid hmf, hu1, hu2]
      simp
    have hperm : ((used_addrs (pre1 ++ [mid] ++ post1)).map (fun a => a + 32)).Perm ps := by
      rw [hused]
      rw [ebl] at hp
      have e0 : used_addrs (pre ++ M :: post) =
          used_addrs pre ++ M.addr :: used_addrs post := by
        have : pre ++ M :: post = pre ++ ([M] ++ post) := by simp
        rw [this, used_addrs_append, used_addrs_append, used_addrs_one_used M hMu]
        rfl
      rw [e0, List.map_append, List.map_cons, hMa, hap] at hp
      have := (List.perm_middle.symm.trans hp).cons_inv
      rw [List.map_append]
      exact this
    obtain ⟨F, s2, bl2, hF, hI2, hu⟩ := ih _ (pre1 ++ [mid] ++ post1) hI1 hperm
    refine ⟨F + ((free_addrs (all_blocks (put [] B pre [M] post []))).length + 2), s2, bl2,
      ?_, hI2, hu⟩
    intro fuel hf
    rw [free_all_cons]
    have hp0 : p ≠ 0 := by omega
    have e2 : free fuel p s =
        some { ({ s with free_calls := s.free_calls + 1 } : State) with mem := m1 } := by
      show (if p ≠ NULL then free_object fuel p { s with free_calls := s.free_calls + 1 }
        else some { s with free_calls := s.free_calls + 1 }) = _
      rw [if_pos hp0, ← hap, ← hMa]
      exact free_object_mono _ _ _ _ e1 fuel (by omega)
    rw [e2]
    exact hF fuel (by omega)

theorem NoAdjFree_all_free (bl : List Blk) (h : NoAdjFree bl)
    (hf : ∀ b ∈ bl, b.used = false) : bl.length ≤ 1 := by
  cases bl with
  | nil => simp
  | cons b1 bl =>
    cases bl with
    | nil => simp
    | cons b2 bl =>
      have h1 := hf b1 (List.mem_cons_self _ _)
      have h2 := hf b2 (List.mem_cons_of_mem _ (List.mem_cons_self _ _))
      have h3 : b1.used = true ∨ b2.used = true := h.1
      rw [h1, h2] at h3
      simp at h3

/-- A well-formed arena without allocated block is one free block. -/
theorem Inv_all_free (s : State) (B : Nat) (bl : List Blk) (hI : Inv s [⟨B, bl⟩])
    (hu : used_addrs bl = []) : bl = [⟨B + 16, 2097200, false⟩] := by
  obtain ⟨hH, -, hna⟩ := hI
  have hok := hH.2.2.2.2.2.1 ⟨B, bl⟩ (List.mem_singleton.mpr rfl)
  have hch : Chain (B + 16) bl (B + 2097216) := hok.2.2.2.2.1
  have hn : NoAdjFree bl := hna ⟨B, bl⟩ (List.mem_singleton.mpr rfl)
  have hf : ∀ b ∈ bl, b.used = false := by
    intro b hb
    cases hbu : b.used with
    | false => rfl
    | true =>
      have : b.addr ∈ used_addrs bl := (mem_used_addrs _ _).mpr ⟨b, hb, hbu, rfl⟩
      rw [hu] at this
      exact absurd this (by simp)
  have hlen := NoAdjFree_all_free bl hn hf
  cases bl with
  | nil =>
    have : B + 16 = B + 2097216 := hch
    omega
  | cons b bl =>
    cases bl with
    | nil =>
      obtain ⟨c1, c2⟩ := hch
      have c2 : B + 16 + b.size = B + 2097216 := c2
      have hbf := hf b (List.mem_cons_self _ _)
      cases b with
      | mk a sz u =>
        simp only at c1 c2 hbf
        have : sz = 2097200 := by omega
        rw [c1, this, hbf]
    | cons b2 bl => simp at hlen

/-! ## `realloc` -/

theorem realloc_eq (fuel p n q : Nat) (s s1 s2 : State) (hp : p ≠ 0)
    (ha : allocate_object fuel n { s with realloc_calls := s.realloc_calls + 1 } =
      some (q, s1))
    (hf : free_object fuel p { s1 with mem := (memcpy s1.mem q p
      (if object_size p s1 > n then n else object_size p s1)) } = some s2) :
    realloc fuel p n s = some (q, s2) := by
  unfold realloc
  simp only [ha]
  rw [if_pos hp]
  simp only [hf]

theorem small_request (n : Nat) (hn : n ≤ 2097152) :
    max n 8 + 55 < 18446744073709551616 ∧ rounded_size (clamp_size n) ≤ 2097200 ∧
      n + 48 ≤ rounded_size (clamp_size n) := by
  have h1 : max n 8 + 55 < 18446744073709551616 := by omega
  obtain ⟨a, b, c, d⟩ := rounded_size_facts n h1
  refine ⟨h1, ?_, ?_⟩
  · omega
  · omega

/-- `realloc` of an allocated block: the new block holds what the old block and the
bytes behind it held when the copy was made, and the payload bytes of the old
block were not changed by the allocation. -/
theorem realloc_copy (s : State) (g : List Arena) (M : Blk) (n : Nat) (hI : Inv s g)
    (hM : M ∈ all_blocks g) (hu : M.used = true) (hn : n ≤ 2097152)
    (hroom : s.brk + 2097248 ≤ 18446744073709551616) :
    ∃ q s1 s2,
      (∀ fuel, (free_addrs (all_blocks g)).length + 3 ≤ fuel →
        allocate_object fuel n { s with realloc_calls := s.realloc_calls + 1 } =
          some (q, s1) ∧
        realloc fuel (M.addr + 32) n s = some (q, s2)) ∧
      object_size (M.addr + 32) s = M.size ∧ object_size (M.addr + 32) s1 = M.size ∧
      (∀ i, i < min (M.size - 48) n → s1.mem (M.addr + 32 + i) = s.mem (M.addr + 32 + i)) ∧
      (∀ i, i < min M.size n → s2.mem (q + i) = s1.mem (M.addr + 32 + i)) := by
  obtain ⟨hn1, hn2, hn3⟩ := small_request n hn
  have hI' : Inv { s with realloc_calls := s.realloc_calls + 1 } g := hI
  obtain ⟨s1, g1, Q, ea, hI1, -, -, -, -, -, -, hQm, hQu, hQT, hlen, hold, -⟩ :=
    alloc_any _ g n hI' hn1 hn2 hroom
  obtain ⟨hMQ, hM1, hMb⟩ := hold M hM hu
  have t0 := Heap_block_all s g hI.1 M hM
  have t1 := Heap_block_all s1 g1 hI1.1 M hM1
  have tQ := Heap_block_all s1 g1 hI1.1 Q hQm
  have eo0 : object_size (M.addr + 32) s = M.size := by
    show get_object_size s.mem (M.addr + 32 - 32) = M.size
    rw [Nat.add_sub_cancel]; exact t0.1
  have eo1 : object_size (M.addr + 32) s1 = M.size := by
    show get_object_size s1.mem (M.addr + 32 - 32) = M.size
    rw [Nat.add_sub_cancel]; exact t1.1
  have hc : (if object_size (M.addr + 32) s1 > n then n else object_size (M.addr + 32) s1) =
      min M.size n := by
    rw [eo1]
    split <;> omega
  have hcle : min M.size n + 48 ≤ Q.size := by omega
  have hm2 : ∀ x, (x < Q.addr + 32 ∨ Q.addr + Q.size - 16 ≤ x) →
      memcpy s1.mem (Q.addr + 32) (M.addr + 32) (min M.size n) x = s1.mem x := by
    intro x hx
    unfold memcpy
    rw [if_neg (by omega)]
  have hI2 := Inv_payload_write s1 g1 hI1 Q hQm hQu _ hm2
  obtain ⟨As1, base, pre, post, As2, eg⟩ := exists_put g1 M hM1
  subst eg
  obtain ⟨m3, pre1, mid, post1, e3, -, -, -, -, hfr, -⟩ :=
    free_any _ As1 As2 base pre post M hI2 hu
  have hQ' : Q ∈ all_blocks As1 ++ pre ∨ Q ∈ post ++ all_blocks As2 := by
    rcases (mem_put_cases _ _ _ _ _ _ Q).mp hQm with h | h | h
    · exact Or.inl h
    · rw [List.mem_singleton] at h
      exact absurd h.symm hMQ
    · exact Or.inr h
  refine ⟨Q.addr + 32, s1, { s1 with mem := m3 }, ?_, eo0, eo1, ?_, ?_⟩
  · intro fuel hf
    have ea' := allocate_object_mono _ _ _ _ ea fuel hf
    refine ⟨ea', ?_⟩
    apply realloc_eq fuel (M.addr + 32) n (Q.addr + 32) s s1 _ (by omega) ea'
    rw [hc]
    exact free_object_mono _ _ _ _ e3 fuel (by omega)
  · intro i hi
    exact hMb (M.addr + 32 + i) (by omega) (by omega)
  · intro i hi
    show m3 (Q.addr + 32 + i) = _
    rw [hfr Q hQ' hQu (Q.addr + 32 + i) (by omega) (by omega)]
    show memcpy s1.mem (Q.addr + 32) (M.addr + 32) (min M.size n) (Q.addr + 32 + i) = _
    unfold memcpy
    rw [if_pos (by omega)]
    have : Q.addr + 32 + i - (Q.addr + 32) = i := by omega
    rw [this]

/-! ## Steps of a client on a well-formed state -/

/-- A call of `malloc` that returned, on a well-formed state. -/
theorem malloc_step (s : State) (g : List Arena) (fuel n p : Nat) (s1 : State) (hI : Inv s g)
    (hn : n ≤ 2097152) (hroom : s.brk + 2097248 ≤ 18446744073709551616)
    (h : malloc fuel n s = some (p, s1)) :
    ∃ g1 Q, p = Q.addr + 32 ∧ Inv s1 g1 ∧ Q ∈ all_blocks g1 ∧ Q.used = true ∧
      rounded_size (clamp_size n) ≤ Q.size ∧
      (∀ M ∈ all_blocks g, M.used = true → M ≠ Q ∧ M ∈ all_blocks g1 ∧
        ∀ x, M.addr ≤ x → x < M.addr + M.size → s1.mem x = s.mem x) ∧
      (used_addrs (all_blocks g1)).Perm (Q.addr :: used_addrs (all_blocks g)) ∧
      g1.length + s.num_chunks = g.length + s1.num_chunks ∧
      (∃ ext, g1.map (fun A => A.base) = g.map (fun A => A.base) ++ ext) ∧
      (∀ A ∈ g, ∀ x,
        (A.base ≤ x ∧ x < A.base + 16) ∨ (A.base + 2097216 ≤ x ∧ x < A.base + 2097248) →
        s1.mem x = s.mem x) ∧
      ((∃ b ∈ all_blocks g, b.used = false ∧ b.addr = Q.addr) ∨ Q.addr = s.brk + 16) := by
  obtain ⟨hn1, hn2, hn3⟩ := small_request n hn
  have hI' : Inv { s with malloc_calls := s.malloc_calls + 1 } g := hI
  obtain ⟨s1', g1, Q, ea, hI1, -, -, -, -, -, -, hQm, hQu, hQT, hlen, hold, hperm, hl, hb,
    hfe, hwas⟩ := alloc_any _ g n hI' hn1 hn2 hroom
  have h' : allocate_object fuel n { s with malloc_calls := s.malloc_calls + 1 } =
      some (p, s1) := h
  have e1 := allocate_object_mono _ _ _ _ ea
    (fuel + ((free_addrs (all_blocks g)).length + 3)) (by omega)
  have e2 := allocate_object_mono _ _ _ _ h'
    (fuel + ((free_addrs (all_blocks g)).length + 3)) (by omega)
  rw [e1] at e2
  have e3 := Option.some.inj e2
  injection e3 with e4 e5
  subst e5
  exact ⟨g1, Q, e4.symm, hI1, hQm, hQu, hQT, hold, hperm, hl, hb, hfe, hwas⟩

/-- A call of `free` on the payload of an allocated block that returned, on a
well-formed state. -/
theorem free_step (s : State) (g : List Arena) (fuel : Nat) (M : Blk) (s1 : State)
    (hI : Inv s g) (hM : M ∈ all_blocks g) (hu : M.used = true)
    (h : free fuel (M.addr + 32) s = some s1) :
    ∃ g1, Inv s1 g1 ∧ g1.length = g.length ∧ s1.num_chunks = s.num_chunks ∧
      (used_addrs (all_blocks g)).Perm (M.addr :: used_addrs (all_blocks g1)) ∧
      g1.map (fun A => A.base) = g.map (fun A => A.base) ∧
      (∀ A ∈ g, ∀ x,
        (A.base ≤ x ∧ x < A.base + 16) ∨ (A.base + 2097216 ≤ x ∧ x < A.base + 2097248) →
        s1.mem x = s.mem x) ∧
      (∀ Q ∈ all_blocks g, Q.used = true → Q ≠ M → Q ∈ all_blocks g1 ∧
        ∀ x, Q.addr ≤ x → x < Q.addr + Q.size → s1.mem x = s.mem x) := by
  obtain ⟨As1, base, pre, post, As2, eg⟩ := exists_put g M hM
  subst eg
  have hI' : Inv { s with free_calls := s.free_calls + 1 } (put As1 base pre [M] post As2) := hI
  obtain ⟨m1, pre1, mid, post1, e1, hI1, hmf, hu1, hu2, hfr, hb1, hb2, hfe⟩ :=
    free_any _ As1 As2 base pre post M hI' hu
  have hp0 : M.addr + 32 ≠ 0 := by omega
  have h' : free_object fuel (M.addr + 32) { s with free_calls := s.free_calls + 1 } =
      some s1 := by
    have : free fuel (M.addr + 32) s =
        (if M.addr + 32 ≠ NULL then
          free_object fuel (M.addr + 32) { s with free_calls := s.free_calls + 1 }
        else some { s with free_calls := s.free_calls + 1 }) := rfl
    rw [this, if_pos hp0] at h
    exact h
  have k1 := free_object_mono _ _ _ _ e1
    (fuel + ((free_addrs (all_blocks (put As1 base pre [M] post As2))).length + 2)) (by omega)
  have k2 := free_object_mono _ _ _ _ h'
    (fuel + ((free_addrs (all_blocks (put As1 base pre [M] post As2))).length + 2)) (by omega)
  rw [k1] at k2
  have k3 := Option.some.inj k2
  subst k3
  refine ⟨put As1 base pre1 [mid] post1 As2, hI1, ?_, rfl, ?_, ?_, hfe, ?_⟩
  · rw [put_length, put_length]
  · rw [used_addrs_put, used_addrs_put, used_addrs_one_used M hu, used_addrs_one_free mid hmf,
      used_addrs_append, used_addrs_append, used_addrs_append, used_addrs_append, hu1, hu2]
    simp only [List.nil_append, List.singleton_append]
    exact List.perm_middle
  · rw [put_bases, put_bases]
  · intro Q hQ hQu hQM
    have hQ' : Q ∈ all_blocks As1 ++ pre ∨ Q ∈ post ++ all_blocks As2 := by
      rcases (mem_put_cases _ _ _ _ _ _ Q).mp hQ with h | h | h
      · exact Or.inl h
      · rw [List.mem_singleton] at h
        exact absurd h hQM
      · exact Or.inr h
    refine ⟨?_, hfr Q hQ' hQu⟩
    have hmemU : ∀ (l l1 : List Blk), used_blocks l1 = used_blocks l → Q ∈ l → Q ∈ l1 := by
      intro l l1 e hq
      have : Q ∈ used_blocks l := List.mem_filter.mpr ⟨hq, by simpa using hQu⟩
      rw [← e] at this
      exact (List.mem_filter.mp this).1
    rw [mem_put_cases]
    rcases hQ' with h | h
    · left
      rcases List.mem_append.mp h with h3 | h3
      · exact List.mem_append_left _ h3
      · exact List.mem_append_right _ (hmemU pre pre1 hb1 h3)
    · right; right
      rcases List.mem_append.mp h with h3 | h3
      · exact List.mem_append_left _ (hmemU post post1 hb2 h3)
      · exact List.mem_append_right _ h3

/-! ## Reachable states are well formed -/

/-- A live pointer is the payload of an allocated block of the description. -/
theorem live_block (g : List Arena) (L : List Nat) (p : Nat)
    (hp : ((used_addrs (all_blocks g)).map (fun a => a + 32)).Perm L) (h : p ∈ L) :
    ∃ M ∈ all_blocks g, M.used = true ∧ M.addr + 32 = p := by
  have hpm : p ∈ (used_addrs (all_blocks g)).map (fun a => a + 32) := hp.symm.subset h
  obtain ⟨a, ha, hap⟩ := List.mem_map.mp hpm
  obtain ⟨M, hM, hMu, hMa⟩ := (mem_used_addrs _ _).mp ha
  exact ⟨M, hM, hMu, by rw [hMa]; exact hap⟩

/-- Every reachable state is well formed: it is described by as many arenas as
chunks were obtained, and the live pointers are the payloads of its allocated
blocks. -/
theorem Reach_Inv (s : State) (L : List Nat) (h : Reach s L) :
    ∃ g, Inv s g ∧ g.length = s.num_chunks ∧
      ((used_addrs (all_blocks g)).map (fun a => a + 32)).Perm L := by
  induction h with
  | init z h1 h2 h3 =>
    have h2' : z.brk + 2097248 ≤ 18446744073709551616 := h2
    obtain ⟨hI, -, -, hc⟩ := init_allocator_spec z h1 h2'
    refine ⟨_, hI, ?_, ?_⟩
    · rw [hc, h3]; rfl
    · simp [all_blocks, used_addrs]
  | alloc s L fuel n p s1 _ hn hroom hm ih =>
    obtain ⟨g, hI, hl, hp⟩ := ih
    have hn' : n ≤ 2097152 := hn
    have hroom' : s.brk + 2097248 ≤ 18446744073709551616 := hroom
    obtain ⟨g1, Q, ep, hI1, -, -, -, -, hperm, hlen, -⟩ :=
      malloc_step s g fuel n p s1 hI hn' hroom' hm
    refine ⟨g1, hI1, by omega, ?_⟩
    rw [ep]
    exact (hperm.map _).trans (List.Perm.cons _ hp)
  | free s L fuel p s1 _ hpL hf ih =>
    obtain ⟨g, hI, hl, hp⟩ := ih
    obtain ⟨M, hM, hMu, hMp⟩ := live_block g L p hp hpL
    subst hMp
    obtain ⟨g1, hI1, hlen, hc, hperm, -⟩ := free_step s g fuel M s1 hI hM hMu hf
    refine ⟨g1, hI1, by omega, ?_⟩
    have h1 := ((hperm.map (fun a => a + 32)).symm.trans hp).erase (M.addr + 32)
    rw [List.map_cons, List.erase_cons_head] at h1
    exact h1
  | store s L p i v _ hpL hi ih =>
    obtain ⟨g, hI, hl, hp⟩ := ih
    obtain ⟨M, hM, hMu, hMp⟩ := live_block g L p hp hpL
    subst hMp
    have t := Heap_block_all s g hI.1 M hM
    have hi' : i + 48 < M.size := by
      have e : object_size (M.addr + 32) s = M.size := by
        show get_object_size s.mem (M.addr + 32 - 32) = M.size
        rw [Nat.add_sub_cancel]; exact t.1
      rw [e] at hi
      exact hi
    refine ⟨g, ?_, hl, hp⟩
    apply Inv_payload_write s g hI M hM hMu
    intro x hx
    exact writeN_out _ _ _ _ _ (by omega)

/-! ## Consequences of well-formedness -/

theorem Cyc_links_head (m : Mem) (a : Nat) (d : List Nat) (h : Cyc m (a :: d)) :
    get_prev m (get_next m a) = a ∧ get_next m (get_prev m a) = a := by
  have h2 := Cyc_next_last m a d h
  refine ⟨?_, by rw [h2.2]; exact h2.1⟩
  cases d with
  | nil =>
    have h3 : get_next m a = a ∧ get_prev m a = a ∧ True := h
    rw [h3.1]; exact h3.2.1
  | cons y d =>
    have h3 : get_next m a = y ∧ get_prev m y = a ∧ _ := h
    rw [h3.1]; exact h3.2.1

/-- In a circular list every node is the `prev` of its `next` and the `next` of
its `prev`. -/
theorem Cyc_links (m : Mem) (l : List Nat) (h : Cyc m l) :
    ∀ x ∈ l, get_prev m (get_next m x) = x ∧ get_next m (get_prev m x) = x := by
  intro x hx
  obtain ⟨l1, l2, e⟩ := List.append_of_mem hx
  rw [e] at h
  have h1 := (Cyc_rotate m l1 (x :: l2)).mp h
  exact Cyc_links_head m x (l2 ++ l1) h1

/-- A free block of a well-formed state does not end where another free block
begins. -/
theorem Inv_no_adjacent (s : State) (g : List Arena) (hI : Inv s g) :
    ∀ b ∈ all_blocks g, ∀ c ∈ all_blocks g, b.used = false → c.used = false →
      b.addr + b.size ≠ c.addr := by
  intro b hb c hc hbf hcf hadj
  obtain ⟨hH, hsb, hna⟩ := hI
  obtain ⟨As1, base, pre, post, As2, eg⟩ := exists_put g b hb
  subst eg
  obtain ⟨lo, hi, c1, c2, c3, g1, g2, g3, g4, g5, g6, g7⟩ :=
    Heap_focus s As1 As2 base pre [b] post hH
  obtain ⟨c2a, c2b⟩ := c2
  have c2b : lo + b.size = hi := c2b
  obtain ⟨n1, n2, n3⟩ := (Inv_put s As1 As2 base pre [b] post).mp hna
  have hpr := NoAdjFree_right pre post [] b n2 hbf
  have fb := Heap_block_put s As1 As2 base pre [b] post hH b (by simp)
  have tc := Heap_block_all s _ hH c hc
  rcases right_tag s As1 As2 base pre [b] post hH hi c3 with
    ⟨e, -⟩ | ⟨R, post1, e, hRa, hR56, -, -⟩
  · -- the right fencepost follows
    subst e
    have hhi : hi = base + 2097216 := c3
    rcases (mem_put_cases _ _ _ _ _ _ c).mp hc with h | h | h
    · have := g6 c h; omega
    · rw [List.mem_singleton] at h
      rw [h] at hadj; omega
    · have h' : c ∈ all_blocks As2 := by simpa using h
      obtain ⟨A, hA, hcA⟩ := (mem_all_blocks _ c).mp h'
      have hA' : A ∈ put As1 base pre [b] [] As2 := by
        unfold put
        exact List.mem_append_right _ (List.mem_cons_of_mem _ hA)
      have fc := Heap_block s _ hH A hA' c hcA
      have hsp := (arenas_sorted_split _ _ _ _ _ hH.2.2.2.1).2 A hA
      have hsp' : base + 2097248 ≤ A.base := hsp
      omega
  · subst e
    have hRu := hpr R post1 rfl
    have hRm : R ∈ all_blocks (put As1 base pre [b] (R :: post1) As2) :=
      (mem_put_cases _ _ _ _ _ _ R).mpr (Or.inr (Or.inr (List.mem_append_left _
        (List.mem_cons_self _ _))))
    have hd := Heap_disjoint s _ hH c hc R hRm
    rcases hd with h | h | h
    · rw [h, hRu] at hcf; exact absurd hcf (by simp)
    · omega
    · omega

/-- Fenceposts are no blocks: no block of a well-formed heap begins at a fencepost. -/
theorem Heap_fence_not_block (s : State) (g : List Arena) (hH : Heap s g) (A : Arena)
    (hA : A ∈ g) (b : Blk) (hb : b ∈ all_blocks g) :
    b.addr ≠ A.base ∧ b.addr ≠ A.base + 2097216 := by
  obtain ⟨A1, hA1, hbA⟩ := (mem_all_blocks _ b).mp hb
  have fb := Heap_block s g hH A1 hA1 b hbA
  rcases arenas_sorted_disjoint _ _ _ hH.2.2.2.1 A hA A1 hA1 with e | e | e
  · rw [e]; omega
  · omega
  · omega

theorem walk_arena_succ (fuel : Nat) (m : Mem) (cur stop : Nat) :
    walk_arena (fuel + 1) m cur stop =
      (if cur = stop then some []
      else
        match walk_arena fuel m (cur + get_object_size m cur) stop with
        | none => none
        | some l => some ((cur, get_object_size m cur) :: l)) := rfl

/-- The walk over boundary tags visits the blocks of a tiling. -/
theorem walk_chain (m : Mem) : ∀ (bl : List Blk) (a e fuel : Nat), Chain a bl e →
    (∀ b ∈ bl, get_object_size m b.addr = b.size ∧ 0 < b.size) → bl.length < fuel →
    walk_arena fuel m a e = some (bl.map (fun b => (b.addr, b.size))) := by
  intro bl
  induction bl with
  | nil =>
    intro a e fuel hc _ hf
    obtain ⟨k, rfl⟩ : ∃ k, fuel = k + 1 := ⟨fuel - 1, by simp at hf; omega⟩
    have : a = e := hc
    rw [walk_arena_succ, if_pos this]
    rfl
  | cons b r ih =>
    intro a e fuel hc hb hf
    obtain ⟨k, rfl⟩ : ∃ k, fuel = k + 1 := ⟨fuel - 1, by simp at hf; omega⟩
    obtain ⟨c1, c2⟩ := hc
    subst c1
    have hle := Chain_le _ _ _ c2
    have hb1 := hb b (List.mem_cons_self _ _)
    have hne : b.addr ≠ e := by omega
    rw [walk_arena_succ, if_neg hne, hb1.1,
      ih (b.addr + b.size) e k c2 (fun x hx => hb x (List.mem_cons_of_mem _ hx))
        (by simp at hf; omega)]
    rfl

theorem Chain_sum : ∀ (bl : List Blk) (a e : Nat), Chain a bl e →
    a + (bl.map (fun b => b.size)).sum = e := by
  intro bl
  induction bl with
  | nil => intro a e h; simpa using h
  | cons b r ih =>
    intro a e h
    have := ih _ _ h.2
    simp only [List.map_cons, List.sum_cons]
    omega

/-! ## Requests beyond the size of an arena -/

theorem Heap_block_size_le (s : State) (g : List Arena) (hH : Heap s g) (c : Blk)
    (hc : c ∈ all_blocks g) : c.size ≤ 2097200 := by
  obtain ⟨A, hA, hcA⟩ := (mem_all_blocks _ c).mp hc
  have := Heap_block s g hH A hA c hcA
  omega

/-- Any returning run of `request_more_memory` on a heap ends in the heap with
one more arena. -/
theorem request_more_memory_run (s : State) (g : List Arena) (fuel : Nat) (r : State)
    (hH : Heap s g) (hsb : s.sentinel + 32 ≤ s.brk)
    (hroom : s.brk + 2097248 ≤ 18446744073709551616)
    (h : request_more_memory fuel s = some r) :
    Heap r (g ++ [⟨s.brk, [⟨s.brk + 16, 2097200, false⟩]⟩]) ∧
      r.num_chunks = s.num_chunks + 1 ∧ r.brk = s.brk + 2097248 ∧
      r.sentinel = s.sentinel := by
  obtain ⟨m1, e, hH1, -⟩ := request_more_memory_spec s g
    ((free_addrs (all_blocks g)).length + 1) hH hsb hroom (by omega)
  have e1 := request_more_memory_mono _ _ _ e
    (max fuel ((free_addrs (all_blocks g)).length + 1)) (le_max_right _ _)
  have e2 := request_more_memory_mono _ _ _ h
    (max fuel ((free_addrs (all_blocks g)).length + 1)) (le_max_left _ _)
  rw [e1] at e2
  have e3 := Option.some.inj e2
  subst e3
  exact ⟨hH1, rfl, rfl, rfl⟩

/-- A request whose total size exceeds the interior of an arena is not served by
one new arena: a run that returns has obtained two arenas at least. -/
theorem alloc_too_big (s : State) (g : List Arena) (n fuel p : Nat) (s1 : State)
    (hI : Inv s g) (hT : 2097200 < rounded_size (clamp_size n))
    (hroom : s.brk + 2097248 ≤ 18446744073709551616)
    (h : allocate_object fuel n s = some (p, s1)) : s.num_chunks + 2 ≤ s1.num_chunks := by
  cases fuel with
  | zero => exact Option.noConfusion (h : (none : Option (Nat × State)) = some (p, s1))
  | succ k =>
    rw [allocate_object_succ] at h
    have hsm : ∀ x ∈ all_blocks g, x.used = false → x.size < rounded_size (clamp_size n) := by
      intro x hx _
      have := Heap_block_size_le s g hI.1 x hx
      omega
    rcases allocate_loop_no_fit s g hI.1 _ hsm k with e | e
    · rw [e] at h
      exact Option.noConfusion (h : (none : Option (Nat × State)) = some (p, s1))
    · rw [e] at h
      cases hr : request_more_memory k s with
      | none =>
        rw [hr] at h
        exact Option.noConfusion (h : (none : Option (Nat × State)) = some (p, s1))
      | some r =>
        rw [hr] at h
        have h : allocate_object k (clamp_size n) r = some (p, s1) := h
        obtain ⟨hH1, hc, -, -⟩ := request_more_memory_run s g k r hI.1 hI.2.1 hroom hr
        have hsm1 : ∀ x ∈ all_blocks (g ++ [⟨s.brk, [⟨s.brk + 16, 2097200, false⟩]⟩]),
            x.used = false → x.size < rounded_size (clamp_size (clamp_size n)) := by
          intro x hx _
          have := Heap_block_size_le _ _ hH1 x hx
          rw [clamp_size_idem]
          omega
        have h2 := (allocate_object_num_chunks k (clamp_size n) r (p, s1) h).2
        have h3 : allocate_loop (k - 1) (rounded_size (clamp_size (clamp_size n))) r
            r.free_list = some Search.exhausted := by
          rcases allocate_loop_no_fit r _ hH1 _ hsm1 (k - 1) with e1 | e1
          · cases k with
            | zero =>
              exact Option.noConfusion (h : (none : Option (Nat × State)) = some (p, s1))
            | succ j =>
              rw [allocate_object_succ] at h
              have e1 : allocate_loop j (rounded_size (clamp_size (clamp_size n))) r
                  r.free_list = none := e1
              rw [e1] at h
              exact Option.noConfusion (h : (none : Option (Nat × State)) = some (p, s1))
          · exact e1
        have h4 := h2 h3
        have h4 : r.num_chunks + 1 ≤ s1.num_chunks := h4
        omega

/-! ## The call counters do not influence the allocator -/

theorem add_to_list_loop_counters (a b c d : Nat) (fuel : Nat) :
    ∀ (s : State) (block crawler : Nat),
    add_to_list_loop fuel (with_counters s a b c d) block crawler =
      (add_to_list_loop fuel s block crawler).map (fun t => with_counters t a b c d) := by
  induction fuel with
  | zero => intro s block crawler; rfl
  | succ k ih =>
    intro s block crawler
    rw [add_to_list_loop_succ, add_to_list_loop_succ]
    simp only [show (with_counters s a b c d).mem = s.mem from rfl,
      show (with_counters s a b c d).free_list = s.free_list from rfl,
      show (with_counters s a b c d).sentinel = s.sentinel from rfl]
    split
    · rfl
    · split
      · exact ih s block _
      · rfl

theorem add_to_list_loop_counters_at (a b c d fuel : Nat) (s : State) (m : Mem)
    (hs bk nc blk fl : Nat) :
    add_to_list_loop fuel
        { with_counters s a b c d with heap_size := hs, brk := bk, num_chunks := nc, mem := m }
        blk fl =
      (add_to_list_loop fuel { s with heap_size := hs, brk := bk, num_chunks := nc, mem := m }
        blk fl).map (fun t => with_counters t a b c d) :=
  add_to_list_loop_counters a b c d fuel
    { s with heap_size := hs, brk := bk, num_chunks := nc, mem := m } blk fl

theorem request_more_memory_counters (a b c d : Nat) (fuel : Nat) (s : State) :
    request_more_memory fuel (with_counters s a b c d) =
      (request_more_memory fuel s).map (fun t => with_counters t a b c d) := by
  rw [request_more_memory_eq, request_more_memory_eq]
  exact add_to_list_loop_counters_at a b c d fuel s _ _ _ _ _ _

theorem allocate_from_counters (a b c d : Nat) (s : State) (T x S : Nat) :
    allocate_from (with_counters s a b c d) T x S =
      ((allocate_from s T x S).1, with_counters (allocate_from s T x S).2 a b c d) := by
  unfold allocate_from
  split <;> rfl

theorem allocate_loop_counters (a b c d : Nat) (fuel : Nat) :
    ∀ (T : Nat) (s : State) (x : Nat),
    allocate_loop fuel T (with_counters s a b c d) x =
      (allocate_loop fuel T s x).map (fun r =>
        match r with
        | Search.found p t => Search.found p (with_counters t a b c d)
        | Search.exhausted => Search.exhausted) := by
  induction fuel with
  | zero => intro T s x; rfl
  | succ k ih =>
    intro T s x
    rw [allocate_loop_succ, allocate_loop_succ]
    simp only [show (with_counters s a b c d).mem = s.mem from rfl,
      show (with_counters s a b c d).free_list = s.free_list from rfl,
      show (with_counters s a b c d).sentinel = s.sentinel from rfl]
    split
    · rfl
    · split
      · rw [allocate_from_counters]; rfl
      · split
        · exact ih T s _
        · rfl

theorem allocate_object_counters (a b c d : Nat) (fuel : Nat) :
    ∀ (n : Nat) (s : State),
    allocate_object fuel n (with_counters s a b c d) =
      (allocate_object fuel n s).map (fun r => (r.1, with_counters r.2 a b c d)) := by
  induction fuel with
  | zero => intro n s; rfl
  | succ k ih =>
    intro n s
    rw [allocate_object_succ, allocate_object_succ, allocate_loop_counters,
      request_more_memory_counters]
    simp only [show (with_counters s a b c d).free_list = s.free_list from rfl]
    cases allocate_loop k (rounded_size (clamp_size n)) s s.free_list with
    | none => rfl
    | some r =>
      cases r with
      | found p t => rfl
      | exhausted =>
        cases request_more_memory k s with
        | none => rfl
        | some t => exact ih _ t

/-! ## A block whose header carries the size 0 -/

/-- `free_object` on the payload pointer of a block at `M` with header size `S`. -/
theorem free_object_at_any (fuel M S : Nat) (s : State) (hS : get_object_size s.mem M = S)
    (h16 : 16 ≤ M + S) :
    free_object (fuel + 1) (M + 32) s =
    match coalesce fuel s M (M + S - 16) (M - 16) (M + S) with
    | none => none
    | some s1 =>
      if get_status s1.mem (M - 16) = 0 ∧ get_status s1.mem (M + S) = 0 then
        free_object fuel (M + 32) s1
      else some s1 := by
  rw [free_object_succ]
  have e1 : M + 32 - HDR = M := by show M + 32 - 32 = M; omega
  have e2 : M + S - FTR + FTR = M + S := by show M + S - 16 + 16 = M + S; omega
  simp only [e1, hS, e2] <;> rfl

/-- The memory after the merge-right case of `coalesce` for a block of size 0
that is its own right neighbour. -/
theorem stuck_mem (m : Mem) (h : Nat) (h16 : 16 ≤ h) (hW : h < 18446744073709551616)
    (z1 : get_object_size m h = 0) (z2 : get_status m (h - 16) = 0)
    (z3 : get_status m h = 0) (z4 : get_prev m h = h) :
    ∀ m4, m4 = replace_in_list h h (set_status (set_object_size (set_object_size m h 0)
      (h - 16) 0) h 0) →
    get_object_size m4 h = 0 ∧ get_status m4 (h - 16) = 0 ∧ get_status m4 h = 0 ∧
      get_prev m4 h = h := by
  intro m4 hm
  have hne : ¬ h = NULL := by show ¬ h = 0; omega
  unfold replace_in_list at hm
  rw [if_neg hne] at hm
  generalize hc : set_status (set_object_size (set_object_size m h 0) (h - 16) 0) h 0 = mc at hm
  have c1 : get_object_size mc h = 0 := by
    rw [← hc]
    unfold set_status set_object_size
    rw [get_object_size_writeN _ _ _ _ _ (by omega), get_object_size_writeN _ _ _ _ _ (by omega)]
    exact get_object_size_same _ _ _ (by omega)
  have c2 : get_status mc (h - 16) = 0 := by
    rw [← hc]
    unfold set_status set_object_size
    rw [get_status_writeN _ _ _ _ _ (by omega), get_status_writeN _ _ _ _ _ (by omega),
      get_status_writeN _ _ _ _ _ (by omega)]
    exact z2
  have c3 : get_status mc h = 0 := by
    rw [← hc]
    exact get_status_same _ _ _ (by omega)
  have c4 : get_prev mc h = h := by
    rw [← hc]
    unfold set_status set_object_size
    rw [get_prev_writeN _ _ _ _ _ (by omega), get_prev_writeN _ _ _ _ _ (by omega),
      get_prev_writeN _ _ _ _ _ (by omega)]
    exact z4
  simp only at hm
  have d1 : get_prev (set_next mc h (get_next mc h)) h = h := by
    rw [get_prev_set_next _ _ _ _ (Or.inl rfl)]; exact c4
  rw [d1] at hm
  have d2 : get_prev (set_prev (set_next mc h (get_next mc h)) h h) h = h :=
    get_prev_same _ _ _ hW
  rw [d2] at hm
  have d3 : get_next (set_next (set_prev (set_next mc h (get_next mc h)) h h) h h) h = h :=
    get_next_same _ _ _ hW
  rw [d3] at hm
  rw [hm]
  unfold set_prev set_next
  refine ⟨?_, ?_, ?_, ?_⟩
  · rw [get_object_size_writeN _ _ _ _ _ (by omega), get_object_size_writeN _ _ _ _ _ (by omega),
      get_object_size_writeN _ _ _ _ _ (by omega), get_object_size_writeN _ _ _ _ _ (by omega)]
    exact c1
  · rw [get_status_writeN _ _ _ _ _ (by omega), get_status_writeN _ _ _ _ _ (by omega),
      get_status_writeN _ _ _ _ _ (by omega), get_status_writeN _ _ _ _ _ (by omega)]
    exact c2
  · rw [get_status_writeN _ _ _ _ _ (by omega), get_status_writeN _ _ _ _ _ (by omega),
      get_status_writeN _ _ _ _ _ (by omega), get_status_writeN _ _ _ _ _ (by omega)]
    exact c3
  · exact get_prev_same _ _ _ hW

/-- A block whose header carries the size 0 and the status free, whose `prev`
link points to itself and whose left tag is free: `free_object` on its payload
pointer calls itself without end. -/
theorem free_stuck (h : Nat) (h16 : 16 ≤ h) (hW : h < 18446744073709551616) :
    ∀ (fuel : Nat) (s : State), get_object_size s.mem h = 0 → get_status s.mem (h - 16) = 0 →
      get_status s.mem h = 0 → get_prev s.mem h = h → free_object fuel (h + 32) s = none := by
  intro fuel
  induction fuel with
  | zero => intro s _ _ _ _; rfl
  | succ k ih =>
    intro s z1 z2 z3 z4
    rw [free_object_at_any k h 0 s z1 (by omega)]
    have key := coalesce_right_eq k s h 0 z3
    simp only [Nat.add_zero] at key ⊢
    rw [z1] at key
    have e0 : (0 + 0) % WORD = 0 := by decide
    rw [e0] at key
    have e1 : get_object_size (set_object_size s.mem h 0) h = 0 :=
      get_object_size_same _ _ _ (by omega)
    rw [e1] at key
    simp only [Nat.add_zero] at key
    rw [key]
    obtain ⟨y1, y2, y3, y4⟩ := stuck_mem s.mem h h16 hW z1 z2 z3 z4 _ rfl
    simp only
    rw [if_pos ⟨y2, y3⟩]
    exact ih _ y1 y2 y3 y4

/-! ## A request size that wraps around to the total size 0 -/

theorem wrap_fact_a : (malloc 2 18446744073709551561 (init_allocator boot)).map
    (fun r => (r.1, r.2.num_chunks, get_object_size r.2.mem 4112, get_status r.2.mem 4096,
      get_status r.2.mem 4112)) = some (4144, 1, 0, 1, 1) := by decide!

theorem wrap_fact_b : (malloc 2 18446744073709551561 (init_allocator boot)).bind (fun r =>
    (coalesce 2 { r.2 with free_calls := r.2.free_calls + 1 } 4112 4096 4096 4112).map
      (fun t => (get_object_size t.mem 4112, get_status t.mem 4096, get_status t.mem 4112,
        get_prev t.mem 4112))) = some (0, 0, 0, 4112) := by decide!

/-- On the fresh allocator the request size `2 ^ 64 - 55` is served from the
first arena, and `free` of the pointer returned does not return. -/
theorem wrap_free_stuck : ∃ s1, malloc 2 18446744073709551561 (init_allocator boot) =
      some (4144, s1) ∧ s1.num_chunks = (init_allocator boot).num_chunks ∧
    ∀ fuel, free fuel 4144 s1 = none := by
  have fa := wrap_fact_a
  have fb := wrap_fact_b
  cases hm : malloc 2 18446744073709551561 (init_allocator boot) with
  | none => rw [hm] at fa; exact Option.noConfusion fa
  | some r =>
    rw [hm] at fa fb
    obtain ⟨p, s1⟩ := r
    simp only [Option.map_some', Option.some.injEq, Prod.mk.injEq, Option.some_bind] at fa fb
    obtain ⟨a1, a2, a3, a4, a5⟩ := fa
    subst a1
    refine ⟨s1, rfl, ?_, ?_⟩
    · rw [a2]; decide
    · intro fuel
      cases fuel with
      | zero => rfl
      | succ k =>
        have e : free (k + 1) 4144 s1 =
            free_object (k + 1) (4112 + 32) { s1 with free_calls := s1.free_calls + 1 } := rfl
        rw [e, free_object_at_any k 4112 0 { s1 with free_calls := s1.free_calls + 1 } a3
          (by omega)]
        cases hc2 : coalesce 2 { s1 with free_calls := s1.free_calls + 1 } 4112 4096 4096 4112 with
        | none => rw [hc2] at fb; exact Option.noConfusion fb
        | some t2 =>
          rw [hc2] at fb
          simp only [Option.map_some', Option.some.injEq, Prod.mk.injEq] at fb
          obtain ⟨b1, b2, b3, b4⟩ := fb
          cases hc : coalesce k { s1 with free_calls := s1.free_calls + 1 } 4112
              (4112 + 0 - 16) (4112 - 16) (4112 + 0) with
          | none => rfl
          | some t =>
            have m1 := coalesce_mono _ _ _ _ _ _ _ hc (max k 2) (le_max_left _ _)
            have m2 := coalesce_mono _ _ _ _ _ _ _ hc2 (max k 2) (le_max_right _ _)
            have m1 : coalesce (max k 2) { s1 with free_calls := s1.free_calls + 1 } 4112 4096
                4096 4112 = some t := m1
            rw [m2] at m1
            have et := Option.some.inj m1
            subst et
            have b2 : get_status t2.mem (4112 - 16) = 0 := b2
            have b3' : get_status t2.mem (4112 + 0) = 0 := b3
            simp only
            rw [if_pos ⟨b2, b3'⟩]
            exact free_stuck 4112 (by omega) (by omega) k t2 b1 b2 b3 b4

/-! ## The split decision -/

/-- The first fit is split when the rest can hold a minimum block, and handed
out whole otherwise; the boundary tags and the free list afterwards. -/
theorem alloc_split_decision (s : State) (g : List Arena) (n : Nat)
    (l1 l2 : List (Nat × Nat)) (a sz : Nat) (hI : Inv s g)
    (hn : max n 8 + 55 < 18446744073709551616)
    (hl : free_entries (all_blocks g) = l1 ++ (a, sz) :: l2)
    (hsmall : ∀ e ∈ l1, e.2 < rounded_size (clamp_size n))
    (hfit : rounded_size (clamp_size n) ≤ sz) :
    ∃ s1 g1, allocate_object (l1.length + 2) n s = some (a + 32, s1) ∧ Inv s1 g1 ∧
      s1.sentinel = s.sentinel ∧
      (rounded_size (clamp_size n) + 56 ≤ sz →
        get_object_size s1.mem a = rounded_size (clamp_size n) ∧ get_status s1.mem a = 1 ∧
        get_object_size s1.mem (a + rounded_size (clamp_size n) - 16) =
          rounded_size (clamp_size n) ∧
        get_status s1.mem (a + rounded_size (clamp_size n) - 16) = 1 ∧
        get_object_size s1.mem (a + rounded_size (clamp_size n)) =
          sz - rounded_size (clamp_size n) ∧
        get_status s1.mem (a + rounded_size (clamp_size n)) = 0 ∧
        get_object_size s1.mem (a + sz - 16) = sz - rounded_size (clamp_size n) ∧
        get_status s1.mem (a + sz - 16) = 0 ∧
        free_entries (all_blocks g1) =
          l1 ++ (a + rounded_size (clamp_size n), sz - rounded_size (clamp_size n)) :: l2) ∧
      (sz < rounded_size (clamp_size n) + 56 →
        get_object_size s1.mem a = sz ∧ get_status s1.mem a = 1 ∧
        get_object_size s1.mem (a + sz - 16) = sz ∧ get_status s1.mem (a + sz - 16) = 1 ∧
        free_entries (all_blocks g1) = l1 ++ l2) := by
  have hH := hI.1
  obtain ⟨As1, base, pre, b, post, As2, eg, hbf, hba, hbs, e1, e2⟩ :=
    Heap_entries_split s g hH l1 l2 a sz hl
  subst eg
  have hlen : (free_addrs (all_blocks As1 ++ pre)).length = l1.length := by
    rw [← free_entries_length, e1]
  obtain ⟨m1, mid, ea, hmid, hI1, -⟩ := alloc_fit s As1 As2 base pre post b n
    (l1.length + 1) hI hbf hn (by rw [hbs]; exact hfit)
    (by
      intro x hx hxu
      apply hsmall (x.addr, x.size)
      rw [← e1]
      exact (mem_free_entries _ _).mpr ⟨x, hx, hxu, rfl⟩)
    (by omega)
  rw [hba] at ea
  generalize hT : rounded_size (clamp_size n) = T at *
  subst hba hbs
  refine ⟨_, _, ea, hI1, rfl, ?_, ?_⟩
  · intro hbig
    rcases hmid with ⟨-, hm⟩ | ⟨hlt, -⟩
    · subst hm
      have tU := Heap_block_all _ _ hI1.1 ⟨b.addr, T, true⟩
        (mem_all_blocks_put _ _ _ _ _ _ _ (by simp))
      have tR := Heap_block_all _ _ hI1.1 ⟨b.addr + T, b.size - T, false⟩
        (mem_all_blocks_put _ _ _ _ _ _ _ (by simp))
      have ef : b.addr + T + (b.size - T) - 16 = b.addr + b.size - 16 := by omega
      have tR3 : get_object_size m1 (b.addr + T + (b.size - T) - 16) = b.size - T := tR.2.2.1
      have tR4 : get_status m1 (b.addr + T + (b.size - T) - 16) = 0 := tR.2.2.2.1
      rw [ef] at tR3 tR4
      refine ⟨tU.1, tU.2.1, tU.2.2.1, tU.2.2.2.1, tR.1, tR.2.1, tR3, tR4, ?_⟩
      rw [free_entries_put, e1, e2]
      rfl
    · omega
  · intro hsm
    rcases hmid with ⟨hge, -⟩ | ⟨-, hm⟩
    · omega
    · subst hm
      have tU := Heap_block_all _ _ hI1.1 ⟨b.addr, b.size, true⟩
        (mem_all_blocks_put _ _ _ _ _ _ _ (by simp))
      refine ⟨tU.1, tU.2.1, tU.2.2.1, tU.2.2.2.1, ?_⟩
      rw [free_entries_put, e1, e2]
      rfl

/-- An empty free list: the sentinel is linked to itself. -/
theorem Heap_empty_list (s : State) (g : List Arena) (hH : Heap s g)
    (he : free_entries (all_blocks g) = []) :
    get_next s.mem s.sentinel = s.sentinel ∧ get_prev s.mem s.sentinel = s.sentinel := by
  have hc : Cyc s.mem (s.sentinel :: free_addrs (all_blocks g)) := hH.2.2.2.2.2.2.1
  rw [← free_entries_fst, he] at hc
  have hp : get_next s.mem s.sentinel = s.sentinel ∧ get_prev s.mem s.sentinel = s.sentinel ∧
    True := hc
  exact ⟨hp.1, hp.2.1⟩

/-! ## Consequences of well-formedness, continued -/

/-- The boundary tags on both sides of a free block carry the status allocated. -/
theorem Inv_free_neighbours (s : State) (g : List Arena) (hI : Inv s g) (b : Blk)
    (hb : b ∈ all_blocks g) (hbf : b.used = false) :
    get_status s.mem (b.addr - 16) = 1 ∧ get_status s.mem (b.addr + b.size) = 1 := by
  obtain ⟨hH, hsb, hna⟩ := hI
  obtain ⟨As1, base, pre, post, As2, eg⟩ := exists_put g b hb
  subst eg
  obtain ⟨lo, hi, c1, c2, c3, -⟩ := Heap_focus s As1 As2 base pre [b] post hH
  obtain ⟨c2a, c2b⟩ := c2
  have c2b : lo + b.size = hi := c2b
  obtain ⟨n1, n2, n3⟩ := (Inv_put s As1 As2 base pre [b] post).mp hna
  have hpl := NoAdjFree_left pre post [] b n2 hbf
  have hpr := NoAdjFree_right pre post [] b n2 hbf
  constructor
  · rcases left_cases s As1 As2 base pre [b] post hH lo c1 with ⟨h, -⟩ | ⟨pre1, L, e, hLf, -⟩
    · rw [c2a]; exact h
    · have := hpl pre1 L e
      rw [hLf] at this
      exact absurd this (by simp)
  · rcases right_cases s As1 As2 base pre [b] post hH hi c3 with ⟨h, -⟩ | ⟨R, post1, e, hRf, -⟩
    · rw [c2a, c2b]; exact h
    · have := hpr R post1 e
      rw [hRf] at this
      exact absurd this (by simp)

/-- A block is a member of the free list exactly when its header says free. -/
theorem Heap_member_iff (s : State) (g : List Arena) (hH : Heap s g) (b : Blk)
    (hb : b ∈ all_blocks g) :
    b.addr ∈ free_addrs (all_blocks g) ↔ get_status s.mem b.addr = 0 := by
  have t := Heap_block_all s g hH b hb
  constructor
  · intro h
    obtain ⟨c, hc, hcf, hca⟩ := (mem_free_addrs _ _).mp h
    have tc := Heap_block_all s g hH c hc
    rcases Heap_disjoint s g hH c hc b hb with e | e | e
    · rw [← e, tc.2.1, hcf]; rfl
    · omega
    · omega
  · intro h
    rw [t.2.1] at h
    exact (mem_free_addrs _ _).mpr ⟨b, hb, (status_of_eq_zero _).mp h, rfl⟩

/-- The walk over the boundary tags of an arena visits its blocks and ends at
the right fencepost. -/
theorem Heap_walk (s : State) (g : List Arena) (hH : Heap s g) (A : Arena) (hA : A ∈ g)
    (fuel : Nat) (hf : A.blocks.length < fuel) :
    walk_arena fuel s.mem (A.base + 16) (A.base + 2097216) =
      some (A.blocks.map (fun b => (b.addr, b.size))) := by
  have ha : arena_ok s.mem A := hH.2.2.2.2.2.1 A hA
  apply walk_chain s.mem A.blocks _ _ fuel ha.2.2.2.2.1
  · intro b hb
    have := Heap_block s g hH A hA b hb
    exact ⟨this.2.2.2.2.1.1, by omega⟩
  · exact hf

/-! ## A well-formed description is determined by its allocated blocks -/

theorem used_blocks_cons_used (l : List Blk) (b : Blk) (h : b.used = true) :
    used_blocks (b :: l) = b :: used_blocks l := by
  simp [used_blocks, h]

theorem mem_used_blocks (l : List Blk) (b : Blk) :
    b ∈ used_blocks l ↔ b ∈ l ∧ b.used = true := by
  simp [used_blocks]

/-- Two tilings of the same range by blocks of positive size, without
neighbouring free blocks, with the same allocated blocks, are equal. -/
theorem blocks_unique : ∀ (bl bl1 : List Blk) (a e : Nat), Chain a bl e → Chain a bl1 e →
    (∀ b ∈ bl, 0 < b.size) → (∀ b ∈ bl1, 0 < b.size) → NoAdjFree bl → NoAdjFree bl1 →
    used_blocks bl = used_blocks bl1 → bl = bl1 := by
  intro bl
  induction bl with
  | nil =>
    intro bl1 a e hc hc1 _ hp1 _ _ _
    cases bl1 with
    | nil => rfl
    | cons b1 r1 =>
      have ha : a = e := hc
      obtain ⟨c1, c2⟩ := hc1
      have := Chain_le _ _ _ c2
      have := hp1 b1 (List.mem_cons_self _ _)
      omega
  | cons b r ih =>
    intro bl1 a e hc hc1 hp hp1 hn hn1 hu
    cases bl1 with
    | nil =>
      have ha : a = e := hc1
      obtain ⟨c1, c2⟩ := hc
      have := Chain_le _ _ _ c2
      have := hp b (List.mem_cons_self _ _)
      omega
    | cons b1 r1 =>
      obtain ⟨c1, c2⟩ := hc
      obtain ⟨d1, d2⟩ := hc1
      have hbp := hp b (List.mem_cons_self _ _)
      have hbp1 := hp1 b1 (List.mem_cons_self _ _)
      have key : b = b1 := by
        cases hbu : b.used with
        | true =>
          cases hbu1 : b1.used with
          | true =>
            rw [used_blocks_cons_used r b hbu, used_blocks_cons_used r1 b1 hbu1] at hu
            exact (List.cons.inj hu).1
          | false =>
            rw [used_blocks_cons_used r b hbu, used_blocks_cons_free r1 b1 hbu1] at hu
            have hm : b ∈ used_blocks r1 := by rw [← hu]; exact List.mem_cons_self _ _
            have hm1 := ((mem_used_blocks _ _).mp hm).1
            have := (Chain_bounds _ _ _ d2 b hm1).1
            omega
        | false =>
          cases hbu1 : b1.used with
          | true =>
            rw [used_blocks_cons_free r b hbu, used_blocks_cons_used r1 b1 hbu1] at hu
            have hm : b1 ∈ used_blocks r := by rw [hu]; exact List.mem_cons_self _ _
            have hm1 := ((mem_used_blocks _ _).mp hm).1
            have := (Chain_bounds _ _ _ c2 b1 hm1).1
            omega
          | false =>
            rw [used_blocks_cons_free r b hbu, used_blocks_cons_free r1 b1 hbu1] at hu
            have hsz : b.size = b1.size := by
              cases r with
              | nil =>
                cases r1 with
                | nil =>
                  have e1 : a + b.size = e := c2
                  have e2 : a + b1.size = e := d2
                  omega
                | cons u1 r2 =>
                  have hu1 : u1.used = true := by
                    rcases hn1.1 with h | h
                    · rw [hbu1] at h; exact absurd h (by simp)
                    · exact h
                  rw [used_blocks_cons_used r2 u1 hu1] at hu
                  exact absurd hu (by simp [used_blocks])
              | cons u r2 =>
                have hu0 : u.used = true := by
                  rcases hn.1 with h | h
                  · rw [hbu] at h; exact absurd h (by simp)
                  · exact h
                cases r1 with
                | nil =>
                  rw [used_blocks_cons_used r2 u hu0] at hu
                  exact absurd hu (by simp [used_blocks])
                | cons u1 r3 =>
                  have hu1 : u1.used = true := by
                    rcases hn1.1 with h | h
                    · rw [hbu1] at h; exact absurd h (by simp)
                    · exact h
                  rw [used_blocks_cons_used r2 u hu0, used_blocks_cons_used r3 u1 hu1] at hu
                  have e0 := (List.cons.inj hu).1
                  have e1 : u.addr = a + b.size := c2.1
                  have e2 : u1.addr = a + b1.size := d2.1
                  rw [e0] at e1
                  omega
            cases b with
            | mk ba bs bu =>
              cases b1 with
              | mk b1a b1s b1u =>
                simp only at c1 d1 hsz hbu hbu1
                subst c1 d1 hsz hbu hbu1
                rfl
      subst key
      have hu2 : used_blocks r = used_blocks r1 := by
        cases hbu : b.used with
        | true =>
          rw [used_blocks_cons_used r b hbu, used_blocks_cons_used r1 b hbu] at hu
          exact (List.cons.inj hu).2
        | false =>
          rw [used_blocks_cons_free r b hbu, used_blocks_cons_free r1 b hbu] at hu
          exact hu
      have := ih r1 (a + b.size) e c2 d2 (fun x hx => hp x (List.mem_cons_of_mem _ hx))
        (fun x hx => hp1 x (List.mem_cons_of_mem _ hx)) (NoAdjFree_tail _ _ hn)
        (NoAdjFree_tail _ _ hn1) hu2
      rw [this]

/-- Two well-formed descriptions with the same arenas and the same allocated
blocks are equal. -/
theorem Inv_unique (s s1 : State) : ∀ (g g1 : List Arena), Inv s g → Inv s1 g1 →
    skeleton g = skeleton g1 → g = g1 := by
  have single : ∀ (t : State) (h : List Arena), Inv t h → ∀ A ∈ h,
      Chain (A.base + 16) A.blocks (A.base + 2097216) ∧ (∀ b ∈ A.blocks, 0 < b.size) ∧
      NoAdjFree A.blocks := by
    intro t h hI A hA
    have ha : arena_ok t.mem A := hI.1.2.2.2.2.2.1 A hA
    refine ⟨ha.2.2.2.2.1, ?_, hI.2.2 A hA⟩
    intro b hb
    have := (ha.2.2.2.2.2 b hb).1.1
    omega
  have main : ∀ (g g1 : List Arena),
      (∀ A ∈ g, Chain (A.base + 16) A.blocks (A.base + 2097216) ∧ (∀ b ∈ A.blocks, 0 < b.size) ∧
        NoAdjFree A.blocks) →
      (∀ A ∈ g1, Chain (A.base + 16) A.blocks (A.base + 2097216) ∧
        (∀ b ∈ A.blocks, 0 < b.size) ∧ NoAdjFree A.blocks) →
      skeleton g = skeleton g1 → g = g1 := by
    intro g
    induction g with
    | nil =>
      intro g1 _ _ h
      cases g1 with
      | nil => rfl
      | cons A1 r1 => exact absurd h (by simp [skeleton])
    | cons A r ih =>
      intro g1 h0 h1 h
      cases g1 with
      | nil => exact absurd h (by simp [skeleton])
      | cons A1 r1 =>
        have h2 : (A.base, used_blocks A.blocks) :: skeleton r =
            (A1.base, used_blocks A1.blocks) :: skeleton r1 := h
        obtain ⟨e1, e2⟩ := List.cons.inj h2
        obtain ⟨e3, e4⟩ := Prod.mk.inj e1
        have f0 := h0 A (List.mem_cons_self _ _)
        have f1 := h1 A1 (List.mem_cons_self _ _)
        rw [← e3] at f1
        have e5 := blocks_unique A.blocks A1.blocks _ _ f0.1 f1.1 f0.2.1 f1.2.1 f0.2.2 f1.2.2 e4
        have e6 := ih r1 (fun X hX => h0 X (List.mem_cons_of_mem _ hX))
          (fun X hX => h1 X (List.mem_cons_of_mem _ hX)) e2
        cases A with
        | mk ab abl =>
          cases A1 with
          | mk a1b a1bl =>
            simp only at e3 e5
            subst e3 e5 e6
            rfl
  intro g g1 hI hI1 h
  exact main g g1 (single s g hI) (single s1 g1 hI1) h

/-! ## The allocated blocks after `free` -/

theorem skeleton_put (As1 As2 : List Arena) (base : Nat) (pre mid post : List Blk) :
    skeleton (put As1 base pre mid post As2) =
      skeleton As1 ++ (base, used_blocks (pre ++ mid ++ post)) :: skeleton As2 := by
  simp [skeleton, put]

theorem skeleton_filter_self (M : Blk) : ∀ (g : List Arena), M ∉ all_blocks g →
    (skeleton g).map (fun e => (e.1, e.2.filter (fun b => decide (b ≠ M)))) = skeleton g := by
  intro g
  induction g with
  | nil => intro _; rfl
  | cons A r ih =>
    intro h
    have h1 : M ∉ A.blocks := fun hm => h (List.mem_append_left _ hm)
    have h2 : M ∉ all_blocks r := fun hm => h (List.mem_append_right _ hm)
    have e : skeleton (A :: r) = (A.base, used_blocks A.blocks) :: skeleton r := rfl
    rw [e, List.map_cons, ih h2]
    have e2 : (used_blocks A.blocks).filter (fun b => decide (b ≠ M)) = used_blocks A.blocks := by
      apply List.filter_eq_self.mpr
      intro x hx
      have hx1 := ((mem_used_blocks _ _).mp hx).1
      have : x ≠ M := fun hxm => h1 (hxm ▸ hx1)
      simpa using this
    rw [e2]

theorem filter_ne_self (M : Blk) (l : List Blk) (h : M ∉ l) :
    (used_blocks l).filter (fun b => decide (b ≠ M)) = used_blocks l := by
  apply List.filter_eq_self.mpr
  intro x hx
  have hx1 := ((mem_used_blocks _ _).mp hx).1
  have : x ≠ M := fun hxm => h (hxm ▸ hx1)
  simpa using this

/-- In a well-formed state `free` of an allocated block returns, in a
well-formed state whose allocated blocks are the others. -/
theorem free_skel (s : State) (g : List Arena) (M : Blk) (hI : Inv s g)
    (hM : M ∈ all_blocks g) (hu : M.used = true) :
    ∃ s1 g1, (∀ fuel, (free_addrs (all_blocks g)).length + 2 ≤ fuel →
        free fuel (M.addr + 32) s = some s1) ∧ Inv s1 g1 ∧
      skeleton g1 = (skeleton g).map (fun e => (e.1, e.2.filter (fun b => decide (b ≠ M)))) := by
  obtain ⟨As1, base, pre, post, As2, eg⟩ := exists_put g M hM
  subst eg
  have hI1 : Inv { s with free_calls := s.free_calls + 1 } (put As1 base pre [M] post As2) := hI
  obtain ⟨m1, pre1, mid, post1, e1, hI2, hmf, -, -, -, hb1, hb2, -⟩ :=
    free_any _ As1 As2 base pre post M hI1 hu
  obtain ⟨lo, hi, c1, c2, c3, g1, g2, g3, g4, g5, g6, g7⟩ :=
    Heap_focus s As1 As2 base pre [M] post hI.1
  obtain ⟨c2a, c2b⟩ := c2
  have c2b : lo + M.size = hi := c2b
  have fM := Heap_block_put s As1 As2 base pre [M] post hI.1 M (by simp)
  have hM1 : M ∉ all_blocks As1 ++ pre := by
    intro h
    have := g6 M h
    omega
  have hM2 : M ∉ post ++ all_blocks As2 := by
    intro h
    have := g7 M h
    omega
  have hp0 : M.addr + 32 ≠ 0 := by omega
  refine ⟨_, put As1 base pre1 [mid] post1 As2, ?_, hI2, ?_⟩
  · intro fuel hf
    have : free fuel (M.addr + 32) s =
        (if M.addr + 32 ≠ NULL then
          free_object fuel (M.addr + 32) { s with free_calls := s.free_calls + 1 }
        else some { s with free_calls := s.free_calls + 1 }) := rfl
    rw [this, if_pos hp0]
    exact free_object_mono _ _ _ _ e1 fuel hf
  · rw [skeleton_put, skeleton_put, List.map_append, List.map_cons,
      skeleton_filter_self M As1 (fun h => hM1 (List.mem_append_left _ h)),
      skeleton_filter_self M As2 (fun h => hM2 (List.mem_append_right _ h))]
    have e3 : used_blocks (pre1 ++ [mid] ++ post1) = used_blocks pre ++ used_blocks post := by
      rw [used_blocks_append, used_blocks_append, used_blocks_one_free mid hmf, hb1, hb2]
      simp
    have e4 : (used_blocks (pre ++ [M] ++ post)).filter (fun b => decide (b ≠ M)) =
        used_blocks pre ++ used_blocks post := by
      rw [used_blocks_append, used_blocks_append, used_blocks_one_used M hu, List.filter_append,
        List.filter_append, filter_ne_self M pre (fun h => hM1 (List.mem_append_right _ h)),
        filter_ne_self M post (fun h => hM2 (List.mem_append_left _ h))]
      simp
    rw [e3, e4]

theorem mem_skeleton (Q : Blk) : ∀ (g : List Arena),
    (Q ∈ all_blocks g ∧ Q.used = true) ↔ ∃ e ∈ skeleton g, Q ∈ e.2 := by
  intro g
  induction g with
  | nil => simp [all_blocks, skeleton]
  | cons A r ih =>
    have e : skeleton (A :: r) = (A.base, used_blocks A.blocks) :: skeleton r := rfl
    have e1 : all_blocks (A :: r) = A.blocks ++ all_blocks r := rfl
    rw [e, e1]
    constructor
    · rintro ⟨h, hu⟩
      rcases List.mem_append.mp h with h1 | h1
      · exact ⟨_, List.mem_cons_self _ _, (mem_used_blocks _ _).mpr ⟨h1, hu⟩⟩
      · obtain ⟨x, hx, hq⟩ := ih.mp ⟨h1, hu⟩
        exact ⟨x, List.mem_cons_of_mem _ hx, hq⟩
    · rintro ⟨x, hx, hq⟩
      rcases List.mem_cons.mp hx with h1 | h1
      · subst h1
        have := (mem_used_blocks _ _).mp hq
        exact ⟨List.mem_append_left _ this.1, this.2⟩
      · have := ih.mpr ⟨x, h1, hq⟩
        exact ⟨List.mem_append_right _ this.1, this.2⟩

/-- After `free` of `M` the other allocated blocks are still allocated blocks. -/
theorem skeleton_keeps (g g1 : List Arena) (M Q : Blk)
    (h : skeleton g1 = (skeleton g).map (fun e => (e.1, e.2.filter (fun b => decide (b ≠ M)))))
    (hQ : Q ∈ all_blocks g) (hu : Q.used = true) (hne : Q ≠ M) :
    Q ∈ all_blocks g1 ∧ Q.used = true := by
  obtain ⟨e, he, hq⟩ := (mem_skeleton Q g).mp ⟨hQ, hu⟩
  apply (mem_skeleton Q g1).mpr
  rw [h]
  refine ⟨_, List.mem_map_of_mem _ he, ?_⟩
  exact List.mem_filter.mpr ⟨hq, by simpa using hne⟩

/-- Freeing two allocated blocks one after the other. -/
theorem free_two (s : State) (g : List Arena) (A B : Blk) (hI : Inv s g)
    (hA : A ∈ all_blocks g) (hB : B ∈ all_blocks g) (hAu : A.used = true)
    (hBu : B.used = true) (hne : B ≠ A) :
    ∃ F s2 g2, (∀ fuel, F ≤ fuel → free_all fuel [A.addr + 32, B.addr + 32] s = some s2) ∧
      Inv s2 g2 ∧
      skeleton g2 = (skeleton g).map (fun e =>
        (e.1, (e.2.filter (fun b => decide (b ≠ A))).filter (fun b => decide (b ≠ B)))) := by
  obtain ⟨s1, g1, r1, hI1, k1⟩ := free_skel s g A hI hA hAu
  obtain ⟨hB1, -⟩ := skeleton_keeps g g1 A B k1 hB hBu hne
  obtain ⟨s2, g2, r2, hI2, k2⟩ := free_skel s1 g1 B hI1 hB1 hBu
  refine ⟨(free_addrs (all_blocks g)).length + (free_addrs (all_blocks g1)).length + 2, s2, g2,
    ?_, hI2, ?_⟩
  · intro fuel hf
    rw [free_all_cons, r1 fuel (by omega)]
    show free_all fuel [B.addr + 32] s1 = some s2
    rw [free_all_cons, r2 fuel (by omega)]
    rfl
  · rw [k2, k1, List.map_map]
    rfl

/-- The free list after freeing two allocated blocks does not depend on the order. -/
theorem free_commute (s : State) (g : List Arena) (A B : Blk) (hI : Inv s g)
    (hA : A ∈ all_blocks g) (hB : B ∈ all_blocks g) (hAu : A.used = true)
    (hBu : B.used = true) (hne : A ≠ B) :
    ∃ F s1 s2 g2, (∀ fuel, F ≤ fuel →
        free_all fuel [A.addr + 32, B.addr + 32] s = some s1 ∧
        free_all fuel [B.addr + 32, A.addr + 32] s = some s2 ∧
        free_list_entries fuel s1 = some (free_entries (all_blocks g2)) ∧
        free_list_entries fuel s2 = some (free_entries (all_blocks g2))) ∧
      Inv s1 g2 ∧ Inv s2 g2 := by
  obtain ⟨F1, s1, g1, r1, hI1, k1⟩ := free_two s g A B hI hA hB hAu hBu (fun h => hne h.symm)
  obtain ⟨F2, s2, g2, r2, hI2, k2⟩ := free_two s g B A hI hB hA hBu hAu hne
  have e : g1 = g2 := by
    apply Inv_unique s1 s2 g1 g2 hI1 hI2
    rw [k1, k2]
    apply List.map_congr_left
    intro x _
    rw [List.filter_filter, List.filter_filter]
    congr 1
    apply List.filter_congr
    intro b _
    rw [Bool.and_comm]
  subst e
  refine ⟨F1 + F2 + (free_addrs (all_blocks g1)).length + 1, s1, s2, g1, ?_, hI1, hI2⟩
  intro fuel hf
  exact ⟨r1 fuel (by omega), r2 fuel (by omega), Heap_entries s1 g1 hI1.1 fuel (by omega),
    Heap_entries s2 g1 hI2.1 fuel (by omega)⟩

/-! ## Repeated requests of `ARENA_SIZE` bytes -/

theorem arena_request_size : rounded_size (clamp_size 2097152) = 2097200 := by decide

/-- The request `ARENA_SIZE` on the fresh allocator takes the interior block of
the first arena whole. -/
theorem malloc_arena_first (z : State) (hz1 : z.sentinel + 32 ≤ z.brk)
    (hz2 : z.brk + 2097248 ≤ 18446744073709551616) :
    ∃ s1 g1, (∀ fuel, 2 ≤ fuel →
        malloc fuel 2097152 (init_allocator z) = some (z.brk + 16 + 32, s1)) ∧
      Inv s1 g1 ∧ free_addrs (all_blocks g1) = [] ∧
      s1.num_chunks = (init_allocator z).num_chunks ∧ s1.brk = (init_allocator z).brk := by
  obtain ⟨hI, hb, -, -⟩ := init_allocator_spec z hz1 hz2
  have hI1 : Inv { init_allocator z with
      malloc_calls := (init_allocator z).malloc_calls + 1 }
      (put [] z.brk [] [⟨z.brk + 16, 2097200, false⟩] [] []) := hI
  obtain ⟨m1, mid, ea, hmid, hI2, -⟩ := alloc_fit _ [] [] z.brk [] []
    ⟨z.brk + 16, 2097200, false⟩ 2097152 1 hI1 rfl (by decide)
    (by rw [arena_request_size])
    (by intro x hx; simp [all_blocks] at hx)
    (by simp [all_blocks, free_addrs])
  rw [arena_request_size] at hmid
  have hm : mid = [⟨z.brk + 16, 2097200, true⟩] := by
    rcases hmid with ⟨h, -⟩ | ⟨-, h⟩
    · have h : 2097200 + 56 ≤ 2097200 := h
      omega
    · exact h
  subst hm
  refine ⟨_, _, ?_, hI2, ?_, rfl, rfl⟩
  · intro fuel hf
    exact allocate_object_mono _ _ _ _ ea fuel hf
  · simp [put, all_blocks, free_addrs]

/-- The request `ARENA_SIZE` when no block is free: one new arena, whose
interior block is taken whole. -/
theorem malloc_arena_grow (s : State) (g : List Arena) (hI : Inv s g)
    (hfree : free_addrs (all_blocks g) = [])
    (hroom : s.brk + 2097248 ≤ 18446744073709551616) :
    ∃ s1 g1, (∀ fuel, 3 ≤ fuel → malloc fuel 2097152 s = some (s.brk + 16 + 32, s1)) ∧
      Inv s1 g1 ∧ free_addrs (all_blocks g1) = [] ∧
      s1.num_chunks = s.num_chunks + 1 ∧ s1.brk = s.brk + 2097248 := by
  have hI1 : Inv { s with malloc_calls := s.malloc_calls + 1 } g := hI
  obtain ⟨m1, mid, ea, hmid, hI2, -⟩ := alloc_grow _ g 2097152 hI1 (by decide)
    (by rw [arena_request_size])
    (by
      intro x hx hxu
      have : x.addr ∈ free_addrs (all_blocks g) := (mem_free_addrs _ _).mpr ⟨x, hx, hxu, rfl⟩
      rw [hfree] at this
      exact absurd this (List.not_mem_nil _))
    hroom
  rw [arena_request_size] at hmid
  have hm : mid = [⟨s.brk + 16, 2097200, true⟩] := by
    rcases hmid with ⟨h, -⟩ | ⟨-, h⟩
    · omega
    · exact h
  subst hm
  rw [hfree] at ea
  refine ⟨_, _, ?_, hI2, ?_, rfl, rfl⟩
  · intro fuel hf
    exact allocate_object_mono _ _ _ _ ea fuel hf
  · rw [free_addrs_put]
    simp only [List.append_nil, hfree, List.nil_append]
    simp [all_blocks, free_addrs]

/-- Repeated requests of `ARENA_SIZE` when no block is free: one new arena for
each, and no block is free afterwards. -/
theorem grow_run : ∀ (k : Nat) (s : State) (g : List Arena), Inv s g →
    free_addrs (all_blocks g) = [] →
    s.brk + k * 2097248 ≤ 18446744073709551616 →
    ∃ ps s1 g1, (∀ fuel, 3 ≤ fuel →
        malloc_all fuel (List.replicate k 2097152) s = some (ps, s1)) ∧
      Inv s1 g1 ∧ free_addrs (all_blocks g1) = [] ∧ s1.num_chunks = s.num_chunks + k ∧
      ps.length = k := by
  intro k
  induction k with
  | zero =>
    intro s g hI hf _
    exact ⟨[], s, g, fun fuel _ => rfl, hI, hf, rfl, rfl⟩
  | succ k ih =>
    intro s g hI hf hroom
    obtain ⟨s1, g1, r1, hI1, hf1, hc1, hb1⟩ := malloc_arena_grow s g hI hf (by omega)
    obtain ⟨ps, s2, g2, r2, hI2, hf2, hc2, hl2⟩ := ih s1 g1 hI1 hf1 (by rw [hb1]; omega)
    refine ⟨(s.brk + 16 + 32) :: ps, s2, g2, ?_, hI2, hf2, by omega, by simp [hl2]⟩
    intro fuel hfuel
    rw [List.replicate_succ, malloc_all_cons, r1 fuel hfuel]
    show (match malloc_all fuel (List.replicate k 2097152) s1 with
      | none => none
      | some (ps, s2) => some ((s.brk + 16 + 32) :: ps, s2)) = _
    rw [r2 fuel hfuel]

/-- On the fresh allocator `k + 1` requests of `ARENA_SIZE` bytes return; the
first is served by the first arena, each of the others by one new arena, and no
block is free afterwards. -/
theorem arena_run (z : State) (k : Nat) (hz1 : z.sentinel + 32 ≤ z.brk)
    (hz2 : z.brk + (k + 1) * 2097248 ≤ 18446744073709551616) :
    ∃ ps s1 g1, (∀ fuel, 3 ≤ fuel →
        malloc_all fuel (List.replicate (k + 1) 2097152) (init_allocator z) = some (ps, s1)) ∧
      Inv s1 g1 ∧ free_addrs (all_blocks g1) = [] ∧
      s1.num_chunks = (init_allocator z).num_chunks + k ∧ ps.length = k + 1 := by
  obtain ⟨s1, g1, r1, hI1, hf1, hc1, hb1⟩ := malloc_arena_first z hz1 (by omega)
  have hb : (init_allocator z).brk = z.brk + 2097248 :=
    (init_allocator_spec z hz1 (by omega)).2.1
  obtain ⟨ps, s2, g2, r2, hI2, hf2, hc2, hl2⟩ := grow_run k s1 g1 hI1 hf1
    (by rw [hb1, hb]; omega)
  refine ⟨(z.brk + 16 + 32) :: ps, s2, g2, ?_, hI2, hf2, by omega, by simp [hl2]⟩
  intro fuel hfuel
  rw [List.replicate_succ, malloc_all_cons, r1 fuel (by omega)]
  show (match malloc_all fuel (List.replicate k 2097152) s1 with
    | none => none
    | some (ps, s2) => some ((z.brk + 16 + 32) :: ps, s2)) = _
  rw [r2 fuel hfuel]

/-! ## Where the block returned by `allocate_object` comes from -/

/-- A returning run of `allocate_object` for a request of at most `ARENA_SIZE`
bytes on a well-formed state: either the block returned is a free block of the
state, and no arena is obtained; or no free block fits, `request_more_memory`
runs, and the retry returns the interior block of the new arena, which is free
in the state the retry starts from. The block is allocated afterwards. -/
theorem alloc_origin (s : State) (g : List Arena) (fuel n p : Nat) (s1 : State)
    (hI : Inv s g) (hn : n ≤ 2097152) (hroom : s.brk + 2097248 ≤ 18446744073709551616)
    (h : allocate_object fuel n s = some (p, s1)) :
    get_status s1.mem (p - 32) = 1 ∧
    ((get_status s.mem (p - 32) = 0 ∧ s1.num_chunks = s.num_chunks ∧
        ∃ b ∈ all_blocks g, b.used = false ∧ b.addr + 32 = p ∧
          rounded_size (clamp_size n) ≤ b.size) ∨
      (∃ k t, request_more_memory k s = some t ∧
        allocate_object k (clamp_size n) t = some (p, s1) ∧
        get_status t.mem (p - 32) = 0 ∧ s1.num_chunks = t.num_chunks ∧
        p = s.brk + 16 + 32 ∧
        ∀ b ∈ all_blocks g, b.used = false → b.size < rounded_size (clamp_size n))) := by
  obtain ⟨hn1, hT, -⟩ := small_request n hn
  rcases first_put (fun b => b.used = false ∧ rounded_size (clamp_size n) ≤ b.size) g with
    hnone | ⟨As1, base, pre, b, post, As2, eg, ⟨hbf, hbT⟩, hpre⟩
  · -- no free block fits
    have hsm : ∀ x ∈ all_blocks g, x.used = false → x.size < rounded_size (clamp_size n) := by
      intro x hx hxu
      by_contra hc
      exact hnone x hx ⟨hxu, by omega⟩
    cases fuel with
    | zero => exact Option.noConfusion (h : (none : Option (Nat × State)) = some (p, s1))
    | succ k =>
      rw [allocate_object_succ] at h
      rcases allocate_loop_no_fit s g hI.1 _ hsm k with e | e
      · rw [e] at h
        exact Option.noConfusion (h : (none : Option (Nat × State)) = some (p, s1))
      · rw [e] at h
        cases hr : request_more_memory k s with
        | none =>
          rw [hr] at h
          exact Option.noConfusion (h : (none : Option (Nat × State)) = some (p, s1))
        | some r =>
          rw [hr] at h
          have h : allocate_object k (clamp_size n) r = some (p, s1) := h
          obtain ⟨hH1, hc, hb, hs⟩ := request_more_memory_run s g k r hI.1 hI.2.1 hroom hr
          have hI1 : Inv r (put g s.brk [] [⟨s.brk + 16, 2097200, false⟩] [] []) := by
            refine ⟨hH1, by rw [hs, hb]; have := hI.2.1; omega, ?_⟩
            intro A hA
            rcases List.mem_append.mp hA with h0 | h0
            · exact hI.2.2 A h0
            · rw [List.mem_singleton] at h0
              rw [h0]
              trivial
          have hcc : rounded_size (clamp_size (clamp_size n)) = rounded_size (clamp_size n) := by
            rw [clamp_size_idem]
          have hn2 : max (clamp_size n) 8 + 55 < 18446744073709551616 := by
            rw [clamp_size_eq]
            have : max (max n 8) 8 = max n 8 := by omega
            rw [this]
            exact hn1
          obtain ⟨m2, mid, e2, hmid, hI2, -⟩ := alloc_fit r g [] s.brk [] []
            ⟨s.brk + 16, 2097200, false⟩ (clamp_size n)
            ((free_addrs (all_blocks g)).length + 1) hI1 rfl hn2
            (by rw [hcc]; exact hT)
            (by
              intro x hx hxu
              rw [hcc]
              exact hsm x (by simpa using hx) hxu)
            (by simp)
          have k1 := allocate_object_mono _ _ _ _ e2
            (k + ((free_addrs (all_blocks g)).length + 1 + 1)) (by omega)
          have k2 := allocate_object_mono _ _ _ _ h
            (k + ((free_addrs (all_blocks g)).length + 1 + 1)) (by omega)
          rw [k1] at k2
          obtain ⟨ep, es⟩ := Prod.mk.inj (Option.some.inj k2)
          have ep : s.brk + 16 + 32 = p := ep
          subst ep es
          have e0 : s.brk + 16 + 32 - 32 = s.brk + 16 := by omega
          rw [e0]
          obtain ⟨Q, hQ, hQu, hQa, -⟩ := mid_facts ⟨s.brk + 16, 2097200, false⟩ _ mid
            (by rw [hcc]; exact hT) hmid
          have tQ := Heap_block_all _ _ hI2.1 Q (mem_all_blocks_put _ _ _ _ _ _ Q hQ)
          have hQa : Q.addr = s.brk + 16 := hQa
          have tb := Heap_block_all r _ hI1.1 ⟨s.brk + 16, 2097200, false⟩
            (mem_all_blocks_put _ _ _ _ _ _ _ (by simp))
          refine ⟨?_, Or.inr ⟨k, r, hr, h, tb.2.1, rfl, rfl, hsm⟩⟩
          rw [← hQa]
          have := tQ.2.1
          rw [hQu] at this
          exact this
  · -- the first free block that fits
    subst eg
    obtain ⟨m1, mid, ea, hmid, hI1, -⟩ := alloc_fit s As1 As2 base pre post b n
      ((free_addrs (all_blocks As1 ++ pre)).length + 1) hI hbf hn1 hbT
      (by
        intro x hx hxu
        by_contra hc
        exact hpre x hx ⟨hxu, by omega⟩)
      (by omega)
    have k1 := allocate_object_mono _ _ _ _ ea
      (fuel + ((free_addrs (all_blocks As1 ++ pre)).length + 1 + 1)) (by omega)
    have k2 := allocate_object_mono _ _ _ _ h
      (fuel + ((free_addrs (all_blocks As1 ++ pre)).length + 1 + 1)) (by omega)
    rw [k1] at k2
    obtain ⟨ep, es⟩ := Prod.mk.inj (Option.some.inj k2)
    subst ep es
    have e0 : b.addr + 32 - 32 = b.addr := by omega
    rw [e0]
    obtain ⟨Q, hQ, hQu, hQa, -⟩ := mid_facts b _ mid hbT hmid
    have tQ := Heap_block_all _ _ hI1.1 Q (mem_all_blocks_put _ _ _ _ _ _ Q hQ)
    have hbm : b ∈ all_blocks (put As1 base pre [b] post As2) :=
      mem_all_blocks_put _ _ _ _ _ _ b (by simp)
    have tb := Heap_block_all s _ hI.1 b hbm
    rw [hbf] at tb
    refine ⟨?_, Or.inl ⟨tb.2.1, rfl, b, hbm, hbf, rfl, hbT⟩⟩
    rw [← hQa]
    have := tQ.2.1
    rw [hQu] at this
    exact this

/-! ## The claims -/

/-! ### C1 -/

/-- C1, counterexample: on the allocator constructed on `boot` no run of
`allocate_object` for `ARENA_SIZE + 1` bytes returns after obtaining at most one
new arena. -/
theorem C1_oversize_request :
    ¬ ∃ fuel p s1, allocate_object fuel (ARENA_SIZE + 1) (init_allocator boot) = some (p, s1) ∧
      s1.num_chunks ≤ (init_allocator boot).num_chunks + 1 := by
  rintro ⟨fuel, p, s1, e, hc⟩
  obtain ⟨hI, hb, -, -⟩ := init_allocator_spec boot (by decide) (by decide)
  have := alloc_too_big _ _ _ fuel p s1 hI (by decide) (by rw [hb]; decide) e
  omega

/-- C1, amended: in every state reachable from the constructor with room for one
more arena below `2 ^ 64`, and for every request whose total size is computed
without wrap-around and is at most `ARENA_SIZE + header + footer` (that is, every
request of at most `ARENA_SIZE` bytes), `allocate_object` returns (for every
sufficient fuel) a non-null pointer after obtaining at most one new arena, and
the state it leaves is well formed. -/
theorem C1_allocate_returns (s : State) (L : List Nat) (n : Nat) (h : Reach s L)
    (hn : max n MINIMUM_SIZE + HDR + FTR + 7 < WORD)
    (hT : rounded_size (clamp_size n) ≤ ARENA_SIZE + HDR + FTR)
    (hroom : s.brk + CHUNK ≤ WORD) :
    ∃ F p s1, (∀ fuel, F ≤ fuel → allocate_object fuel n s = some (p, s1)) ∧ p ≠ NULL ∧
      s.num_chunks ≤ s1.num_chunks ∧ s1.num_chunks ≤ s.num_chunks + 1 ∧
      ∃ g1, Inv s1 g1 := by
  obtain ⟨g, hI, -, -⟩ := Reach_Inv s L h
  have hn1 : max n 8 + 55 < 18446744073709551616 := by
    have : max n 8 + 32 + 16 + 7 < 18446744073709551616 := hn
    omega
  have hT1 : rounded_size (clamp_size n) ≤ 2097200 := hT
  have hroom1 : s.brk + 2097248 ≤ 18446744073709551616 := hroom
  obtain ⟨p, s1, e, hp, h1, h2⟩ := alloc_total s g n hI hT1 hroom1
  obtain ⟨s2, g1, Q, e2, hI1, -⟩ := alloc_any s g n hI hn1 hT1 hroom1
  rw [e] at e2
  obtain ⟨-, es⟩ := Prod.mk.inj (Option.some.inj e2)
  subst es
  exact ⟨_, p, s1, fun fuel hf => allocate_object_mono _ _ _ _ e fuel hf, hp, h1, h2, g1, hI1⟩

/-- Witness for C1: a request of 8 bytes on the allocator constructed on `boot`. -/
theorem C1_allocate_returns_witness :
    Reach (init_allocator boot) [] ∧
    max 8 MINIMUM_SIZE + HDR + FTR + 7 < WORD ∧
    rounded_size (clamp_size 8) ≤ ARENA_SIZE + HDR + FTR ∧
    (init_allocator boot).brk + CHUNK ≤ WORD ∧
    ∃ F p s1, (∀ fuel, F ≤ fuel → allocate_object fuel 8 (init_allocator boot) = some (p, s1)) ∧
      p ≠ NULL ∧ (init_allocator boot).num_chunks ≤ s1.num_chunks ∧
      s1.num_chunks ≤ (init_allocator boot).num_chunks + 1 ∧
      ∃ g1, Inv s1 g1 :=
  have h1 : Reach (init_allocator boot) [] := Reach.init boot (by decide) (by decide) rfl
  ⟨h1, by decide, by decide, by decide,
    C1_allocate_returns _ [] 8 h1 (by decide) (by decide) (by decide)⟩

/-! ### C2 -/

/-- C2, as stated, fails: the request `2 ^ 64 - 1` is a `size_t` value, and the
total size computed for it is 48, less than the request plus header and footer,
because the sum wraps around. -/
theorem C2_rounded_size_wraps :
    18446744073709551615 < WORD ∧ rounded_size (clamp_size 18446744073709551615) = 48 ∧
      ¬ (max 18446744073709551615 MINIMUM_SIZE + HDR + FTR
          ≤ rounded_size (clamp_size 18446744073709551615)) := by
  decide

/-- C2, amended: for every request `n` for which `max n 8` plus header, footer
and 7 stays below `2 ^ 64`, the total size `T` computed by `allocate_object` is
`max n 8 + header + footer` rounded up to a multiple of 8, so the block holds at
least `n` payload bytes; every request below 8 is treated exactly like 8. -/
theorem C2_rounded_size_exact (n : Nat) (h : max n MINIMUM_SIZE + HDR + FTR + 7 < WORD) :
    rounded_size (clamp_size n) = (max n MINIMUM_SIZE + HDR + FTR + 7) / 8 * 8 ∧
    rounded_size (clamp_size n) % 8 = 0 ∧
    max n MINIMUM_SIZE + HDR + FTR ≤ rounded_size (clamp_size n) ∧
    rounded_size (clamp_size n) < max n MINIMUM_SIZE + HDR + FTR + 8 ∧
    n + HDR + FTR ≤ rounded_size (clamp_size n) ∧
    (n < MINIMUM_SIZE → rounded_size (clamp_size n) = rounded_size (clamp_size MINIMUM_SIZE)) := by
  have hc := clamp_size_eq n
  have h' : max n 8 + 32 + 16 + 7 < 18446744073709551616 := h
  have e := rounded_size_eq (clamp_size n) (by rw [hc]; omega)
  have h8 : clamp_size 8 = 8 := by rw [clamp_size_eq]; rfl
  rw [h8, rounded_size_eq 8 (by omega)]
  rw [hc] at e
  rw [hc]
  show rounded_size (max n 8) = (max n 8 + 32 + 16 + 7) / 8 * 8 ∧
    rounded_size (max n 8) % 8 = 0 ∧
    max n 8 + 32 + 16 ≤ rounded_size (max n 8) ∧
    rounded_size (max n 8) < max n 8 + 32 + 16 + 8 ∧
    n + 32 + 16 ≤ rounded_size (max n 8) ∧
    (n < 8 → rounded_size (max n 8) = (8 + 55) / 8 * 8)
  rw [e]
  refine ⟨by omega, by omega, by omega, by omega, by omega, ?_⟩
  intro hn
  have : max n 8 = 8 := by omega
  rw [this]

/-- Witness for C2: a request of 100 bytes. -/
theorem C2_rounded_size_exact_witness :
    max 100 MINIMUM_SIZE + HDR + FTR + 7 < WORD ∧ rounded_size (clamp_size 100) = 152 := by
  have h : max 100 MINIMUM_SIZE + HDR + FTR + 7 < WORD := by decide
  exact ⟨h, (C2_rounded_size_exact 100 h).1⟩

/-! ### C3 -/

/-- C3, counterexample: in the well-formed state `hole` the free list holds the
blocks at 4112 (56 bytes) and 4224; a request of 16 bytes (total size 64) is
served from the second member (pointer 4256), and the `next` link of the first
member, which precedes it, changes from 4224 to 4288. -/
theorem C3_predecessor_link_changes :
    Inv hole [⟨4096, [⟨4112, 56, false⟩, ⟨4168, 56, true⟩, ⟨4224, 2097088, false⟩]⟩] ∧
    (allocate_object 3 16 hole).map (fun r => (free_list_entries 3 hole,
      rounded_size (clamp_size 16), r.1, get_next hole.mem 4112, get_next r.2.mem 4112)) =
    some (some [(4112, 56), (4224, 2097088)], 64, 4256, 4224, 4288) := by
  decide!

/-- C3, amended: in a well-formed state, for a request whose total size `T` is
computed without wrap-around, let `(a, sz)` be the first member of the free list
(in `next` order from the sentinel) with `T ≤ sz`. Then `allocate_object` returns
`a + sizeof(object_header)`, and every member before it keeps its size, status
and `prev` link, and keeps its `next` link unless that link pointed to `a`. -/
theorem C3_first_fit (s : State) (g : List Arena) (n F : Nat) (l1 l2 : List (Nat × Nat))
    (a sz : Nat) (hI : Inv s g) (hn : max n MINIMUM_SIZE + HDR + FTR + 7 < WORD)
    (hl : free_list_entries F s = some (l1 ++ (a, sz) :: l2))
    (hsmall : ∀ e ∈ l1, e.2 < rounded_size (clamp_size n))
    (hfit : rounded_size (clamp_size n) ≤ sz) :
    ∃ s1, (∀ fuel, l1.length + 2 ≤ fuel → allocate_object fuel n s = some (a + HDR, s1)) ∧
      ∀ e ∈ l1, get_object_size s1.mem e.1 = get_object_size s.mem e.1 ∧
        get_status s1.mem e.1 = get_status s.mem e.1 ∧
        get_prev s1.mem e.1 = get_prev s.mem e.1 ∧
        (get_next s.mem e.1 ≠ a → get_next s1.mem e.1 = get_next s.mem e.1) := by
  have hn1 : max n 8 + 55 < 18446744073709551616 := by
    have : max n 8 + 32 + 16 + 7 < 18446744073709551616 := hn
    omega
  have hl1 := Heap_entries_unique s g hI.1 F _ hl
  obtain ⟨s1, g1, e, -, -, hk⟩ := alloc_first_fit s g n l1 l2 a sz hI hn1 hl1.symm hsmall hfit
  exact ⟨s1, fun fuel hf => allocate_object_mono _ _ _ _ e fuel hf, hk⟩

/-- Witness for C3: a request of 8 bytes on the allocator constructed on `boot`,
whose free list holds the block at 4112. -/
theorem C3_first_fit_witness :
    Inv (init_allocator boot) [⟨4096, [⟨4112, 2097200, false⟩]⟩] ∧
    max 8 MINIMUM_SIZE + HDR + FTR + 7 < WORD ∧
    free_list_entries 2 (init_allocator boot) = some ([] ++ (4112, 2097200) :: []) ∧
    rounded_size (clamp_size 8) ≤ 2097200 ∧
    ∃ s1, ∀ fuel, 2 ≤ fuel → allocate_object fuel 8 (init_allocator boot) = some (4144, s1) := by
  have h1 : Inv (init_allocator boot) [⟨4096, [⟨4112, 2097200, false⟩]⟩] :=
    (init_allocator_spec boot (by decide) (by decide)).1
  have h2 : max 8 MINIMUM_SIZE + HDR + FTR + 7 < WORD := by decide
  have h3 : free_list_entries 2 (init_allocator boot) = some ([] ++ (4112, 2097200) :: []) := by
    decide!
  have h4 : rounded_size (clamp_size 8) ≤ 2097200 := by decide
  obtain ⟨s1, e, -⟩ := C3_first_fit (init_allocator boot) _ 8 2 [] [] 4112 2097200 h1 h2 h3
    (fun e he => absurd he (List.not_mem_nil e)) h4
  exact ⟨h1, h2, h3, h4, s1, e⟩

/-! ### C4 -/

/-- C4: in a well-formed state let `M` be an allocated block; the three rows of
the coalescing table with at most one free neighbour. Both neighbours used: `M`
becomes a member at its address-ordered position, free in header and footer with
its size. Left neighbour free (its size is read from its footer in front of `M`):
the left block keeps its position, its size grows by `M.size`, and the footer of
`M` carries that size, free. Right neighbour free: `M` takes the position of the
right block with the sum of the sizes, and the right block's footer carries that
size, free. The other members, `l1` and `l2`, are the same before and after. -/
theorem C4_coalesce_rows (s : State) (g : List Arena) (M : Blk) (hI : Inv s g)
    (hM : M ∈ all_blocks g) (hu : M.used = true) :
    (get_status s.mem (M.addr - FTR) = ALLOCATED →
      get_status s.mem (M.addr + M.size) = ALLOCATED →
      ∃ s1 F l1 l2,
        (∀ fuel, F ≤ fuel → free_object fuel (M.addr + HDR) s = some s1 ∧
          free_list_entries fuel s = some (l1 ++ l2) ∧
          free_list_entries fuel s1 = some (l1 ++ (M.addr, M.size) :: l2)) ∧
        (∀ e ∈ l1, e.1 < M.addr) ∧ (∀ e ∈ l2, M.addr < e.1) ∧
        get_object_size s1.mem M.addr = M.size ∧ get_status s1.mem M.addr = UNALLOCATED ∧
        get_object_size s1.mem (M.addr + M.size - FTR) = M.size ∧
        get_status s1.mem (M.addr + M.size - FTR) = UNALLOCATED) ∧
    (get_status s.mem (M.addr - FTR) = UNALLOCATED →
      get_status s.mem (M.addr + M.size) = ALLOCATED →
      ∃ s1 F l1 l2,
        (∀ fuel, F ≤ fuel → free_object fuel (M.addr + HDR) s = some s1 ∧
          free_list_entries fuel s =
            some (l1 ++ (M.addr - get_object_size s.mem (M.addr - FTR),
              get_object_size s.mem (M.addr - FTR)) :: l2) ∧
          free_list_entries fuel s1 =
            some (l1 ++ (M.addr - get_object_size s.mem (M.addr - FTR),
              get_object_size s.mem (M.addr - FTR) + M.size) :: l2)) ∧
        get_object_size s1.mem (M.addr + M.size - FTR) =
          get_object_size s.mem (M.addr - FTR) + M.size ∧
        get_status s1.mem (M.addr + M.size - FTR) = UNALLOCATED) ∧
    (get_status s.mem (M.addr - FTR) = ALLOCATED →
      get_status s.mem (M.addr + M.size) = UNALLOCATED →
      ∃ s1 F l1 l2,
        (∀ fuel, F ≤ fuel → free_object fuel (M.addr + HDR) s = some s1 ∧
          free_list_entries fuel s =
            some (l1 ++ (M.addr + M.size, get_object_size s.mem (M.addr + M.size)) :: l2) ∧
          free_list_entries fuel s1 =
            some (l1 ++ (M.addr, M.size + get_object_size s.mem (M.addr + M.size)) :: l2)) ∧
        get_status s1.mem M.addr = UNALLOCATED ∧
        get_object_size s1.mem
          (M.addr + M.size + get_object_size s.mem (M.addr + M.size) - FTR) =
          M.size + get_object_size s.mem (M.addr + M.size) ∧
        get_status s1.mem
          (M.addr + M.size + get_object_size s.mem (M.addr + M.size) - FTR) = UNALLOCATED) := by
  refine ⟨?_, ?_, ?_⟩
  · intro hl hr
    obtain ⟨s1, g1, l1, l2, e, hH1, eg, eg1, o1, o2, t1, t2, t3, t4⟩ :=
      free_row_none s g M hI.1 hM hu hl hr
    obtain ⟨F, hF⟩ := free_run s s1 g g1 _ _ hI.1 hH1 e
    refine ⟨s1, F, l1, l2, ?_, o1, o2, t1, t2, t3, t4⟩
    intro fuel hf
    obtain ⟨a, b, c⟩ := hF fuel hf
    rw [eg] at b
    rw [eg1] at c
    exact ⟨a, b, c⟩
  · intro hl hr
    obtain ⟨s1, g1, l1, l2, e, hH1, eg, eg1, o1, o2, t1, t2, t3, t4⟩ :=
      free_row_left s g M hI.1 hM hu hl hr
    obtain ⟨F, hF⟩ := free_run s s1 g g1 _ _ hI.1 hH1 e
    refine ⟨s1, F, l1, l2, ?_, t3, t4⟩
    intro fuel hf
    obtain ⟨a, b, c⟩ := hF fuel hf
    rw [eg] at b
    rw [eg1] at c
    exact ⟨a, b, c⟩
  · intro hl hr
    obtain ⟨s1, g1, l1, l2, e, hH1, eg, eg1, o1, o2, t1, t2, t3, t4⟩ :=
      free_row_right s g M hI.1 hM hu hl hr
    obtain ⟨F, hF⟩ := free_run s s1 g g1 _ _ hI.1 hH1 e
    refine ⟨s1, F, l1, l2, ?_, t2, t3, t4⟩
    intro fuel hf
    obtain ⟨a, b, c⟩ := hF fuel hf
    rw [eg] at b
    rw [eg1] at c
    exact ⟨a, b, c⟩

/-- Witness for C4: in the state `one_block` the allocated block at 4112 has the
left fencepost and the free block at 4168 as neighbours. -/
theorem C4_coalesce_rows_witness :
    Inv one_block [⟨4096, [⟨4112, 56, true⟩, ⟨4168, 2097144, false⟩]⟩] ∧
    get_status one_block.mem (4112 - FTR) = ALLOCATED ∧
    get_status one_block.mem (4112 + 56) = UNALLOCATED ∧
    ∃ s1 F l1 l2,
      (∀ fuel, F ≤ fuel → free_object fuel (4112 + HDR) one_block = some s1 ∧
        free_list_entries fuel one_block =
          some (l1 ++ (4112 + 56, get_object_size one_block.mem (4112 + 56)) :: l2) ∧
        free_list_entries fuel s1 =
          some (l1 ++ (4112, 56 + get_object_size one_block.mem (4112 + 56)) :: l2)) ∧
      get_status s1.mem 4112 = UNALLOCATED ∧
      get_object_size s1.mem (4112 + 56 + get_object_size one_block.mem (4112 + 56) - FTR) =
        56 + get_object_size one_block.mem (4112 + 56) ∧
      get_status s1.mem (4112 + 56 + get_object_size one_block.mem (4112 + 56) - FTR) =
        UNALLOCATED := by
  have h1 : Inv one_block [⟨4096, [⟨4112, 56, true⟩, ⟨4168, 2097144, false⟩]⟩] := by decide!
  have h2 : get_status one_block.mem (4112 - FTR) = ALLOCATED := by decide!
  have h3 : get_status one_block.mem (4112 + 56) = UNALLOCATED := by decide!
  exact ⟨h1, h2, h3, (C4_coalesce_rows one_block _ ⟨4112, 56, true⟩ h1 (by decide) rfl).2.2 h2 h3⟩

/-! ### C5 -/

/-- C5, counterexample: on the allocator constructed on `boot` the request size
`2 ^ 64 - 55` is served from the member of the free list (pointer 4144, no new
arena), and `free` of that pointer returns for no amount of fuel. -/
theorem C5_wrapped_request_never_freed :
    ∃ s1, malloc 2 18446744073709551561 (init_allocator boot) = some (4144, s1) ∧
      s1.num_chunks = (init_allocator boot).num_chunks ∧
      ∀ fuel, free fuel 4144 s1 = none :=
  wrap_free_stuck

/-- C5, amended: in a well-formed state, for a request whose total size `T` is
computed without wrap-around and fits a member of the free list, `malloc`
followed by `free` of the pointer returned restores the free list: the same
sequence of header addresses and sizes, every member free with a footer that
carries its size and the status free. -/
theorem C5_round_trip (s : State) (g : List Arena) (n F0 : Nat) (l : List (Nat × Nat))
    (hI : Inv s g) (hn : max n MINIMUM_SIZE + HDR + FTR + 7 < WORD)
    (hl : free_list_entries F0 s = some l)
    (hfit : ∃ e ∈ l, rounded_size (clamp_size n) ≤ e.2) :
    ∃ F p s1 s2,
      (∀ fuel, F ≤ fuel → malloc fuel n s = some (p, s1) ∧ free fuel p s1 = some s2 ∧
        free_list_entries fuel s2 = some l) ∧
      p ≠ NULL ∧ s1.num_chunks = s.num_chunks ∧
      (∀ e ∈ l, get_object_size s2.mem e.1 = e.2 ∧ get_status s2.mem e.1 = UNALLOCATED ∧
        get_object_size s2.mem (e.1 + e.2 - FTR) = e.2 ∧
        get_status s2.mem (e.1 + e.2 - FTR) = UNALLOCATED) := by
  have hn1 : max n 8 + 55 < 18446744073709551616 := by
    have : max n 8 + 32 + 16 + 7 < 18446744073709551616 := hn
    omega
  have hl1 := Heap_entries_unique s g hI.1 F0 _ hl
  subst hl1
  obtain ⟨e0, he0, hfit0⟩ := hfit
  obtain ⟨b, hb, hbf, hbe⟩ := (mem_free_entries _ _).mp he0
  have hfit1 : ∃ b ∈ all_blocks g, b.used = false ∧ rounded_size (clamp_size n) ≤ b.size :=
    ⟨b, hb, hbf, by rw [← hbe] at hfit0; exact hfit0⟩
  have hI1 : Inv { s with malloc_calls := s.malloc_calls + 1 } g := hI
  obtain ⟨p, m1, m2, e1, hp, e2, hI2⟩ :=
    round_trip { s with malloc_calls := s.malloc_calls + 1 } g n (s.free_calls + 1) hI1 hn1 hfit1
  refine ⟨(free_addrs (all_blocks g)).length + 3, p,
    { ({ s with malloc_calls := s.malloc_calls + 1 } : State) with mem := m1 },
    { ({ s with malloc_calls := s.malloc_calls + 1 } : State) with
      mem := m2, free_calls := s.free_calls + 1 }, ?_, hp, rfl, ?_⟩
  · intro fuel hf
    refine ⟨allocate_object_mono _ _ _ _ e1 fuel (by omega), ?_, ?_⟩
    · show (if p ≠ 0 then free_object fuel p _ else _) = _
      rw [if_pos hp]
      exact free_object_mono _ _ _ _ e2 fuel hf
    · exact Heap_entries _ g hI2.1 fuel (by omega)
  · intro e he
    obtain ⟨c, hc, hcf, hce⟩ := (mem_free_entries _ _).mp he
    have t := Heap_block_all _ g hI2.1 c hc
    rw [hcf] at t
    rw [← hce]
    exact ⟨t.1, t.2.1, t.2.2.1, t.2.2.2.1⟩

/-- Witness for C5: a request of 8 bytes on the allocator constructed on `boot`. -/
theorem C5_round_trip_witness :
    Inv (init_allocator boot) [⟨4096, [⟨4112, 2097200, false⟩]⟩] ∧
    max 8 MINIMUM_SIZE + HDR + FTR + 7 < WORD ∧
    free_list_entries 2 (init_allocator boot) = some [(4112, 2097200)] ∧
    (∃ e ∈ [((4112 : Nat), (2097200 : Nat))], rounded_size (clamp_size 8) ≤ e.2) ∧
    ∃ F p s1 s2,
      (∀ fuel, F ≤ fuel → malloc fuel 8 (init_allocator boot) = some (p, s1) ∧
        free fuel p s1 = some s2 ∧ free_list_entries fuel s2 = some [(4112, 2097200)]) ∧
      p ≠ NULL ∧ s1.num_chunks = (init_allocator boot).num_chunks := by
  have h1 : Inv (init_allocator boot) [⟨4096, [⟨4112, 2097200, false⟩]⟩] :=
    (init_allocator_spec boot (by decide) (by decide)).1
  have h2 : max 8 MINIMUM_SIZE + HDR + FTR + 7 < WORD := by decide
  have h3 : free_list_entries 2 (init_allocator boot) = some [(4112, 2097200)] := by decide!
  have h4 : ∃ e ∈ [((4112 : Nat), (2097200 : Nat))], rounded_size (clamp_size 8) ≤ e.2 :=
    ⟨_, List.mem_singleton.mpr rfl, by decide⟩
  obtain ⟨F, p, s1, s2, e, hp, hc, -⟩ := C5_round_trip (init_allocator boot) _ 8 2 _ h1 h2 h3 h4
  exact ⟨h1, h2, h3, h4, F, p, s1, s2, e, hp, hc⟩

/-! ### C6 -/

/-- C6, counterexample: on the allocator constructed on `boot` the run with the
single request size `2 ^ 64 - 55` is served from the first arena, and freeing the
pointer returned does not return, for any amount of fuel. -/
theorem C6_wrapped_request_never_merged :
    ∃ ps s1, malloc_all 2 [18446744073709551561] (init_allocator boot) = some (ps, s1) ∧
      s1.num_chunks = (init_allocator boot).num_chunks ∧
      ∀ fuel, free_all fuel ps s1 = none := by
  obtain ⟨s1, e, hc, hf⟩ := wrap_free_stuck
  refine ⟨[4144], s1, ?_, hc, ?_⟩
  · rw [malloc_all_cons, e]
    rfl
  · intro fuel
    rw [free_all_cons, hf fuel]

/-- C6, amended: on a freshly constructed allocator, for every list of request
sizes whose total sizes are computed without wrap-around and which are all
served from the first arena, and every order `qs` of the pointers returned:
freeing them in that order returns, and then the free list has exactly one
member, the first interior block of the first arena with the size
`ARENA_SIZE + header + footer`, whose footer carries that size and the status
free. -/
theorem C6_split_merge (z : State) (ns ps qs : List Nat) (fuel0 : Nat) (s1 : State)
    (hz1 : z.sentinel + HDR ≤ z.brk) (hz2 : z.brk + CHUNK ≤ WORD)
    (hns : ∀ n ∈ ns, max n MINIMUM_SIZE + HDR + FTR + 7 < WORD)
    (hm : malloc_all fuel0 ns (init_allocator z) = some (ps, s1))
    (hc : s1.num_chunks = (init_allocator z).num_chunks)
    (hq : qs.Perm ps) :
    ∃ F s2,
      (∀ fuel, F ≤ fuel → free_all fuel qs s1 = some s2 ∧
        free_list_entries fuel s2 = some [(z.brk + FTR, ARENA_SIZE + HDR + FTR)]) ∧
      get_status s2.mem (z.brk + FTR) = UNALLOCATED ∧
      get_object_size s2.mem (z.brk + FTR + (ARENA_SIZE + HDR + FTR) - FTR) =
        ARENA_SIZE + HDR + FTR ∧
      get_status s2.mem (z.brk + FTR + (ARENA_SIZE + HDR + FTR) - FTR) = UNALLOCATED := by
  have hz1a : z.sentinel + 32 ≤ z.brk := hz1
  have hz2a : z.brk + 2097248 ≤ 18446744073709551616 := hz2
  obtain ⟨hI, -, -, -⟩ := init_allocator_spec z hz1a hz2a
  have hns1 : ∀ n ∈ ns, max n 8 + 55 < 18446744073709551616 := by
    intro n hn
    have : max n 8 + 32 + 16 + 7 < 18446744073709551616 := hns n hn
    omega
  obtain ⟨bl1, hI1, hp1⟩ := malloc_all_single z.brk ns fuel0 _ _ ps s1 hI hns1 hm hc
  have hp2 : ((used_addrs bl1).map (fun a => a + 32)).Perm qs := by
    have : ((used_addrs bl1).map (fun a => a + 32)).Perm ps := by simpa [used_addrs] using hp1
    exact this.trans hq.symm
  obtain ⟨F, s2, bl2, hf, hI2, hu2⟩ := free_all_single z.brk qs s1 bl1 hI1 hp2
  have hbl := Inv_all_free s2 z.brk bl2 hI2 hu2
  subst hbl
  have t := Heap_block_all s2 _ hI2.1 ⟨z.brk + 16, 2097200, false⟩ (by simp [all_blocks])
  refine ⟨F + 2, s2, ?_, t.2.1, t.2.2.1, t.2.2.2.1⟩
  intro fuel hfuel
  refine ⟨hf fuel (by omega), ?_⟩
  have := Heap_entries s2 _ hI2.1 fuel (by simp [all_blocks, free_addrs]; omega)
  rw [this]
  rfl

/-- Witness for C6: the run with the single request size 8 on the allocator
constructed on `boot`. -/
theorem C6_split_merge_witness :
    ∃ s1, malloc_all 2 [8] (init_allocator boot) = some ([4144], s1) ∧
      s1.num_chunks = (init_allocator boot).num_chunks ∧
      ∃ F s2, ∀ fuel, F ≤ fuel → free_all fuel [4144] s1 = some s2 ∧
        free_list_entries fuel s2 = some [(boot.brk + FTR, ARENA_SIZE + HDR + FTR)] := by
  have fa : (malloc_all 2 [8] (init_allocator boot)).map (fun r => (r.1, r.2.num_chunks)) =
      some ([4144], 1) := by decide!
  cases hm : malloc_all 2 [8] (init_allocator boot) with
  | none => rw [hm] at fa; exact Option.noConfusion fa
  | some r =>
    rw [hm] at fa
    obtain ⟨ps, s1⟩ := r
    simp only [Option.map_some', Option.some.injEq, Prod.mk.injEq] at fa
    obtain ⟨a1, a2⟩ := fa
    subst a1
    have hc : s1.num_chunks = (init_allocator boot).num_chunks := by rw [a2]; decide
    obtain ⟨F, s2, e, -⟩ := C6_split_merge boot [8] [4144] [4144] 2 s1 (by decide) (by decide)
      (by decide) hm hc (List.Perm.refl _)
    exact ⟨s1, rfl, hc, F, s2, e⟩

/-! ### C7 -/

/-- C7, counterexample: in the well-formed state `one_block`, `object_size(4144)`
is 56, the size of the whole block; `realloc(4144, 100)` returns 4200, and byte
24 there is 152 afterwards, while byte 24 at 4144 was 248 before the call. -/
theorem C7_copy_beyond_payload :
    Inv one_block [⟨4096, [⟨4112, 56, true⟩, ⟨4168, 2097144, false⟩]⟩] ∧
    (realloc 3 4144 100 one_block).map (fun r => (r.1, r.2.mem (r.1 + 24))) =
      some (4200, 152) ∧
    one_block.mem (4144 + 24) = 248 ∧ 24 < min (object_size 4144 one_block) 100 := by
  decide!

/-- C7, amended: in a well-formed state with room for one more arena, for an
allocated payload pointer `p` and a new size `n ≤ ARENA_SIZE`, `realloc(p, n)`
returns a pointer `q` such that for every `i` below both `n` and the payload size
of `p`, which is `object_size(p)` minus header and footer, byte `i` at `q` after
the call (the final `free` of `p` included) equals byte `i` at `p` before it. -/
theorem C7_copy_fidelity (s : State) (g : List Arena) (M : Blk) (n : Nat) (hI : Inv s g)
    (hM : M ∈ all_blocks g) (hu : M.used = true) (hn : n ≤ ARENA_SIZE)
    (hroom : s.brk + CHUNK ≤ WORD) :
    ∃ F q s2, (∀ fuel, F ≤ fuel → realloc fuel (M.addr + HDR) n s = some (q, s2)) ∧
      ∀ i, i < min (object_size (M.addr + HDR) s - (HDR + FTR)) n →
        s2.mem (q + i) = s.mem (M.addr + HDR + i) := by
  have hn1 : n ≤ 2097152 := hn
  have hroom1 : s.brk + 2097248 ≤ 18446744073709551616 := hroom
  obtain ⟨q, s1, s2, hrun, ho, -, hk1, hk2⟩ := realloc_copy s g M n hI hM hu hn1 hroom1
  refine ⟨_, q, s2, fun fuel hf => (hrun fuel hf).2, ?_⟩
  intro i hi
  have ho1 : object_size (M.addr + HDR) s = M.size := ho
  rw [ho1] at hi
  have hi1 : i < min (M.size - 48) n := hi
  have e1 := hk1 i hi1
  have e2 := hk2 i (by omega)
  exact e2.trans e1

/-- Witness for C7: `realloc(4144, 100)` in the state `one_block`. -/
theorem C7_copy_fidelity_witness :
    Inv one_block [⟨4096, [⟨4112, 56, true⟩, ⟨4168, 2097144, false⟩]⟩] ∧
    one_block.brk + CHUNK ≤ WORD ∧
    ∃ F q s2, (∀ fuel, F ≤ fuel → realloc fuel (4112 + HDR) 100 one_block = some (q, s2)) ∧
      ∀ i, i < min (object_size (4112 + HDR) one_block - (HDR + FTR)) 100 →
        s2.mem (q + i) = one_block.mem (4112 + HDR + i) := by
  have h1 : Inv one_block [⟨4096, [⟨4112, 56, true⟩, ⟨4168, 2097144, false⟩]⟩] := by decide!
  have h2 : one_block.brk + CHUNK ≤ WORD := by decide!
  exact ⟨h1, h2, C7_copy_fidelity one_block _ ⟨4112, 56, true⟩ 100 h1 (by decide) rfl
    (by decide) h2⟩

/-! ### C8 -/

/-- C8: for every state, size and fuel, `realloc(NULL, n)` returns what
`malloc(n)` returns from the same state, pointer and state, up to the call
counters: `realloc_calls` is incremented instead of `malloc_calls`. Memory, break
and free list are those `malloc` leaves. -/
theorem C8_realloc_null (fuel n : Nat) (s : State) :
    realloc fuel NULL n s =
      (malloc fuel n s).map (fun r =>
        (r.1, with_counters r.2 s.malloc_calls s.free_calls (s.realloc_calls + 1)
          s.calloc_calls)) := by
  have e0 : realloc fuel NULL n s =
      allocate_object fuel n { s with realloc_calls := s.realloc_calls + 1 } := by
    unfold realloc
    simp only [ne_eq, not_true_eq_false, if_false]
    cases allocate_object fuel n { s with realloc_calls := s.realloc_calls + 1 } with
    | none => rfl
    | some r => rfl
  have e1 : realloc fuel NULL n s =
      allocate_object fuel n
        (with_counters s s.malloc_calls s.free_calls (s.realloc_calls + 1) s.calloc_calls) := e0
  have e2 : malloc fuel n s =
      allocate_object fuel n
        (with_counters s (s.malloc_calls + 1) s.free_calls s.realloc_calls s.calloc_calls) := rfl
  rw [e1, e2, allocate_object_counters, allocate_object_counters]
  cases allocate_object fuel n s with
  | none => rfl
  | some r => rfl

/-! ### C9 -/

/-- C9: for every state and every fuel, zero included, `free(NULL)` returns the
state with only `free_calls` incremented: memory, and with it every header,
footer and link, is unchanged, and `free_object` is not entered. -/
theorem C9_free_null (fuel : Nat) (s : State) :
    free fuel NULL s = some { s with free_calls := s.free_calls + 1 } ∧
    (∀ s1, free fuel NULL s = some s1 → s1.mem = s.mem ∧ s1.free_list = s.free_list ∧
      s1.free_calls = s.free_calls + 1) := by
  have e : free fuel NULL s = some { s with free_calls := s.free_calls + 1 } := by
    unfold free
    simp
  refine ⟨e, ?_⟩
  intro s1 h
  rw [e] at h
  have := Option.some.inj h
  subst this
  exact ⟨rfl, rfl, rfl⟩

/-! ### C10 -/

/-- C10: in a well-formed state let `M` be an allocated block whose neighbours
are both free; `L` is read from the footer in front of `M`, `R` from the header
behind it. `free_object` needs a nesting depth of exactly two, that is one
recursive call. Afterwards the free list is the old one without `R`, with the
left block in its old position and of size `L.size + M.size + R.size`; the
header of the left block and the footer of `R` carry that size and the status
free. The other members, `l1` and `l2`, are the same before and after. -/
theorem C10_three_way_merge (s : State) (g : List Arena) (M : Blk) (hI : Inv s g)
    (hM : M ∈ all_blocks g) (hu : M.used = true)
    (hl : get_status s.mem (M.addr - FTR) = UNALLOCATED)
    (hr : get_status s.mem (M.addr + M.size) = UNALLOCATED) :
    free_object 1 (M.addr + HDR) s = none ∧
    ∃ s1 F l1 l2,
      (∀ fuel, 2 ≤ fuel → free_object fuel (M.addr + HDR) s = some s1) ∧
      (∀ fuel, F ≤ fuel →
        free_list_entries fuel s =
          some (l1 ++ (M.addr - get_object_size s.mem (M.addr - FTR),
            get_object_size s.mem (M.addr - FTR)) ::
            (M.addr + M.size, get_object_size s.mem (M.addr + M.size)) :: l2) ∧
        free_list_entries fuel s1 =
          some (l1 ++ (M.addr - get_object_size s.mem (M.addr - FTR),
            get_object_size s.mem (M.addr - FTR) + M.size +
              get_object_size s.mem (M.addr + M.size)) :: l2)) ∧
      get_object_size s1.mem (M.addr - get_object_size s.mem (M.addr - FTR)) =
        get_object_size s.mem (M.addr - FTR) + M.size +
          get_object_size s.mem (M.addr + M.size) ∧
      get_status s1.mem (M.addr - get_object_size s.mem (M.addr - FTR)) = UNALLOCATED ∧
      get_object_size s1.mem
        (M.addr + M.size + get_object_size s.mem (M.addr + M.size) - FTR) =
        get_object_size s.mem (M.addr - FTR) + M.size +
          get_object_size s.mem (M.addr + M.size) ∧
      get_status s1.mem
        (M.addr + M.size + get_object_size s.mem (M.addr + M.size) - FTR) = UNALLOCATED := by
  obtain ⟨h1, s1, g1, l1, l2, e, hH1, eg, eg1, o1, o2, t1, t2, t3, t4⟩ :=
    free_row_both s g M hI hM hu hl hr
  obtain ⟨F, hF⟩ := free_run s s1 g g1 _ _ hI.1 hH1 e
  refine ⟨h1, s1, F, l1, l2, fun fuel hf => free_object_mono _ _ _ _ e fuel hf, ?_,
    t1, t2, t3, t4⟩
  intro fuel hf
  obtain ⟨a, b, c⟩ := hF fuel hf
  rw [eg] at b
  rw [eg1] at c
  exact ⟨b, c⟩

/-- Witness for C10: in the state `hole` the allocated block at 4168 lies
between the free blocks at 4112 and 4224. -/
theorem C10_three_way_merge_witness :
    Inv hole [⟨4096, [⟨4112, 56, false⟩, ⟨4168, 56, true⟩, ⟨4224, 2097088, false⟩]⟩] ∧
    get_status hole.mem (4168 - FTR) = UNALLOCATED ∧
    get_status hole.mem (4168 + 56) = UNALLOCATED ∧
    free_object 1 (4168 + HDR) hole = none ∧
    ∃ s1, ∀ fuel, 2 ≤ fuel → free_object fuel (4168 + HDR) hole = some s1 := by
  have h1 : Inv hole [⟨4096, [⟨4112, 56, false⟩, ⟨4168, 56, true⟩,
      ⟨4224, 2097088, false⟩]⟩] := by decide!
  have h2 : get_status hole.mem (4168 - FTR) = UNALLOCATED := by decide!
  have h3 : get_status hole.mem (4168 + 56) = UNALLOCATED := by decide!
  obtain ⟨k1, s1, F, l1, l2, k2, -⟩ :=
    C10_three_way_merge hole _ ⟨4168, 56, true⟩ h1 (by decide) rfl h2 h3
  exact ⟨h1, h2, h3, k1, s1, k2⟩

/-! ### C11 -/

/-- C11, counterexample: on the allocator constructed on `boot`, a well-formed
state whose free list holds the block at 4112 of 2097200 bytes, the total size
computed for the request `2 ^ 64 - 55` is 0, so the rest `2097200 - 0` reaches the
split threshold. After `allocate_object` (pointer 4144) the header at
`4112 + 0`, where the new free block should begin, carries the size 0 and the
status allocated instead of (2097200, free), and the member of the free list is
(4112, 0). -/
theorem C11_wrapped_split :
    Inv (init_allocator boot) [⟨4096, [⟨4112, 2097200, false⟩]⟩] ∧
    rounded_size (clamp_size 18446744073709551561) = 0 ∧
    free_list_entries 2 (init_allocator boot) = some [(4112, 2097200)] ∧
    0 + (HDR + FTR + MINIMUM_SIZE) ≤ 2097200 ∧
    (allocate_object 2 18446744073709551561 (init_allocator boot)).map (fun r =>
      (r.1, get_object_size r.2.mem (4112 + 0), get_status r.2.mem (4112 + 0),
        free_list_entries 2 r.2)) =
      some (4144, 0, ALLOCATED, some [(4112, 0)]) := by
  decide!

/-- C11, amended: in a well-formed state, for a request whose total size `T` is computed
without wrap-around, let `(a, sz)` be the first member of the free list with
`T ≤ sz`. If `sz - T` is at least header + footer + `MINIMUM_SIZE`, the block
returned has header and footer (`T`, allocated), a free block of size `sz - T`
begins at `a + T`, the old footer carries (`sz - T`, free), and the new block
stands in the place of the old one in the free list. Otherwise the block is
handed out whole: header and footer (`sz`, allocated), and the member is removed
from the list; if it was the only member, the sentinel is linked to itself. -/
theorem C11_split_decision (s : State) (g : List Arena) (n F : Nat)
    (l1 l2 : List (Nat × Nat)) (a sz : Nat) (hI : Inv s g)
    (hn : max n MINIMUM_SIZE + HDR + FTR + 7 < WORD)
    (hl : free_list_entries F s = some (l1 ++ (a, sz) :: l2))
    (hsmall : ∀ e ∈ l1, e.2 < rounded_size (clamp_size n))
    (hfit : rounded_size (clamp_size n) ≤ sz) :
    ∃ s1 F1, (∀ fuel, l1.length + 2 ≤ fuel → allocate_object fuel n s = some (a + HDR, s1)) ∧
      (rounded_size (clamp_size n) + (HDR + FTR + MINIMUM_SIZE) ≤ sz →
        get_object_size s1.mem a = rounded_size (clamp_size n) ∧
        get_status s1.mem a = ALLOCATED ∧
        get_object_size s1.mem (a + rounded_size (clamp_size n) - FTR) =
          rounded_size (clamp_size n) ∧
        get_status s1.mem (a + rounded_size (clamp_size n) - FTR) = ALLOCATED ∧
        get_object_size s1.mem (a + rounded_size (clamp_size n)) =
          sz - rounded_size (clamp_size n) ∧
        get_status s1.mem (a + rounded_size (clamp_size n)) = UNALLOCATED ∧
        get_object_size s1.mem (a + sz - FTR) = sz - rounded_size (clamp_size n) ∧
        get_status s1.mem (a + sz - FTR) = UNALLOCATED ∧
        ∀ fuel, F1 ≤ fuel → free_list_entries fuel s1 =
          some (l1 ++ (a + rounded_size (clamp_size n), sz - rounded_size (clamp_size n)) ::
            l2)) ∧
      (sz < rounded_size (clamp_size n) + (HDR + FTR + MINIMUM_SIZE) →
        get_object_size s1.mem a = sz ∧ get_status s1.mem a = ALLOCATED ∧
        get_object_size s1.mem (a + sz - FTR) = sz ∧
        get_status s1.mem (a + sz - FTR) = ALLOCATED ∧
        (∀ fuel, F1 ≤ fuel → free_list_entries fuel s1 = some (l1 ++ l2)) ∧
        (l1 = [] → l2 = [] → get_next s1.mem s1.sentinel = s1.sentinel ∧
          get_prev s1.mem s1.sentinel = s1.sentinel)) := by
  have hn1 : max n 8 + 55 < 18446744073709551616 := by
    have : max n 8 + 32 + 16 + 7 < 18446744073709551616 := hn
    omega
  have hl1 := Heap_entries_unique s g hI.1 F _ hl
  obtain ⟨s1, g1, ea, hI1, hs, k1, k2⟩ :=
    alloc_split_decision s g n l1 l2 a sz hI hn1 hl1.symm hsmall hfit
  refine ⟨s1, (free_addrs (all_blocks g1)).length + 1,
    fun fuel hf => allocate_object_mono _ _ _ _ ea fuel hf, ?_, ?_⟩
  · intro hbig
    have hbig1 : rounded_size (clamp_size n) + 56 ≤ sz := hbig
    obtain ⟨t1, t2, t3, t4, t5, t6, t7, t8, t9⟩ := k1 hbig1
    refine ⟨t1, t2, t3, t4, t5, t6, t7, t8, ?_⟩
    intro fuel hf
    rw [← t9]
    exact Heap_entries s1 g1 hI1.1 fuel (by omega)
  · intro hsm
    have hsm1 : sz < rounded_size (clamp_size n) + 56 := hsm
    obtain ⟨t1, t2, t3, t4, t5⟩ := k2 hsm1
    refine ⟨t1, t2, t3, t4, ?_, ?_⟩
    · intro fuel hf
      rw [← t5]
      exact Heap_entries s1 g1 hI1.1 fuel (by omega)
    · intro e1 e2
      rw [e1, e2] at t5
      exact Heap_empty_list s1 g1 hI1.1 t5

/-- Witness for C11: in the state `tight` the free list holds a single block of
header + footer + 8 bytes; `alloc(8)` takes it whole and leaves the sentinel
linked to itself. -/
theorem C11_split_decision_witness :
    Inv tight [⟨4096, [⟨4112, 2097144, true⟩, ⟨2101256, 56, false⟩]⟩] ∧
    max 8 MINIMUM_SIZE + HDR + FTR + 7 < WORD ∧
    free_list_entries 2 tight = some ([] ++ (2101256, HDR + FTR + 8) :: []) ∧
    rounded_size (clamp_size 8) ≤ HDR + FTR + 8 ∧
    ∃ s1, (∀ fuel, 2 ≤ fuel → allocate_object fuel 8 tight = some (2101256 + HDR, s1)) ∧
      get_object_size s1.mem 2101256 = HDR + FTR + 8 ∧
      get_status s1.mem 2101256 = ALLOCATED ∧
      get_next s1.mem s1.sentinel = s1.sentinel ∧
      get_prev s1.mem s1.sentinel = s1.sentinel := by
  have h1 : Inv tight [⟨4096, [⟨4112, 2097144, true⟩, ⟨2101256, 56, false⟩]⟩] := by decide!
  have h2 : max 8 MINIMUM_SIZE + HDR + FTR + 7 < WORD := by decide
  have h3 : free_list_entries 2 tight = some ([] ++ (2101256, HDR + FTR + 8) :: []) := by
    decide!
  have h4 : rounded_size (clamp_size 8) ≤ HDR + FTR + 8 := by decide
  obtain ⟨s1, F1, e, -, k⟩ := C11_split_decision tight _ 8 2 [] [] 2101256 (HDR + FTR + 8)
    h1 h2 h3 (fun e he => absurd he (List.not_mem_nil e)) h4
  obtain ⟨t1, t2, -, -, -, t6⟩ := k (by decide)
  exact ⟨h1, h2, h3, h4, s1, e, t1, t2, (t6 rfl rfl).1, (t6 rfl rfl).2⟩

/-! ### C12 -/

/-- C12: in every state reachable from the constructor by `malloc` (request
size at most `ARENA_SIZE`), `free` of live pointers and client stores into live
payloads, the free list is anchored at the sentinel, following `next` from the
sentinel visits the members `l` and returns to the sentinel, the header
addresses of the members ascend strictly, and every node, the sentinel included,
is the `prev` of its `next` and the `next` of its `prev`. -/
theorem C12_free_list_shape (s : State) (L : List Nat) (h : Reach s L) :
    s.free_list = s.sentinel ∧
    ∃ l, (∀ fuel, l.length < fuel → free_list_entries fuel s = some l) ∧
      (l.map (fun e => e.1)).Pairwise (fun x y => x < y) ∧
      ∀ x ∈ s.sentinel :: l.map (fun e => e.1),
        get_prev s.mem (get_next s.mem x) = x ∧ get_next s.mem (get_prev s.mem x) = x := by
  obtain ⟨g, hI, -, -⟩ := Reach_Inv s L h
  refine ⟨hI.1.1, free_entries (all_blocks g), ?_, ?_, ?_⟩
  · intro fuel hf
    exact Heap_entries s g hI.1 fuel (by rw [← free_entries_length]; exact hf)
  · rw [free_entries_fst]
    exact (Heap_sorted s g hI.1).imp (by intro a b hab; omega)
  · rw [free_entries_fst]
    exact Cyc_links s.mem _ hI.1.2.2.2.2.2.2.1

/-- Witness for C12: the allocator constructed on `boot`. -/
theorem C12_free_list_shape_witness :
    Reach (init_allocator boot) [] ∧
    ((init_allocator boot).free_list = (init_allocator boot).sentinel ∧
    ∃ l, (∀ fuel, l.length < fuel → free_list_entries fuel (init_allocator boot) = some l) ∧
      (l.map (fun e => e.1)).Pairwise (fun x y => x < y) ∧
      ∀ x ∈ (init_allocator boot).sentinel :: l.map (fun e => e.1),
        get_prev (init_allocator boot).mem (get_next (init_allocator boot).mem x) = x ∧ get_next (init_allocator boot).mem (get_prev (init_allocator boot).mem x) = x) :=
  have h1 : Reach (init_allocator boot) [] := Reach.init boot (by decide) (by decide) rfl
  ⟨h1, C12_free_list_shape _ _ h1⟩

/-! ### C13 -/

/-- C13: in every state reachable from the constructor by `malloc` (request
size at most `ARENA_SIZE`), `free` of live pointers and client stores into live
payloads, no member of the free list ends where another member begins: the tag
behind a member and the tag in front of it both carry the status allocated. -/
theorem C13_no_adjacent_free (s : State) (L : List Nat) (h : Reach s L) :
    ∃ l, (∀ fuel, l.length < fuel → free_list_entries fuel s = some l) ∧
      ∀ e ∈ l, (∀ e1 ∈ l, e.1 + e.2 ≠ e1.1) ∧
        get_status s.mem (e.1 + e.2) = ALLOCATED ∧ get_status s.mem (e.1 - FTR) = ALLOCATED := by
  obtain ⟨g, hI, -, -⟩ := Reach_Inv s L h
  refine ⟨free_entries (all_blocks g), ?_, ?_⟩
  · intro fuel hf
    exact Heap_entries s g hI.1 fuel (by rw [← free_entries_length]; exact hf)
  · intro e he
    obtain ⟨b, hb, hbf, hbe⟩ := (mem_free_entries _ _).mp he
    subst hbe
    have hn := Inv_free_neighbours s g hI b hb hbf
    refine ⟨?_, hn.2, hn.1⟩
    intro e1 he1
    obtain ⟨c, hc, hcf, hce⟩ := (mem_free_entries _ _).mp he1
    subst hce
    exact Inv_no_adjacent s g hI b hb c hc hbf hcf

/-- Witness for C13: the allocator constructed on `boot`. -/
theorem C13_no_adjacent_free_witness :
    Reach (init_allocator boot) [] ∧
    (∃ l, (∀ fuel, l.length < fuel → free_list_entries fuel (init_allocator boot) = some l) ∧
      ∀ e ∈ l, (∀ e1 ∈ l, e.1 + e.2 ≠ e1.1) ∧
        get_status (init_allocator boot).mem (e.1 + e.2) = ALLOCATED ∧ get_status (init_allocator boot).mem (e.1 - FTR) = ALLOCATED) :=
  have h1 : Reach (init_allocator boot) [] := Reach.init boot (by decide) (by decide) rfl
  ⟨h1, C13_no_adjacent_free _ _ h1⟩

/-! ### C14 -/

/-- C14: in every state reachable from the constructor by `malloc` (request
size at most `ARENA_SIZE`), `free` of live pointers and client stores into live
payloads, with `g` the arenas and their blocks and `l` the members of the free
list: a block is a member exactly when its header says free, no header address
occurs twice in the list, every member is a block, no allocated block and no
fencepost is a member, and header and footer of every member carry its size and
the status free. -/
theorem C14_membership (s : State) (L : List Nat) (h : Reach s L) :
    ∃ g l, Inv s g ∧ g.length = s.num_chunks ∧
      (∀ fuel, l.length < fuel → free_list_entries fuel s = some l) ∧
      (∀ b ∈ all_blocks g,
        b.addr ∈ l.map (fun e => e.1) ↔ get_status s.mem b.addr = UNALLOCATED) ∧
      (l.map (fun e => e.1)).Nodup ∧
      (∀ e ∈ l, ∃ b ∈ all_blocks g, e = (b.addr, b.size)) ∧
      (∀ b ∈ all_blocks g, get_status s.mem b.addr = ALLOCATED →
        b.addr ∉ l.map (fun e => e.1)) ∧
      (∀ A ∈ g, A.base ∉ l.map (fun e => e.1) ∧
        A.base + (FTR + ARENA_SIZE + HDR + FTR) ∉ l.map (fun e => e.1)) ∧
      (∀ e ∈ l, get_object_size s.mem e.1 = e.2 ∧ get_status s.mem e.1 = UNALLOCATED ∧
        get_object_size s.mem (e.1 + e.2 - FTR) = e.2 ∧
        get_status s.mem (e.1 + e.2 - FTR) = UNALLOCATED) := by
  obtain ⟨g, hI, hlen, -⟩ := Reach_Inv s L h
  have hH := hI.1
  refine ⟨g, free_entries (all_blocks g), hI, hlen, ?_, ?_, ?_, ?_, ?_, ?_, ?_⟩
  · intro fuel hf
    exact Heap_entries s g hH fuel (by rw [← free_entries_length]; exact hf)
  · intro b hb
    rw [free_entries_fst]
    exact Heap_member_iff s g hH b hb
  · rw [free_entries_fst]
    exact (List.nodup_cons.mp (Heap_nodup s g hH)).2
  · intro e he
    obtain ⟨b, hb, -, hbe⟩ := (mem_free_entries _ _).mp he
    exact ⟨b, hb, hbe.symm⟩
  · intro b hb hst hm
    rw [free_entries_fst] at hm
    have := (Heap_member_iff s g hH b hb).mp hm
    rw [hst] at this
    exact absurd this (by decide)
  · intro A hA
    rw [free_entries_fst]
    constructor
    · intro hm
      obtain ⟨c, hc, -, hca⟩ := (mem_free_addrs _ _).mp hm
      exact (Heap_fence_not_block s g hH A hA c hc).1 hca
    · intro hm
      obtain ⟨c, hc, -, hca⟩ := (mem_free_addrs _ _).mp hm
      exact (Heap_fence_not_block s g hH A hA c hc).2 hca
  · intro e he
    obtain ⟨b, hb, hbf, hbe⟩ := (mem_free_entries _ _).mp he
    subst hbe
    have t := Heap_block_all s g hH b hb
    rw [hbf] at t
    exact ⟨t.1, t.2.1, t.2.2.1, t.2.2.2.1⟩

/-- Witness for C14: the allocator constructed on `boot`. -/
theorem C14_membership_witness :
    Reach (init_allocator boot) [] ∧
    (∃ g l, Inv (init_allocator boot) g ∧ g.length = (init_allocator boot).num_chunks ∧
      (∀ fuel, l.length < fuel → free_list_entries fuel (init_allocator boot) = some l) ∧
      (∀ b ∈ all_blocks g,
        b.addr ∈ l.map (fun e => e.1) ↔ get_status (init_allocator boot).mem b.addr = UNALLOCATED) ∧
      (l.map (fun e => e.1)).Nodup ∧
      (∀ e ∈ l, ∃ b ∈ all_blocks g, e = (b.addr, b.size)) ∧
      (∀ b ∈ all_blocks g, get_status (init_allocator boot).mem b.addr = ALLOCATED →
        b.addr ∉ l.map (fun e => e.1)) ∧
      (∀ A ∈ g, A.base ∉ l.map (fun e => e.1) ∧
        A.base + (FTR + ARENA_SIZE + HDR + FTR) ∉ l.map (fun e => e.1)) ∧
      (∀ e ∈ l, get_object_size (init_allocator boot).mem e.1 = e.2 ∧ get_status (init_allocator boot).mem e.1 = UNALLOCATED ∧
        get_object_size (init_allocator boot).mem (e.1 + e.2 - FTR) = e.2 ∧
        get_status (init_allocator boot).mem (e.1 + e.2 - FTR) = UNALLOCATED)) :=
  have h1 : Reach (init_allocator boot) [] := Reach.init boot (by decide) (by decide) rfl
  ⟨h1, C14_membership _ _ h1⟩

/-! ### C15 -/

/-- C15: in every state reachable from the constructor by `malloc` (request
size at most `ARENA_SIZE`), `free` of live pointers and client stores into live
payloads, for every arena the walk that starts at the header behind the left
fencepost and advances by the size in the current header arrives at the right
fencepost; the footer of every header visited carries the same size and status,
and the sizes visited sum to `ARENA_SIZE` + header + footer. -/
theorem C15_tiling (s : State) (L : List Nat) (h : Reach s L) :
    ∃ g, Inv s g ∧ g.length = s.num_chunks ∧
      ∀ A ∈ g, ∃ l,
        (∀ fuel, l.length < fuel →
          walk_arena fuel s.mem (A.base + FTR) (A.base + (FTR + ARENA_SIZE + HDR + FTR)) =
            some l) ∧
        (∀ e ∈ l, get_object_size s.mem (e.1 + e.2 - FTR) = e.2 ∧
          get_status s.mem (e.1 + e.2 - FTR) = get_status s.mem e.1) ∧
        (l.map (fun e => e.2)).sum = ARENA_SIZE + HDR + FTR := by
  obtain ⟨g, hI, hlen, -⟩ := Reach_Inv s L h
  have hH := hI.1
  refine ⟨g, hI, hlen, ?_⟩
  intro A hA
  refine ⟨A.blocks.map (fun b => (b.addr, b.size)), ?_, ?_, ?_⟩
  · intro fuel hf
    exact Heap_walk s g hH A hA fuel (by simpa using hf)
  · intro e he
    obtain ⟨b, hb, hbe⟩ := List.mem_map.mp he
    subst hbe
    have t := Heap_block s g hH A hA b hb
    exact ⟨t.2.2.2.2.2.1, t.2.2.2.2.2.2.trans t.2.2.2.2.1.2.symm⟩
  · have ha : arena_ok s.mem A := hH.2.2.2.2.2.1 A hA
    have hs := Chain_sum A.blocks _ _ ha.2.2.2.2.1
    rw [List.map_map]
    have e : ((fun e : Nat × Nat => e.2) ∘ fun b : Blk => (b.addr, b.size)) =
        fun b : Blk => b.size := rfl
    rw [e]
    show (A.blocks.map (fun b => b.size)).sum = 2097200
    omega

/-- Witness for C15: the allocator constructed on `boot`. -/
theorem C15_tiling_witness :
    Reach (init_allocator boot) [] ∧
    (∃ g, Inv (init_allocator boot) g ∧ g.length = (init_allocator boot).num_chunks ∧
      ∀ A ∈ g, ∃ l,
        (∀ fuel, l.length < fuel →
          walk_arena fuel (init_allocator boot).mem (A.base + FTR) (A.base + (FTR + ARENA_SIZE + HDR + FTR)) =
            some l) ∧
        (∀ e ∈ l, get_object_size (init_allocator boot).mem (e.1 + e.2 - FTR) = e.2 ∧
          get_status (init_allocator boot).mem (e.1 + e.2 - FTR) = get_status (init_allocator boot).mem e.1) ∧
        (l.map (fun e => e.2)).sum = ARENA_SIZE + HDR + FTR) :=
  have h1 : Reach (init_allocator boot) [] := Reach.init boot (by decide) (by decide) rfl
  ⟨h1, C15_tiling _ _ h1⟩

/-! ### C16 -/

/-- C16: in every state reachable from the constructor by `malloc` (request
size at most `ARENA_SIZE`), `free` of live pointers and client stores into live
payloads, every block met by the walk over an arena, allocated or free, has a
size that is a positive multiple of 8 and at least header + footer +
`MINIMUM_SIZE`; this holds in particular for both parts of a split. -/
theorem C16_block_sizes (s : State) (L : List Nat) (h : Reach s L) :
    ∃ g, Inv s g ∧ g.length = s.num_chunks ∧
      ∀ A ∈ g, ∃ l,
        (∀ fuel, l.length < fuel →
          walk_arena fuel s.mem (A.base + FTR) (A.base + (FTR + ARENA_SIZE + HDR + FTR)) =
            some l) ∧
        ∀ e ∈ l, 0 < e.2 ∧ e.2 % SIZE_PRECISION = 0 ∧ HDR + FTR + MINIMUM_SIZE ≤ e.2 := by
  obtain ⟨g, hI, hlen, -⟩ := Reach_Inv s L h
  have hH := hI.1
  refine ⟨g, hI, hlen, ?_⟩
  intro A hA
  refine ⟨A.blocks.map (fun b => (b.addr, b.size)), ?_, ?_⟩
  · intro fuel hf
    exact Heap_walk s g hH A hA fuel (by simpa using hf)
  · intro e he
    obtain ⟨b, hb, hbe⟩ := List.mem_map.mp he
    subst hbe
    have t := Heap_block s g hH A hA b hb
    exact ⟨by show 0 < b.size; omega, t.2.2.2.1, t.2.2.1⟩

/-- Witness for C16: the allocator constructed on `boot`. -/
theorem C16_block_sizes_witness :
    Reach (init_allocator boot) [] ∧
    (∃ g, Inv (init_allocator boot) g ∧ g.length = (init_allocator boot).num_chunks ∧
      ∀ A ∈ g, ∃ l,
        (∀ fuel, l.length < fuel →
          walk_arena fuel (init_allocator boot).mem (A.base + FTR) (A.base + (FTR + ARENA_SIZE + HDR + FTR)) =
            some l) ∧
        ∀ e ∈ l, 0 < e.2 ∧ e.2 % SIZE_PRECISION = 0 ∧ HDR + FTR + MINIMUM_SIZE ≤ e.2) :=
  have h1 : Reach (init_allocator boot) [] := Reach.init boot (by decide) (by decide) rfl
  ⟨h1, C16_block_sizes _ _ h1⟩

/-! ### C17 -/

/-- C17: in every state reachable from the constructor by `malloc` (request
size at most `ARENA_SIZE`), `free` of live pointers and client stores into live
payloads, with `g` the arenas, which follow one another without a gap in the
address space: both fenceposts of every arena carry the size 0 and the status
allocated; every member of the free list lies between the fenceposts of one
arena; no live pointer and no pointer returned by `malloc` is the payload of a
fencepost; and neither `malloc` nor `free` of a live pointer changes a byte of a
fencepost. -/
theorem C17_fenceposts (s : State) (L : List Nat) (h : Reach s L) :
    ∃ g l, Inv s g ∧ g.length = s.num_chunks ∧
      (∀ fuel, l.length < fuel → free_list_entries fuel s = some l) ∧
      (∀ A ∈ g, get_object_size s.mem A.base = 0 ∧ get_status s.mem A.base = ALLOCATED ∧
        get_object_size s.mem (A.base + (FTR + ARENA_SIZE + HDR + FTR)) = 0 ∧
        get_status s.mem (A.base + (FTR + ARENA_SIZE + HDR + FTR)) = ALLOCATED) ∧
      (∀ e ∈ l, ∃ A ∈ g, A.base + FTR ≤ e.1 ∧
        e.1 + e.2 ≤ A.base + (FTR + ARENA_SIZE + HDR + FTR)) ∧
      (∀ p ∈ L, ∀ A ∈ g, p ≠ A.base + HDR ∧
        p ≠ A.base + (FTR + ARENA_SIZE + HDR + FTR) + HDR) ∧
      (∀ fuel n p s1, n ≤ ARENA_SIZE → s.brk + CHUNK ≤ WORD →
        malloc fuel n s = some (p, s1) →
        ∀ A ∈ g, (p ≠ A.base + HDR ∧ p ≠ A.base + (FTR + ARENA_SIZE + HDR + FTR) + HDR) ∧
          ∀ x, (A.base ≤ x ∧ x < A.base + FTR) ∨
              (A.base + (FTR + ARENA_SIZE + HDR + FTR) ≤ x ∧ x < A.base + CHUNK) →
            s1.mem x = s.mem x) ∧
      (∀ fuel p s1, p ∈ L → free fuel p s = some s1 →
        ∀ A ∈ g, ∀ x, (A.base ≤ x ∧ x < A.base + FTR) ∨
            (A.base + (FTR + ARENA_SIZE + HDR + FTR) ≤ x ∧ x < A.base + CHUNK) →
          s1.mem x = s.mem x) := by
  obtain ⟨g, hI, hlen, hperm⟩ := Reach_Inv s L h
  have hH := hI.1
  have hlive : ∀ p ∈ L, ∀ A ∈ g, p ≠ A.base + 32 ∧ p ≠ A.base + 2097216 + 32 := by
    intro p hp A hA
    obtain ⟨M, hM, -, hMp⟩ := live_block g L p hperm hp
    have := Heap_fence_not_block s g hH A hA M hM
    omega
  refine ⟨g, free_entries (all_blocks g), hI, hlen, ?_, ?_, ?_, hlive, ?_, ?_⟩
  · intro fuel hf
    exact Heap_entries s g hH fuel (by rw [← free_entries_length]; exact hf)
  · intro A hA
    have ha : arena_ok s.mem A := hH.2.2.2.2.2.1 A hA
    exact ⟨ha.1, ha.2.1, ha.2.2.1, ha.2.2.2.1⟩
  · intro e he
    obtain ⟨b, hb, -, hbe⟩ := (mem_free_entries _ _).mp he
    subst hbe
    obtain ⟨A, hA, hbA⟩ := (mem_all_blocks _ b).mp hb
    have t := Heap_block s g hH A hA b hbA
    exact ⟨A, hA, t.1, t.2.1⟩
  · intro fuel n p s1 hn hroom hm A hA
    have hn1 : n ≤ 2097152 := hn
    have hroom1 : s.brk + 2097248 ≤ 18446744073709551616 := hroom
    obtain ⟨g1, Q, ep, hI1, hQ, -, -, -, -, -, ⟨ext, hext⟩, hfe, -⟩ :=
      malloc_step s g fuel n p s1 hI hn1 hroom1 hm
    refine ⟨?_, hfe A hA⟩
    have hb : A.base ∈ g1.map (fun A => A.base) := by
      rw [hext]
      exact List.mem_append_left _ (List.mem_map_of_mem _ hA)
    obtain ⟨A1, hA1, hA1b⟩ := List.mem_map.mp hb
    have := Heap_fence_not_block s1 g1 hI1.1 A1 hA1 Q hQ
    rw [hA1b] at this
    show p ≠ A.base + 32 ∧ p ≠ A.base + 2097216 + 32
    omega
  · intro fuel p s1 hp hf A hA
    obtain ⟨M, hM, hMu, hMp⟩ := live_block g L p hperm hp
    subst hMp
    obtain ⟨g1, -, -, -, -, -, hfe, -⟩ := free_step s g fuel M s1 hI hM hMu hf
    exact hfe A hA

/-- Witness for C17: the allocator constructed on `boot`. -/
theorem C17_fenceposts_witness :
    Reach (init_allocator boot) [] ∧
    (∃ g l, Inv (init_allocator boot) g ∧ g.length = (init_allocator boot).num_chunks ∧
      (∀ fuel, l.length < fuel → free_list_entries fuel (init_allocator boot) = some l) ∧
      (∀ A ∈ g, get_object_size (init_allocator boot).mem A.base = 0 ∧ get_status (init_allocator boot).mem A.base = ALLOCATED ∧
        get_object_size (init_allocator boot).mem (A.base + (FTR + ARENA_SIZE + HDR + FTR)) = 0 ∧
        get_status (init_allocator boot).mem (A.base + (FTR + ARENA_SIZE + HDR + FTR)) = ALLOCATED) ∧
      (∀ e ∈ l, ∃ A ∈ g, A.base + FTR ≤ e.1 ∧
        e.1 + e.2 ≤ A.base + (FTR + ARENA_SIZE + HDR + FTR)) ∧
      (∀ p ∈ ([] : List Nat), ∀ A ∈ g, p ≠ A.base + HDR ∧
        p ≠ A.base + (FTR + ARENA_SIZE + HDR + FTR) + HDR) ∧
      (∀ fuel n p s1, n ≤ ARENA_SIZE → (init_allocator boot).brk + CHUNK ≤ WORD →
        malloc fuel n (init_allocator boot) = some (p, s1) →
        ∀ A ∈ g, (p ≠ A.base + HDR ∧ p ≠ A.base + (FTR + ARENA_SIZE + HDR + FTR) + HDR) ∧
          ∀ x, (A.base ≤ x ∧ x < A.base + FTR) ∨
              (A.base + (FTR + ARENA_SIZE + HDR + FTR) ≤ x ∧ x < A.base + CHUNK) →
            s1.mem x = (init_allocator boot).mem x) ∧
      (∀ fuel p s1, p ∈ ([] : List Nat) → free fuel p (init_allocator boot) = some s1 →
        ∀ A ∈ g, ∀ x, (A.base ≤ x ∧ x < A.base + FTR) ∨
            (A.base + (FTR + ARENA_SIZE + HDR + FTR) ≤ x ∧ x < A.base + CHUNK) →
          s1.mem x = (init_allocator boot).mem x)) :=
  have h1 : Reach (init_allocator boot) [] := Reach.init boot (by decide) (by decide) rfl
  ⟨h1, C17_fenceposts _ _ h1⟩

/-! ### C18 -/

/-- C18: let the free list of `s` be the circular list of the sentinel and the
members `l1 ++ l2` in ascending address order, and let `b` be a block that is no
member, above the members `l1` and below the members `l2`; the nodes are headers
that do not overlap. Then `add_to_list` returns, and the list is the circular
list of the sentinel and `l1 ++ b :: l2`, in ascending order: `b` stands before
the first member above it, or last when there is none. There is no assumption
on the order of the sentinel and `b`. Only link fields of the nodes change. -/
theorem C18_ordered_insert (s : State) (b : Nat) (l1 l2 : List Nat)
    (hfl : s.free_list = s.sentinel)
    (hc : Cyc s.mem (s.sentinel :: (l1 ++ l2)))
    (hnd : (s.sentinel :: (l1 ++ l2)).Nodup)
    (hsep : ∀ x ∈ b :: s.sentinel :: (l1 ++ l2), ∀ y ∈ b :: s.sentinel :: (l1 ++ l2),
      x = y ∨ x + HDR ≤ y ∨ y + HDR ≤ x)
    (hb : b ∉ s.sentinel :: (l1 ++ l2))
    (hW : ∀ x ∈ b :: s.sentinel :: (l1 ++ l2), x < WORD)
    (hsorted : (l1 ++ l2).Pairwise (fun x y => x < y))
    (h1 : ∀ x ∈ l1, x < b) (h2 : ∀ x ∈ l2, b < x) :
    ∃ s1, (∀ fuel, l1.length < fuel → add_to_list fuel b s = some s1) ∧
      Cyc s1.mem (s.sentinel :: (l1 ++ b :: l2)) ∧
      (l1 ++ b :: l2).Pairwise (fun x y => x < y) ∧
      s1.sentinel = s.sentinel ∧ s1.free_list = s.free_list ∧
      (∀ x, (∀ n ∈ b :: s.sentinel :: (l1 ++ l2), x < n + 16 ∨ n + HDR ≤ x) →
        s1.mem x = s.mem x) := by
  have key : ∀ fuel, l1.length < fuel →
      ∃ m1, add_to_list_loop fuel s b (lastOf s.sentinel []) = some { s with mem := m1 } ∧
        Cyc m1 (s.sentinel :: ([] ++ l1) ++ b :: l2) ∧
        (∀ x, (∀ n ∈ b :: s.sentinel :: ([] ++ l1) ++ l2, x < n + 16 ∨ n + 32 ≤ x) →
          m1 x = s.mem x) := by
    intro fuel hf
    exact add_to_list_loop_spec s b l1 [] l2 fuel hfl hc hnd hsep hb hW
      (fun x hx => le_of_lt (h1 x hx))
      (by
        intro c hcx
        apply h2 c
        cases l2 with
        | nil => simp at hcx
        | cons y r =>
          simp only [List.head?_cons, Option.some.injEq] at hcx
          rw [hcx]
          exact List.mem_cons_self _ _)
      hf
  obtain ⟨m1, e1, hc1, hfr⟩ := key (l1.length + 1) (by omega)
  refine ⟨{ s with mem := m1 }, ?_, hc1, ?_, rfl, rfl, hfr⟩
  · intro fuel hf
    obtain ⟨m2, e2, -, -⟩ := key fuel hf
    have e1a := add_to_list_loop_mono _ _ _ _ _ e1 (fuel + l1.length + 1) (by omega)
    have e2a := add_to_list_loop_mono _ _ _ _ _ e2 (fuel + l1.length + 1) (by omega)
    rw [e1a] at e2a
    have e2b : add_to_list fuel b s = some { s with mem := m2 } := by
      have e2c := e2
      rw [show lastOf s.sentinel [] = s.free_list from hfl.symm] at e2c
      exact e2c
    rw [e2b, ← e2a]
  · rw [List.pairwise_append] at hsorted ⊢
    obtain ⟨p1, p2, p3⟩ := hsorted
    refine ⟨p1, List.pairwise_cons.mpr ⟨h2, p2⟩, ?_⟩
    intro x hx y hy
    rcases List.mem_cons.mp hy with e | e
    · rw [e]; exact h1 x hx
    · exact p3 x hx y e

/-- Witness for C18: inserting a block at 8192 into the free list of the
allocator constructed on `boot`, whose only member is at 4112. -/
theorem C18_ordered_insert_witness :
    Cyc (init_allocator boot).mem ((init_allocator boot).sentinel :: ([4112] ++ [])) ∧
    ∃ s1, (∀ fuel, 1 < fuel → add_to_list fuel 8192 (init_allocator boot) = some s1) ∧
      Cyc s1.mem ((init_allocator boot).sentinel :: ([4112] ++ 8192 :: [])) := by
  have h1 : Cyc (init_allocator boot).mem ((init_allocator boot).sentinel :: ([4112] ++ [])) := by
    decide!
  obtain ⟨s1, e, hc, -⟩ := C18_ordered_insert (init_allocator boot) 8192 [4112] []
    (by decide!) h1 (by decide!) (by decide!) (by decide!) (by decide!) (by decide)
    (by decide) (by decide)
  exact ⟨h1, s1, e, hc⟩

/-! ### C19 -/

/-- C19: in a well-formed state, for two distinct allocated blocks `A` and `B`,
`free(A); free(B)` and `free(B); free(A)` both return, and the free lists
afterwards hold the same header addresses and sizes in the same order. When the
heap is one arena in which `A` and `B` are the only allocated blocks, that list
is the single block covering the interior of the arena. -/
theorem C19_free_commutes (s : State) (g : List Arena) (A B : Blk) (hI : Inv s g)
    (hA : A ∈ all_blocks g) (hB : B ∈ all_blocks g) (hAu : A.used = true)
    (hBu : B.used = true) (hne : A ≠ B) :
    ∃ F s1 s2 l,
      (∀ fuel, F ≤ fuel →
        free_all fuel [A.addr + HDR, B.addr + HDR] s = some s1 ∧
        free_all fuel [B.addr + HDR, A.addr + HDR] s = some s2 ∧
        free_list_entries fuel s1 = some l ∧ free_list_entries fuel s2 = some l) ∧
      (∀ base bl, g = [⟨base, bl⟩] → used_addrs bl = [A.addr, B.addr] →
        l = [(base + FTR, ARENA_SIZE + HDR + FTR)]) := by
  obtain ⟨F, s1, s2, g2, hrun, hI1, hI2⟩ := free_commute s g A B hI hA hB hAu hBu hne
  refine ⟨F, s1, s2, free_entries (all_blocks g2), hrun, ?_⟩
  intro base bl hg hu
  subst hg
  obtain ⟨F1, s3, bl3, r3, hI3, hu3⟩ := free_all_single base [A.addr + 32, B.addr + 32] s bl hI
    (by rw [hu]; exact List.Perm.refl _)
  have hbl := Inv_all_free s3 base bl3 hI3 hu3
  subst hbl
  have e1 := (hrun (F + F1) (by omega)).1
  have e3 := r3 (F + F1) (by omega)
  have e1 : free_all (F + F1) [A.addr + 32, B.addr + 32] s = some s1 := e1
  rw [e1] at e3
  have e4 := Option.some.inj e3
  subst e4
  have e5 := Heap_entries s1 _ hI3.1 (F + F1 + 2) (by simp [all_blocks, free_addrs])
  have e6 := (hrun (F + F1 + 2) (by omega)).2.2.1
  rw [e5] at e6
  have e7 := Option.some.inj e6
  rw [← e7]
  rfl

/-- Witness for C19: the two allocated blocks of the state `two_blocks`, which
lie side by side at the start of the arena. -/
theorem C19_free_commutes_witness :
    Inv two_blocks [⟨4096, [⟨4112, 56, true⟩, ⟨4168, 56, true⟩, ⟨4224, 2097088, false⟩]⟩] ∧
    ∃ F s1 s2,
      ∀ fuel, F ≤ fuel →
        free_all fuel [4112 + HDR, 4168 + HDR] two_blocks = some s1 ∧
        free_all fuel [4168 + HDR, 4112 + HDR] two_blocks = some s2 ∧
        free_list_entries fuel s1 = some [(4096 + FTR, ARENA_SIZE + HDR + FTR)] ∧
        free_list_entries fuel s2 = some [(4096 + FTR, ARENA_SIZE + HDR + FTR)] := by
  have h1 : Inv two_blocks [⟨4096, [⟨4112, 56, true⟩, ⟨4168, 56, true⟩,
      ⟨4224, 2097088, false⟩]⟩] := by decide!
  obtain ⟨F, s1, s2, l, hrun, hl⟩ := C19_free_commutes two_blocks _ ⟨4112, 56, true⟩
    ⟨4168, 56, true⟩ h1 (by decide) (by decide) rfl rfl (by decide)
  have e := hl 4096 _ rfl rfl
  subst e
  exact ⟨h1, F, s1, s2, hrun⟩

/-! ### C20 -/

/-- C20, counterexample: on the allocator constructed on `boot` the total size
for a request of `ARENA_SIZE` bytes is 2097200, the size of the free block of
the first arena; the first `malloc(ARENA_SIZE)` returns the payload of that
block, 4144, and the number of arenas is 1 before and after the call. -/
theorem C20_first_request_no_arena :
    rounded_size (clamp_size ARENA_SIZE) = 2097200 ∧
    free_list_entries 2 (init_allocator boot) = some [(4112, 2097200)] ∧
    (init_allocator boot).num_chunks = 1 ∧
    (malloc 3 ARENA_SIZE (init_allocator boot)).map (fun r => (r.1, r.2.num_chunks)) =
      some (4144, 1) := by
  decide!

/-- C20, amended: on a freshly constructed allocator with room for `k` more
arenas, a run of `k + 1` calls `malloc(ARENA_SIZE)` returns; the first call is
served by the free block of the first arena, which it fits exactly, and each of
the `k` later calls obtains exactly one new arena; after the run, for every
`k`, the free list is empty, so that its members are trivially in ascending
order and none is adjacent to another. -/
theorem C20_arena_growth (z : State) (k : Nat) (hz1 : z.sentinel + HDR ≤ z.brk)
    (hz2 : z.brk + (k + 1) * CHUNK ≤ WORD) :
    ∃ ps s1,
      (∀ fuel, 3 ≤ fuel →
        malloc_all fuel (List.replicate (k + 1) ARENA_SIZE) (init_allocator z) = some (ps, s1) ∧
        free_list_entries fuel s1 = some []) ∧
      s1.num_chunks = (init_allocator z).num_chunks + k ∧ ps.length = k + 1 := by
  have hz1a : z.sentinel + 32 ≤ z.brk := hz1
  have hz2a : z.brk + (k + 1) * 2097248 ≤ 18446744073709551616 := hz2
  obtain ⟨ps, s1, g1, hrun, hI1, hf1, hc1, hl1⟩ := arena_run z k hz1a hz2a
  refine ⟨ps, s1, ?_, hc1, hl1⟩
  intro fuel hf
  refine ⟨hrun fuel hf, ?_⟩
  have hnil : free_entries (all_blocks g1) = [] := by
    apply List.eq_nil_of_length_eq_zero
    rw [free_entries_length, hf1]
    rfl
  have e := Heap_entries s1 g1 hI1.1 fuel (by rw [hf1]; simp; omega)
  rw [e, hnil]

/-- Witness for C20: two calls on the allocator constructed on `boot`. -/
theorem C20_arena_growth_witness :
    boot.sentinel + HDR ≤ boot.brk ∧ boot.brk + (1 + 1) * CHUNK ≤ WORD ∧
    ∃ ps s1,
      (∀ fuel, 3 ≤ fuel →
        malloc_all fuel (List.replicate (1 + 1) ARENA_SIZE) (init_allocator boot) =
          some (ps, s1) ∧
        free_list_entries fuel s1 = some []) ∧
      s1.num_chunks = (init_allocator boot).num_chunks + 1 ∧ ps.length = 1 + 1 :=
  ⟨by decide, by decide, C20_arena_growth boot 1 (by decide) (by decide)⟩

/-! ### C21 -/

/-- C21: in every state reachable from the constructor by `malloc` (request
size at most `ARENA_SIZE`), `free` of live pointers and client stores into live
payloads, with `L` the live pointers. A pointer returned by `malloc` is not
live, and its block is allocated afterwards; the block was free in the state
before the call, or, when no free block fits, it is the interior block of the
arena that `request_more_memory` adds and is free in the state from which
`allocate_object` retries. The blocks `g` of the state are those whose header
says allocated exactly when their payload pointer is live; the byte ranges from
header to header + size of two different blocks are disjoint, so those of two
live pointers are; and no byte of a live payload lies in the header or footer of
any block. -/
theorem C21_no_overlap (s : State) (L : List Nat) (h : Reach s L) :
    (∀ fuel n p s1, n ≤ ARENA_SIZE → s.brk + CHUNK ≤ WORD →
      malloc fuel n s = some (p, s1) →
      get_status s1.mem (p - HDR) = ALLOCATED ∧ p ∉ L ∧
      ((get_status s.mem (p - HDR) = UNALLOCATED ∧ s1.num_chunks = s.num_chunks) ∨
        (∃ k t,
          request_more_memory k { s with malloc_calls := s.malloc_calls + 1 } = some t ∧
          allocate_object k (clamp_size n) t = some (p, s1) ∧
          get_status t.mem (p - HDR) = UNALLOCATED ∧ s1.num_chunks = t.num_chunks ∧
          p - HDR = s.brk + FTR))) ∧
    ∃ g, Inv s g ∧ g.length = s.num_chunks ∧
      (∀ b ∈ all_blocks g, get_status s.mem b.addr = ALLOCATED ↔ b.addr + HDR ∈ L) ∧
      (∀ b ∈ all_blocks g, get_object_size s.mem b.addr = b.size) ∧
      (∀ b ∈ all_blocks g, ∀ c ∈ all_blocks g, b ≠ c →
        b.addr + b.size ≤ c.addr ∨ c.addr + c.size ≤ b.addr) ∧
      (∀ p ∈ L, ∀ q ∈ L, p ≠ q →
        p - HDR + object_size p s ≤ q - HDR ∨ q - HDR + object_size q s ≤ p - HDR) ∧
      (∀ p ∈ L, ∀ c ∈ all_blocks g, ∀ x, p ≤ x → x + FTR < p - HDR + object_size p s →
        ¬ (c.addr ≤ x ∧ x < c.addr + HDR) ∧
        ¬ (c.addr + c.size - FTR ≤ x ∧ x < c.addr + c.size)) := by
  obtain ⟨g, hI, hlen, hperm⟩ := Reach_Inv s L h
  have hH := hI.1
  have hblk : ∀ p ∈ L, ∃ M ∈ all_blocks g, M.used = true ∧ M.addr + 32 = p ∧
      object_size p s = M.size ∧ 56 ≤ M.size := by
    intro p hp
    obtain ⟨M, hM, hMu, hMp⟩ := live_block g L p hperm hp
    have t := Heap_block_all s g hH M hM
    refine ⟨M, hM, hMu, hMp, ?_, t.2.2.2.2⟩
    subst hMp
    show get_object_size s.mem (M.addr + 32 - 32) = M.size
    rw [Nat.add_sub_cancel]
    exact t.1
  constructor
  · intro fuel n p s1 hn hroom hm
    have hn1 : n ≤ 2097152 := hn
    have hroom1 : s.brk + 2097248 ≤ 18446744073709551616 := hroom
    have hI1 : Inv { s with malloc_calls := s.malloc_calls + 1 } g := hI
    obtain ⟨ha, hcase⟩ := alloc_origin _ g fuel n p s1 hI1 hn1 hroom1 hm
    rcases hcase with ⟨h0, hc, b, hb, hbf, hbp, -⟩ | ⟨k, t, hr, hk, h0, hc, hp, -⟩
    · refine ⟨ha, ?_, Or.inl ⟨h0, hc⟩⟩
      intro hpL
      obtain ⟨M, hM, hMu, hMp, -, hM56⟩ := hblk p hpL
      have tb := Heap_block_all s g hH b hb
      rcases Heap_disjoint s g hH M hM b hb with e | e | e
      · rw [e, hbf] at hMu
        exact absurd hMu (by simp)
      · omega
      · omega
    · refine ⟨ha, ?_, Or.inr ⟨k, t, hr, hk, h0, hc, ?_⟩⟩
      · intro hpL
        obtain ⟨M, hM, hMu, hMp, -, hM56⟩ := hblk p hpL
        have := Heap_block_below s g hH M hM
        have hp1 : p = s.brk + 16 + 32 := hp
        omega
      · have hp1 : p = s.brk + 16 + 32 := hp
        show p - 32 = s.brk + 16
        omega
  · refine ⟨g, hI, hlen, ?_, ?_, ?_, ?_, ?_⟩
    · intro b hb
      have t := Heap_block_all s g hH b hb
      constructor
      · intro hst
        rw [t.2.1] at hst
        have hu := (status_of_eq_one _).mp hst
        apply hperm.subset
        exact List.mem_map_of_mem _ ((mem_used_addrs _ _).mpr ⟨b, hb, hu, rfl⟩)
      · intro hpL
        obtain ⟨M, hM, hMu, hMp, -, hM56⟩ := hblk _ hpL
        have hMp : M.addr + 32 = b.addr + 32 := hMp
        rcases Heap_disjoint s g hH M hM b hb with e | e | e
        · rw [t.2.1, ← e, hMu]
          rfl
        · omega
        · omega
    · intro b hb
      exact (Heap_block_all s g hH b hb).1
    · intro b hb c hc hne
      rcases Heap_disjoint s g hH b hb c hc with e | e | e
      · exact absurd e hne
      · exact Or.inl e
      · exact Or.inr e
    · intro p hp q hq hne
      obtain ⟨M, hM, -, hMp, hMs, hM56⟩ := hblk p hp
      obtain ⟨N, hN, -, hNq, hNs, hN56⟩ := hblk q hq
      rw [hMs, hNs]
      show p - 32 + M.size ≤ q - 32 ∨ q - 32 + N.size ≤ p - 32
      rcases Heap_disjoint s g hH M hM N hN with e | e | e
      · rw [e] at hMp
        omega
      · omega
      · omega
    · intro p hp c hc x hx1 hx2
      obtain ⟨M, hM, -, hMp, hMs, hM56⟩ := hblk p hp
      rw [hMs] at hx2
      have hx3 : x + 16 < p - 32 + M.size := hx2
      have tc := Heap_block_all s g hH c hc
      show ¬ (c.addr ≤ x ∧ x < c.addr + 32) ∧ ¬ (c.addr + c.size - 16 ≤ x ∧ x < c.addr + c.size)
      rcases Heap_disjoint s g hH M hM c hc with e | e | e
      · rw [← e]
        omega
      · omega
      · omega

/-- Witness for C21: the state `one_block`, reached from the allocator
constructed on `boot` by `malloc(8)`, with the live pointer 4144. -/
theorem C21_no_overlap_witness :
    Reach one_block [4144] ∧
    ((∀ fuel n p s1, n ≤ ARENA_SIZE → one_block.brk + CHUNK ≤ WORD →
      malloc fuel n one_block = some (p, s1) →
      get_status s1.mem (p - HDR) = ALLOCATED ∧ p ∉ [4144] ∧
      ((get_status one_block.mem (p - HDR) = UNALLOCATED ∧ s1.num_chunks = one_block.num_chunks) ∨
        (∃ k t,
          request_more_memory k { one_block with malloc_calls := one_block.malloc_calls + 1 } = some t ∧
          allocate_object k (clamp_size n) t = some (p, s1) ∧
          get_status t.mem (p - HDR) = UNALLOCATED ∧ s1.num_chunks = t.num_chunks ∧
          p - HDR = one_block.brk + FTR))) ∧
    ∃ g, Inv one_block g ∧ g.length = one_block.num_chunks ∧
      (∀ b ∈ all_blocks g, get_status one_block.mem b.addr = ALLOCATED ↔ b.addr + HDR ∈ [4144]) ∧
      (∀ b ∈ all_blocks g, get_object_size one_block.mem b.addr = b.size) ∧
      (∀ b ∈ all_blocks g, ∀ c ∈ all_blocks g, b ≠ c →
        b.addr + b.size ≤ c.addr ∨ c.addr + c.size ≤ b.addr) ∧
      (∀ p ∈ [4144], ∀ q ∈ [4144], p ≠ q →
        p - HDR + object_size p one_block ≤ q - HDR ∨ q - HDR + object_size q one_block ≤ p - HDR) ∧
      (∀ p ∈ [4144], ∀ c ∈ all_blocks g, ∀ x, p ≤ x → x + FTR < p - HDR + object_size p one_block →
        ¬ (c.addr ≤ x ∧ x < c.addr + HDR) ∧
        ¬ (c.addr + c.size - FTR ≤ x ∧ x < c.addr + c.size))) := by
  have fa : (malloc 3 8 (init_allocator boot)).map (fun r => r.1) = some 4144 := by decide!
  have hm : malloc 3 8 (init_allocator boot) = some (4144, one_block) := by
    cases e : malloc 3 8 (init_allocator boot) with
    | none => rw [e] at fa; exact Option.noConfusion fa
    | some r =>
      rw [e] at fa
      have e1 : r.1 = 4144 := Option.some.inj fa
      have e2 : one_block = r.2 := by
        unfold one_block after_malloc
        rw [e]
      rw [e2, ← e1]
  have h1 : Reach one_block [4144] :=
    Reach.alloc (init_allocator boot) [] 3 8 4144 one_block
      (Reach.init boot (by decide) (by decide) rfl) (by decide) (by decide) hm
  exact ⟨h1, C21_no_overlap _ _ h1⟩

end MyMalloc
